import Mathlib

/-!
# ft.h: a verification development for the embeddable Forth engine

The file is a shallow embedding of `src/ft.h` (namespace `ft`) followed by
theorems about it.

Modelling conventions.

* A `Cell` (`ptrdiff_t`) is an `Int`; arithmetic on cells is wrapped to 64-bit
  two's complement by `wrap`.  A `size_t` counter is a `Nat`.
* Every host buffer (data stack, arena, locals, native-word table, scratch) is
  a function from index to content together with its capacity.  An access
  outside the capacity is undefined behaviour in C++ and yields `Res.ub`.
  The shared bank is indexed by the six reserved constants only and is
  assumed to have room for them.
* The arena is byte addressed: `mem` holds the bytes, `memory` is the host
  address of its first byte, cells are eight little-endian bytes.  Host
  pointers are integers; a pointer `p` designates arena offset `p - memory`.
* A failing `FT_ASSERT` aborts the process: `Res.abort`.
* Loops that the input does not bound (dictionary walk, VM, interpreter)
  take a fuel argument; running out of fuel is `Res.timeout`.
* C strings are lists of non-NUL bytes.
-/

namespace ft

/-! ## Machine words -/

/-- The value of `sizeof(ptrdiff_t)` and `sizeof(Cell)`. -/
def CELL : Nat := 8

/-- Two's complement wrap of an integer to a 64-bit signed cell. -/
def wrap (x : Int) : Int :=
  (x + 9223372036854775808) % 18446744073709551616 - 9223372036854775808

/-- A cell converted to `size_t`. -/
def toSize (x : Int) : Nat := (x % 18446744073709551616).toNat

/-- Source `align`: `(value + (boundary - 1)) & -boundary`, for a boundary that is a power
of two this rounds `value` up to a multiple of the boundary. -/
def align (boundary : Nat) (value : Nat) : Nat :=
  ((value + (boundary - 1)) / boundary) * boundary

/-- Error codes, `enum Error`. -/
inductive Error
  | E_OK
  | E_STACK_UNDERFLOW
  | E_STACK_OVERFLOW
  | E_OUT_OF_RANGE
  | E_OUT_OF_MEMORY
  | E_OUT_OF_SCRATCH
  | E_WANT_WORD
  | E_WORD_NOT_FOUND
  | E_DIVIDE_BY_ZERO
  | E_INVALID_OPCODE
  | E_INVALID_ADDRESS
  | E_COMPILE_ONLY
  | E_EXPECTED_FORTH_WORD
  | E_EXPECTED_C_WORD
  deriving DecidableEq, Repr

open Error

/-- Token kinds, `enum Token`. -/
inductive Token
  | TK_NUMBER
  | TK_WORD
  | TK_END
  deriving DecidableEq, Repr

open Token

/-- Outcome of running a piece of the engine: a returned value, undefined behaviour
(an access outside a host buffer, a call through an address that is no registered
callback, a jump through the dispatch table at an index outside it), a failed
`FT_ASSERT`, or fuel exhaustion of the model. -/
inductive Res (α : Type)
  | ok : α → Res α
  | ub : Res α
  | abort : Res α
  | timeout : Res α

/-- Sequencing of `FT_CHECK(e); rest`: an error code other than `E_OK` is returned at once. -/
def chk {σ : Type} (r : Res (Error × σ)) (k : σ → Res (Error × σ)) : Res (Error × σ) :=
  match r with
  | .ok (e, s) => if e = E_OK then k s else .ok (e, s)
  | .ub => .ub
  | .abort => .abort
  | .timeout => .timeout

/-- The same for a call that also fills an out-parameter. -/
def chkv {α σ : Type} (r : Res (Error × α × σ)) (k : α → σ → Res (Error × σ)) :
    Res (Error × σ) :=
  match r with
  | .ok (e, a, s) => if e = E_OK then k a s else .ok (e, s)
  | .ub => .ub
  | .abort => .abort
  | .timeout => .timeout

/-- A call whose returned error code the caller discards. -/
def ign {σ : Type} (r : Res (Error × σ)) (k : σ → Res (Error × σ)) : Res (Error × σ) :=
  match r with
  | .ok (_, s) => k s
  | .ub => .ub
  | .abort => .abort
  | .timeout => .timeout

/-- Function update, used for every buffer write. -/
def upd {β : Type} (f : Nat → β) (i : Nat) (v : β) : Nat → β :=
  fun j => if j = i then v else f j

/-! ## Bytes and cells of the arena -/

/-- The `k` low bytes of `u`, little endian. -/
def leBytes : Nat → Nat → List Nat
  | 0, _ => []
  | k + 1, u => (u % 256) :: leBytes k (u / 256)

/-- The number a little-endian byte list denotes. -/
def leVal : List Nat → Nat
  | [] => 0
  | b :: bs => b % 256 + 256 * leVal bs

/-- The bytes `m[a], ..., m[a+k-1]`. -/
def rdBytes (m : Nat → Nat) (a : Nat) : Nat → List Nat
  | 0 => []
  | k + 1 => m a :: rdBytes m (a + 1) k

/-- Memory after storing the bytes `bs` from offset `a` on. -/
def wrBytes (m : Nat → Nat) (a : Nat) (bs : List Nat) : Nat → Nat :=
  fun i => if a ≤ i ∧ i - a < bs.length then bs.getD (i - a) 0 else m i

/-- The cell stored at byte offset `a`. -/
def rdCell (m : Nat → Nat) (a : Nat) : Int :=
  wrap (leVal (rdBytes m a 8))

/-- Memory after storing the cell `v` at byte offset `a`. -/
def wrCell (m : Nat → Nat) (a : Nat) (v : Int) : Nat → Nat :=
  wrBytes m a (leBytes 8 (toSize v))

/-! ## Stacks and engine state -/

/-- Source `struct Stack`: buffer, fill index, capacity. -/
structure Stack where
  data : Nat → Int
  i : Nat
  size : Nat

/-- Source `Stack::get`: the comparison `idx >= i` is made in `size_t`. -/
def Stack.get (st : Stack) (idx : Int) : Res (Error × Int) :=
  if toSize idx ≥ st.i then .ok (E_OUT_OF_RANGE, 0)
  else if toSize idx < st.size then .ok (E_OK, st.data (toSize idx))
  else .ub

/-- Source `Stack::push`: the guard is `i > size`. -/
def Stack.push (st : Stack) (w : Int) : Res (Error × Stack) :=
  if st.i > st.size then .ok (E_OUT_OF_MEMORY, st)
  else if st.i < st.size then .ok (E_OK, { st with data := upd st.data st.i w, i := st.i + 1 })
  else .ub

/-- Source `struct StateConfig`: the host-provided buffers.  `memory` is the host address of
the arena; the other buffers are private to the engine and only their capacity matters. -/
structure StateConfig where
  stack_size : Nat
  memory : Int
  memory_size : Nat
  shared_size : Nat
  locals : Stack
  cwords : Stack

/-- Source `FT_SCRATCH_SIZE`. -/
def FT_SCRATCH_SIZE : Nat := 512

/-- Source `struct State`.  `mem` is the content of the buffer `memory` points to, `out` is the
list of numbers printed so far by the word `.`. -/
structure State where
  stack : Nat → Int
  stack_size : Nat
  si : Nat
  memory : Int
  mem : Nat → Nat
  memory_i : Nat
  memory_size : Nat
  scratch : Nat → Nat
  scratch_i : Nat
  shared : Nat → Int
  shared_size : Nat
  locals : Stack
  cwords : Stack
  input : List Nat
  input_i : Nat
  input_size : Nat
  token_number : Int
  out : List Int

/-! Reserved shared variables. -/

def S_LATEST : Nat := 0
def S_HERE : Nat := 1
def S_WORD_AVAILABLE : Nat := 2
def S_COMPILING : Nat := 3
def S_LOCAL_COUNT : Nat := 4
def S_DICT_ROOT : Nat := 5
def S_USER_SHARED : Nat := 6

/-! Opcodes, `enum Opcode`. -/

def OP_UNKNOWN : Int := 0
def OP_PUSH_IMMEDIATE : Int := 1
def OP_CALL_FORTH : Int := 2
def OP_CALL_C : Int := 3
def OP_JUMP_IF_ZERO : Int := 4
def OP_JUMP : Int := 5
def OP_JUMP_IGNORED : Int := 6
def OP_LOCAL_PUSH : Int := 7
def OP_LOCAL_SET : Int := 8
def OP_EXIT : Int := 9

/-! Dictionary entry flags, `DictEntry::Flags`, and the layout of `struct DictEntry`:
`previous` at byte 0, `flags` at 8, `name_length` at 16, `name` at 24, `sizeof` 32. -/

def FLAG_NONE : Nat := 0
def FLAG_IMMEDIATE : Nat := 2
def FLAG_CWORD : Nat := 4
def FLAG_HIDDEN : Nat := 8
def FLAG_COMPILE_ONLY : Nat := 16

def OFF_PREVIOUS : Int := 0
def OFF_FLAGS : Int := 8
def OFF_NAME_LENGTH : Int := 16
def OFF_NAME : Int := 24
def SIZEOF_DICTENTRY : Nat := 32

/-- The test `(flags & bit) != 0` for a single-bit mask `bit`. -/
def hasFlag (flags : Nat) (bit : Nat) : Bool := (flags / bit) % 2 == 1

/-- Assignment to a shared variable. -/
def State.setShared (s : State) (k : Nat) (v : Int) : State :=
  { s with shared := upd s.shared k v }

/-! ### Stack interaction primitives -/

/-- Source `State::push`: no capacity check; the write `stack[si++] = v` is out of bounds
once `si` has reached `stack_size`. -/
def State.push (s : State) (v : Int) : Res (Error × State) :=
  if s.si < s.stack_size then .ok (E_OK, { s with stack := upd s.stack s.si v, si := s.si + 1 })
  else .ub

/-- Source `State::pop`. -/
def State.pop (s : State) : Res (Error × Int × State) :=
  if s.si = 0 then .ok (E_STACK_UNDERFLOW, 0, s)
  else if s.si - 1 < s.stack_size then .ok (E_OK, s.stack (s.si - 1), { s with si := s.si - 1 })
  else .ub

/-- Source `State::drop`. -/
def State.drop (s : State) (n : Nat) : Res (Error × State) :=
  if s.si < n then .ok (E_STACK_UNDERFLOW, s) else .ok (E_OK, { s with si := s.si - n })

/-- Source `State::pick`: the comparison `i >= si` is made in `size_t`. -/
def State.pick (s : State) (i : Int) : Res (Error × Int × State) :=
  if toSize i ≥ s.si then .ok (E_STACK_UNDERFLOW, 0, s)
  else if s.si - toSize i - 1 < s.stack_size then .ok (E_OK, s.stack (s.si - toSize i - 1), s)
  else .ub

/-! ### Memory interaction -/

/-- Source `State::cword_get`: C++ `%` and `/` truncate toward zero. -/
def State.cword_get (s : State) (raddr : Int) : Res (Error × Int × State) :=
  if Int.tmod raddr 2 = 0 then .ok (E_INVALID_OPCODE, 0, s)
  else
    match s.cwords.get (Int.tdiv (raddr + 1) 2) with
    | .ok (e, cw) => .ok (e, cw, s)
    | .ub => .ub
    | .abort => .abort
    | .timeout => .timeout

/-- Source `State::scratch_put`. -/
def State.scratch_put (s : State) (c : Nat) : Error × State :=
  if s.scratch_i = FT_SCRATCH_SIZE then (E_OUT_OF_SCRATCH, s)
  else (E_OK, { s with scratch := upd s.scratch s.scratch_i c, scratch_i := s.scratch_i + 1 })

/-- The C string that starts at `scratch[i]`, looking at no more than `n` bytes; `none` when
no NUL is met (a read past the buffer). -/
def cstrFrom (m : Nat → Nat) (i : Nat) : Nat → Option (List Nat)
  | 0 => none
  | n + 1 => if m i = 0 then some [] else (cstrFrom m (i + 1) n).map (fun l => m i :: l)

/-- The C string held in `scratch`. -/
def State.scratchStr (s : State) : Option (List Nat) := cstrFrom s.scratch 0 FT_SCRATCH_SIZE

/-- Source `State::errorf`: `vsnprintf(scratch, FT_SCRATCH_SIZE, ...)` stores the formatted
message, truncated to the buffer, and a NUL. -/
def State.errorf (s : State) (e : Error) (msg : List Nat) : Error × State :=
  let m := msg.take (FT_SCRATCH_SIZE - 1)
  (e, { s with scratch := wrBytes s.scratch 0 (m ++ [0]) })

/-! ### Dictionary primitives -/

/-- Source `State::raddr_valid`. -/
def State.raddr_valid (s : State) (a : Int) : Error :=
  if a < 0 ∨ a > s.memory_i then E_INVALID_ADDRESS else E_OK

/-- Source `State::real_to_raddr`. -/
def State.real_to_raddr (s : State) (real : Int) : Int := wrap (real - s.memory)

/-- Source `State::raddr_to_real`: `&memory[ptr]`. -/
def State.raddr_to_real (s : State) (ptr : Int) : Int := s.memory + ptr

/-- Read of the byte a host pointer designates. -/
def State.loadByte (s : State) (p : Int) : Res Nat :=
  if 0 ≤ p - s.memory ∧ p - s.memory < s.memory_size then .ok (s.mem (p - s.memory).toNat)
  else .ub

/-- Read of the cell a host pointer designates, `*(ptrdiff_t*) p`. -/
def State.load (s : State) (p : Int) : Res Int :=
  if 0 ≤ p - s.memory ∧ p - s.memory + 8 ≤ s.memory_size then
    .ok (rdCell s.mem (p - s.memory).toNat)
  else .ub

/-- Write of the cell a host pointer designates, `*(ptrdiff_t*) p = v`. -/
def State.store (s : State) (p : Int) (v : Int) : Res State :=
  if 0 ≤ p - s.memory ∧ p - s.memory + 8 ≤ s.memory_size then
    .ok { s with mem := wrCell s.mem (p - s.memory).toNat v }
  else .ub

/-- Write of a run of bytes from a host pointer on. -/
def State.storeBytes (s : State) (p : Int) (bs : List Nat) : Res State :=
  if 0 ≤ p - s.memory ∧ p - s.memory + bs.length ≤ s.memory_size then
    .ok { s with mem := wrBytes s.mem (p - s.memory).toNat bs }
  else .ub

/-- A load followed by its continuation. -/
def ldv {β : Type} (r : Res Int) (k : Int → Res β) : Res β :=
  match r with
  | .ok v => k v
  | .ub => .ub
  | .abort => .abort
  | .timeout => .timeout

/-- A store followed by its continuation. -/
def stv {β : Type} (r : Res State) (k : State → Res β) : Res β :=
  match r with
  | .ok s => k s
  | .ub => .ub
  | .abort => .abort
  | .timeout => .timeout

/-- Source `State::allot`: the sum `memory_i + req` is a `size_t` sum.  The address given
back is the host pointer `&memory[memory_i]`. -/
def State.allot (s : State) (req : Nat) : Error × Int × State :=
  if (s.memory_i + req) % 18446744073709551616 > s.memory_size then (E_OUT_OF_MEMORY, 0, s)
  else (E_OK, s.memory + s.memory_i,
        { s with memory_i := (s.memory_i + req) % 18446744073709551616 })

/-- Source `strcmp(p, name) == 0` for a host pointer `p` into the arena and a C string
`name`: bytes are compared until the first difference or the closing NUL. -/
def State.strEq (s : State) (p : Int) : List Nat → Res Bool
  | [] =>
    match s.loadByte p with
    | .ok b => .ok (b == 0)
    | .ub => .ub
    | .abort => .abort
    | .timeout => .timeout
  | c :: cs =>
    match s.loadByte p with
    | .ok b => if b = c then s.strEq (p + 1) cs else .ok false
    | .ub => .ub
    | .abort => .abort
    | .timeout => .timeout

/-- Source `DictEntry::data`: the address after the header and the padded name; the name
length is read from the entry. -/
def State.data (s : State) (d : Int) : Res Int :=
  ldv (s.load (d + OFF_NAME_LENGTH)) fun nl =>
    .ok (d + SIZEOF_DICTENTRY + align CELL (toSize nl + 1))

/-- Source `State::create`.  `strncpy` copies the name without a NUL; the third assertion
compares the stored name with `name`. -/
def State.create (s : State) (name : List Nat) : Res (Error × Int × State) :=
  let name_length := name.length
  let size := SIZEOF_DICTENTRY + align CELL (name_length + 1)
  match s.allot size with
  | (e, d, s) =>
    if e ≠ E_OK then .ok (e, 0, s)
    else
      stv (s.store (d + OFF_PREVIOUS) (s.shared S_LATEST)) fun s =>
      stv (s.store (d + OFF_NAME_LENGTH) (wrap name_length)) fun s =>
      stv (s.storeBytes (d + OFF_NAME) name) fun s =>
      match s.strEq (d + OFF_NAME) name with
      | .ok true => .ok (E_OK, d, s.setShared S_LATEST d)
      | .ok false => .abort
      | .ub => .ub
      | .abort => .abort
      | .timeout => .timeout

/-- Source `State::dict_put`. -/
def State.dict_put (s : State) (cell : Int) : Res (Error × State) :=
  match s.allot CELL with
  | (e, addr, s) =>
    if e ≠ E_OK then .ok (e, s)
    else stv (s.store addr cell) fun s => .ok (E_OK, s)

/-- Source `State::lookup`: the walk from `LATEST` through `previous`; the result is the host
pointer of the entry found, or 0. -/
def State.lookupFrom (s : State) (name : List Nat) : Nat → Int → Res Int
  | 0, _ => .timeout
  | fuel + 1, e =>
    if e = 0 then .ok 0
    else
      match s.strEq (e + OFF_NAME) name with
      | .ok true => .ok e
      | .ok false => ldv (s.load (e + OFF_PREVIOUS)) fun prev => s.lookupFrom name fuel prev
      | .ub => .ub
      | .abort => .abort
      | .timeout => .timeout

/-- Source `State::lookup`. -/
def State.lookup (s : State) (fuel : Nat) (name : List Nat) : Res Int :=
  s.lookupFrom name fuel (s.shared S_LATEST)

/-- Source `State::defw`. -/
def State.defw (s : State) (name : List Nat) (fnaddr : Int) (flags : Nat) :
    Res (Error × State) :=
  chkv (s.create name) fun d s =>
    stv (s.store (d + OFF_FLAGS) (wrap (FLAG_CWORD + flags))) fun s =>
    let cword_idx : Nat := if s.cwords.i = 0 then 0 else s.cwords.i * 2 - 1
    match s.cwords.push fnaddr with
    | .ok (e, cw) =>
      if e ≠ E_OK then .ok (e, s)
      else
        chk (({ s with cwords := cw } : State).dict_put (wrap cword_idx)) fun s =>
          ldv (s.data d) fun body =>
          ldv (s.load body) fun h =>
          ldv (s.load (d + OFF_FLAGS)) fun fl =>
            if toSize h = cword_idx ∧ hasFlag (toSize fl) FLAG_CWORD then .ok (E_OK, s)
            else .abort
    | .ub => .ub
    | .abort => .abort
    | .timeout => .timeout

/-- Source `State::dict_put_cword`. -/
def State.dict_put_cword (s : State) (fuel : Nat) (word : List Nat) : Res (Error × State) :=
  ldv (s.lookup fuel word) fun d =>
    if d = 0 then .ok (E_WORD_NOT_FOUND, s)
    else
      ldv (s.load (d + OFF_FLAGS)) fun fl =>
        if hasFlag (toSize fl) FLAG_CWORD = false then .ok (E_EXPECTED_C_WORD, s)
        else
          chk (s.dict_put OP_CALL_C) fun s =>
            ldv (s.data d) fun body =>
            ldv (s.load body) fun h => s.dict_put h

/-! ## Text: tokens and decimal numbers -/

/-- The bytes of a string literal (ASCII). -/
def str (t : String) : List Nat := t.toList.map Char.toNat

/-- The C library `isdigit`. -/
def isdigit (c : Nat) : Bool := decide (48 ≤ c) && decide (c ≤ 57)

/-- The C library `isspace`: space, `\t`, `\n`, `\v`, `\f`, `\r`. -/
def isspace (c : Nat) : Bool := c == 32 || (decide (9 ≤ c) && decide (c ≤ 13))

/-- The C library `strlen` of the text handed to `exec`. -/
def strlen (l : List Nat) : Nat := (l.takeWhile (fun c => c != 0)).length

/-- Decimal digits of a natural number, most significant first, put in front of `acc`. -/
def digitsFuel : Nat → Nat → List Nat → List Nat
  | 0, _, acc => acc
  | f + 1, n, acc =>
    if n < 10 then (n + 48) :: acc else digitsFuel f (n / 10) ((n % 10 + 48) :: acc)

/-- Decimal rendering of a natural number. -/
def decNat (n : Nat) : List Nat := digitsFuel (n + 1) n []

/-- Decimal rendering of an integer: an optional `-` and the digits (C `%ld`). -/
def decimal (n : Int) : List Nat :=
  if n < 0 then 45 :: decNat (-n).toNat else decNat n.toNat

/-- Tokens separated by single spaces. -/
def unwords : List (List Nat) → List Nat
  | [] => []
  | [t] => t
  | t :: ts => t ++ 32 :: unwords ts

/-! ## Tokenizer -/

/-- The part of the input not yet consumed: `input[input_i .. input_size)`. -/
def State.remaining (s : State) : List Nat := (s.input.take s.input_size).drop s.input_i

/-- Inner loop of the number branch of `next_token` over the unread input: the value
accumulated and the count of digits consumed (the byte that ends the run is put back). -/
def numLoop : List Nat → Int → Nat → Int × Nat
  | [], n, k => (n, k)
  | c :: rest, n, k =>
    if isdigit c then numLoop rest (wrap (wrap (n * 10) + ((c : Int) - 48))) (k + 1)
    else (n, k)

/-- Inner loop of the word branch of `next_token` over the unread input. -/
def wordLoop : List Nat → State → Error × State
  | [], s => (E_OK, s)
  | c :: rest, s =>
    let s := { s with input_i := s.input_i + 1 }
    if isspace c then (E_OK, s)
    else
      match s.scratch_put c with
      | (e, s) => if e ≠ E_OK then (e, s) else wordLoop rest s

/-- The `while(input_i < input_size)` loop of `next_token` over the unread input; the flag
says that the loop is inside a `\` comment. -/
def tokLoop : List Nat → Bool → State → Error × Token × State
  | [], _, s => (E_OK, TK_END, s)
  | c :: rest, true, s =>
    let s := { s with input_i := s.input_i + 1 }
    tokLoop rest (c != 10) s
  | c :: rest, false, s =>
    let s := { s with input_i := s.input_i + 1 }
    if (c == 45 && (match rest with
                    | d :: _ => isdigit d
                    | [] => false)) || isdigit c then
      match (if c == 45 then (rest.headD 0, rest.tail, true, 1) else (c, rest, false, 0)) with
      | (c, rest, negative, used) =>
        match numLoop rest ((c : Int) - 48) 0 with
        | (n, k) =>
          (E_OK, TK_NUMBER,
            { s with input_i := s.input_i + used + k,
                     token_number := if negative then wrap (-n) else n })
    else if isspace c then tokLoop rest false s
    else if c == 92 then tokLoop rest true s
    else
      match wordLoop rest { s with scratch_i := 1, scratch := upd s.scratch 0 c } with
      | (e, s) =>
        if e ≠ E_OK then (e, TK_WORD, s)
        else
          match s.scratch_put 0 with
          | (e, s) => (e, TK_WORD, s)

/-- Source `State::next_token`. -/
def State.next_token (s : State) : Res (Error × Token × State) :=
  .ok (tokLoop s.remaining false s)

/-! ## Built-in words -/

/-- The callbacks registered by the constructor, in registration order. -/
inductive Prim
  | plus | star | minus | gt | dot | colon | semi | immediate | compile_only | comma
  | lbrace | store | here | WORD | fetch | dup | drop | swap | tick | decompile
  deriving DecidableEq, Repr

/-- Host code address of a built-in callback.  The addresses are not observable by Forth
code; the k-th registered callback is given the non-null tag k. -/
def Prim.fn : Prim → Int
  | .plus => 1 | .star => 2 | .minus => 3 | .gt => 4 | .dot => 5
  | .colon => 6 | .semi => 7 | .immediate => 8 | .compile_only => 9 | .comma => 10
  | .lbrace => 11 | .store => 12 | .here => 13 | .WORD => 14 | .fetch => 15
  | .dup => 16 | .drop => 17 | .swap => 18 | .tick => 19 | .decompile => 20

/-- The callback at a host code address, if it is one of the built-in ones. -/
def primOf (a : Int) : Option Prim :=
  if a = 1 then some .plus else if a = 2 then some .star else if a = 3 then some .minus
  else if a = 4 then some .gt else if a = 5 then some .dot else if a = 6 then some .colon
  else if a = 7 then some .semi else if a = 8 then some .immediate
  else if a = 9 then some .compile_only else if a = 10 then some .comma
  else if a = 11 then some .lbrace else if a = 12 then some .store
  else if a = 13 then some .here else if a = 14 then some .WORD
  else if a = 15 then some .fetch else if a = 16 then some .dup
  else if a = 17 then some .drop else if a = 18 then some .swap
  else if a = 19 then some .tick else if a = 20 then some .decompile
  else none

/-- Word `+`. -/
def w_plus (s : State) : Res (Error × State) :=
  chkv s.pop fun a s => chkv s.pop fun b s => s.push (wrap (b + a))

/-- Word `*`. -/
def w_star (s : State) : Res (Error × State) :=
  chkv s.pop fun a s => chkv s.pop fun b s => s.push (wrap (a * b))

/-- Word `-`. -/
def w_minus (s : State) : Res (Error × State) :=
  chkv s.pop fun a s => chkv s.pop fun b s => s.push (wrap (b - a))

/-- Word `>`. -/
def w_gt (s : State) : Res (Error × State) :=
  chkv s.pop fun a s => chkv s.pop fun b s => s.push (if b > a then -1 else 0)

/-- Word `.`: pops a cell and prints it. -/
def w_dot (s : State) : Res (Error × State) :=
  chkv s.pop fun x s => .ok (E_OK, { s with out := s.out ++ [x] })

/-- Word `:`. -/
def w_colon (s : State) : Res (Error × State) :=
  if s.shared S_WORD_AVAILABLE = 0 then .ok (E_WANT_WORD, s)
  else
    let s := (s.setShared S_WORD_AVAILABLE 0).setShared S_COMPILING 1
    match s.scratchStr with
    | none => .ub
    | some name =>
      chkv (s.create name) fun _ s => .ok (E_OK, s.setShared S_DICT_ROOT (s.shared S_LATEST))

/-- Word `;`. -/
def w_semi (s : State) : Res (Error × State) :=
  chk (s.dict_put OP_EXIT) fun s =>
    .ok (E_OK, (s.setShared S_COMPILING 0).setShared S_LATEST (s.shared S_DICT_ROOT))

/-- Words `immediate` (bit `FLAG_IMMEDIATE`) and `compile-only` (bit `FLAG_COMPILE_ONLY`):
set the bit in the flags of the entry `LATEST` points to. -/
def w_setflag (bit : Nat) (s : State) : Res (Error × State) :=
  let d := s.shared S_LATEST
  ldv (s.load (d + OFF_FLAGS)) fun fl =>
    if hasFlag (toSize fl) bit = false then
      stv (s.store (d + OFF_FLAGS) (wrap (toSize fl + bit))) fun s => .ok (E_OK, s)
    else .ok (E_OK, s)

/-- Word `,`. -/
def w_comma (s : State) : Res (Error × State) :=
  chkv s.pop fun c s => chk (s.dict_put c) fun s => .ok (E_OK, s)

/-- The loop of `{` that emits one `OP_LOCAL_SET` per local. -/
def putLocalSets : Nat → State → Res (Error × State)
  | 0, s => .ok (E_OK, s)
  | n + 1, s => chk (s.dict_put OP_LOCAL_SET) fun s => putLocalSets n s

/-- Word `{`. -/
def w_lbrace (fuel : Nat) (s : State) : Res (Error × State) :=
  if s.shared S_WORD_AVAILABLE = 0 then .ok (E_WANT_WORD, s)
  else if s.scratch 0 = 125 ∧ s.scratch 1 = 0 then
    chk (putLocalSets (toSize (s.shared S_LOCAL_COUNT)) s) fun s =>
      .ok (E_OK, (s.setShared S_LOCAL_COUNT 0).setShared S_WORD_AVAILABLE 0)
  else
    chk (s.dict_put OP_JUMP_IGNORED) fun s =>
    let jmpaddr := s.memory + s.memory_i
    chk (s.dict_put (-1)) fun s =>
    match s.scratchStr with
    | none => .ub
    | some name =>
      chkv (s.create name) fun d s =>
      stv (s.store (d + OFF_FLAGS) (wrap (FLAG_COMPILE_ONLY + FLAG_IMMEDIATE))) fun s =>
      chk (s.dict_put OP_PUSH_IMMEDIATE) fun s =>
      chk (s.dict_put OP_LOCAL_PUSH) fun s =>
      chk (s.dict_put_cword fuel (str ",")) fun s =>
      chk (s.dict_put OP_PUSH_IMMEDIATE) fun s =>
      chk (s.dict_put (s.shared S_LOCAL_COUNT)) fun s =>
      chk (s.dict_put_cword fuel (str ",")) fun s =>
      chk (s.dict_put OP_EXIT) fun s =>
      let s := s.setShared S_LOCAL_COUNT (wrap (s.shared S_LOCAL_COUNT + 1))
      stv (s.store jmpaddr (s.real_to_raddr (s.memory + s.memory_i))) fun s =>
        .ok (E_WANT_WORD, s.setShared S_WORD_AVAILABLE 0)

/-- Word `!`. -/
def w_store (s : State) : Res (Error × State) :=
  chkv s.pop fun addrcell s => chkv s.pop fun data s =>
    if s.raddr_valid addrcell ≠ E_OK then .ok (E_INVALID_ADDRESS, s)
    else stv (s.store (s.raddr_to_real addrcell) data) fun s => .ok (E_OK, s)

/-- Word `here`. -/
def w_here (s : State) : Res (Error × State) :=
  ign (s.push (wrap s.memory_i)) fun s => .ok (E_OK, s)

/-- Word `WORD`. -/
def w_WORD (s : State) : Res (Error × State) :=
  ign (s.push CELL) fun s => .ok (E_OK, s)

/-- Word `@`. -/
def w_fetch (s : State) : Res (Error × State) :=
  chkv s.pop fun addrcell s =>
    if s.raddr_valid addrcell ≠ E_OK then .ok (E_INVALID_ADDRESS, s)
    else ldv (s.load (s.raddr_to_real addrcell)) fun v => s.push v

/-- Word `dup`. -/
def w_dup (s : State) : Res (Error × State) :=
  chkv (s.pick 0) fun c s => s.push c

/-- Word `drop`. -/
def w_drop (s : State) : Res (Error × State) := s.drop 1

/-- Word `swap`. -/
def w_swap (s : State) : Res (Error × State) :=
  chkv s.pop fun a s => chkv s.pop fun b s => chk (s.push a) fun s => s.push b

/-- Word `'`. -/
def w_tick (fuel : Nat) (s : State) : Res (Error × State) :=
  if s.shared S_WORD_AVAILABLE = 0 then .ok (E_WANT_WORD, s)
  else
    let s := s.setShared S_WORD_AVAILABLE 0
    match s.scratchStr with
    | none => .ub
    | some name =>
      ldv (s.lookup fuel name) fun d =>
        if d = 0 then .ok (E_WORD_NOT_FOUND, s)
        else
          ldv (s.load (d + OFF_FLAGS)) fun fl =>
            if hasFlag (toSize fl) FLAG_CWORD then .ok (E_EXPECTED_FORTH_WORD, s)
            else ldv (s.data d) fun body => s.push (s.real_to_raddr body)

/-- The loop of `decompile`: `code` is used as a host pointer; what is printed is not
modelled. -/
def decompileLoop (s : State) : Nat → Int → Nat → Res Unit
  | 0, _, _ => .timeout
  | fuel + 1, code, ip =>
    ldv (s.load (code + 8 * ip)) fun op =>
      if op = OP_PUSH_IMMEDIATE ∨ op = OP_CALL_FORTH ∨ op = OP_CALL_C ∨ op = OP_JUMP_IF_ZERO
          ∨ op = OP_JUMP ∨ op = OP_LOCAL_PUSH then
        ldv (s.load (code + 8 * (ip + 1))) fun _ => decompileLoop s fuel code (ip + 2)
      else if op = OP_JUMP_IGNORED then
        ldv (s.load (code + 8 * (ip + 1))) fun tgt => decompileLoop s fuel tgt 0
      else if op = OP_LOCAL_SET then decompileLoop s fuel code (ip + 1)
      else .ok ()

/-- Word `decompile`. -/
def w_decompile (fuel : Nat) (s : State) : Res (Error × State) :=
  chkv s.pop fun addrcell s =>
    match decompileLoop s fuel addrcell 0 with
    | .ok _ => .ok (E_OK, s)
    | .ub => .ub
    | .abort => .abort
    | .timeout => .timeout

/-- The body of a built-in callback. -/
def Prim.run (fuel : Nat) : Prim → State → Res (Error × State)
  | .plus => w_plus
  | .star => w_star
  | .minus => w_minus
  | .gt => w_gt
  | .dot => w_dot
  | .colon => w_colon
  | .semi => w_semi
  | .immediate => w_setflag FLAG_IMMEDIATE
  | .compile_only => w_setflag FLAG_COMPILE_ONLY
  | .comma => w_comma
  | .lbrace => w_lbrace fuel
  | .store => w_store
  | .here => w_here
  | .WORD => w_WORD
  | .fetch => w_fetch
  | .dup => w_dup
  | .drop => w_drop
  | .swap => w_swap
  | .tick => w_tick fuel
  | .decompile => w_decompile fuel

/-- The call `cw(*this)` through a host code address taken from the native-word table. -/
def State.call (s : State) (fuel : Nat) (cw : Int) : Res (Error × State) :=
  match primOf cw with
  | some p => p.run fuel s
  | none => .ub

/-! ## Virtual machine -/

/-- Entry and exit of source `State::exec(ptrdiff_t*)` around its dispatch loop `run`: the
address check with its `errorf`, and `LocalsSave`, whose destructor restores `locals.i` on
every return after it was constructed. -/
def State.enter (run : State → Int → Nat → Res (Error × State)) (s : State)
    (code_relative : Int) : Res (Error × State) :=
  if s.raddr_valid code_relative ≠ E_OK then
    .ok (s.errorf E_INVALID_ADDRESS (str "exec got invalid address " ++ decimal code_relative))
  else
    let locals_i := s.locals.i
    match run s (s.raddr_to_real code_relative) 0 with
    | .ok (e, s) => .ok (e, { s with locals := { s.locals with i := locals_i } })
    | .ub => .ub
    | .abort => .abort
    | .timeout => .timeout

/-- The dispatch loop of source `State::exec(ptrdiff_t*)`; `code` is the host pointer
`raddr_to_real(code_relative)`, one unit of fuel is spent per instruction.  The dispatch is
the computed goto through a ten-entry table. -/
def State.vm : Nat → State → Int → Nat → Res (Error × State)
  | 0, _, _, _ => .timeout
  | fuel + 1, s, code, ip =>
    ldv (s.load (code + 8 * ip)) fun op =>
    if op = OP_PUSH_IMMEDIATE then
      ldv (s.load (code + 8 * (ip + 1))) fun n =>
        ign (s.push n) fun s => State.vm fuel s code (ip + 2)
    else if op = OP_CALL_FORTH then
      ldv (s.load (code + 8 * (ip + 1))) fun next =>
        chk (s.enter (State.vm fuel) next) fun s => State.vm fuel s code (ip + 2)
    else if op = OP_CALL_C then
      ldv (s.load (code + 8 * (ip + 1))) fun h =>
        chkv (s.cword_get h) fun cw s =>
          chk (s.call fuel cw) fun s => State.vm fuel s code (ip + 2)
    else if op = OP_EXIT then .ok (E_OK, s)
    else if op = OP_JUMP_IF_ZERO then
      if s.si = 0 then .ok (E_STACK_UNDERFLOW, s)
      else
        ldv (s.load (code + 8 * (ip + 1))) fun label =>
          let s := { s with si := s.si - 1 }
          if s.si < s.stack_size then
            if s.stack s.si = 0 then
              if s.raddr_valid label ≠ E_OK then .ok (E_INVALID_ADDRESS, s)
              else State.vm fuel s (s.raddr_to_real label) 0
            else State.vm fuel s code (ip + 2)
          else .ub
    else if op = OP_JUMP_IGNORED ∨ op = OP_JUMP then
      ldv (s.load (code + 8 * (ip + 1))) fun label =>
        if s.raddr_valid label ≠ E_OK then .ok (E_INVALID_ADDRESS, s)
        else State.vm fuel s (s.raddr_to_real label) 0
    else if op = OP_LOCAL_PUSH then
      ldv (s.load (code + 8 * (ip + 1))) fun local_ =>
        let actual := wrap (s.locals.i - local_ - 1)
        if 0 ≤ actual ∧ actual < s.locals.size then
          chk (s.push (s.locals.data actual.toNat)) fun s => State.vm fuel s code (ip + 2)
        else .ub
    else if op = OP_LOCAL_SET then
      chkv s.pop fun val s =>
        match s.locals.push val with
        | .ok (e, l) =>
          if e ≠ E_OK then .ok (e, s)
          else State.vm fuel { s with locals := l } code (ip + 1)
        | .ub => .ub
        | .abort => .abort
        | .timeout => .timeout
    else if op = OP_UNKNOWN then .ok (E_INVALID_OPCODE, s)
    else .ub

/-- Source `State::exec(ptrdiff_t*)`: execute user defined Forth code. -/
def State.exec_vm (s : State) (fuel : Nat) (code_relative : Int) : Res (Error × State) :=
  s.enter (State.vm fuel) code_relative

/-! ## Text interpreter -/

/-- The `while(e == E_WANT_WORD)` loop of source `State::exec(const char*)`. -/
def State.want : Nat → State → Int → Error → Res (Error × State)
  | 0, _, _, _ => .timeout
  | fuel + 1, s, cw, e =>
    if e ≠ E_WANT_WORD then .ok (e, s)
    else
      chkv s.next_token fun tk2 s =>
        if tk2 ≠ TK_WORD then .ok (E_WANT_WORD, s)
        else
          match (s.setShared S_WORD_AVAILABLE 1).call fuel cw with
          | .ok (e, s) => State.want fuel s cw e
          | .ub => .ub
          | .abort => .abort
          | .timeout => .timeout

/-- The `TK_WORD` branch of the loop of source `State::exec(const char*)`. -/
def State.exec_word (s : State) (fuel : Nat) : Res (Error × State) :=
  match s.scratchStr with
  | none => .ub
  | some name =>
    ldv (s.lookup fuel name) fun word =>
      if word ≠ 0 then
        ldv (s.load (word + OFF_FLAGS)) fun fl =>
          let flags := toSize fl
          if s.shared S_COMPILING = 0 ∧ hasFlag flags FLAG_COMPILE_ONLY then
            .ok (E_COMPILE_ONLY, s)
          else if s.shared S_COMPILING ≠ 0 ∧ hasFlag flags FLAG_IMMEDIATE = false then
            if hasFlag flags FLAG_CWORD then
              chk (s.dict_put OP_CALL_C) fun s =>
                ldv (s.data word) fun body =>
                ldv (s.load body) fun h => s.dict_put h
            else
              chk (s.dict_put OP_CALL_FORTH) fun s =>
                ldv (s.data word) fun body => s.dict_put (s.real_to_raddr body)
          else
            if hasFlag flags FLAG_CWORD then
              ldv (s.data word) fun body =>
              ldv (s.load body) fun h =>
              chkv (s.cword_get h) fun cw s =>
                match s.call fuel cw with
                | .ok (e, s) => chk (s.want fuel cw e) fun s => .ok (E_OK, s)
                | .ub => .ub
                | .abort => .abort
                | .timeout => .timeout
            else
              ldv (s.data word) fun body => s.exec_vm fuel (s.real_to_raddr body)
      else .ok (E_WORD_NOT_FOUND, s)

/-- The loop `while(tk != TK_END)` of source `State::exec(const char*)`. -/
def State.interp : Nat → State → Token → Res (Error × State)
  | 0, _, _ => .timeout
  | fuel + 1, s, tk =>
    if tk = TK_END then .ok (E_OK, s)
    else
      chk (if tk = TK_NUMBER then
            (if s.shared S_COMPILING = 0 then ign (s.push s.token_number) fun s => .ok (E_OK, s)
             else
              ign (s.dict_put OP_PUSH_IMMEDIATE) fun s =>
              ign (s.dict_put s.token_number) fun s => .ok (E_OK, s))
          else s.exec_word fuel) fun s =>
      chkv s.next_token fun tk s => State.interp fuel s tk

/-- Source `State::exec(const char*)`: execute arbitrary code. -/
def State.exec (s : State) (fuel : Nat) (input_ : List Nat) : Res (Error × State) :=
  let s := { s with input := input_, input_size := strlen input_, input_i := 0 }
  chkv s.next_token fun tk s => State.interp fuel s tk

/-! ## Construction -/

/-- The built-in words in registration order: name, callback, flags. -/
def builtins : List (List Nat × Prim × Nat) :=
  [ (str "+", .plus, 0), (str "*", .star, 0), (str "-", .minus, 0), (str ">", .gt, 0),
    (str ".", .dot, 0), (str ":", .colon, 0),
    (str ";", .semi, FLAG_IMMEDIATE + FLAG_COMPILE_ONLY),
    (str "immediate", .immediate, 0), (str "compile-only", .compile_only, 0),
    (str ",", .comma, 0), (str "\x7b", .lbrace, FLAG_IMMEDIATE + FLAG_COMPILE_ONLY),
    (str "!", .store, 0), (str "here", .here, 0), (str "WORD", .WORD, 0),
    (str "@", .fetch, 0), (str "dup", .dup, 0), (str "drop", .drop, 0),
    (str "swap", .swap, 0), (str "'", .tick, 0), (str "decompile", .decompile, 0) ]

/-- The member initialisers and the `memset` calls of the constructor. -/
def State.zeroed (cfg : StateConfig) : State :=
  { stack := fun _ => 0, stack_size := cfg.stack_size, si := 0,
    memory := cfg.memory, mem := fun _ => 0, memory_i := 0, memory_size := cfg.memory_size,
    scratch := fun _ => 0, scratch_i := 0,
    shared := fun _ => 0, shared_size := cfg.shared_size,
    locals := { cfg.locals with data := fun _ => 0 },
    cwords := { cfg.cwords with data := fun _ => 0 },
    input := [], input_i := 0, input_size := 0, token_number := 0, out := [] }

/-- The `defw` calls of the constructor; their error codes are discarded. -/
def defwAll : List (List Nat × Prim × Nat) → State → Res State
  | [], s => .ok s
  | (name, p, flags) :: rest, s =>
    match s.defw name p.fn flags with
    | .ok (_, s) => defwAll rest s
    | .ub => .ub
    | .abort => .abort
    | .timeout => .timeout

/-- Source `State::State(const StateConfig&)`. -/
def State.construct (cfg : StateConfig) : Res State :=
  let s := State.zeroed cfg
  match s.cwords.push 0 with
  | .ok (_, cw) => defwAll builtins { s with cwords := cw }
  | .ub => .ub
  | .abort => .abort
  | .timeout => .timeout

/-- The configuration `StaticStateConfig<>` of `repl.cpp`, with the arena at host address
`base`. -/
def StaticStateConfig (base : Int) : StateConfig :=
  { stack_size := 1024, memory := base, memory_size := 1024 * 1024, shared_size := 8,
    locals := { data := fun _ => 0, i := 0, size := 256 },
    cwords := { data := fun _ => 0, i := 0, size := 128 } }

end ft

namespace ft

open Error Token

/-! ## Observations and concrete configurations used in statements -/

/-- The data stack as a list, bottom first. -/
def State.stackList (s : State) : List Int := (List.range s.si).map s.stack

/-- The error code an outcome returns, if it returns. -/
def errOf {σ : Type} : Res (Error × σ) → Option Error
  | .ok (e, _) => some e
  | _ => none

/-- The outcome is undefined behaviour. -/
def isUb {α : Type} : Res α → Bool
  | .ub => true
  | _ => false

/-- The engine the constructor yields (the zeroed state when the constructor does not
return). -/
def State.fresh (cfg : StateConfig) : State :=
  match State.construct cfg with
  | .ok s => s
  | _ => State.zeroed cfg

/-- The configuration of `repl.cpp` with the arena at host address 4096. -/
def replCfg : StateConfig := StaticStateConfig 4096

/-- A configuration whose arena of 984 bytes is exactly filled by the built-in words. -/
def tinyCfg : StateConfig := { StaticStateConfig 4096 with memory_size := 984 }

/-- The value the digit loop of `next_token` accumulates, without wrapping. -/
def valF (a : Int) : List Nat → Int
  | [] => a
  | c :: cs => valF (a * 10 + ((c : Int) - 48)) cs

/-- Every byte of the list is a decimal digit. -/
def AllDig (l : List Nat) : Prop := ∀ c ∈ l, isdigit c = true

/-- A `size_t` request: 2^64 - 984. -/
def hugeReq : Nat := 18446744073709550632

/-- A state predicate that every elementary state change of the built-in words and of the
tokenizer preserves: writes to the data stack, the shared bank, the scratch buffer, the input
cursor, the output, the arena bytes, and a successful `allot` of a whole number of cells, at
most 2^62 bytes. -/
structure Stable (Q : State → Prop) : Prop where
  stk : ∀ (s : State) st k, Q s → Q { s with stack := st, si := k }
  shr : ∀ (s : State) f, Q s → Q { s with shared := f }
  scr : ∀ (s : State) f k, Q s → Q { s with scratch := f, scratch_i := k }
  inp : ∀ (s : State) l n i t, Q s →
    Q { s with input := l, input_size := n, input_i := i, token_number := t }
  out : ∀ (s : State) o, Q s → Q { s with out := o }
  mem : ∀ (s : State) m, Q s → Q { s with mem := m }
  allot : ∀ (s : State) n, n % 8 = 0 → n ≤ 4611686018427387904 → Q s →
    (s.allot n).1 = E_OK → Q (s.allot n).2.2

/-- A stable predicate that also survives every change of the locals stack and of the
native-word table. -/
structure StableL (Q : State → Prop) extends Stable Q : Prop where
  loc : ∀ (s : State) l, Q s → Q { s with locals := l }
  cwd : ∀ (s : State) c, Q s → Q { s with cwords := c }

/-- Every state an outcome returns satisfies `Q`. -/
def Pres (Q : State → Prop) (r : Res (Error × State)) : Prop :=
  ∀ e s, r = .ok (e, s) → Q s

/-- The same for a call with an out-parameter. -/
def PresV {α : Type} (Q : State → Prop) (r : Res (Error × α × State)) : Prop :=
  ∀ e a s, r = .ok (e, a, s) → Q s

/-! ## Representation of the dictionary -/

/-- A dictionary entry as the proofs see it: arena offset, name, flags. -/
structure Entry where
  off : Nat
  name : List Nat
  flags : Nat

/-- Arena offset of the body of an entry: `DictEntry::data`. -/
def Entry.body (e : Entry) : Nat := e.off + SIZEOF_DICTENTRY + align CELL (e.name.length + 1)

/-- The arena holds the header of entry `e`: flags, name length, and the name followed by a
NUL. -/
def EntryAt (m : Nat → Nat) (e : Entry) : Prop :=
  toSize (rdCell m (e.off + 8)) = e.flags ∧
  rdCell m (e.off + 16) = e.name.length ∧
  rdBytes m (e.off + 24) (e.name.length + 1) = e.name ++ [0]

/-- The arena bytes below `bound` hold the entries `L`, newest first, linked through
`previous` from the host pointer `p`; `base` is the host address of the arena. -/
def Chain (m : Nat → Nat) (base : Int) (bound : Nat) : Int → List Entry → Prop
  | p, [] => p = 0
  | p, e :: es =>
    p = base + e.off ∧ e.body ≤ bound ∧ (∀ c ∈ e.name, c ≠ 0) ∧ e.name.length < 4611686018427387904 ∧
    EntryAt m e ∧ Chain m base bound (rdCell m e.off) es

/-- The newest entry with the given name. -/
def findEntry (name : List Nat) (L : List Entry) : Option Entry :=
  L.find? (fun e => e.name == name)

/-- The host pointer `lookup` returns for a search result. -/
def entryPtr (base : Int) : Option Entry → Int
  | some e => base + e.off
  | none => 0

/-- The state an outcome returns (`d` when it does not return). -/
def stateOf (r : Res (Error × State)) (d : State) : State :=
  match r with
  | .ok (_, s) => s
  | _ => d

/-- The states an engine constructed from `cfg` can reach through the host interface:
the constructor, then any sequence of `exec(text)` and `defw(name, fn, flags)` calls that
return, with any error code.  A name is a C string in host memory; its length is below
2^61. -/
inductive Reachable (cfg : StateConfig) : State → Prop
  | init (s : State) : State.construct cfg = .ok s → Reachable cfg s
  | exec (s : State) (fuel : Nat) (text : List Nat) (e : Error) (s' : State) :
      Reachable cfg s → s.exec fuel text = .ok (e, s') → Reachable cfg s'
  | defw (s : State) (name : List Nat) (fn : Int) (flags : Nat) (e : Error) (s' : State) :
      Reachable cfg s → name.length ≤ 2305843009213693952 →
      s.defw name fn flags = .ok (e, s') → Reachable cfg s'

/-- The arena cursor invariant relative to a lower bound `c` and the capacity `M`. -/
def HereInv (c M : Nat) (s : State) : Prop :=
  s.memory_size = M ∧ c ≤ s.memory_i ∧ s.memory_i ≤ M

/-- The engine of `repl.cpp` with the word `f` of scenario 4 defined and `10 3` on the
data stack. -/
def localsDemo : State :=
  stateOf ((State.fresh replCfg).exec 100 (str ": f \x7b a b \x7d a b - ; 10 3"))
    (State.fresh replCfg)

/-- The engine of `repl.cpp` after `5 -8` was typed: two values on the data stack. -/
def fetchDemo : State :=
  match (State.fresh replCfg).exec 10 (str "5 -8") with
  | .ok (_, s) => s
  | _ => State.fresh replCfg

/-! ## Tokens of a source text -/

/-- The byte list is a word token: a non-empty run without whitespace or NUL that starts
neither a number nor a comment and fits the scratch buffer with its NUL. -/
def isWordTok (t : List Nat) : Bool :=
  match t with
  | [] => false
  | c :: rest =>
    !(isdigit c) && !(c == 92) &&
    !(c == 45 && (match rest with
                  | d :: _ => isdigit d
                  | [] => false)) &&
    t.all (fun c => !(isspace c) && c != 0) && decide (t.length ≤ 511)

/-- The byte list is a run the tokenizer takes as a word: non-empty, without whitespace,
starting neither a number nor a comment.  `next` is the byte that follows the run in the
input, if any (it matters after a lone `-`). -/
def isWordRun (t : List Nat) (next : List Nat) : Bool :=
  match t with
  | [] => false
  | c :: rest =>
    !(isdigit c) && !(c == 92) &&
    !(c == 45 && (match rest ++ next with
                  | d :: _ => isdigit d
                  | [] => false)) &&
    t.all (fun c => !(isspace c))

/-- The byte list is a number token: an optional `-` followed by decimal digits. -/
def isNumTok (t : List Nat) : Bool :=
  match t with
  | [] => false
  | c :: rest =>
    (c == 45 && !(rest.isEmpty) && rest.all isdigit) || (isdigit c && rest.all isdigit)

/-- The cell `next_token` stores in `token_number` for a number token. -/
def numVal (t : List Nat) : Int :=
  match t with
  | [] => 0
  | c :: rest =>
    if c == 45 then wrap (-(numLoop rest.tail ((rest.headD 0 : Nat) - 48) 0).1)
    else (numLoop rest ((c : Int) - 48) 0).1

/-- The unread input presents the token list `ts`, after at most one space. -/
def Lead (r : List Nat) (ts : List (List Nat)) : Prop :=
  r = unwords ts ∨ r = 32 :: unwords ts

/-- The state `s` after a token fetch: only the cursor, the token value and the scratch
buffer differ. -/
def State.retok (s : State) (i : Nat) (n : Int) (sc : Nat → Nat) (k : Nat) : State :=
  { s with input_i := i, token_number := n, scratch := sc, scratch_i := k }

/-- The byte list is a token the proofs handle: a number or a word. -/
def isTok (t : List Nat) : Bool := isNumTok t || isWordTok t

/-- The state has just fetched the first token of `ts`, of kind `tk`, and the unread input
presents the others; at the end of the text the kind is `TK_END`.  The value of a number
token is in `token_number`, the text of a word token in the scratch buffer. -/
def Cur (s : State) (tk : Token) : List (List Nat) → Prop
  | [] => tk = TK_END
  | t :: ts =>
    Lead s.remaining ts ∧
    (if isNumTok t then tk = TK_NUMBER ∧ s.token_number = numVal t
     else tk = TK_WORD ∧ s.scratchStr = some t ∧ s.scratch 0 = (t ++ [0]).getD 0 0 ∧
       s.scratch 1 = (t ++ [0]).getD 1 0)

/-! ## Stack programs: numbers and the seven stack words -/

/-- The built-in words `+ - * > dup drop swap`. -/
inductive StackOp
  | plus | minus | star | gt | dup | drop | swap
  deriving DecidableEq, Repr

/-- The callback of a stack word. -/
def StackOp.prim : StackOp → Prim
  | .plus => .plus | .minus => .minus | .star => .star | .gt => .gt
  | .dup => .dup | .drop => .drop | .swap => .swap

/-- The source name of a stack word. -/
def StackOp.name : StackOp → List Nat
  | .plus => str "+" | .minus => str "-" | .star => str "*" | .gt => str ">"
  | .dup => str "dup" | .drop => str "drop" | .swap => str "swap"

/-- An item of a stack program: a number token or a stack word. -/
inductive Item
  | num (t : List Nat)
  | op (o : StackOp)

/-- The token of an item. -/
def Item.tok : Item → List Nat
  | .num t => t
  | .op o => o.name

/-- The item is well formed: a number item holds a number token. -/
def Item.wf : Item → Bool
  | .num t => isNumTok t
  | .op _ => true

/-- What an item does when it is interpreted or when its compiled code runs: the calls of
`State::push` and of the callback. -/
def Item.run (fuel : Nat) : Item → State → Res (Error × State)
  | .num t, s => ign (s.push (numVal t)) fun s => .ok (E_OK, s)
  | .op o, s => o.prim.run fuel s

/-- The data stack of an engine: buffer, fill index, capacity. -/
structure View where
  stack : Nat → Int
  si : Nat
  size : Nat

/-- The data stack of a state. -/
def State.view (s : State) : View := { stack := s.stack, si := s.si, size := s.stack_size }

/-- The data stack of a view as a list, bottom first. -/
def View.list (v : View) : List Int := (List.range v.si).map v.stack

/-- A state that has the given data stack and nothing else. -/
def View.state (v : View) : State :=
  { stack := v.stack, stack_size := v.size, si := v.si,
    memory := 0, mem := fun _ => 0, memory_i := 0, memory_size := 0,
    scratch := fun _ => 0, scratch_i := 0,
    shared := fun _ => 0, shared_size := 0,
    locals := { data := fun _ => 0, i := 0, size := 0 },
    cwords := { data := fun _ => 0, i := 0, size := 0 },
    input := [], input_i := 0, input_size := 0, token_number := 0, out := [] }

/-- The state `s` with the data stack replaced (the capacity stays). -/
def State.withView (s : State) (v : View) : State := { s with stack := v.stack, si := v.si }

/-- An outcome seen through the data stack it leaves. -/
def obs (r : Res (Error × State)) : Res (Error × View) :=
  match r with
  | .ok (e, s) => .ok (e, s.view)
  | .ub => .ub
  | .abort => .abort
  | .timeout => .timeout

/-- The outcome of a stack computation put back into the state it started from. -/
def State.lift (s : State) (r : Res (Error × View)) : Res (Error × State) :=
  match r with
  | .ok (e, v) => .ok (e, s.withView v)
  | .ub => .ub
  | .abort => .abort
  | .timeout => .timeout

/-- What an item does to the data stack. -/
def Item.runV (it : Item) (v : View) : Res (Error × View) := obs (it.run 0 v.state)

/-- What a list of items does to the data stack, stopping at the first error. -/
def runV : List Item → View → Res (Error × View)
  | [], v => .ok (E_OK, v)
  | it :: rest, v => chk (it.runV v) fun v => runV rest v

/-- The handle `defw` stores for the callback `p`: the k-th callback has table index k. -/
def Prim.handle (p : Prim) : Int := 2 * p.fn - 1

/-- The cells the compiler emits for an item. -/
def Item.code : Item → List Int
  | .num t => [OP_PUSH_IMMEDIATE, numVal t]
  | .op o => [OP_CALL_C, o.prim.handle]

/-- The cells the compiler emits for a list of items. -/
def emit : List Item → List Int
  | [] => []
  | it :: rest => it.code ++ emit rest

/-! ## Engine invariants -/

/-- The arena holds the cells `cs` from offset `a` on. -/
def CodeAt (m : Nat → Nat) (a : Nat) : List Int → Prop
  | [] => True
  | c :: cs => rdCell m a = c ∧ CodeAt m (a + 8) cs

/-- The native-word table holds the null sentinel at index 0 and the built-in callbacks at
their indices. -/
def Table (cw : Stack) : Prop :=
  cw.data 0 = 0 ∧
  ∀ p : Prim, p.fn.toNat < cw.i ∧ p.fn.toNat < cw.size ∧ cw.data p.fn.toNat = p.fn

/-- The arena after `create` has written the header of an entry at offset `a`: the link,
the name length and the name. -/
def entryMem (m : Nat → Nat) (a : Nat) (prev : Int) (name : List Nat) : Nat → Nat :=
  wrBytes (wrCell (wrCell m a prev) (a + 16) (wrap name.length)) (a + 24) name

/-- The handle `defw` derives from the occupancy `i` of the native-word table. -/
def cwordIdx (i : Nat) : Nat := if i = 0 then 0 else i * 2 - 1

/-- The state `defw(name, fn, flags)` leaves when it succeeds: the entry at the old cursor,
its flags, its one-cell body, the callback appended to the table. -/
def State.afterDefw (s : State) (name : List Nat) (fn : Int) (flags : Nat) : State :=
  { s with
    mem := wrCell
      (wrCell (entryMem s.mem s.memory_i (s.shared S_LATEST) name) (s.memory_i + 8)
        (wrap (FLAG_CWORD + flags)))
      (s.memory_i + (32 + align CELL (name.length + 1))) (wrap (cwordIdx s.cwords.i)),
    memory_i := s.memory_i + (32 + align CELL (name.length + 1)) + 8,
    shared := upd s.shared S_LATEST (s.memory + s.memory_i),
    cwords := { s.cwords with data := upd s.cwords.data s.cwords.i fn, i := s.cwords.i + 1 } }

/-- The fields `defw` and the compiler leave alone are the same in both states: everything
but the arena, its cursor, `LATEST` and the native-word table. -/
def Kept (s s2 : State) : Prop :=
  s2.stack = s.stack ∧ s2.stack_size = s.stack_size ∧ s2.si = s.si ∧
  s2.memory = s.memory ∧ s2.memory_size = s.memory_size ∧
  s2.scratch = s.scratch ∧ s2.scratch_i = s.scratch_i ∧
  (∀ k, k ≠ S_LATEST → s2.shared k = s.shared k) ∧ s2.shared_size = s.shared_size ∧
  s2.locals = s.locals ∧ s2.input = s.input ∧ s2.input_i = s.input_i ∧
  s2.input_size = s.input_size ∧ s2.token_number = s.token_number ∧ s2.out = s.out

/-- The names of a registration list are C strings shorter than the scratch buffer and the
flags are sums of `IMMEDIATE`, `HIDDEN` and `COMPILE_ONLY`. -/
def okNames (l : List (List Nat × Prim × Nat)) : Bool :=
  l.all fun b => b.1.all (fun c => c != 0) && decide (b.1.length < 512) &&
    decide (b.2.2 < 32) && !(hasFlag b.2.2 FLAG_CWORD)

/-- The callbacks of a registration list carry the tags `k + 1`, `k + 2`, ... in order. -/
def tagsFrom (k : Nat) : List (List Nat × Prim × Nat) → Bool
  | [] => true
  | b :: r => decide (b.2.1.fn = ((k + 1 : Nat) : Int)) && tagsFrom (k + 1) r

/-- The arena bytes a registration list needs. -/
def need : List (List Nat × Prim × Nat) → Nat
  | [] => 0
  | b :: r => (32 + align CELL (b.1.length + 1)) + 8 + need r

/-- The dictionary entries a registration list creates from arena offset `a` on, in front of
the dictionary `L`. -/
def layout : List (List Nat × Prim × Nat) → Nat → List Entry → List Entry
  | [], _, L => L
  | b :: r, a, L =>
    layout r (a + (32 + align CELL (b.1.length + 1)) + 8)
      ({ off := a, name := b.1, flags := FLAG_CWORD + b.2.2 } :: L)

/-- The dictionary of a freshly constructed engine. -/
def builtinDict : List Entry := layout builtins 0 []

/-- A configuration the constructor accepts: the arena at a sane host address with room for
the built-in words, an empty native-word table with room for the sentinel and the built-in
callbacks. -/
def GoodCfg (cfg : StateConfig) : Prop :=
  0 < cfg.memory ∧ cfg.memory + cfg.memory_size < 4611686018427387904 ∧
  984 ≤ cfg.memory_size ∧ cfg.cwords.i = 0 ∧ 21 ≤ cfg.cwords.size ∧
  cfg.cwords.size < 4294967296

/-- The state of the constructor after the sentinel was pushed. -/
def State.seeded (cfg : StateConfig) : State :=
  { State.zeroed cfg with
    cwords := { data := upd (fun _ => 0) cfg.cwords.i 0, i := cfg.cwords.i + 1,
                size := cfg.cwords.size } }

/-- The engine of `repl.cpp` after the host registered a native word `secret` with the flag
`HIDDEN`. -/
def hiddenDemo : State :=
  stateOf ((State.fresh replCfg).defw (str "secret") 99 FLAG_HIDDEN) (State.fresh replCfg)

/-- An engine in compile mode whose arena of 984 bytes is full. -/
def fullDemo : State :=
  { State.zeroed tinyCfg with memory_i := 984, shared := upd (fun _ => 0) S_COMPILING 1 }

/-- The zeroed engine of `repl.cpp` with the sentinel in the native-word table: the state
of the constructor before its first `defw`. -/
def seedDemo : State := State.seeded replCfg

/-- The state `exec(text)` starts its loop from: the input fields are set. -/
def State.start (s : State) (text : List Nat) : State :=
  { s with input := text, input_size := text.length, input_i := 0 }

/-- The engine part of state `s2` is that of `s`: the data stack, the arena and its cursor,
the shared bank, the locals stack and the native-word table are the same (the input fields
and the scratch buffer may differ). -/
def SameEngine (s s2 : State) : Prop :=
  s2.stack = s.stack ∧ s2.stack_size = s.stack_size ∧ s2.si = s.si ∧
  s2.memory = s.memory ∧ s2.mem = s.mem ∧ s2.memory_i = s.memory_i ∧
  s2.memory_size = s.memory_size ∧ (∀ k, s2.shared k = s.shared k) ∧
  s2.locals = s.locals ∧ s2.cwords = s.cwords ∧ s2.out = s.out

/-- A zeroed engine that was handed the text `dup 1`. -/
def wordDemo : State := (State.zeroed replCfg).start (str "dup 1")

/-- The engine of `repl.cpp` after the host created the Forth word `foo` (with an empty
body) through `create`. -/
def tickDemo : State :=
  match (State.fresh replCfg).create (str "foo") with
  | .ok (_, _, s) => s
  | _ => State.fresh replCfg

/-- A `size_t` request: 2^64 - 1024. -/
def wrapReq : Nat := 18446744073709550592

/-- The state after a successful `dict_put(c)`: the cell is stored at the cursor, which moves
on by one cell. -/
def State.put (s : State) (c : Int) : State :=
  { s with memory_i := s.memory_i + 8, mem := wrCell s.mem s.memory_i c }

/-- The state after successful `dict_put` calls for the cells `cs`, in order. -/
def State.puts (s : State) : List Int → State
  | [] => s
  | c :: cs => (s.put c).puts cs

/-- The state `s2` is `s` up to the tokenizer fields (cursor, token value, scratch
buffer). -/
def Tok (s s2 : State) : Prop := ∃ i n sc k, s2 = s.retok i n sc k

/-- The error code and the value an outcome with an out-parameter returns. -/
def valOf {α σ : Type} : Res (Error × α × σ) → Option (Error × α)
  | .ok (e, a, _) => some (e, a)
  | _ => none

/-- The name is bound, in the dictionary `L`, to the native word `p` with the given extra
flags: the newest entry of that name is a `CWORD` entry whose body cell is the handle of
`p`. -/
def IsPrim (m : Nat → Nat) (bound : Nat) (L : List Entry) (name : List Nat) (p : Prim)
    (flags : Nat) : Prop :=
  ∃ e, findEntry name L = some e ∧ e.flags = FLAG_CWORD + flags ∧ e.body + 8 ≤ bound ∧
    rdCell m e.body = p.handle

/-- Every built-in name is bound to its callback. -/
def Builtins (m : Nat → Nat) (bound : Nat) (L : List Entry) : Prop :=
  ∀ b ∈ builtins, IsPrim m bound L b.1 b.2.1 b.2.2

/-- The arena of a well-formed engine: a sane host address, the cursor cell-aligned inside
the arena, the dictionary `L` below the cursor, zero bytes from the cursor on. -/
def Arena (s : State) (L : List Entry) : Prop :=
  0 < s.memory ∧ s.memory + s.memory_size < 4611686018427387904 ∧
  s.memory_i ≤ s.memory_size ∧ s.memory_i % 8 = 0 ∧
  Chain s.mem s.memory s.memory_i (s.shared S_LATEST) L ∧
  (∀ i, s.memory_i ≤ i → s.mem i = 0)

/-- A well-formed engine: the arena, the built-in callbacks in the table and their names
bound. -/
def Eng (s : State) (L : List Entry) : Prop :=
  Arena s L ∧ Table s.cwords ∧ Builtins s.mem s.memory_i L

/-- A well-formed engine at top level: interpreting, no word pending. -/
def Top (s : State) (L : List Entry) : Prop :=
  Eng s L ∧ s.shared S_COMPILING = 0 ∧ s.shared S_WORD_AVAILABLE = 0

/-- A well-formed engine inside a colon definition: compiling, no word pending. -/
def Comp (s : State) (L : List Entry) : Prop :=
  Eng s L ∧ s.shared S_COMPILING = 1 ∧ s.shared S_WORD_AVAILABLE = 0

/-- The state `: name` leaves: compile mode, the header of the new entry at the old cursor,
`LATEST` and `DICT_ROOT` pointing to it. -/
def State.header (s : State) (name : List Nat) : State :=
  { s with
    mem := entryMem s.mem s.memory_i (s.shared S_LATEST) name,
    memory_i := s.memory_i + (32 + align CELL (name.length + 1)),
    shared := upd (upd (upd s.shared S_COMPILING 1) S_LATEST (s.memory + s.memory_i))
      S_DICT_ROOT (s.memory + s.memory_i) }

/-- The state `;` leaves: `EXIT` emitted, interpret mode, `LATEST` restored from
`DICT_ROOT`. -/
def State.finish (s : State) : State :=
  ((s.put OP_EXIT).setShared S_COMPILING 0).setShared S_LATEST (s.shared S_DICT_ROOT)

/-- The cells the compiler emits for a word bound to the entry `e`, read in the arena
`m`: a native call with the handle held in the body, or a call of the body. -/
def Entry.call (m : Nat → Nat) (e : Entry) : List Int :=
  if hasFlag e.flags FLAG_CWORD then [OP_CALL_C, rdCell m e.body]
  else [OP_CALL_FORTH, (e.body : Int)]

/-- The new entry of a colon definition. -/
def colonEntry (s : State) (name : List Nat) : Entry :=
  { off := s.memory_i, name := name, flags := 0 }

/-- The arena after the cells `cs` were stored from offset `a` on. -/
def wrCells (m : Nat → Nat) (a : Nat) : List Int → Nat → Nat
  | [] => m
  | c :: cs => wrCells (wrCell m a c) (a + 8) cs

/-- The cells `{` emits for the body of the `k`-th local: run at compile time, they emit
`LOCAL_PUSH k`. -/
def localCode (k : Int) : List Int :=
  [OP_PUSH_IMMEDIATE, OP_LOCAL_PUSH, OP_CALL_C, Prim.comma.handle,
   OP_PUSH_IMMEDIATE, k, OP_CALL_C, Prim.comma.handle, OP_EXIT]

/-- The arena after the callback of `{` was fed a name: at the old cursor `a` a jump over
the entry, at `a + 16` the header of the entry with the flags `COMPILE_ONLY` and
`IMMEDIATE`, then the body of the local; the jump lands behind the body. -/
def localMem (m : Nat → Nat) (a : Nat) (prev : Int) (name : List Nat) (k : Int) :
    Nat → Nat :=
  wrCell
    (wrCells
      (wrCell (entryMem (wrCells m a [OP_JUMP_IGNORED, -1]) (a + 16) prev name) (a + 16 + 8)
        (wrap (FLAG_COMPILE_ONLY + FLAG_IMMEDIATE)))
      (a + 16 + (32 + align CELL (name.length + 1))) (localCode k))
    (a + 8) ((a + 16 + (32 + align CELL (name.length + 1)) + 72 : Nat) : Int)

/-- The state the callback of `{` leaves when it was fed a name: the entry of the local is
the newest one and `LOCAL_COUNT` has grown by one. -/
def State.local (s : State) (name : List Nat) : State :=
  { s with
    mem := localMem s.mem s.memory_i (s.shared S_LATEST) name (s.shared S_LOCAL_COUNT),
    memory_i := s.memory_i + 16 + (32 + align CELL (name.length + 1)) + 72,
    shared := upd (upd s.shared S_LATEST (s.memory + ((s.memory_i + 16 : Nat) : Int)))
      S_LOCAL_COUNT (wrap (s.shared S_LOCAL_COUNT + 1)) }

/-- The entry of a local created at the cursor of `s`. -/
def localEntry (s : State) (name : List Nat) : Entry :=
  { off := s.memory_i + 16, name := name, flags := FLAG_COMPILE_ONLY + FLAG_IMMEDIATE }

/-- The state after the callback of `{` was fed the names, in order. -/
def State.declare (s : State) : List (List Nat) → State
  | [] => s
  | n :: ns => (s.local n).declare ns

/-- The entries of the locals created from the cursor of `s` on, newest first, in front of
the dictionary `L`. -/
def localEntries (s : State) : List (List Nat) → List Entry → List Entry
  | [], L => L
  | n :: ns, L => localEntries (s.local n) ns (localEntry s n :: L)

/-- The state the callback of `{` leaves when it was fed `}`: one `LOCAL_SET` per local is
emitted and `LOCAL_COUNT` is reset. -/
def State.closeBlock (s : State) : State :=
  (s.puts (List.replicate (toSize (s.shared S_LOCAL_COUNT)) OP_LOCAL_SET)).setShared
    S_LOCAL_COUNT 0

/-! Machine-word and arena primitives are sealed for the proofs; they are opened through
their unfolding lemmas only. -/

attribute [irreducible] wrap toSize rdCell wrCell align

end ft

namespace ft

open Error Token

/-! ## The order of the dictionary chain -/

/-- Every entry reachable from the host pointer `p` through `previous` has a `previous` that
is null or points strictly below the entry, into the arena at `base`; the walk ends at a
null pointer. -/
inductive Descends (m : Nat → Nat) (base : Int) : Int → Prop
  | null : Descends m base 0
  | link (off : Nat) :
      (rdCell m off = 0 ∨ (base ≤ rdCell m off ∧ rdCell m off < base + off)) →
      Descends m base (rdCell m off) → Descends m base (base + off)

/-- Older entries lie wholly below newer ones (the list is newest first). -/
def Ordered : List Entry → Prop
  | [] => True
  | e :: es => (∀ x ∈ es, x.body ≤ e.off) ∧ Ordered es

/-- The Boolean form of `Ordered`. -/
def orderedB : List Entry → Bool
  | [] => true
  | e :: es => es.all (fun x => decide (x.body ≤ e.off)) && orderedB es

/-- The arena bytes the callback of `{` takes for the names: per name a jump of two cells,
the header of the entry and a body of nine cells. -/
def localsSize : List (List Nat) → Nat
  | [] => 0
  | n :: ns => 16 + (32 + align CELL (n.length + 1)) + 72 + localsSize ns

/-- The tokens of an optional block of locals: nothing, or `{`, the names and `}`. -/
def blockToks : Option (List (List Nat)) → List (List Nat)
  | none => []
  | some ns => str "\x7b" :: (ns ++ [str "\x7d"])

/-- The names an optional block of locals declares. -/
def blockNames : Option (List (List Nat)) → List (List Nat)
  | none => []
  | some ns => ns

/-- The state after an optional block of locals. -/
def State.block (s : State) : Option (List (List Nat)) → State
  | none => s
  | some ns => (s.declare ns).closeBlock

/-! ## Further concrete states used in statements -/

/-- The engine of `repl.cpp` with a full data stack: all 1024 cells are in use. -/
def fullStackDemo : State := { State.fresh replCfg with stack := fun _ => 7, si := 1024 }

/-- The engine of `repl.cpp` after `77 ,` was typed: the cell at arena offset 984, the old
cursor, holds 77. -/
def badOpDemo : State :=
  { State.fresh replCfg with mem := wrCell (State.fresh replCfg).mem 984 77, memory_i := 992 }

/-- The engine of `repl.cpp` after `5 , 5000 ,` was typed: the cells at the arena offsets 984
and 992 hold `OP_JUMP` and the operand 5000, which lies behind the cursor 1000. -/
def jumpDemo : State :=
  { State.fresh replCfg with
    mem := wrCell (wrCell (State.fresh replCfg).mem 984 OP_JUMP) 992 5000, memory_i := 1000 }

/-- A configuration whose arena of 1024 bytes has room, behind the built-in words, for the
header of one entry with a short name and nothing more. -/
def smallCfg : StateConfig := { StaticStateConfig 4096 with memory_size := 1024 }

end ft

namespace ft

open Error Token

/-! ## Use of a local -/

/-- The state the compile-time code of the `k`-th local leaves: `LOCAL_PUSH k` is emitted.
Both cells went through the data stack, so the free cell above its top holds the last
one. -/
def State.useLocal (s : State) (k : Int) : State :=
  { s with
    mem := wrCell (wrCell s.mem s.memory_i OP_LOCAL_PUSH) (s.memory_i + 8) k,
    memory_i := s.memory_i + 8 + 8,
    stack := upd (upd s.stack s.si OP_LOCAL_PUSH) s.si k }

/-- The state a call of a word with the body `\x7b a b \x7d a b -` leaves when the data
stack held `x` at index `n` and `y` above it: both went to the locals stack and back, the
difference replaces them, and the fill index of the locals stack is restored. -/
def State.subLocals (s : State) (n : Nat) (x y : Int) : State :=
  { s with
    stack := upd (upd (upd s.stack n x) (n + 1) y) n (wrap (x - y)),
    si := n + 1,
    locals := { s.locals with data := upd (upd s.locals.data 0 y) 1 x } }

/-- The code of a word that takes its two arguments into the locals `a` and `b` and
subtracts: what `\x7b a b \x7d a b -` compiles to behind the entries of the locals. -/
def subLocalsCode : List Int :=
  [OP_LOCAL_SET, OP_LOCAL_SET, OP_LOCAL_PUSH, 0, OP_LOCAL_PUSH, 1, OP_CALL_C,
   Prim.minus.handle, OP_EXIT]

end ft

namespace ft

open Error Token

/-! # Theorems

## Machine words, bytes and cells -/

theorem wrap_wrap (x : Int) : wrap (wrap x) = wrap x := by unfold wrap; omega

theorem wrap_of_range {x : Int} (h1 : -9223372036854775808 ≤ x)
    (h2 : x < 9223372036854775808) : wrap x = x := by
  unfold wrap; omega

theorem wrap_range (x : Int) :
    -9223372036854775808 ≤ wrap x ∧ wrap x < 9223372036854775808 := by
  unfold wrap; omega

theorem wrap_add_left (a b : Int) : wrap (wrap a + b) = wrap (a + b) := by
  unfold wrap; omega

theorem wrap_mul10 (a : Int) : wrap (wrap a * 10) = wrap (a * 10) := by
  unfold wrap; omega

theorem wrap_neg (a : Int) : wrap (-wrap a) = wrap (-a) := by unfold wrap; omega

theorem toSize_lt (v : Int) : toSize v < 18446744073709551616 := by
  unfold toSize; omega

theorem wrap_toSize (v : Int) : wrap (toSize v) = wrap v := by
  unfold wrap toSize; omega

theorem toSize_of_nat {n : Nat} (h : n < 18446744073709551616) : toSize (n : Int) = n := by
  unfold toSize; omega

theorem toSize_wrap (v : Int) : toSize (wrap v) = toSize v := by
  unfold wrap toSize; omega

@[simp] theorem upd_same {β : Type} (f : Nat → β) (i : Nat) (v : β) : upd f i v i = v := by
  simp [upd]

theorem upd_other {β : Type} (f : Nat → β) (i j : Nat) (v : β) (h : j ≠ i) :
    upd f i v j = f j := by
  simp [upd, h]

theorem leVal_leBytes (k u : Nat) : leVal (leBytes k u) = u % 256 ^ k := by
  induction k generalizing u with
  | zero => simp [leBytes, leVal, Nat.mod_one]
  | succ k ih =>
    simp only [leBytes, leVal, ih]
    rw [Nat.mod_mod, pow_succ', Nat.mod_mul]

theorem length_leBytes (k u : Nat) : (leBytes k u).length = k := by
  induction k generalizing u with
  | zero => rfl
  | succ k ih => simp [leBytes, ih]

theorem length_rdBytes (m : Nat → Nat) (a k : Nat) : (rdBytes m a k).length = k := by
  induction k generalizing a with
  | zero => rfl
  | succ k ih => simp [rdBytes, ih]

theorem getD_rdBytes (m : Nat → Nat) (a k j : Nat) (h : j < k) :
    (rdBytes m a k).getD j 0 = m (a + j) := by
  induction k generalizing a j with
  | zero => omega
  | succ k ih =>
    cases j with
    | zero => simp [rdBytes]
    | succ j =>
      simp only [rdBytes, List.getD_cons_succ]
      rw [ih (a + 1) j (by omega)]
      congr 1; omega

theorem rdBytes_congr (m m2 : Nat → Nat) (a k : Nat)
    (h : ∀ i, a ≤ i → i < a + k → m i = m2 i) : rdBytes m a k = rdBytes m2 a k := by
  induction k generalizing a with
  | zero => rfl
  | succ k ih =>
    simp only [rdBytes]
    rw [h a (le_refl _) (by omega), ih (a + 1) (fun i h1 h2 => h i (by omega) (by omega))]

theorem rdBytes_wrBytes_same (m : Nat → Nat) (a : Nat) (bs : List Nat) :
    rdBytes (wrBytes m a bs) a bs.length = bs := by
  apply List.ext_getElem (length_rdBytes _ _ _)
  intro j h1 h2
  have := getD_rdBytes (wrBytes m a bs) a bs.length j h2
  rw [List.getD_eq_getElem _ _ h1] at this
  rw [this]
  simp [wrBytes, h2, List.getD_eq_getElem _ _ h2]

theorem wrBytes_outside (m : Nat → Nat) (a : Nat) (bs : List Nat) (i : Nat)
    (h : i < a ∨ a + bs.length ≤ i) : wrBytes m a bs i = m i := by
  unfold wrBytes
  rw [if_neg]; omega

theorem rdCell_wrCell_same (m : Nat → Nat) (a : Nat) (v : Int) :
    rdCell (wrCell m a v) a = wrap v := by
  unfold rdCell wrCell
  have h := rdBytes_wrBytes_same m a (leBytes 8 (toSize v))
  rw [length_leBytes] at h
  rw [h, leVal_leBytes]
  have := toSize_lt v
  rw [Nat.mod_eq_of_lt (by norm_num; exact this)]
  exact wrap_toSize v

theorem wrCell_outside (m : Nat → Nat) (a : Nat) (v : Int) (i : Nat)
    (h : i < a ∨ a + 8 ≤ i) : wrCell m a v i = m i := by
  unfold wrCell; apply wrBytes_outside; rw [length_leBytes]; exact h

theorem rdCell_congr (m m2 : Nat → Nat) (b : Nat)
    (h : ∀ i, b ≤ i → i < b + 8 → m i = m2 i) : rdCell m b = rdCell m2 b := by
  unfold rdCell; rw [rdBytes_congr m m2 b 8 h]

theorem rdCell_wrCell_disj (m : Nat → Nat) (a b : Nat) (v : Int)
    (h : b + 8 ≤ a ∨ a + 8 ≤ b) : rdCell (wrCell m a v) b = rdCell m b := by
  apply rdCell_congr
  intro i h1 h2
  apply wrCell_outside; omega

theorem rdCell_wrBytes_disj (m : Nat → Nat) (a b : Nat) (bs : List Nat)
    (h : b + 8 ≤ a ∨ a + bs.length ≤ b) : rdCell (wrBytes m a bs) b = rdCell m b := by
  apply rdCell_congr
  intro i h1 h2
  apply wrBytes_outside; omega

/-! ## Sequencing combinators -/

@[simp] theorem chk_ok {σ : Type} (s : σ) (k : σ → Res (Error × σ)) :
    chk (.ok (E_OK, s)) k = k s := by simp [chk]

theorem chk_err {σ : Type} (e : Error) (s : σ) (k : σ → Res (Error × σ)) (h : e ≠ E_OK) :
    chk (.ok (e, s)) k = .ok (e, s) := by simp [chk, h]

@[simp] theorem chkv_ok {α σ : Type} (a : α) (s : σ) (k : α → σ → Res (Error × σ)) :
    chkv (.ok (E_OK, a, s)) k = k a s := by simp [chkv]

theorem chkv_err {α σ : Type} (e : Error) (a : α) (s : σ) (k : α → σ → Res (Error × σ))
    (h : e ≠ E_OK) : chkv (.ok (e, a, s)) k = .ok (e, s) := by simp [chkv, h]

@[simp] theorem ign_ok {σ : Type} (e : Error) (s : σ) (k : σ → Res (Error × σ)) :
    ign (.ok (e, s)) k = k s := by simp [ign]

@[simp] theorem ldv_ok {β : Type} (v : Int) (k : Int → Res β) : ldv (.ok v) k = k v := by
  simp [ldv]

@[simp] theorem stv_ok {β : Type} (s : State) (k : State → Res β) : stv (.ok s) k = k s := by
  simp [stv]

/-! ## Loads and stores through host pointers -/

theorem load_at (s : State) (p : Int) (off : Nat) (hp : p = s.memory + off)
    (hb : off + 8 ≤ s.memory_size) : s.load p = .ok (rdCell s.mem off) := by
  unfold State.load
  have h1 : p - s.memory = off := by omega
  rw [h1, if_pos (by omega)]
  simp

theorem store_at (s : State) (p : Int) (v : Int) (off : Nat) (hp : p = s.memory + off)
    (hb : off + 8 ≤ s.memory_size) :
    s.store p v = .ok { s with mem := wrCell s.mem off v } := by
  unfold State.store
  have h1 : p - s.memory = off := by omega
  rw [h1, if_pos (by omega)]
  simp

theorem storeBytes_at (s : State) (p : Int) (bs : List Nat) (off : Nat)
    (hp : p = s.memory + off) (hb : off + bs.length ≤ s.memory_size) :
    s.storeBytes p bs = .ok { s with mem := wrBytes s.mem off bs } := by
  unfold State.storeBytes
  have h1 : p - s.memory = off := by omega
  rw [h1, if_pos (by omega)]
  simp

theorem loadByte_at (s : State) (p : Int) (off : Nat) (hp : p = s.memory + off)
    (hb : off < s.memory_size) : s.loadByte p = .ok (s.mem off) := by
  unfold State.loadByte
  have h1 : p - s.memory = off := by omega
  rw [h1, if_pos (by omega)]
  simp

/-! ## The arena cursor: `allot` and `dict_put` -/

theorem allot_fail (s : State) (n : Nat) (hn : s.memory_i + n < 18446744073709551616)
    (h : s.memory_i + n > s.memory_size) : s.allot n = (E_OUT_OF_MEMORY, 0, s) := by
  unfold State.allot
  rw [Nat.mod_eq_of_lt hn, if_pos h]

theorem allot_ok (s : State) (n : Nat) (hn : s.memory_i + n < 18446744073709551616)
    (h : s.memory_i + n ≤ s.memory_size) :
    s.allot n = (E_OK, s.memory + s.memory_i, { s with memory_i := s.memory_i + n }) := by
  unfold State.allot
  rw [Nat.mod_eq_of_lt hn, if_neg (by omega)]

theorem dict_put_fail (s : State) (c : Int) (hn : s.memory_i + 8 < 18446744073709551616)
    (h : s.memory_i + 8 > s.memory_size) : s.dict_put c = .ok (E_OUT_OF_MEMORY, s) := by
  unfold State.dict_put
  rw [show CELL = 8 from rfl, allot_fail s 8 hn h]
  simp

theorem dict_put_ok (s : State) (c : Int) (h : s.memory_i + 8 ≤ s.memory_size)
    (hn : s.memory_i + 8 < 18446744073709551616) :
    s.dict_put c = .ok (E_OK, { s with memory_i := s.memory_i + 8,
                                       mem := wrCell s.mem s.memory_i c }) := by
  unfold State.dict_put
  rw [show CELL = 8 from rfl, allot_ok s 8 hn h]
  simp only [ne_eq, not_true_eq_false, if_false]
  rw [store_at _ _ _ s.memory_i (by simp) (by simpa using h)]
  simp

end ft

namespace ft

open Error Token

/-! ## Decimal numbers and the number branch of the tokenizer -/

theorem isdigit_iff (c : Nat) : isdigit c = true ↔ 48 ≤ c ∧ c ≤ 57 := by
  simp [isdigit]

theorem digitsFuel_spec (f n : Nat) (acc : List Nat) (h : n < f) (hacc : AllDig acc) :
    AllDig (digitsFuel f n acc) ∧ digitsFuel f n acc ≠ [] ∧
      valF 0 (digitsFuel f n acc) = valF n acc := by
  induction f generalizing n acc with
  | zero => omega
  | succ f ih =>
    unfold digitsFuel
    by_cases h10 : n < 10
    · rw [if_pos h10]
      refine ⟨?_, by simp, ?_⟩
      · intro c hc
        rcases List.mem_cons.mp hc with rfl | hc
        · rw [isdigit_iff]; omega
        · exact hacc c hc
      · simp [valF]
    · rw [if_neg h10]
      have hacc2 : AllDig ((n % 10 + 48) :: acc) := by
        intro c hc
        rcases List.mem_cons.mp hc with rfl | hc
        · rw [isdigit_iff]; omega
        · exact hacc c hc
      obtain ⟨h1, h2, h3⟩ := ih (n / 10) ((n % 10 + 48) :: acc) (by omega) hacc2
      refine ⟨h1, h2, ?_⟩
      rw [h3]
      simp only [valF]
      congr 1
      push_cast
      omega

theorem decNat_spec (n : Nat) :
    AllDig (decNat n) ∧ decNat n ≠ [] ∧ valF 0 (decNat n) = n := by
  have := digitsFuel_spec (n + 1) n [] (by omega) (by intro c hc; simp at hc)
  simpa [decNat, valF] using this

theorem valF_wrap_congr (a b : Int) (ds : List Nat) (h : wrap a = wrap b) :
    wrap (valF a ds) = wrap (valF b ds) := by
  induction ds generalizing a b with
  | nil => simpa [valF] using h
  | cons c cs ih =>
    simp only [valF]
    apply ih
    unfold wrap at h ⊢
    omega

theorem numLoop_digits (ds : List Nat) (acc : Int) (k : Nat) (hd : AllDig ds)
    (hacc : wrap acc = acc) : numLoop ds acc k = (wrap (valF acc ds), k + ds.length) := by
  induction ds generalizing acc k with
  | nil => simp [numLoop, valF, hacc]
  | cons c cs ih =>
    have hc : isdigit c = true := hd c (List.mem_cons_self _ _)
    have hcs : AllDig cs := fun x hx => hd x (List.mem_cons_of_mem _ hx)
    simp only [numLoop, hc, if_true, valF]
    rw [ih _ _ hcs (wrap_wrap _)]
    congr 1
    · apply valF_wrap_congr
      rw [wrap_wrap]
      unfold wrap; omega
    · simp; omega

theorem allDig_ne_zero (l : List Nat) (h : AllDig l) : ∀ c ∈ l, c ≠ 0 := by
  intro c hc h0
  have := (isdigit_iff c).mp (h c hc)
  omega

theorem strlen_of_nonzero (l : List Nat) (h : ∀ c ∈ l, c ≠ 0) : strlen l = l.length := by
  unfold strlen
  rw [List.takeWhile_eq_self_iff.mpr]
  intro c hc
  simpa using h c hc

theorem decimal_nonzero (n : Int) : ∀ c ∈ decimal n, c ≠ 0 := by
  unfold decimal
  split
  · intro c hc
    rcases List.mem_cons.mp hc with rfl | hc
    · decide
    · exact allDig_ne_zero _ (decNat_spec _).1 c hc
  · exact allDig_ne_zero _ (decNat_spec _).1

/-- The number branch of `next_token`: on the decimal rendering of a cell the tokenizer
consumes all of it and yields that cell. -/
theorem tokLoop_decimal (n : Int) (s : State) (hn1 : -9223372036854775808 ≤ n)
    (hn2 : n < 9223372036854775808) :
    tokLoop (decimal n) false s =
      (E_OK, TK_NUMBER, { s with input_i := s.input_i + (decimal n).length,
                                 token_number := n }) := by
  unfold decimal
  by_cases hneg : n < 0
  · rw [if_pos hneg]
    obtain ⟨h1, h2, h3⟩ := decNat_spec (-n).toNat
    obtain ⟨d, ds, hds⟩ := List.exists_cons_of_ne_nil h2
    rw [hds] at h1 h3 ⊢
    have hd : isdigit d = true := h1 d (List.mem_cons_self _ _)
    have hdsd : AllDig ds := fun x hx => h1 x (List.mem_cons_of_mem _ hx)
    have hdr := (isdigit_iff d).mp hd
    have hw : wrap ((d : Int) - 48) = (d : Int) - 48 := by apply wrap_of_range <;> omega
    simp only [tokLoop, hd, List.headD_cons, List.tail_cons, beq_self_eq_true, Bool.and_self,
      Bool.true_or, if_true, numLoop_digits ds _ 0 hdsd hw, List.length_cons]
    have hv : valF ((d : Int) - 48) ds = -n := by
      have : valF 0 (d :: ds) = valF ((d : Int) - 48) ds := by simp [valF]
      rw [← this, h3]; omega
    rw [hv]
    have : wrap (-wrap (-n)) = n := by rw [wrap_neg]; simp; exact wrap_of_range hn1 hn2
    rw [this]
    congr 3
    omega
  · rw [if_neg hneg]
    obtain ⟨h1, h2, h3⟩ := decNat_spec n.toNat
    obtain ⟨d, ds, hds⟩ := List.exists_cons_of_ne_nil h2
    rw [hds] at h1 h3 ⊢
    have hd : isdigit d = true := h1 d (List.mem_cons_self _ _)
    have hdsd : AllDig ds := fun x hx => h1 x (List.mem_cons_of_mem _ hx)
    have hdr := (isdigit_iff d).mp hd
    have hw : wrap ((d : Int) - 48) = (d : Int) - 48 := by apply wrap_of_range <;> omega
    have h45 : (d == 45) = false := by simp; omega
    simp only [tokLoop, hd, h45, Bool.false_and, Bool.false_or, Bool.or_true, if_true,
      Bool.false_eq_true, if_false, numLoop_digits ds _ 0 hdsd hw, List.length_cons]
    have hv : valF ((d : Int) - 48) ds = n := by
      have : valF 0 (d :: ds) = valF ((d : Int) - 48) ds := by simp [valF]
      rw [← this, h3]; omega
    rw [hv, wrap_of_range hn1 hn2]
    congr 3
    omega

end ft

namespace ft

open Error Token

/-! ## Number round trip (claim C4) -/

theorem remaining_start (s : State) (t : List Nat) :
    ({ s with input := t, input_size := t.length, input_i := 0 } : State).remaining = t := by
  simp [State.remaining]

theorem exec_eq (s : State) (fuel : Nat) (t : List Nat) (h : ∀ c ∈ t, c ≠ 0) :
    s.exec fuel t =
      chkv (.ok (tokLoop t false { s with input := t, input_size := t.length, input_i := 0 }))
        fun tk s => State.interp fuel s tk := by
  unfold State.exec
  simp only [State.next_token, strlen_of_nonzero t h, remaining_start]

theorem remaining_end (s : State) (h : s.input_size ≤ s.input_i) : s.remaining = [] := by
  simp [State.remaining, h]

/-- C4. Number round trip: for every cell `n` and every engine state in interpret mode whose
data stack is not full, `exec` of the decimal rendering of `n` returns `E_OK`; the state it
leaves differs from the one before only in the input cursor fields and in the data stack,
which is the previous stack with `n` pushed on top; `here` and the arena are unchanged. -/
theorem exec_decimal_pushes (n : Int) (s : State) (fuel : Nat)
    (hn1 : -9223372036854775808 ≤ n) (hn2 : n < 9223372036854775808)
    (hc : s.shared S_COMPILING = 0) (hs : s.si < s.stack_size) (hf : 2 ≤ fuel) :
    s.exec fuel (decimal n) =
        .ok (E_OK, { s with input := decimal n, input_size := (decimal n).length,
                            input_i := (decimal n).length, token_number := n,
                            stack := upd s.stack s.si n, si := s.si + 1 }) ∧
      ∀ s', s.exec fuel (decimal n) = .ok (E_OK, s') →
        s'.stackList = s.stackList ++ [n] ∧ s'.memory_i = s.memory_i ∧ s'.mem = s.mem := by
  have hex : s.exec fuel (decimal n) =
        .ok (E_OK, { s with input := decimal n, input_size := (decimal n).length,
                            input_i := (decimal n).length, token_number := n,
                            stack := upd s.stack s.si n, si := s.si + 1 }) := by
    obtain ⟨f, rfl⟩ : ∃ f, fuel = f + 2 := ⟨fuel - 2, by omega⟩
    rw [exec_eq _ _ _ (decimal_nonzero n), tokLoop_decimal n _ hn1 hn2, chkv_ok]
    unfold State.interp
    simp only [reduceCtorEq, if_false, if_true, hc, State.push, hs, ign_ok, chk_ok,
      State.next_token]
    rw [remaining_end _ (by simp)]
    simp only [tokLoop, chkv_ok]
    unfold State.interp
    simp
  refine ⟨hex, ?_⟩
  intro s' h
  rw [hex] at h
  injection h with h
  injection h with _ h
  subst h
  refine ⟨?_, rfl, rfl⟩
  simp only [State.stackList, List.range_succ, List.map_append, List.map_cons, List.map_nil,
    upd_same]
  congr 1
  apply List.map_congr_left
  intro i hi
  have := List.mem_range.mp hi
  exact upd_other _ _ _ _ (by omega)

set_option maxRecDepth 100000 in
theorem exec_decimal_pushes_witness :
    (State.fresh replCfg).exec 2 (decimal 7) =
      .ok (E_OK, { State.fresh replCfg with
                    input := decimal 7, input_size := (decimal 7).length,
                    input_i := (decimal 7).length, token_number := 7,
                    stack := upd (State.fresh replCfg).stack (State.fresh replCfg).si 7,
                    si := (State.fresh replCfg).si + 1 }) :=
  (exec_decimal_pushes 7 (State.fresh replCfg) 2 (by decide!) (by decide!) (by decide!)
    (by decide!) (by decide!)).1

end ft

namespace ft

open Error Token

set_option maxRecDepth 100000

/-! ## `allot` and `dict_put` (claim C8) -/

/-- C8, counterexample. On the engine `repl.cpp` constructs (`here` = 984, M = 1048576) the
request `allot(2^64 - 984)` has `here + n > M`, yet the `size_t` sum wraps to 0, the call
returns `E_OK` and `here` becomes 0. -/
theorem allot_wraps_around :
    (State.fresh replCfg).memory_i + hugeReq > (State.fresh replCfg).memory_size ∧
      hugeReq < 18446744073709551616 ∧
      ((State.fresh replCfg).allot hugeReq).1 = E_OK ∧
      ((State.fresh replCfg).allot hugeReq).2.2.memory_i = 0 := by
  decide!

/-- C8, amended. For every state and every request `n` for which `here + n` does not
overflow `size_t`: if `here + n > M`, `allot` returns `E_OUT_OF_MEMORY` and leaves the state
unchanged; otherwise it returns `E_OK`, yields the host address of offset `here`, and the new
`here` is the old one plus `n`, nothing else changing.  `dict_put(c)` returns
`E_OUT_OF_MEMORY` with the state unchanged when `here + 8 > M`; otherwise it returns `E_OK`,
`here` grows by 8, the cell at the old `here` is `c` and every byte outside that cell is
unchanged. -/
theorem allot_dict_put_spec (s : State) (n : Nat) (c : Int)
    (hn : s.memory_i + n < 18446744073709551616)
    (h8 : s.memory_i + 8 < 18446744073709551616) :
    (s.memory_i + n > s.memory_size → s.allot n = (E_OUT_OF_MEMORY, 0, s)) ∧
    (s.memory_i + n ≤ s.memory_size →
      s.allot n = (E_OK, s.raddr_to_real s.memory_i,
                    { s with memory_i := s.memory_i + n })) ∧
    (s.memory_i + 8 > s.memory_size → s.dict_put c = .ok (E_OUT_OF_MEMORY, s)) ∧
    (s.memory_i + 8 ≤ s.memory_size →
      ∃ s', s.dict_put c = .ok (E_OK, s') ∧ s'.memory_i = s.memory_i + 8 ∧
        rdCell s'.mem s.memory_i = wrap c ∧
        (∀ i, i < s.memory_i ∨ s.memory_i + 8 ≤ i → s'.mem i = s.mem i) ∧
        s' = { s with memory_i := s.memory_i + 8, mem := s'.mem }) := by
  refine ⟨allot_fail s n hn, allot_ok s n hn, dict_put_fail s c h8, ?_⟩
  intro h
  refine ⟨_, dict_put_ok s c h h8, rfl, rdCell_wrCell_same _ _ _, ?_, rfl⟩
  intro i hi
  exact wrCell_outside _ _ _ _ hi

theorem allot_dict_put_spec_witness :
    (State.fresh tinyCfg).allot 16 = (E_OUT_OF_MEMORY, 0, State.fresh tinyCfg) :=
  (allot_dict_put_spec (State.fresh tinyCfg) 16 7 (by decide!) (by decide!)).1 (by decide!)

/-! ## Checked store and load (claims C9 and C10) -/

theorem pop_ok (s : State) (h1 : 1 ≤ s.si) (h2 : s.si ≤ s.stack_size) :
    s.pop = .ok (E_OK, s.stack (s.si - 1), { s with si := s.si - 1 }) := by
  unfold State.pop
  rw [if_neg (by omega), if_pos (by omega)]

theorem push_ok (s : State) (v : Int) (h : s.si < s.stack_size) :
    s.push v = .ok (E_OK, { s with stack := upd s.stack s.si v, si := s.si + 1 }) := by
  unfold State.push
  rw [if_pos h]

theorem raddr_valid_iff (s : State) (a : Int) :
    s.raddr_valid a = E_INVALID_ADDRESS ↔ (a < 0 ∨ a > s.memory_i) := by
  unfold State.raddr_valid
  split <;> simp_all

theorem raddr_valid_ok (s : State) (a : Int) (h1 : 0 ≤ a) (h2 : a ≤ s.memory_i) :
    s.raddr_valid a = E_OK := by
  unfold State.raddr_valid
  rw [if_neg (by omega)]

/-- C9, evaluation at the failing input. On the engine constructed over an arena of 984 bytes
(`here` = M = 984) the address 984 passes the check of `!`, which does not return `E_OK` with
the cell stored: the check ignores the width of the cell, so the store
`*real = data.bits` lies outside the arena and the run is undefined behaviour. -/
theorem store_at_here_not_ok :
    (State.fresh tinyCfg).memory_i = 984 ∧ (State.fresh tinyCfg).memory_size = 984 ∧
      (State.fresh tinyCfg).raddr_valid 984 = E_OK ∧
      isUb ((State.fresh tinyCfg).exec 100 (str "5 984 !")) = true := by
  decide!

theorem raddr_valid_bad (s : State) (a : Int) (h : a < 0 ∨ a > s.memory_i) :
    s.raddr_valid a = E_INVALID_ADDRESS := (raddr_valid_iff s a).mpr h

theorem w_store_eq (s : State) (h2 : 2 ≤ s.si) (hs : s.si ≤ s.stack_size) :
    w_store s =
      if s.stack (s.si - 1) < 0 ∨ s.stack (s.si - 1) > s.memory_i then
        .ok (E_INVALID_ADDRESS, { s with si := s.si - 2 })
      else if s.stack (s.si - 1) + 8 ≤ s.memory_size then
        .ok (E_OK, { s with si := s.si - 2,
                            mem := wrCell s.mem (s.stack (s.si - 1)).toNat (s.stack (s.si - 2)) })
      else .ub := by
  have e5 : s.si - 1 - 1 = s.si - 2 := by omega
  unfold w_store
  rw [pop_ok s (by omega) hs, chkv_ok, pop_ok _ (by simp; omega) (by simp; omega), chkv_ok]
  simp only [e5]
  by_cases hv : s.stack (s.si - 1) < 0 ∨ s.stack (s.si - 1) > s.memory_i
  · rw [raddr_valid_bad _ _ (by simpa using hv), if_pos hv]
    simp
  · rw [raddr_valid_ok _ _ (by omega) (by simp; omega), if_neg hv]
    simp only [ne_eq, not_true_eq_false, if_false, State.raddr_to_real, State.store,
      add_sub_cancel_left]
    by_cases hb : s.stack (s.si - 1) + 8 ≤ s.memory_size
    · rw [if_pos ⟨by omega, hb⟩, if_pos hb]; rfl
    · rw [if_neg (fun h => hb h.2), if_neg hb]; rfl

theorem w_fetch_eq (s : State) (h1 : 1 ≤ s.si) (hs : s.si ≤ s.stack_size) :
    w_fetch s =
      if s.stack (s.si - 1) < 0 ∨ s.stack (s.si - 1) > s.memory_i then
        .ok (E_INVALID_ADDRESS, { s with si := s.si - 1 })
      else if s.stack (s.si - 1) + 8 ≤ s.memory_size then
        .ok (E_OK, { s with stack := upd s.stack (s.si - 1)
                                        (rdCell s.mem (s.stack (s.si - 1)).toNat) })
      else .ub := by
  have e3 : s.si - 1 + 1 = s.si := by omega
  unfold w_fetch
  rw [pop_ok s (by omega) hs, chkv_ok]
  by_cases hv : s.stack (s.si - 1) < 0 ∨ s.stack (s.si - 1) > s.memory_i
  · rw [raddr_valid_bad _ _ (by simpa using hv), if_pos hv]
    simp
  · rw [raddr_valid_ok _ _ (by omega) (by simp; omega), if_neg hv]
    simp only [ne_eq, not_true_eq_false, if_false, State.raddr_to_real, State.load,
      add_sub_cancel_left]
    by_cases hb : s.stack (s.si - 1) + 8 ≤ s.memory_size
    · rw [if_pos ⟨by omega, hb⟩, if_pos hb, ldv_ok, push_ok _ _ (by simp; omega)]
      simp only [e3]
    · rw [if_neg (fun h => hb h.2), if_neg hb]; rfl

/-- The words `!` and `@` wherever the cell lies inside the arena (claim C9 away from its
failing input). For every state with at least two stack values, `!` pops address `a` then
value `v`; it returns `E_INVALID_ADDRESS` if and only if `a < 0` or `a > here`, and then no
arena byte changes; otherwise, when the cell at `a` lies inside the arena (`a + 8 <= M`), it
returns `E_OK`, the cell at offset `a` becomes `v`, no byte outside that cell changes, and a
subsequent `@` on `a` pushes `v`.  `@` returns `E_INVALID_ADDRESS` exactly when its popped
address is outside `[0, here]`. -/
theorem store_fetch_spec (s : State) (a v : Int) (h2 : 2 ≤ s.si) (hs : s.si ≤ s.stack_size)
    (ha : s.stack (s.si - 1) = a) (hv : s.stack (s.si - 2) = v) :
    (errOf (w_store s) = some E_INVALID_ADDRESS ↔ (a < 0 ∨ a > s.memory_i)) ∧
    ((a < 0 ∨ a > s.memory_i) →
      w_store s = .ok (E_INVALID_ADDRESS, { s with si := s.si - 2 })) ∧
    (0 ≤ a → a ≤ s.memory_i → a + 8 ≤ s.memory_size →
      ∃ s', w_store s = .ok (E_OK, s') ∧ s'.si = s.si - 2 ∧ s'.memory_i = s.memory_i ∧
        rdCell s'.mem a.toNat = wrap v ∧
        (∀ i, i < a.toNat ∨ a.toNat + 8 ≤ i → s'.mem i = s.mem i) ∧
        ∃ s2 s3, s'.push a = .ok (E_OK, s2) ∧ w_fetch s2 = .ok (E_OK, s3) ∧
          s3.si = s'.si + 1 ∧ s3.stack s'.si = wrap v) ∧
    (errOf (w_fetch s) = some E_INVALID_ADDRESS ↔ (a < 0 ∨ a > s.memory_i)) := by
  have hst := w_store_eq s h2 hs
  have hft := w_fetch_eq s (by omega) hs
  rw [ha] at hst hft
  rw [hv] at hst
  refine ⟨?_, ?_, ?_, ?_⟩
  · rw [hst]
    by_cases h : a < 0 ∨ a > s.memory_i
    · simp [h, errOf]
    · rw [if_neg h]; split <;> simp [errOf, h]
  · intro h
    rw [hst, if_pos h]
  · intro h0 h1 h8
    rw [hst, if_neg (by omega), if_pos h8]
    refine ⟨_, rfl, rfl, rfl, rdCell_wrCell_same _ _ _, ?_, ?_⟩
    · intro i hi
      exact wrCell_outside _ _ _ _ hi
    · have hp := push_ok ({ s with si := s.si - 2, mem := wrCell s.mem a.toNat v } : State) a
        (by simp; omega)
      have hf := w_fetch_eq
        ({ s with si := s.si - 2 + 1, stack := upd s.stack (s.si - 2) a,
                  mem := wrCell s.mem a.toNat v } : State) (by simp) (by simp; omega)
      simp only [Nat.add_sub_cancel, upd_same] at hf
      rw [if_neg (by omega), if_pos h8] at hf
      exact ⟨_, _, hp, hf, by simp, by simp [rdCell_wrCell_same]⟩
  · rw [hft]
    by_cases h : a < 0 ∨ a > s.memory_i
    · simp [h, errOf]
    · rw [if_neg h]; split <;> simp [errOf, h]

theorem store_fetch_spec_witness :
    errOf (w_store fetchDemo) = some E_INVALID_ADDRESS ↔
      ((-8 : Int) < 0 ∨ (-8 : Int) > fetchDemo.memory_i) :=
  (store_fetch_spec fetchDemo (-8) 5 (by decide!) (by decide!) (by decide!) (by decide!)).1

/-- C10, evaluation at the failing input. On the engine constructed over an arena of 984
bytes, which the built-in dictionary fills exactly (`here` = M = 984), the address 984
passes `raddr_valid` although the cell at 984 lies outside the arena, and `here @`
dereferences it: the run is undefined behaviour. -/
theorem fetch_outside_arena :
    (State.fresh tinyCfg).memory_i = 984 ∧ (State.fresh tinyCfg).memory_size = 984 ∧
      (State.fresh tinyCfg).raddr_valid 984 = E_OK ∧
      isUb ((State.fresh tinyCfg).exec 100 (str "here @")) = true ∧
      isUb ((State.fresh tinyCfg).exec 100 (str "0 here !")) = true := by
  decide!

end ft

namespace ft

open Error Token

/-! ## Preservation of stable predicates -/

section pres

variable {Q : State → Prop}

theorem pres_ok {e : Error} {s : State} (h : Q s) : Pres Q (.ok (e, s)) := by
  intro e' s' h'
  injection h' with h'
  injection h' with _ h'
  exact h' ▸ h

theorem pres_ub : Pres Q .ub := by intro e s h; cases h

theorem pres_abort : Pres Q .abort := by intro e s h; cases h

theorem pres_timeout : Pres Q .timeout := by intro e s h; cases h

theorem presV_ok {α : Type} {e : Error} {a : α} {s : State} (h : Q s) :
    PresV Q (.ok (e, a, s)) := by
  intro e' a' s' h'
  injection h' with h'
  injection h' with _ h'
  injection h' with _ h'
  exact h' ▸ h

theorem presV_ub {α : Type} : PresV (α := α) Q .ub := by intro e a s h; cases h

theorem pres_chk {r : Res (Error × State)} {k : State → Res (Error × State)}
    (h1 : Pres Q r) (h2 : ∀ s, Q s → Pres Q (k s)) : Pres Q (chk r k) := by
  unfold chk
  split
  · rename_i e s
    split
    · exact h2 s (h1 e s rfl)
    · exact pres_ok (h1 e s rfl)
  · exact pres_ub
  · exact pres_abort
  · exact pres_timeout

theorem pres_chkv {α : Type} {r : Res (Error × α × State)}
    {k : α → State → Res (Error × State)}
    (h1 : PresV Q r) (h2 : ∀ a s, Q s → Pres Q (k a s)) : Pres Q (chkv r k) := by
  unfold chkv
  split
  · rename_i e a s
    split
    · exact h2 a s (h1 e a s rfl)
    · exact pres_ok (h1 e a s rfl)
  · exact pres_ub
  · exact pres_abort
  · exact pres_timeout

theorem pres_ign {r : Res (Error × State)} {k : State → Res (Error × State)}
    (h1 : Pres Q r) (h2 : ∀ s, Q s → Pres Q (k s)) : Pres Q (ign r k) := by
  unfold ign
  split
  · rename_i e s
    exact h2 s (h1 e s rfl)
  · exact pres_ub
  · exact pres_abort
  · exact pres_timeout

theorem pres_ldv {r : Res Int} {k : Int → Res (Error × State)}
    (h : ∀ v, Pres Q (k v)) : Pres Q (ldv r k) := by
  unfold ldv
  split
  · exact h _
  · exact pres_ub
  · exact pres_abort
  · exact pres_timeout

theorem pres_stv {r : Res State} {k : State → Res (Error × State)}
    (h1 : ∀ s, r = .ok s → Q s) (h2 : ∀ s, Q s → Pres Q (k s)) : Pres Q (stv r k) := by
  unfold stv
  split
  · rename_i s
    exact h2 s (h1 s rfl)
  · exact pres_ub
  · exact pres_abort
  · exact pres_timeout

theorem presV_stv {α : Type} {r : Res State} {k : State → Res (Error × α × State)}
    (h1 : ∀ s, r = .ok s → Q s) (h2 : ∀ s, Q s → PresV Q (k s)) : PresV Q (stv r k) := by
  unfold stv
  split
  · rename_i s
    exact h2 s (h1 s rfl)
  · exact presV_ub
  · intro e a s h; cases h
  · intro e a s h; cases h

theorem pres_ite {c : Prop} [Decidable c] {a b : Res (Error × State)}
    (h1 : c → Pres Q a) (h2 : ¬c → Pres Q b) : Pres Q (if c then a else b) := by
  split
  · exact h1 ‹_›
  · exact h2 ‹_›

/-! ### Elementary operations -/

theorem push_pres (hQ : Stable Q) {s : State} (h : Q s) (v : Int) : Pres Q (s.push v) := by
  unfold State.push
  split
  · exact pres_ok (hQ.stk _ _ _ h)
  · exact pres_ub

theorem pop_pres (hQ : Stable Q) {s : State} (h : Q s) : PresV Q s.pop := by
  unfold State.pop
  split
  · exact presV_ok h
  · split
    · exact presV_ok (hQ.stk s s.stack _ h)
    · exact presV_ub

theorem drop_pres (hQ : Stable Q) {s : State} (h : Q s) (n : Nat) : Pres Q (s.drop n) := by
  unfold State.drop
  split
  · exact pres_ok h
  · exact pres_ok (hQ.stk s s.stack _ h)

theorem pick_pres {s : State} (h : Q s) (i : Int) : PresV Q (s.pick i) := by
  unfold State.pick
  split
  · exact presV_ok h
  · split
    · exact presV_ok h
    · exact presV_ub

theorem setShared_pres (hQ : Stable Q) {s : State} (h : Q s) (k : Nat) (v : Int) :
    Q (s.setShared k v) := hQ.shr _ _ h

theorem store_pres (hQ : Stable Q) {s s' : State} (h : Q s) {p v : Int}
    (hs : s.store p v = .ok s') : Q s' := by
  unfold State.store at hs
  split at hs
  · injection hs with hs; exact hs ▸ hQ.mem _ _ h
  · cases hs

theorem storeBytes_pres (hQ : Stable Q) {s s' : State} (h : Q s) {p : Int} {bs : List Nat}
    (hs : s.storeBytes p bs = .ok s') : Q s' := by
  unfold State.storeBytes at hs
  split at hs
  · injection hs with hs; exact hs ▸ hQ.mem _ _ h
  · cases hs

theorem cword_get_pres {s : State} (h : Q s) (a : Int) : PresV Q (s.cword_get a) := by
  unfold State.cword_get
  split
  · exact presV_ok h
  · split
    · exact presV_ok h
    · exact presV_ub
    · intro e a s h; cases h
    · intro e a s h; cases h

theorem align8_le (n : Nat) : align CELL n ≤ n + 7 := by
  unfold align CELL
  have := Nat.div_mul_le_self (n + (8 - 1)) 8
  omega

theorem allot_cases (s : State) (n : Nat) :
    s.allot n = (E_OUT_OF_MEMORY, 0, s) ∨
      s.allot n = (E_OK, s.memory + s.memory_i,
        { s with memory_i := (s.memory_i + n) % 18446744073709551616 }) := by
  unfold State.allot
  split
  · exact Or.inl rfl
  · exact Or.inr rfl

theorem allot_pres (hQ : Stable Q) {s : State} (h : Q s) (n : Nat) (h8 : n % 8 = 0)
    (hn : n ≤ 4611686018427387904) :
    Q (s.allot n).2.2 := by
  rcases allot_cases s n with h1 | h1
  · rw [h1]; exact h
  · exact hQ.allot s n h8 hn h (by rw [h1])

theorem create_pres (hQ : Stable Q) {s : State} (h : Q s) (name : List Nat)
    (hl : name.length ≤ 2305843009213693952) : PresV Q (s.create name) := by
  have hsz : SIZEOF_DICTENTRY + align CELL (name.length + 1) ≤ 4611686018427387904 := by
    have := align8_le (name.length + 1)
    unfold SIZEOF_DICTENTRY
    omega
  have h8 : (SIZEOF_DICTENTRY + align CELL (name.length + 1)) % 8 = 0 := by
    unfold SIZEOF_DICTENTRY align CELL
    omega
  have h1 := allot_pres hQ h _ h8 hsz
  unfold State.create
  rcases allot_cases s (SIZEOF_DICTENTRY + align CELL (name.length + 1)) with ha | ha
  · simp only [ha]
    exact presV_ok h
  · simp only [ha] at h1 ⊢
    simp only [ne_eq, not_true_eq_false, if_false]
    apply presV_stv (fun s2 hs2 => store_pres hQ h1 hs2)
    intro s2 h2
    apply presV_stv (fun s3 hs3 => store_pres hQ h2 hs3)
    intro s3 h3
    apply presV_stv (fun s4 hs4 => storeBytes_pres hQ h3 hs4)
    intro s4 h4
    split
    · exact presV_ok (setShared_pres hQ h4 _ _)
    · intro e a s h; cases h
    · exact presV_ub
    · intro e a s h; cases h
    · intro e a s h; cases h

theorem dict_put_pres (hQ : Stable Q) {s : State} (h : Q s) (c : Int) :
    Pres Q (s.dict_put c) := by
  have h1 := allot_pres hQ h CELL (by decide) (by decide)
  unfold State.dict_put
  rcases allot_cases s CELL with ha | ha
  · simp only [ha]
    exact pres_ok h
  · simp only [ha] at h1 ⊢
    simp only [ne_eq, not_true_eq_false, if_false]
    exact pres_stv (fun s2 hs2 => store_pres hQ h1 hs2) (fun s2 h2 => pres_ok h2)

theorem dict_put_cword_pres (hQ : Stable Q) {s : State} (h : Q s) (fuel : Nat)
    (w : List Nat) : Pres Q (s.dict_put_cword fuel w) := by
  unfold State.dict_put_cword
  apply pres_ldv; intro d
  apply pres_ite
  · intro _; exact pres_ok h
  · intro _
    apply pres_ldv; intro fl
    apply pres_ite
    · intro _; exact pres_ok h
    · intro _
      apply pres_chk (dict_put_pres hQ h _)
      intro s1 h1
      apply pres_ldv; intro body
      apply pres_ldv; intro hd
      exact dict_put_pres hQ h1 _

theorem cstrFrom_length (m : Nat → Nat) (i n : Nat) (l : List Nat)
    (h : cstrFrom m i n = some l) : l.length + 1 ≤ n := by
  induction n generalizing i l with
  | zero => simp [cstrFrom] at h
  | succ n ih =>
    unfold cstrFrom at h
    split at h
    · injection h with h; subst h; simp
    · cases hc : cstrFrom m (i + 1) n with
      | none => rw [hc] at h; simp at h
      | some l' =>
        rw [hc] at h
        simp at h
        subst h
        have := ih (i + 1) l' hc
        simp; omega

theorem scratchStr_length (s : State) (l : List Nat) (h : s.scratchStr = some l) :
    l.length ≤ 2305843009213693952 := by
  have := cstrFrom_length _ _ _ _ h
  unfold FT_SCRATCH_SIZE at this
  omega

/-! ### Tokenizer -/

theorem scratch_put_pres (hQ : Stable Q) {s : State} (h : Q s) (c : Nat) :
    Q (s.scratch_put c).2 := by
  unfold State.scratch_put
  split
  · exact h
  · exact hQ.scr _ _ _ h

theorem bump_pres (hQ : Stable Q) {s : State} (h : Q s) (i : Nat) (t : Int) :
    Q { s with input_i := i, token_number := t } := hQ.inp s s.input s.input_size i t h

theorem wordLoop_pres (hQ : Stable Q) (l : List Nat) {s : State} (h : Q s) :
    Q (wordLoop l s).2 := by
  induction l generalizing s with
  | nil => exact h
  | cons c rest ih =>
    unfold wordLoop
    have h1 : Q { s with input_i := s.input_i + 1 } := bump_pres hQ h _ s.token_number
    simp only
    split
    · exact h1
    · have h2 := scratch_put_pres hQ h1 c
      generalize State.scratch_put _ c = r at h2 ⊢
      obtain ⟨e, s2⟩ := r
      simp only
      split
      · exact h2
      · exact ih h2

theorem tokLoop_pres (hQ : Stable Q) (l : List Nat) (b : Bool) {s : State} (h : Q s) :
    Q (tokLoop l b s).2.2 := by
  induction l generalizing s b with
  | nil => cases b <;> exact h
  | cons c rest ih =>
    have h1 : Q { s with input_i := s.input_i + 1 } := bump_pres hQ h _ s.token_number
    cases b
    · unfold tokLoop
      simp only
      split
      · split <;> exact bump_pres hQ h1 _ _
      · split
        · exact ih false h1
        · split
          · exact ih true h1
          · have h2 : Q { s with input_i := s.input_i + 1, scratch_i := 1,
                                 scratch := upd s.scratch 0 c } := hQ.scr _ _ _ h1
            have h3 := wordLoop_pres hQ rest h2
            generalize wordLoop rest _ = r at h3 ⊢
            obtain ⟨e, s3⟩ := r
            simp only
            split
            · exact h3
            · exact scratch_put_pres hQ h3 0
    · unfold tokLoop
      exact ih _ h1

theorem next_token_pres (hQ : Stable Q) {s : State} (h : Q s) : PresV Q s.next_token := by
  unfold State.next_token
  have := tokLoop_pres hQ s.remaining false h
  generalize tokLoop s.remaining false s = r at this ⊢
  obtain ⟨e, t, s'⟩ := r
  exact presV_ok this

end pres

end ft

namespace ft

open Error Token

section pres2

variable {Q : State → Prop}

/-! ### Built-in words -/

theorem binop_pres (hQ : Stable Q) (f : Int → Int → Int) {s : State} (h : Q s) :
    Pres Q (chkv s.pop fun a s => chkv s.pop fun b s => s.push (f a b)) := by
  apply pres_chkv (pop_pres hQ h); intro a s1 h1
  apply pres_chkv (pop_pres hQ h1); intro b s2 h2
  exact push_pres hQ h2 _

theorem w_colon_pres (hQ : Stable Q) {s : State} (h : Q s) : Pres Q (w_colon s) := by
  unfold w_colon
  apply pres_ite
  · intro _; exact pres_ok h
  · intro _
    simp only
    have h1 : Q ((s.setShared S_WORD_AVAILABLE 0).setShared S_COMPILING 1) :=
      setShared_pres hQ (setShared_pres hQ h _ _) _ _
    cases hn : ((s.setShared S_WORD_AVAILABLE 0).setShared S_COMPILING 1).scratchStr with
    | none => exact pres_ub
    | some name =>
      simp only
      apply pres_chkv (create_pres hQ h1 name (scratchStr_length _ _ hn))
      intro d s2 h2
      exact pres_ok (setShared_pres hQ h2 _ _)

theorem w_semi_pres (hQ : Stable Q) {s : State} (h : Q s) : Pres Q (w_semi s) := by
  unfold w_semi
  apply pres_chk (dict_put_pres hQ h _); intro s1 h1
  exact pres_ok (setShared_pres hQ (setShared_pres hQ h1 _ _) _ _)

theorem w_setflag_pres (hQ : Stable Q) (bit : Nat) {s : State} (h : Q s) :
    Pres Q (w_setflag bit s) := by
  unfold w_setflag
  simp only
  apply pres_ldv; intro fl
  apply pres_ite
  · intro _
    exact pres_stv (fun s2 hs2 => store_pres hQ h hs2) (fun s2 h2 => pres_ok h2)
  · intro _; exact pres_ok h

theorem w_comma_pres (hQ : Stable Q) {s : State} (h : Q s) : Pres Q (w_comma s) := by
  unfold w_comma
  apply pres_chkv (pop_pres hQ h); intro c s1 h1
  apply pres_chk (dict_put_pres hQ h1 _); intro s2 h2
  exact pres_ok h2

theorem putLocalSets_pres (hQ : Stable Q) (n : Nat) {s : State} (h : Q s) :
    Pres Q (putLocalSets n s) := by
  induction n generalizing s with
  | zero => exact pres_ok h
  | succ n ih =>
    unfold putLocalSets
    apply pres_chk (dict_put_pres hQ h _); intro s1 h1
    exact ih h1

theorem w_lbrace_pres (hQ : Stable Q) (fuel : Nat) {s : State} (h : Q s) :
    Pres Q (w_lbrace fuel s) := by
  unfold w_lbrace
  apply pres_ite
  · intro _; exact pres_ok h
  · intro _
    apply pres_ite
    · intro _
      apply pres_chk (putLocalSets_pres hQ _ h); intro s1 h1
      exact pres_ok (setShared_pres hQ (setShared_pres hQ h1 _ _) _ _)
    · intro _
      apply pres_chk (dict_put_pres hQ h _); intro s1 h1
      simp only
      apply pres_chk (dict_put_pres hQ h1 _); intro s2 h2
      cases hn : s2.scratchStr with
      | none => exact pres_ub
      | some name =>
        simp only
        apply pres_chkv (create_pres hQ h2 name (scratchStr_length _ _ hn)); intro d s3 h3
        apply pres_stv (fun s4 hs4 => store_pres hQ h3 hs4); intro s4 h4
        apply pres_chk (dict_put_pres hQ h4 _); intro s5 h5
        apply pres_chk (dict_put_pres hQ h5 _); intro s6 h6
        apply pres_chk (dict_put_cword_pres hQ h6 _ _); intro s7 h7
        apply pres_chk (dict_put_pres hQ h7 _); intro s8 h8
        apply pres_chk (dict_put_pres hQ h8 _); intro s9 h9
        apply pres_chk (dict_put_cword_pres hQ h9 _ _); intro s10 h10
        apply pres_chk (dict_put_pres hQ h10 _); intro s11 h11
        have h12 := setShared_pres hQ h11 S_LOCAL_COUNT (wrap (s11.shared S_LOCAL_COUNT + 1))
        apply pres_stv (fun s13 hs13 => store_pres hQ h12 hs13); intro s13 h13
        exact pres_ok (setShared_pres hQ h13 _ _)

theorem w_store_pres (hQ : Stable Q) {s : State} (h : Q s) : Pres Q (w_store s) := by
  unfold w_store
  apply pres_chkv (pop_pres hQ h); intro a s1 h1
  apply pres_chkv (pop_pres hQ h1); intro v s2 h2
  apply pres_ite
  · intro _; exact pres_ok h2
  · intro _
    exact pres_stv (fun s3 hs3 => store_pres hQ h2 hs3) (fun s3 h3 => pres_ok h3)

theorem w_fetch_pres (hQ : Stable Q) {s : State} (h : Q s) : Pres Q (w_fetch s) := by
  unfold w_fetch
  apply pres_chkv (pop_pres hQ h); intro a s1 h1
  apply pres_ite
  · intro _; exact pres_ok h1
  · intro _
    apply pres_ldv; intro v
    exact push_pres hQ h1 _

theorem w_swap_pres (hQ : Stable Q) {s : State} (h : Q s) : Pres Q (w_swap s) := by
  unfold w_swap
  apply pres_chkv (pop_pres hQ h); intro a s1 h1
  apply pres_chkv (pop_pres hQ h1); intro b s2 h2
  apply pres_chk (push_pres hQ h2 _); intro s3 h3
  exact push_pres hQ h3 _

theorem w_tick_pres (hQ : Stable Q) (fuel : Nat) {s : State} (h : Q s) :
    Pres Q (w_tick fuel s) := by
  unfold w_tick
  apply pres_ite
  · intro _; exact pres_ok h
  · intro _
    simp only
    have h1 : Q (s.setShared S_WORD_AVAILABLE 0) := setShared_pres hQ h _ _
    cases hn : (s.setShared S_WORD_AVAILABLE 0).scratchStr with
    | none => exact pres_ub
    | some name =>
      simp only
      apply pres_ldv; intro d
      apply pres_ite
      · intro _; exact pres_ok h1
      · intro _
        apply pres_ldv; intro fl
        apply pres_ite
        · intro _; exact pres_ok h1
        · intro _
          apply pres_ldv; intro body
          exact push_pres hQ h1 _

theorem w_decompile_pres (hQ : Stable Q) (fuel : Nat) {s : State} (h : Q s) :
    Pres Q (w_decompile fuel s) := by
  unfold w_decompile
  apply pres_chkv (pop_pres hQ h); intro a s1 h1
  split
  · exact pres_ok h1
  · exact pres_ub
  · exact pres_abort
  · exact pres_timeout

/-- Every built-in word preserves every stable predicate. -/
theorem prim_pres (hQ : Stable Q) (fuel : Nat) (p : Prim) {s : State} (h : Q s) :
    Pres Q (p.run fuel s) := by
  cases p
  case plus => exact binop_pres hQ (fun a b => wrap (b + a)) h
  case star => exact binop_pres hQ (fun a b => wrap (a * b)) h
  case minus => exact binop_pres hQ (fun a b => wrap (b - a)) h
  case gt => exact binop_pres hQ (fun a b => if b > a then -1 else 0) h
  case dot =>
    show Pres Q (w_dot s)
    unfold w_dot
    apply pres_chkv (pop_pres hQ h); intro a s1 h1
    exact pres_ok (hQ.out _ _ h1)
  case colon => exact w_colon_pres hQ h
  case semi => exact w_semi_pres hQ h
  case immediate => exact w_setflag_pres hQ _ h
  case compile_only => exact w_setflag_pres hQ _ h
  case comma => exact w_comma_pres hQ h
  case lbrace => exact w_lbrace_pres hQ fuel h
  case store => exact w_store_pres hQ h
  case here =>
    show Pres Q (w_here s)
    unfold w_here
    exact pres_ign (push_pres hQ h _) (fun s1 h1 => pres_ok h1)
  case WORD =>
    show Pres Q (w_WORD s)
    unfold w_WORD
    exact pres_ign (push_pres hQ h _) (fun s1 h1 => pres_ok h1)
  case fetch => exact w_fetch_pres hQ h
  case dup =>
    show Pres Q (w_dup s)
    unfold w_dup
    apply pres_chkv (pick_pres h _); intro c s1 h1
    exact push_pres hQ h1 _
  case drop => exact drop_pres hQ h 1
  case swap => exact w_swap_pres hQ h
  case tick => exact w_tick_pres hQ fuel h
  case decompile => exact w_decompile_pres hQ fuel h

theorem call_pres (hQ : Stable Q) (fuel : Nat) (cw : Int) {s : State} (h : Q s) :
    Pres Q (s.call fuel cw) := by
  unfold State.call
  split
  · exact prim_pres hQ fuel _ h
  · exact pres_ub

theorem want_pres (hQ : Stable Q) (fuel : Nat) (cw : Int) (e : Error) {s : State} (h : Q s) :
    Pres Q (s.want fuel cw e) := by
  induction fuel generalizing s e with
  | zero => exact pres_timeout
  | succ fuel ih =>
    unfold State.want
    apply pres_ite
    · intro _; exact pres_ok h
    · intro _
      apply pres_chkv (next_token_pres hQ h); intro tk s1 h1
      apply pres_ite
      · intro _; exact pres_ok h1
      · intro _
        have h2 := call_pres hQ fuel cw (setShared_pres hQ h1 S_WORD_AVAILABLE 1)
        generalize (s1.setShared S_WORD_AVAILABLE 1).call fuel cw = r at h2 ⊢
        cases r with
        | ok v => obtain ⟨e2, s2⟩ := v; exact ih e2 (h2 e2 s2 rfl)
        | ub => exact pres_ub
        | abort => exact pres_abort
        | timeout => exact pres_timeout

/-! ### Virtual machine -/

theorem errorf_pres (hQ : Stable Q) {s : State} (h : Q s) (e : Error) (msg : List Nat) :
    Q (s.errorf e msg).2 := hQ.scr _ _ _ h

theorem enter_presV (hQ : Stable Q)
    (hloc : ∀ (s : State) l, Q s → Q { s with locals := l })
    (run : State → Int → Nat → Res (Error × State))
    (hrun : ∀ s code ip, Q s → Pres Q (run s code ip)) {s : State} (h : Q s) (a : Int) :
    Pres Q (s.enter run a) := by
  unfold State.enter
  apply pres_ite
  · intro _
    unfold State.errorf
    exact pres_ok (hQ.scr _ _ _ h)
  · intro _
    simp only
    have h1 := hrun s (s.raddr_to_real a) 0 h
    generalize run s (s.raddr_to_real a) 0 = r at h1 ⊢
    cases r with
    | ok v => obtain ⟨e2, s2⟩ := v; exact pres_ok (hloc _ _ (h1 e2 s2 rfl))
    | ub => exact pres_ub
    | abort => exact pres_abort
    | timeout => exact pres_timeout

/-- The dispatch loop preserves every stable predicate that survives a change of the
locals stack. -/
theorem vm_presV (hQ : Stable Q) (hloc : ∀ (s : State) l, Q s → Q { s with locals := l })
    (fuel : Nat) {s : State} (h : Q s) (code : Int) (ip : Nat) :
    Pres Q (State.vm fuel s code ip) := by
  induction fuel generalizing s code ip with
  | zero => exact pres_timeout
  | succ fuel ih =>
    unfold State.vm
    apply pres_ldv; intro op
    apply pres_ite
    · intro _
      apply pres_ldv; intro n
      exact pres_ign (push_pres hQ h _) (fun s1 h1 => ih h1 _ _)
    intro _
    apply pres_ite
    · intro _
      apply pres_ldv; intro next
      exact pres_chk (enter_presV hQ hloc _ (fun s c i hs => ih hs c i) h _) (fun s1 h1 => ih h1 _ _)
    intro _
    apply pres_ite
    · intro _
      apply pres_ldv; intro hd
      apply pres_chkv (cword_get_pres h _); intro cw s1 h1
      exact pres_chk (call_pres hQ fuel cw h1) (fun s2 h2 => ih h2 _ _)
    intro _
    apply pres_ite
    · intro _; exact pres_ok h
    intro _
    apply pres_ite
    · intro _
      apply pres_ite
      · intro _; exact pres_ok h
      · intro _
        apply pres_ldv; intro label
        have h1 : Q { s with si := s.si - 1 } := hQ.stk s s.stack _ h
        simp only
        apply pres_ite
        · intro _
          apply pres_ite
          · intro _
            apply pres_ite
            · intro _; exact pres_ok h1
            · intro _; exact ih h1 _ _
          · intro _; exact ih h1 _ _
        · intro _; exact pres_ub
    intro _
    apply pres_ite
    · intro _
      apply pres_ldv; intro label
      apply pres_ite
      · intro _; exact pres_ok h
      · intro _; exact ih h _ _
    intro _
    apply pres_ite
    · intro _
      apply pres_ldv; intro loc
      simp only
      apply pres_ite
      · intro _
        exact pres_chk (push_pres hQ h _) (fun s1 h1 => ih h1 _ _)
      · intro _; exact pres_ub
    intro _
    apply pres_ite
    · intro _
      apply pres_chkv (pop_pres hQ h); intro val s1 h1
      split
      · apply pres_ite
        · intro _; exact pres_ok h1
        · intro _; exact ih (hloc _ _ h1) _ _
      · exact pres_ub
      · exact pres_abort
      · exact pres_timeout
    intro _
    apply pres_ite
    · intro _; exact pres_ok h
    · intro _; exact pres_ub

theorem exec_vm_presV (hQ : Stable Q)
    (hloc : ∀ (s : State) l, Q s → Q { s with locals := l })
    (fuel : Nat) {s : State} (h : Q s) (a : Int) : Pres Q (s.exec_vm fuel a) :=
  enter_presV hQ hloc _ (fun _ c i hs => vm_presV hQ hloc fuel hs c i) h a

theorem enter_pres (hQ : StableL Q) (run : State → Int → Nat → Res (Error × State))
    (hrun : ∀ s code ip, Q s → Pres Q (run s code ip)) {s : State} (h : Q s) (a : Int) :
    Pres Q (s.enter run a) :=
  enter_presV hQ.toStable hQ.loc run hrun h a

theorem vm_pres (hQ : StableL Q) (fuel : Nat) {s : State} (h : Q s) (code : Int) (ip : Nat) :
    Pres Q (State.vm fuel s code ip) :=
  vm_presV hQ.toStable hQ.loc fuel h code ip

theorem exec_vm_pres (hQ : StableL Q) (fuel : Nat) {s : State} (h : Q s) (a : Int) :
    Pres Q (s.exec_vm fuel a) :=
  exec_vm_presV hQ.toStable hQ.loc fuel h a

/-! ### Text interpreter -/

theorem exec_word_pres (hQ : Stable Q)
    (hvm : ∀ fuel (s : State) a, Q s → Pres Q (s.exec_vm fuel a))
    (fuel : Nat) {s : State} (h : Q s) : Pres Q (s.exec_word fuel) := by
  unfold State.exec_word
  cases hn : s.scratchStr with
  | none => exact pres_ub
  | some name =>
    simp only
    apply pres_ldv; intro word
    apply pres_ite
    · intro _
      apply pres_ldv; intro fl
      apply pres_ite
      · intro _; exact pres_ok h
      intro _
      apply pres_ite
      · intro _
        apply pres_ite
        · intro _
          apply pres_chk (dict_put_pres hQ h _); intro s1 h1
          apply pres_ldv; intro body
          apply pres_ldv; intro hd
          exact dict_put_pres hQ h1 _
        · intro _
          apply pres_chk (dict_put_pres hQ h _); intro s1 h1
          apply pres_ldv; intro body
          exact dict_put_pres hQ h1 _
      · intro _
        apply pres_ite
        · intro _
          apply pres_ldv; intro body
          apply pres_ldv; intro hd
          apply pres_chkv (cword_get_pres h _); intro cw s1 h1
          have h2 := call_pres hQ fuel cw h1
          generalize s1.call fuel cw = r at h2 ⊢
          cases r with
          | ok v =>
            obtain ⟨e2, s2⟩ := v
            exact pres_chk (want_pres hQ fuel cw e2 (h2 e2 s2 rfl)) (fun s3 h3 => pres_ok h3)
          | ub => exact pres_ub
          | abort => exact pres_abort
          | timeout => exact pres_timeout
        · intro _
          apply pres_ldv; intro body
          exact hvm fuel s _ h
    · intro _; exact pres_ok h

theorem interp_pres (hQ : Stable Q)
    (hvm : ∀ fuel (s : State) a, Q s → Pres Q (s.exec_vm fuel a))
    (fuel : Nat) {s : State} (h : Q s) (tk : Token) : Pres Q (State.interp fuel s tk) := by
  induction fuel generalizing s tk with
  | zero => exact pres_timeout
  | succ fuel ih =>
    unfold State.interp
    apply pres_ite
    · intro _; exact pres_ok h
    · intro _
      apply pres_chk
      · apply pres_ite
        · intro _
          apply pres_ite
          · intro _
            exact pres_ign (push_pres hQ h _) (fun s1 h1 => pres_ok h1)
          · intro _
            apply pres_ign (dict_put_pres hQ h _); intro s1 h1
            exact pres_ign (dict_put_pres hQ h1 _) (fun s2 h2 => pres_ok h2)
        · intro _
          exact exec_word_pres hQ hvm fuel h
      · intro s1 h1
        exact pres_chkv (next_token_pres hQ h1) (fun tk2 s2 h2 => ih h2 tk2)

theorem exec_pres (hQ : Stable Q)
    (hvm : ∀ fuel (s : State) a, Q s → Pres Q (s.exec_vm fuel a))
    (fuel : Nat) {s : State} (h : Q s) (t : List Nat) : Pres Q (s.exec fuel t) := by
  unfold State.exec
  simp only
  have h1 : Q { s with input := t, input_size := strlen t, input_i := 0 } :=
    hQ.inp s t (strlen t) 0 s.token_number h
  exact pres_chkv (next_token_pres hQ h1) (fun tk2 s2 h2 => interp_pres hQ hvm fuel h2 tk2)

/-- `defw` preserves every stable predicate that survives a push onto the native-word
table. -/
theorem defw_presP (hQ : Stable Q)
    (hp : ∀ (s : State) w cw, Q s → s.cwords.push w = .ok (E_OK, cw) →
      Q { s with cwords := cw })
    {s : State} (h : Q s) (name : List Nat) (fn : Int)
    (flags : Nat) (hl : name.length ≤ 2305843009213693952) : Pres Q (s.defw name fn flags) := by
  unfold State.defw
  apply pres_chkv (create_pres hQ h name hl); intro d s1 h1
  apply pres_stv (fun s2 hs2 => store_pres hQ h1 hs2); intro s2 h2
  simp only
  cases hpush : s2.cwords.push fn with
  | ok v =>
    obtain ⟨e, cw⟩ := v
    simp only
    apply pres_ite
    · intro _; exact pres_ok h2
    · intro he
      have he2 : e = E_OK := by simpa using he
      subst he2
      apply pres_chk (dict_put_pres hQ (hp s2 fn cw h2 hpush) _); intro s3 h3
      apply pres_ldv; intro body
      apply pres_ldv; intro hd
      apply pres_ldv; intro fl
      apply pres_ite
      · intro _; exact pres_ok h3
      · intro _; exact pres_abort
  | ub => exact pres_ub
  | abort => exact pres_abort
  | timeout => exact pres_timeout

theorem defw_pres (hQ : StableL Q) {s : State} (h : Q s) (name : List Nat) (fn : Int)
    (flags : Nat) (hl : name.length ≤ 2305843009213693952) : Pres Q (s.defw name fn flags) :=
  defw_presP hQ.toStable (fun _ _ _ h _ => hQ.cwd _ _ h) h name fn flags hl

end pres2

end ft

namespace ft

open Error Token

set_option maxRecDepth 100000

/-! ## Locals are unwound (claim C6) -/

theorem ok_of_errOf (r : Res (Error × State)) (e : Error) (d : State)
    (h : errOf r = some e) : r = .ok (e, stateOf r d) := by
  cases r with
  | ok v =>
    obtain ⟨e', s⟩ := v
    simp only [errOf, Option.some.injEq] at h
    subst h
    rfl
  | ub => simp [errOf] at h
  | abort => simp [errOf] at h
  | timeout => simp [errOf] at h

theorem enter_locals (run : State → Int → Nat → Res (Error × State)) (s : State) (a : Int)
    (e : Error) (s' : State) (h : s.enter run a = .ok (e, s')) : s'.locals.i = s.locals.i := by
  unfold State.enter at h
  split at h
  · unfold State.errorf at h
    injection h with h; injection h with _ h
    subst h; rfl
  · simp only at h
    split at h
    · injection h with h; injection h with _ h
      subst h; rfl
    · cases h
    · cases h
    · cases h

theorem stable_locals_i (c : Nat) : Stable (fun s => s.locals.i = c) where
  stk := fun _ _ _ h => h
  shr := fun _ _ h => h
  scr := fun _ _ _ h => h
  inp := fun _ _ _ _ _ h => h
  out := fun _ _ h => h
  mem := fun _ _ h => h
  allot := by
    intro s n _ _ h _
    rcases allot_cases s n with h1 | h1 <;> rw [h1] <;> exact h

/-- C6. Locals are fully unwound: for every engine state, arena content and start address,
when the VM executor `exec(raddr)` returns, with `E_OK` or with any error, `locals.i` equals
its value at entry; and when `exec(text)` over the built-in words returns, `locals.i` equals
its value before the call. -/
theorem locals_unwound (s : State) (fuel : Nat) :
    (∀ raddr e s', s.exec_vm fuel raddr = .ok (e, s') → s'.locals.i = s.locals.i) ∧
    (∀ text e s', s.exec fuel text = .ok (e, s') → s'.locals.i = s.locals.i) := by
  constructor
  · intro raddr e s' h
    exact enter_locals _ s raddr e s' h
  · intro text e s' h
    have hvm : ∀ fuel (t : State) a, t.locals.i = s.locals.i →
        Pres (fun u => u.locals.i = s.locals.i) (t.exec_vm fuel a) := by
      intro fuel t a ht e2 u hu
      rw [← ht]
      exact enter_locals _ t a e2 u hu
    exact exec_pres (stable_locals_i s.locals.i) hvm fuel rfl text e s' h

theorem locals_unwound_witness :
    (stateOf (localsDemo.exec_vm 100 1024) localsDemo).locals.i = localsDemo.locals.i ∧
      errOf (localsDemo.exec_vm 100 1024) = some E_OK ∧
      (stateOf (localsDemo.exec_vm 100 1024) localsDemo).stackList = [7] :=
  ⟨(locals_unwound localsDemo 100).1 1024 E_OK _ (ok_of_errOf _ _ _ (by decide!)),
    by decide!, by decide!⟩

/-! ## The arena cursor invariant (claim C7) -/

theorem stableL_hereInv (c M : Nat) (hM : M < 9223372036854775808) :
    StableL (HereInv c M) where
  stk := fun _ _ _ h => h
  shr := fun _ _ h => h
  scr := fun _ _ _ h => h
  inp := fun _ _ _ _ _ h => h
  out := fun _ _ h => h
  mem := fun _ _ h => h
  loc := fun _ _ h => h
  cwd := fun _ _ h => h
  allot := by
    intro s n _ hn h he
    obtain ⟨h1, h2, h3⟩ := h
    unfold State.allot at he ⊢
    have hlt : s.memory_i + n < 18446744073709551616 := by omega
    rw [Nat.mod_eq_of_lt hlt] at he ⊢
    split at he
    · cases he
    · rename_i hgt
      rw [if_neg hgt]
      exact ⟨h1, by simp; omega, by simp; omega⟩

/-- The `defw` calls of the constructor preserve a stable predicate that survives a push
onto the native-word table. -/
theorem defwAll_presP {Q : State → Prop} (hQ : Stable Q)
    (hp : ∀ (s : State) w cw, Q s → s.cwords.push w = .ok (E_OK, cw) →
      Q { s with cwords := cw })
    (l : List (List Nat × Prim × Nat)) (hl : ∀ x ∈ l, x.1.length ≤ 2305843009213693952)
    (s s' : State) (h : Q s) (hr : defwAll l s = .ok s') : Q s' := by
  induction l generalizing s with
  | nil =>
    unfold defwAll at hr
    injection hr with hr
    exact hr ▸ h
  | cons x rest ih =>
    obtain ⟨name, p, flags⟩ := x
    unfold defwAll at hr
    have h1 := defw_presP hQ hp h name p.fn flags (hl _ (List.mem_cons_self _ _))
    generalize s.defw name p.fn flags = r at h1 hr
    cases r with
    | ok v =>
      obtain ⟨e, s1⟩ := v
      exact ih (fun x hx => hl x (List.mem_cons_of_mem _ hx)) s1 (h1 e s1 rfl) hr
    | ub => cases hr
    | abort => cases hr
    | timeout => cases hr

theorem defwAll_pres {Q : State → Prop} (hQ : StableL Q)
    (l : List (List Nat × Prim × Nat)) (hl : ∀ x ∈ l, x.1.length ≤ 2305843009213693952)
    (s s' : State) (h : Q s) (hr : defwAll l s = .ok s') : Q s' :=
  defwAll_presP hQ.toStable (fun _ _ _ h _ => hQ.cwd _ _ h) l hl s s' h hr

theorem construct_pres {Q : State → Prop} (hQ : StableL Q) (cfg : StateConfig)
    (h : Q (State.zeroed cfg)) (s : State) (hr : State.construct cfg = .ok s) : Q s := by
  unfold State.construct at hr
  simp only at hr
  split at hr
  · rename_i e cw _
    refine defwAll_pres hQ builtins ?_ _ s (hQ.cwd _ cw h) hr
    decide!
  · cases hr
  · cases hr
  · cases hr

theorem reachable_hereInv (cfg : StateConfig) (hM : cfg.memory_size < 9223372036854775808)
    (s : State) (h : Reachable cfg s) : HereInv 0 cfg.memory_size s := by
  have hQ := stableL_hereInv 0 cfg.memory_size hM
  induction h with
  | init s hs =>
    exact construct_pres hQ cfg ⟨rfl, Nat.zero_le _, Nat.zero_le _⟩ s hs
  | exec s fuel text e s' _ hex ih =>
    exact exec_pres hQ.toStable (fun f t a ht => exec_vm_pres hQ f ht a) fuel ih text e s' hex
  | defw s name fn flags e s' _ hl hd ih =>
    exact defw_pres hQ ih name fn flags hl e s' hd

/-- C7. Arena cursor invariant: in every state reachable from construction by any sequence of
`exec(text)` and `defw` calls, whether they succeed or fail, `here <= M` holds (`0 <= here`
holds by type), and no such call decreases `here`. -/
theorem here_invariant (cfg : StateConfig) (hM : cfg.memory_size < 9223372036854775808) :
    (∀ s, Reachable cfg s → 0 ≤ s.memory_i ∧ s.memory_i ≤ s.memory_size ∧
      s.memory_size = cfg.memory_size) ∧
    (∀ s, Reachable cfg s → ∀ fuel text e s', s.exec fuel text = .ok (e, s') →
      s.memory_i ≤ s'.memory_i) ∧
    (∀ s, Reachable cfg s → ∀ name fn flags e s', name.length ≤ 2305843009213693952 →
      s.defw name fn flags = .ok (e, s') → s.memory_i ≤ s'.memory_i) := by
  refine ⟨?_, ?_, ?_⟩
  · intro s h
    obtain ⟨h1, _, h3⟩ := reachable_hereInv cfg hM s h
    exact ⟨Nat.zero_le _, by omega, h1⟩
  · intro s h fuel text e s' hex
    obtain ⟨h1, _, h3⟩ := reachable_hereInv cfg hM s h
    have hQ := stableL_hereInv s.memory_i cfg.memory_size hM
    exact (exec_pres hQ.toStable (fun f t a ht => exec_vm_pres hQ f ht a) fuel
      ⟨h1, le_refl _, h3⟩ text e s' hex).2.1
  · intro s h name fn flags e s' hl hd
    obtain ⟨h1, _, h3⟩ := reachable_hereInv cfg hM s h
    have hQ := stableL_hereInv s.memory_i cfg.memory_size hM
    exact (defw_pres hQ ⟨h1, le_refl _, h3⟩ name fn flags hl e s' hd).2.1

theorem construct_fresh (cfg : StateConfig) (h : errOf
    (match State.construct cfg with
     | .ok s => (.ok (E_OK, s) : Res (Error × State))
     | _ => .ub) = some E_OK) : State.construct cfg = .ok (State.fresh cfg) := by
  unfold State.fresh
  cases hc : State.construct cfg with
  | ok s => rfl
  | ub => rw [hc] at h; simp [errOf] at h
  | abort => rw [hc] at h; simp [errOf] at h
  | timeout => rw [hc] at h; simp [errOf] at h

theorem here_invariant_witness :
    (State.fresh replCfg).memory_i ≤
      (stateOf ((State.fresh replCfg).exec 100 (str ": sq dup * ;"))
        (State.fresh replCfg)).memory_i :=
  (here_invariant replCfg (by decide!)).2.1 (State.fresh replCfg)
    (Reachable.init _ (construct_fresh replCfg (by decide!))) 100 (str ": sq dup * ;") E_OK _
    (ok_of_errOf _ _ _ (by decide!))

end ft

namespace ft

open Error Token

/-! ## The dictionary: names, chains, lookup -/

theorem chain_cons_iff (m : Nat → Nat) (base : Int) (bound : Nat) (p : Int) (e : Entry)
    (es : List Entry) :
    Chain m base bound p (e :: es) ↔
      (p = base + e.off ∧ e.body ≤ bound ∧ (∀ c ∈ e.name, c ≠ 0) ∧ e.name.length < 4611686018427387904 ∧
        EntryAt m e ∧ Chain m base bound (rdCell m e.off) es) := by
  rw [Chain]

theorem chain_nil_iff (m : Nat → Nat) (base : Int) (bound : Nat) (p : Int) :
    Chain m base bound p [] ↔ p = 0 := by
  rw [Chain]

theorem align8_ge (n : Nat) : n ≤ align CELL n := by
  unfold align CELL
  omega

theorem align8_mod (n : Nat) : align CELL n % 8 = 0 := by
  unfold align CELL
  omega

theorem rdBytes_succ (m : Nat → Nat) (a k : Nat) :
    rdBytes m a (k + 1) = m a :: rdBytes m (a + 1) k := rfl

/-- `strcmp` of a stored name with a C string: equality of the two strings. -/
theorem strEq_spec (s : State) (off : Nat) (nm name : List Nat)
    (hb : rdBytes s.mem off (nm.length + 1) = nm ++ [0])
    (hin : off + nm.length + 1 ≤ s.memory_size)
    (hnm : ∀ c ∈ nm, c ≠ 0) (hname : ∀ c ∈ name, c ≠ 0) :
    s.strEq (s.memory + off) name = .ok (decide (nm = name)) := by
  induction name generalizing off nm with
  | nil =>
    unfold State.strEq
    rw [loadByte_at s _ off rfl (by omega)]
    cases nm with
    | nil =>
      simp only [List.length_nil, Nat.zero_add, rdBytes_succ, List.nil_append] at hb
      injection hb with hb _
      simp [hb]
    | cons b bs =>
      simp only [List.length_cons, rdBytes_succ, List.cons_append] at hb
      injection hb with hb _
      have := hnm b (List.mem_cons_self _ _)
      simp [hb, this]
  | cons c cs ih =>
    unfold State.strEq
    rw [loadByte_at s _ off rfl (by omega)]
    cases nm with
    | nil =>
      simp only [List.length_nil, Nat.zero_add, rdBytes_succ, List.nil_append] at hb
      injection hb with hb _
      have := hname c (List.mem_cons_self _ _)
      simp only [hb]
      rw [if_neg (by omega)]
      simp
    | cons b bs =>
      simp only [List.length_cons, rdBytes_succ, List.cons_append] at hb
      injection hb with hb1 hb2
      simp only [hb1]
      by_cases hbc : b = c
      · rw [if_pos hbc]
        have := ih (off + 1) bs hb2 (by simp at hin; omega)
          (fun x hx => hnm x (List.mem_cons_of_mem _ hx))
          (fun x hx => hname x (List.mem_cons_of_mem _ hx))
        have e : s.memory + (off : Int) + 1 = s.memory + ((off + 1 : Nat) : Int) := by
          push_cast; ring
        rw [e, this]
        simp [hbc]
      · rw [if_neg hbc]
        simp [hbc]

theorem entry_name_in (e : Entry) : e.off + 24 + e.name.length + 1 ≤ e.body := by
  unfold Entry.body SIZEOF_DICTENTRY
  have := align8_ge (e.name.length + 1)
  omega

theorem entry_hdr_in (e : Entry) : e.off + 32 ≤ e.body := by
  unfold Entry.body SIZEOF_DICTENTRY
  omega

/-- The header of an entry only depends on the arena bytes of the entry. -/
theorem entryAt_frame (m m2 : Nat → Nat) (e : Entry) (h : EntryAt m e)
    (hm : ∀ i, i < e.body → m2 i = m i) :
    EntryAt m2 e ∧ rdCell m2 e.off = rdCell m e.off := by
  have hin := entry_name_in e
  have hhd := entry_hdr_in e
  have c0 : rdCell m2 e.off = rdCell m e.off := by
    apply rdCell_congr; intro i hi1 hi2; apply hm; omega
  have c8 : rdCell m2 (e.off + 8) = rdCell m (e.off + 8) := by
    clear c0
    apply rdCell_congr; intro i hi1 hi2; apply hm; omega
  have c16 : rdCell m2 (e.off + 16) = rdCell m (e.off + 16) := by
    clear c0 c8
    apply rdCell_congr; intro i hi1 hi2; apply hm; omega
  have cn : rdBytes m2 (e.off + 24) (e.name.length + 1) =
      rdBytes m (e.off + 24) (e.name.length + 1) := by
    clear c0 c8 c16
    apply rdBytes_congr; intro i hi1 hi2; apply hm; omega
  refine ⟨?_, c0⟩
  unfold EntryAt at h ⊢
  rw [c8, c16, cn]
  exact h

/-- A chain only depends on the arena bytes below its bound. -/
theorem chain_frame (m m2 : Nat → Nat) (base : Int) (bound bound2 : Nat) (p : Int)
    (L : List Entry) (h : Chain m base bound p L) (hm : ∀ i, i < bound → m2 i = m i)
    (hb : bound ≤ bound2) : Chain m2 base bound2 p L := by
  induction L generalizing p with
  | nil => rw [chain_nil_iff] at h ⊢; exact h
  | cons e es ih =>
    rw [chain_cons_iff] at h ⊢
    obtain ⟨h1, h2, h6, h7, hE, h8⟩ := h
    have hlt : ∀ i, i < e.body → m2 i = m i := fun i hi => hm i (by omega)
    obtain ⟨hE2, c0⟩ := entryAt_frame m m2 e hE hlt
    rw [c0]
    exact ⟨h1, by omega, h6, h7, hE2, ih _ h8⟩

theorem findEntry_cons_eq (name : List Nat) (e : Entry) (es : List Entry)
    (h : e.name = name) : findEntry name (e :: es) = some e := by
  simp [findEntry, List.find?, h]

theorem findEntry_cons_ne (name : List Nat) (e : Entry) (es : List Entry)
    (h : ¬ e.name = name) : findEntry name (e :: es) = findEntry name es := by
  have : (e.name == name) = false := by simpa using h
  simp [findEntry, List.find?, this]

/-- `lookup` on a represented dictionary: the newest entry with the name, or null. -/
theorem lookupFrom_spec (s : State) (name : List Nat) (L : List Entry) (p : Int)
    (fuel : Nat) (hc : Chain s.mem s.memory s.memory_i p L)
    (hbase : 0 < s.memory) (hhere : s.memory_i ≤ s.memory_size)
    (hname : ∀ c ∈ name, c ≠ 0) (hf : L.length < fuel) :
    s.lookupFrom name fuel p = .ok (entryPtr s.memory (findEntry name L)) := by
  induction L generalizing p fuel with
  | nil =>
    obtain ⟨f, rfl⟩ : ∃ f, fuel = f + 1 := ⟨fuel - 1, by simp at hf; omega⟩
    rw [chain_nil_iff] at hc
    unfold State.lookupFrom
    simp [hc, findEntry, entryPtr]
  | cons e es ih =>
    obtain ⟨f, rfl⟩ : ∃ f, fuel = f + 1 := ⟨fuel - 1, by simp at hf; omega⟩
    rw [chain_cons_iff] at hc
    obtain ⟨h1, h2, h6, h7, hE, h8⟩ := hc
    have hin := entry_name_in e
    have hhd := entry_hdr_in e
    have hp0 : ¬ p = 0 := by omega
    have e1 : p + OFF_NAME = s.memory + ((e.off + 24 : Nat) : Int) := by
      unfold OFF_NAME; push_cast; omega
    have e2 : p + OFF_PREVIOUS = s.memory + (e.off : Int) := by
      unfold OFF_PREVIOUS; omega
    have b1 : e.off + 24 + e.name.length + 1 ≤ s.memory_size := by omega
    have b2 : e.off + 8 ≤ s.memory_size := by omega
    have hfl : es.length < f := by simp at hf; omega
    unfold State.lookupFrom
    rw [if_neg hp0, e1, strEq_spec s (e.off + 24) e.name name hE.2.2 b1 h6 hname]
    by_cases hn : e.name = name
    · rw [findEntry_cons_eq name e es hn]
      simp only [hn, decide_True]
      simp [entryPtr, h1]
    · rw [findEntry_cons_ne name e es hn]
      simp only [hn, decide_False]
      rw [e2, load_at s _ e.off rfl b2, ldv_ok, ih _ f h8 hfl]

end ft

namespace ft

open Error Token

/-! ## The tokenizer on a text of tokens separated by single spaces -/

theorem unwords_cons (t : List Nat) (ts : List (List Nat)) :
    unwords (t :: ts) = t ++ (if ts = [] then [] else 32 :: unwords ts) := by
  cases ts with
  | nil => simp [unwords]
  | cons u us => simp [unwords]

theorem retok_self (s : State) : s.retok s.input_i s.token_number s.scratch s.scratch_i = s := rfl

theorem retok_retok (s : State) (i i2 : Nat) (n n2 : Int) (sc sc2 : Nat → Nat) (k k2 : Nat) :
    (s.retok i n sc k).retok i2 n2 sc2 k2 = s.retok i2 n2 sc2 k2 := rfl

theorem remaining_retok (s : State) (n : Int) (sc : Nat → Nat) (k : Nat) (j : Nat) :
    (s.retok (s.input_i + j) n sc k).remaining = s.remaining.drop j := by
  simp only [State.remaining, State.retok, List.drop_drop]

theorem numLoop_append_aux (ds : List Nat) (n : Int) (k : Nat) :
    (numLoop ds n k).1 = (numLoop ds n 0).1 := by
  induction ds generalizing n k with
  | nil => simp [numLoop]
  | cons d ds ih =>
    rw [numLoop, numLoop]
    split
    · rw [ih, ih _ (0 + 1)]
    · rfl

theorem numLoop_cons (c : Nat) (l : List Nat) (n : Int) (k : Nat) (h : isdigit c = true) :
    numLoop (c :: l) n k = numLoop l (wrap (wrap (n * 10) + ((c : Int) - 48))) (k + 1) := by
  rw [numLoop, if_pos h]

theorem numLoop_stop (c : Nat) (l : List Nat) (n : Int) (k : Nat) (h : isdigit c = false) :
    numLoop (c :: l) n k = (n, k) := by
  rw [numLoop, if_neg (by simp [h])]

theorem numLoop_append (ds rest : List Nat) (n : Int) (k : Nat)
    (hd : ∀ c ∈ ds, isdigit c = true)
    (hr : rest = [] ∨ ∃ c r, rest = c :: r ∧ isdigit c = false) :
    numLoop (ds ++ rest) n k = ((numLoop ds n 0).1, k + ds.length) := by
  induction ds generalizing n k with
  | nil =>
    rcases hr with rfl | ⟨c, r, rfl, hc⟩
    · simp [numLoop]
    · rw [List.nil_append, numLoop_stop _ _ _ _ hc]; simp [numLoop]
  | cons d ds ih =>
    have h1 : isdigit d = true := hd d (List.mem_cons_self _ _)
    have h2 : ∀ c ∈ ds, isdigit c = true := fun c hc => hd c (List.mem_cons_of_mem _ hc)
    rw [List.cons_append, numLoop_cons _ _ _ _ h1, numLoop_cons _ _ _ _ h1, ih _ _ h2]
    have e := ih (wrap (wrap (n * 10) + ((d : Int) - 48))) (0 + 1) h2
    have e2 := numLoop_append_aux ds (wrap (wrap (n * 10) + ((d : Int) - 48))) (0 + 1)
    rw [e2]
    simp only [List.length_cons]
    congr 1
    omega

theorem tokLoop_neg (d : Nat) (l : List Nat) (s : State) (hd : isdigit d = true) :
    tokLoop (45 :: d :: l) false s =
      (E_OK, TK_NUMBER, s.retok (s.input_i + 1 + 1 + (numLoop l ((d : Int) - 48) 0).2)
        (wrap (-(numLoop l ((d : Int) - 48) 0).1)) s.scratch s.scratch_i) := by
  simp only [tokLoop, hd, beq_self_eq_true, Bool.and_self, Bool.true_or, if_true,
    List.headD_cons, List.tail_cons]
  rfl

theorem tokLoop_pos (c : Nat) (l : List Nat) (s : State) (hc : isdigit c = true) :
    tokLoop (c :: l) false s =
      (E_OK, TK_NUMBER, s.retok (s.input_i + 1 + 0 + (numLoop l ((c : Int) - 48) 0).2)
        (numLoop l ((c : Int) - 48) 0).1 s.scratch s.scratch_i) := by
  have h45 : (c == 45) = false := by
    have := (isdigit_iff c).mp hc
    simp; omega
  simp only [tokLoop, hc, h45, Bool.false_and, Bool.false_or, if_true, Bool.false_eq_true,
    if_false]
  rfl

/-- The tokenizer on a number token that is followed by the end of the text or by a byte that
is not a digit. -/
theorem tokLoop_num (t rest : List Nat) (s : State) (ht : isNumTok t = true)
    (hr : rest = [] ∨ ∃ c r, rest = c :: r ∧ isdigit c = false) :
    tokLoop (t ++ rest) false s =
      (E_OK, TK_NUMBER, s.retok (s.input_i + t.length) (numVal t) s.scratch s.scratch_i) := by
  cases t with
  | nil => simp [isNumTok] at ht
  | cons c ds =>
    by_cases hc : c = 45
    · subst hc
      cases ds with
      | nil => simp [isNumTok, isdigit] at ht
      | cons d ds =>
        have hd : isdigit d = true ∧ ∀ x ∈ ds, isdigit x = true := by
          simpa [isNumTok, isdigit] using ht
        rw [List.cons_append, List.cons_append, tokLoop_neg _ _ _ hd.1,
          numLoop_append ds rest _ 0 hd.2 hr]
        simp only [numVal, beq_self_eq_true, if_true, List.headD_cons, List.tail_cons,
          List.length_cons]
        congr 3
        omega
    · have hd : isdigit c = true ∧ ∀ x ∈ ds, isdigit x = true := by
        simpa [isNumTok, hc] using ht
      have hc2 : (c == 45) = false := by simpa using hc
      rw [List.cons_append, tokLoop_pos _ _ _ hd.1, numLoop_append ds rest _ 0 hd.2 hr]
      simp only [numVal, hc2, List.length_cons, Bool.false_eq_true, if_false]
      congr 3
      omega

theorem wrBytes_upd_cons (m : Nat → Nat) (a c : Nat) (w : List Nat) :
    wrBytes (upd m a c) (a + 1) w = wrBytes m a (c :: w) := by
  funext i
  unfold wrBytes upd
  by_cases h1 : a + 1 ≤ i
  · by_cases h2 : i - (a + 1) < w.length
    · rw [if_pos ⟨h1, h2⟩, if_pos ⟨by omega, by simp; omega⟩]
      have : i - a = (i - (a + 1)) + 1 := by omega
      rw [this]; simp
    · rw [if_neg (by tauto), if_neg (by omega), if_neg (by simp; omega)]
  · rw [if_neg (by tauto)]
    by_cases h3 : i = a
    · subst h3; simp
    · rw [if_neg h3, if_neg (by omega)]

theorem wrBytes_nil (m : Nat → Nat) (a : Nat) : wrBytes m a [] = m := by
  funext i; simp [wrBytes]

theorem wordLoop_cons (c : Nat) (l : List Nat) (s : State) (h1 : isspace c = false)
    (h3 : s.scratch_i < 512) :
    wordLoop (c :: l) s =
      wordLoop l { s with input_i := s.input_i + 1, scratch := upd s.scratch s.scratch_i c,
                          scratch_i := s.scratch_i + 1 } := by
  have h4 : ¬ s.scratch_i = FT_SCRATCH_SIZE := by unfold FT_SCRATCH_SIZE; omega
  simp only [wordLoop, h1, State.scratch_put, h4, if_false, ne_eq, not_true_eq_false,
    Bool.false_eq_true]

theorem wordLoop_space (c : Nat) (l : List Nat) (s : State) (h : isspace c = true) :
    wordLoop (c :: l) s = (E_OK, { s with input_i := s.input_i + 1 }) := by
  simp [wordLoop, h]

theorem wordLoop_full (c : Nat) (l : List Nat) (s : State) (h1 : isspace c = false)
    (h3 : s.scratch_i = 512) :
    wordLoop (c :: l) s = (E_OUT_OF_SCRATCH, { s with input_i := s.input_i + 1 }) := by
  have h4 : s.scratch_i = FT_SCRATCH_SIZE := h3
  simp [wordLoop, h1, State.scratch_put, h4]

theorem tokLoop_wordStart (c : Nat) (l : List Nat) (s : State)
    (hcond : ((c == 45 && (match l with
                    | d :: _ => isdigit d
                    | [] => false)) || isdigit c) = false)
    (h3 : isspace c = false) (h2 : c ≠ 92) :
    tokLoop (c :: l) false s =
      match wordLoop l { s with input_i := s.input_i + 1, scratch_i := 1,
                                scratch := upd s.scratch 0 c } with
      | (e, s) =>
        if e ≠ E_OK then (e, TK_WORD, s)
        else
          match s.scratch_put 0 with
          | (e, s) => (e, TK_WORD, s) := by
  have hbs : (c == 92) = false := by simpa using h2
  simp only [tokLoop]
  split
  · rename_i h
    exact absurd (h.symm.trans hcond) (by decide)
  · simp only [h3, hbs, Bool.false_eq_true, if_false]

/-- The word loop on a run of bytes that are not whitespace and fit the scratch buffer,
followed by the end of the text or by whitespace. -/
theorem wordLoop_run (w rest : List Nat) (s : State)
    (hw : ∀ c ∈ w, isspace c = false) (hfit : s.scratch_i + w.length ≤ 512)
    (hr : rest = [] ∨ ∃ c r, rest = c :: r ∧ isspace c = true) :
    wordLoop (w ++ rest) s =
      (E_OK, s.retok (s.input_i + w.length + (if rest = [] then 0 else 1)) s.token_number
        (wrBytes s.scratch s.scratch_i w) (s.scratch_i + w.length)) := by
  induction w generalizing s with
  | nil =>
    rcases hr with rfl | ⟨c, r, rfl, hc⟩
    · simp [wordLoop, wrBytes_nil, State.retok]
    · rw [List.nil_append, wordLoop_space _ _ _ hc]
      simp [wrBytes_nil, State.retok]
  | cons c w ih =>
    have h1 : isspace c = false := hw c (List.mem_cons_self _ _)
    have h2 : ∀ x ∈ w, isspace x = false := fun x hx => hw x (List.mem_cons_of_mem _ hx)
    simp only [List.length_cons] at hfit
    rw [List.cons_append, wordLoop_cons _ _ _ h1 (by omega), ih _ h2 (by simp; omega)]
    simp only [State.retok, wrBytes_upd_cons, List.length_cons]
    have e1 : s.input_i + 1 + w.length + (if rest = [] then 0 else 1)
        = s.input_i + (w.length + 1) + (if rest = [] then 0 else 1) := by omega
    have e2 : s.scratch_i + 1 + w.length = s.scratch_i + (w.length + 1) := by omega
    rw [e1, e2]

/-- The word loop on a run that does not fit what is left of the scratch buffer: it stops
with `E_OUT_OF_SCRATCH`, and no byte at or beyond the end of the buffer was written. -/
theorem wordLoop_long (w rest : List Nat) (s : State)
    (hw : ∀ c ∈ w, isspace c = false) (h1 : s.scratch_i ≤ 512)
    (h2 : 512 < s.scratch_i + w.length) :
    (wordLoop (w ++ rest) s).1 = E_OUT_OF_SCRATCH ∧
      ∀ i, 512 ≤ i → (wordLoop (w ++ rest) s).2.scratch i = s.scratch i := by
  induction w generalizing s with
  | nil => simp at h2; omega
  | cons c w ih =>
    have hc : isspace c = false := hw c (List.mem_cons_self _ _)
    have hw2 : ∀ x ∈ w, isspace x = false := fun x hx => hw x (List.mem_cons_of_mem _ hx)
    simp only [List.length_cons] at h2
    by_cases hfull : s.scratch_i = 512
    · rw [List.cons_append, wordLoop_full _ _ _ hc hfull]
      exact ⟨rfl, fun _ _ => rfl⟩
    · rw [List.cons_append, wordLoop_cons _ _ _ hc (by omega)]
      obtain ⟨r1, r2⟩ := ih
        { s with
          input_i := s.input_i + 1,
          scratch := upd s.scratch s.scratch_i c,
          scratch_i := s.scratch_i + 1 } hw2
        (by simp only []; omega) (by simp only []; omega)
      refine ⟨r1, fun i hi => ?_⟩
      rw [r2 i hi]
      exact upd_other _ _ _ _ (by omega)

theorem cstrFrom_wrBytes (m : Nat → Nat) (t : List Nat) (a n : Nat) (ht : ∀ c ∈ t, c ≠ 0)
    (hn : t.length < n) : cstrFrom (wrBytes m a (t ++ [0])) a n = some t := by
  induction t generalizing m a n with
  | nil =>
    cases n with
    | zero => simp at hn
    | succ n => simp [cstrFrom, wrBytes]
  | cons c t ih =>
    cases n with
    | zero => simp at hn
    | succ n =>
      have hc : c ≠ 0 := ht c (List.mem_cons_self _ _)
      have h2 : ∀ x ∈ t, x ≠ 0 := fun x hx => ht x (List.mem_cons_of_mem _ hx)
      have e1 : wrBytes m a (c :: t ++ [0]) a = c := by simp [wrBytes]
      simp only [cstrFrom, e1, hc, if_false]
      rw [List.cons_append, ← wrBytes_upd_cons, ih _ _ _ h2 (by simpa using hn)]
      rfl

theorem isspace_not_digit (c : Nat) (h : isspace c = true) : isdigit c = false := by
  unfold isspace at h
  unfold isdigit
  simp only [Bool.or_eq_true, beq_iff_eq, Bool.and_eq_true, decide_eq_true_eq] at h
  simp only [Bool.and_eq_false_imp, decide_eq_true_eq, decide_eq_false_iff_not]
  omega

theorem isWordRun_spec (t next : List Nat) (h : isWordRun t next = true) :
    ∃ c w, t = c :: w ∧ isspace c = false ∧ c ≠ 92 ∧
      ((c == 45 && (match w ++ next with
                    | d :: _ => isdigit d
                    | [] => false)) || isdigit c) = false ∧
      (∀ x ∈ w, isspace x = false) := by
  cases t with
  | nil => simp [isWordRun] at h
  | cons c w =>
    refine ⟨c, w, rfl, ?_⟩
    simp only [isWordRun, Bool.and_eq_true, Bool.not_eq_true', List.all_cons,
      beq_eq_false_iff_ne, ne_eq, List.all_eq_true] at h
    obtain ⟨⟨⟨h1, h2⟩, h3⟩, h4, h6⟩ := h
    exact ⟨h4, h2, by rw [h1, Bool.or_false]; exact h3, h6⟩

theorem isWordTok_run (t next : List Nat) (h : isWordTok t = true)
    (hn : next = [] ∨ ∃ c r, next = c :: r ∧ isspace c = true) :
    isWordRun t next = true ∧ (∀ c ∈ t, c ≠ 0) ∧ t.length ≤ 511 := by
  cases t with
  | nil => simp [isWordTok] at h
  | cons c w =>
    simp only [isWordTok, Bool.and_eq_true, Bool.not_eq_true', List.all_cons,
      decide_eq_true_eq, List.length_cons, bne_iff_ne, ne_eq, beq_eq_false_iff_ne,
      List.all_eq_true] at h
    obtain ⟨⟨⟨⟨h1, h2⟩, h3⟩, ⟨h4, h5⟩, h6⟩, h7⟩ := h
    refine ⟨?_, ?_, by simpa using h7⟩
    · simp only [isWordRun, Bool.and_eq_true, Bool.not_eq_true', List.all_cons,
        beq_eq_false_iff_ne, ne_eq, List.all_eq_true]
      refine ⟨⟨⟨h1, h2⟩, ?_⟩, h4, fun x hx => (h6 x hx).1⟩
      cases w with
      | nil =>
        rcases hn with rfl | ⟨d, r, rfl, hd⟩
        · simp
        · simp [isspace_not_digit d hd]
      | cons d r => simpa using h3
    · intro x hx
      rcases List.mem_cons.mp hx with rfl | hx
      · exact h5
      · exact (h6 x hx).2

theorem upd_wrBytes_snoc (m : Nat → Nat) (c : Nat) (w : List Nat) :
    upd (wrBytes (upd m 0 c) 1 w) (1 + w.length) 0 = wrBytes m 0 (c :: (w ++ [0])) := by
  rw [← wrBytes_upd_cons]
  funext i
  unfold upd wrBytes
  by_cases hi : i = 1 + w.length
  · subst hi
    simp
  · rw [if_neg hi]
    by_cases h10 : 0 + 1 ≤ i ∧ i - (0 + 1) < w.length
    · rw [if_pos (by simpa using h10), if_pos (by simp; omega)]
      rw [List.getD_append _ _ _ _ (by omega)]
    · rw [if_neg (by simpa using h10), if_neg (by simp; omega)]

/-- The tokenizer on a word run that fits the scratch buffer with its NUL, followed by the
end of the text or by whitespace. -/
theorem tokLoop_run (t rest : List Nat) (s : State) (ht : isWordRun t rest = true)
    (hlen : t.length ≤ 511)
    (hr : rest = [] ∨ ∃ c r, rest = c :: r ∧ isspace c = true) :
    tokLoop (t ++ rest) false s =
      (E_OK, TK_WORD, s.retok (s.input_i + t.length + (if rest = [] then 0 else 1))
        s.token_number (wrBytes s.scratch 0 (t ++ [0])) (t.length + 1)) := by
  obtain ⟨c, w, rfl, h3, h2, hcond, h6⟩ := isWordRun_spec t rest ht
  simp only [List.length_cons] at hlen
  rw [List.cons_append, tokLoop_wordStart _ _ _ hcond h3 h2,
    wordLoop_run w rest _ h6 (by simp only []; omega) hr]
  have h9 : ¬ (1 + w.length = FT_SCRATCH_SIZE) := by unfold FT_SCRATCH_SIZE; omega
  simp only [State.retok, State.scratch_put, ne_eq, not_true_eq_false, if_false, h9,
    List.length_cons]
  rw [upd_wrBytes_snoc]
  congr 3
  · congr 1
    omega
  · omega

/-- The tokenizer on a word run that does not fit the scratch buffer with its NUL: it
returns `E_OUT_OF_SCRATCH`, and no byte at or beyond the end of the buffer was written. -/
theorem tokLoop_long (t rest : List Nat) (s : State) (ht : isWordRun t rest = true)
    (hlen : 512 ≤ t.length)
    (hr : rest = [] ∨ ∃ c r, rest = c :: r ∧ isspace c = true) :
    (tokLoop (t ++ rest) false s).1 = E_OUT_OF_SCRATCH ∧
      ∀ i, 512 ≤ i → (tokLoop (t ++ rest) false s).2.2.scratch i = s.scratch i := by
  obtain ⟨c, w, rfl, h3, h2, hcond, h6⟩ := isWordRun_spec t rest ht
  simp only [List.length_cons] at hlen
  rw [List.cons_append, tokLoop_wordStart _ _ _ hcond h3 h2]
  by_cases hw : w.length = 511
  · rw [wordLoop_run w rest _ h6 (by simp only []; omega) hr]
    have h9 : (1 + w.length = FT_SCRATCH_SIZE) := by unfold FT_SCRATCH_SIZE; omega
    simp only [State.retok, State.scratch_put, ne_eq, not_true_eq_false, if_false, h9,
      if_true]
    refine ⟨trivial, fun i hi => ?_⟩
    rw [wrBytes_outside _ _ _ _ (by omega)]
    exact upd_other _ _ _ _ (by omega)
  · obtain ⟨r1, r2⟩ := wordLoop_long w rest
      { s with input_i := s.input_i + 1, scratch_i := 1, scratch := upd s.scratch 0 c } h6
      (by simp only []; omega) (by simp only []; omega)
    have hne : (wordLoop (w ++ rest)
        { s with input_i := s.input_i + 1, scratch_i := 1, scratch := upd s.scratch 0 c }).1
          ≠ E_OK := by rw [r1]; decide
    generalize hx : wordLoop (w ++ rest)
        { s with input_i := s.input_i + 1, scratch_i := 1, scratch := upd s.scratch 0 c } = x
      at r1 r2 hne
    obtain ⟨e, s2⟩ := x
    simp only [] at r1 r2 hne
    simp only [hne, ne_eq, not_false_eq_true, if_true]
    refine ⟨r1, fun i hi => ?_⟩
    rw [r2 i hi]
    exact upd_other _ _ _ _ (by omega)

/-- The tokenizer on a word token that is followed by the end of the text or by a space. -/
theorem tokLoop_word (t rest : List Nat) (s : State) (ht : isWordTok t = true)
    (hr : rest = [] ∨ ∃ r, rest = 32 :: r) :
    tokLoop (t ++ rest) false s =
      (E_OK, TK_WORD, s.retok (s.input_i + t.length + (if rest = [] then 0 else 1))
        s.token_number (wrBytes s.scratch 0 (t ++ [0])) (t.length + 1)) := by
  have hr2 : rest = [] ∨ ∃ c r, rest = c :: r ∧ isspace c = true := by
    rcases hr with h | ⟨r, h⟩
    · exact Or.inl h
    · exact Or.inr ⟨32, r, h, by decide⟩
  obtain ⟨h1, _, h3⟩ := isWordTok_run t rest ht hr2
  exact tokLoop_run t rest s h1 h3 hr2

theorem tokLoop_space (r : List Nat) (s : State) :
    tokLoop (32 :: r) false s = tokLoop r false { s with input_i := s.input_i + 1 } := by
  simp [tokLoop, isdigit, isspace]

/-- The state has just fetched the token `t`: its kind is `tk`, and the value of a number
token is in `token_number`, the text of a word token in the scratch buffer. -/
theorem next_token_spec (s : State) (t : List Nat) (ts : List (List Nat))
    (hl : Lead s.remaining (t :: ts)) :
    (isNumTok t = true → ∃ i, s.next_token =
        .ok (E_OK, TK_NUMBER, s.retok i (numVal t) s.scratch s.scratch_i) ∧
        Lead (s.retok i (numVal t) s.scratch s.scratch_i).remaining ts) ∧
    (isWordTok t = true → ∃ i, s.next_token =
        .ok (E_OK, TK_WORD, s.retok i s.token_number (wrBytes s.scratch 0 (t ++ [0]))
          (t.length + 1)) ∧
        Lead (s.retok i s.token_number (wrBytes s.scratch 0 (t ++ [0]))
          (t.length + 1)).remaining ts) := by
  have hrest : (if ts = [] then [] else 32 :: unwords ts) = [] ∨
      ∃ r, (if ts = [] then [] else 32 :: unwords ts) = 32 :: r := by
    by_cases h : ts = []
    · left; simp [h]
    · right; exact ⟨unwords ts, by simp [h]⟩
  have hrest2 : (if ts = [] then [] else 32 :: unwords ts) = [] ∨
      ∃ c r, (if ts = [] then [] else 32 :: unwords ts) = c :: r ∧ isdigit c = false := by
    rcases hrest with h | ⟨r, h⟩
    · left; exact h
    · right; exact ⟨32, r, h, by decide⟩
  have hlead0 : Lead ((if ts = [] then [] else 32 :: unwords ts) : List Nat) ts := by
    by_cases hts : ts = []
    · left; simp [hts, unwords]
    · right; simp [hts]
  have hlead1 : Lead (((if ts = [] then [] else 32 :: unwords ts) : List Nat).drop
      (if (if ts = [] then [] else 32 :: unwords ts) = [] then 0 else 1)) ts := by
    by_cases hts : ts = []
    · left; simp [hts, unwords]
    · left; simp [hts]
  constructor
  · intro hn
    rcases hl with h | h
    · refine ⟨s.input_i + t.length, ?_, ?_⟩
      · unfold State.next_token
        rw [h, unwords_cons, tokLoop_num t _ s hn hrest2]
      · rw [remaining_retok, h, unwords_cons, List.drop_left]
        exact hlead0
    · refine ⟨s.input_i + 1 + t.length, ?_, ?_⟩
      · unfold State.next_token
        rw [h, unwords_cons, tokLoop_space, tokLoop_num t _ _ hn hrest2]
        rfl
      · rw [Nat.add_assoc, remaining_retok, h, unwords_cons, Nat.add_comm 1,
          List.drop_succ_cons, List.drop_left]
        exact hlead0
  · intro hw
    rcases hl with h | h
    · refine ⟨s.input_i + t.length +
        (if (if ts = [] then [] else 32 :: unwords ts) = [] then 0 else 1), ?_, ?_⟩
      · unfold State.next_token
        rw [h, unwords_cons, tokLoop_word t _ s hw hrest]
      · rw [Nat.add_assoc, remaining_retok, h, unwords_cons, List.drop_append]
        exact hlead1
    · refine ⟨s.input_i + 1 + t.length +
        (if (if ts = [] then [] else 32 :: unwords ts) = [] then 0 else 1), ?_, ?_⟩
      · unfold State.next_token
        rw [h, unwords_cons, tokLoop_space, tokLoop_word t _ _ hw hrest]
        rfl
      · rw [Nat.add_assoc, Nat.add_assoc, remaining_retok, h, unwords_cons, Nat.add_comm 1,
          List.drop_succ_cons, List.drop_append]
        exact hlead1

/-- The tokenizer at the end of the text. -/
theorem next_token_end (s : State) (hl : Lead s.remaining []) :
    ∃ i, s.next_token = .ok (E_OK, TK_END, s.retok i s.token_number s.scratch s.scratch_i) := by
  rcases hl with h | h
  · refine ⟨s.input_i, ?_⟩
    unfold State.next_token
    rw [h]
    rfl
  · refine ⟨s.input_i + 1, ?_⟩
    unfold State.next_token
    rw [h, tokLoop_space]
    rfl

end ft

namespace ft

open Error Token

/-! ## Words found in a represented dictionary -/

theorem cstrFrom_nonzero (m : Nat → Nat) (i n : Nat) (l : List Nat)
    (h : cstrFrom m i n = some l) : ∀ c ∈ l, c ≠ 0 := by
  induction n generalizing i l with
  | zero => simp [cstrFrom] at h
  | succ n ih =>
    unfold cstrFrom at h
    by_cases h0 : m i = 0
    · rw [if_pos h0] at h
      cases h
      intro c hc; simp at hc
    · rw [if_neg h0] at h
      cases hr : cstrFrom m (i + 1) n with
      | none => rw [hr] at h; simp at h
      | some l2 =>
        rw [hr] at h
        simp only [Option.map_some', Option.some.injEq] at h
        subst h
        intro c hc
        rcases List.mem_cons.mp hc with rfl | hc
        · exact h0
        · exact ih _ _ hr c hc

theorem chain_find (m : Nat → Nat) (base : Int) (bound : Nat) (p : Int) (L : List Entry)
    (name : List Nat) (e : Entry) (h : Chain m base bound p L)
    (hf : findEntry name L = some e) :
    e.body ≤ bound ∧ EntryAt m e ∧ e.name = name ∧ e.name.length < 4611686018427387904 := by
  induction L generalizing p with
  | nil => simp [findEntry] at hf
  | cons a as ih =>
    rw [chain_cons_iff] at h
    obtain ⟨_, h2, _, h4, h5, h6⟩ := h
    by_cases hn : a.name = name
    · rw [findEntry_cons_eq _ _ _ hn] at hf
      cases hf
      exact ⟨h2, h5, hn, h4⟩
    · rw [findEntry_cons_ne _ _ _ hn] at hf
      exact ih _ h6 hf

theorem arena_lookup (s : State) (L : List Entry) (name : List Nat) (fuel : Nat)
    (h : Arena s L) (hname : ∀ c ∈ name, c ≠ 0) (hf : L.length < fuel) :
    s.lookup fuel name = .ok (entryPtr s.memory (findEntry name L)) := by
  obtain ⟨hb, _, hle, _, hch, _⟩ := h
  exact lookupFrom_spec s name L _ fuel hch hb hle hname hf

theorem entry_body_eq (e : Entry) : e.body = e.off + 32 + align CELL (e.name.length + 1) := rfl

/-- The loads of `flags` and of the body address of an entry of the dictionary. -/
theorem entry_loads (s : State) (e : Entry) (hat : EntryAt s.mem e)
    (hbody : e.body ≤ s.memory_size) (hlen : e.name.length < 4611686018427387904) :
    (∃ fl, s.load (s.memory + e.off + OFF_FLAGS) = .ok fl ∧ toSize fl = e.flags) ∧
    s.data (s.memory + e.off) = .ok (s.memory + e.body) := by
  have hin := entry_hdr_in e
  obtain ⟨h1, h2, _⟩ := hat
  constructor
  · refine ⟨rdCell s.mem (e.off + 8), ?_, h1⟩
    apply load_at
    · unfold OFF_FLAGS; push_cast; omega
    · omega
  · unfold State.data
    rw [load_at s _ (e.off + 16) (by unfold OFF_NAME_LENGTH; push_cast; omega) (by omega)]
    rw [h2]
    simp only [ldv]
    rw [toSize_of_nat (show e.name.length < 18446744073709551616 by omega), entry_body_eq]
    unfold SIZEOF_DICTENTRY
    push_cast
    congr 1
    omega

theorem toSize_fn (p : Prim) : toSize p.fn = p.fn.toNat := by
  cases p <;> decide!

theorem primOf_fn (p : Prim) : primOf p.fn = some p := by
  cases p <;> rfl

theorem cword_get_handle (s : State) (p : Prim) (h : Table s.cwords) :
    s.cword_get p.handle = .ok (E_OK, p.fn, s) := by
  obtain ⟨h1, h2, h3⟩ := h.2 p
  have e1 : Int.tmod p.handle 2 ≠ 0 := by cases p <;> decide
  have e2 : Int.tdiv (p.handle + 1) 2 = p.fn := by cases p <;> decide
  unfold State.cword_get Stack.get
  rw [if_neg e1, e2, toSize_fn, if_neg (by omega), if_pos h2, h3]

theorem call_fn (s : State) (p : Prim) (fuel : Nat) : s.call fuel p.fn = p.run fuel s := by
  unfold State.call
  rw [primOf_fn]

/-- The `TK_WORD` branch of the interpreter on a word the dictionary holds: what is done
depends on the flags of the newest entry of that name. -/
theorem exec_word_found (s : State) (L : List Entry) (name : List Nat) (e : Entry)
    (fuel : Nat) (h : Arena s L) (hs : s.scratchStr = some name)
    (hfind : findEntry name L = some e) (hf : L.length < fuel) :
    s.exec_word fuel =
      if s.shared S_COMPILING = 0 ∧ hasFlag e.flags FLAG_COMPILE_ONLY then
        .ok (E_COMPILE_ONLY, s)
      else if s.shared S_COMPILING ≠ 0 ∧ hasFlag e.flags FLAG_IMMEDIATE = false then
        if hasFlag e.flags FLAG_CWORD then
          chk (s.dict_put OP_CALL_C) fun s1 =>
            ldv (s1.data (s.memory + e.off)) fun body =>
            ldv (s1.load body) fun h => s1.dict_put h
        else
          chk (s.dict_put OP_CALL_FORTH) fun s1 =>
            ldv (s1.data (s.memory + e.off)) fun body => s1.dict_put (s1.real_to_raddr body)
      else
        if hasFlag e.flags FLAG_CWORD then
          ldv (s.load (s.memory + e.body)) fun h =>
          chkv (s.cword_get h) fun cw s =>
            match s.call fuel cw with
            | .ok (e, s) => chk (s.want fuel cw e) fun s => .ok (E_OK, s)
            | .ub => .ub
            | .abort => .abort
            | .timeout => .timeout
        else
          s.exec_vm fuel (s.real_to_raddr (s.memory + e.body)) := by
  have hname : ∀ c ∈ name, c ≠ 0 := cstrFrom_nonzero _ _ _ _ hs
  have hlk := arena_lookup s L name fuel h hname hf
  obtain ⟨hb, _, hle, _, hch, _⟩ := h
  obtain ⟨c1, c2, _, c4⟩ := chain_find _ _ _ _ _ _ _ hch hfind
  obtain ⟨⟨fl, l1, l2⟩, l3⟩ := entry_loads s e c2 (by omega) c4
  have hne : s.memory + (e.off : Int) ≠ 0 := by omega
  unfold State.exec_word
  rw [hs]
  simp only [hlk, hfind, entryPtr, ldv, hne, ne_eq, not_false_eq_true, if_true, l1, l2, l3]

end ft

namespace ft

open Error Token

/-! ## `create` and `defw` on a well-formed arena -/

theorem rdCell_zero (m : Nat → Nat) (a : Nat) (h : ∀ i, a ≤ i → i < a + 8 → m i = 0) :
    rdCell m a = 0 := by
  have e : rdCell m a = rdCell (fun _ => 0) a := rdCell_congr m _ a h
  rw [e]
  unfold rdCell
  simp only [rdBytes, leVal]
  decide!

theorem wrap_nat (n : Nat) (h : n < 9223372036854775808) : wrap (n : Int) = n := by
  apply wrap_of_range <;> omega

theorem toSize_zero : toSize 0 = 0 := by decide!

theorem chain_ptr_range (m : Nat → Nat) (base : Int) (bound : Nat) (p : Int) (L : List Entry)
    (h : Chain m base bound p L) (hb : 0 < base) :
    0 ≤ p ∧ p ≤ base + bound := by
  cases L with
  | nil => rw [chain_nil_iff] at h; omega
  | cons e es =>
    rw [chain_cons_iff] at h
    obtain ⟨h1, h2, _⟩ := h
    have := entry_hdr_in e
    omega

theorem entryMem_below (m : Nat → Nat) (a : Nat) (prev : Int) (name : List Nat) (i : Nat)
    (h : i < a) : entryMem m a prev name i = m i := by
  unfold entryMem
  rw [wrBytes_outside _ _ _ _ (by omega), wrCell_outside _ _ _ _ (by omega),
    wrCell_outside _ _ _ _ (by omega)]

theorem entryMem_above (m : Nat → Nat) (a : Nat) (prev : Int) (name : List Nat) (i : Nat)
    (h : a + 24 + name.length ≤ i) : entryMem m a prev name i = m i := by
  unfold entryMem
  rw [wrBytes_outside _ _ _ _ (by omega), wrCell_outside _ _ _ _ (by omega),
    wrCell_outside _ _ _ _ (by omega)]

theorem entryMem_flags (m : Nat → Nat) (a : Nat) (prev : Int) (name : List Nat) (i : Nat)
    (h1 : a + 8 ≤ i) (h2 : i < a + 16) : entryMem m a prev name i = m i := by
  unfold entryMem
  rw [wrBytes_outside _ _ _ _ (by omega), wrCell_outside _ _ _ _ (by omega),
    wrCell_outside _ _ _ _ (by omega)]

theorem entryMem_prev (m : Nat → Nat) (a : Nat) (prev : Int) (name : List Nat) :
    rdCell (entryMem m a prev name) a = wrap prev := by
  unfold entryMem
  rw [rdCell_wrBytes_disj _ _ _ _ (by omega), rdCell_wrCell_disj _ _ _ _ (by omega),
    rdCell_wrCell_same]

theorem entryMem_len (m : Nat → Nat) (a : Nat) (prev : Int) (name : List Nat) :
    rdCell (entryMem m a prev name) (a + 16) = wrap name.length := by
  unfold entryMem
  rw [rdCell_wrBytes_disj _ _ _ _ (by omega), rdCell_wrCell_same, wrap_wrap]

theorem rdBytes_append (m : Nat → Nat) (a k j : Nat) :
    rdBytes m a (k + j) = rdBytes m a k ++ rdBytes m (a + k) j := by
  induction k generalizing a with
  | zero => simp [rdBytes]
  | succ k ih =>
    rw [show k + 1 + j = (k + j) + 1 by omega, rdBytes_succ, rdBytes_succ, ih]
    simp only [List.cons_append]
    rw [show a + 1 + k = a + (k + 1) by omega]

theorem entryMem_name (m : Nat → Nat) (a : Nat) (prev : Int) (name : List Nat)
    (hz : m (a + 24 + name.length) = 0) :
    rdBytes (entryMem m a prev name) (a + 24) (name.length + 1) = name ++ [0] := by
  rw [rdBytes_append]
  congr 1
  · unfold entryMem
    exact rdBytes_wrBytes_same _ _ _
  · rw [rdBytes_succ, entryMem_above _ _ _ _ _ (le_refl _), hz]
    rfl

/-- The header `create` writes represents the new entry, with the flags the zeroed arena
gives it. -/
theorem entryMem_chain (m : Nat → Nat) (base : Int) (a : Nat) (p : Int) (name : List Nat)
    (L : List Entry) (hc : Chain m base a p L) (hb : 0 < base)
    (hsz : base + a < 4611686018427387904)
    (hz : ∀ i, a ≤ i → m i = 0) (hname : ∀ c ∈ name, c ≠ 0) (hlen : name.length < 4611686018427387904) :
    Chain (entryMem m a p name) base (a + (32 + align CELL (name.length + 1)))
      (base + a) ({ off := a, name := name, flags := 0 } :: L) := by
  have hr := chain_ptr_range _ _ _ _ _ hc hb
  have hp : wrap p = p := by apply wrap_of_range <;> omega
  have hl : wrap (name.length : Int) = name.length := wrap_nat _ (by omega)
  rw [chain_cons_iff]
  refine ⟨rfl, ?_, hname, hlen, ?_, ?_⟩
  · show a + SIZEOF_DICTENTRY + align CELL (name.length + 1) ≤ _
    unfold SIZEOF_DICTENTRY
    omega
  · refine ⟨?_, ?_, ?_⟩
    · show toSize (rdCell (entryMem m a p name) (a + 8)) = 0
      rw [rdCell_zero, toSize_zero]
      intro i h1 h2
      rw [entryMem_flags _ _ _ _ _ h1 h2]
      exact hz i (by omega)
    · show rdCell (entryMem m a p name) (a + 16) = (name.length : Int)
      rw [entryMem_len, hl]
    · exact entryMem_name m a p name (hz _ (by omega))
  · show Chain (entryMem m a p name) base _ (rdCell (entryMem m a p name) a) L
    rw [entryMem_prev, hp]
    exact chain_frame m _ base a _ p L hc (fun i hi => entryMem_below m a p name i hi)
      (by omega)

/-- Source `create` on a well-formed arena with room for the entry: the entry is written at
the old cursor and linked in front of the dictionary. -/
theorem create_arena (s : State) (L : List Entry) (name : List Nat) (h : Arena s L)
    (hname : ∀ c ∈ name, c ≠ 0) (hlen : name.length < 4611686018427387904)
    (hroom : s.memory_i + (32 + align CELL (name.length + 1)) ≤ s.memory_size) :
    s.create name = .ok (E_OK, s.memory + s.memory_i,
      { s with mem := entryMem s.mem s.memory_i (s.shared S_LATEST) name,
               memory_i := s.memory_i + (32 + align CELL (name.length + 1)),
               shared := upd s.shared S_LATEST (s.memory + s.memory_i) }) ∧
    Arena { s with mem := entryMem s.mem s.memory_i (s.shared S_LATEST) name,
                   memory_i := s.memory_i + (32 + align CELL (name.length + 1)),
                   shared := upd s.shared S_LATEST (s.memory + s.memory_i) }
      ({ off := s.memory_i, name := name, flags := 0 } :: L) := by
  obtain ⟨hb, hsz, hle, hal, hch, hz⟩ := h
  have hge := align8_ge (name.length + 1)
  have hmod := align8_mod (name.length + 1)
  have hchain := entryMem_chain s.mem s.memory s.memory_i _ name L hch hb (by omega) hz hname
    hlen
  constructor
  · unfold State.create
    simp only [SIZEOF_DICTENTRY]
    rw [allot_ok s _ (by omega) hroom]
    simp only [ne_eq, not_true_eq_false, if_false, OFF_PREVIOUS, OFF_NAME_LENGTH, OFF_NAME]
    rw [store_at _ _ _ s.memory_i (by simp) (by simp only []; omega)]
    simp only [stv]
    rw [store_at _ _ _ (s.memory_i + 16) (by simp only []; push_cast; omega)
      (by simp only []; omega)]
    simp only [stv]
    rw [storeBytes_at _ _ _ (s.memory_i + 24) (by simp only []; push_cast; omega)
      (by simp only []; omega)]
    simp only [stv]
    have hstr := strEq_spec
      ({ s with mem := entryMem s.mem s.memory_i (s.shared S_LATEST) name,
                memory_i := s.memory_i + (32 + align CELL (name.length + 1)) } : State)
      (s.memory_i + 24) name name
      (entryMem_name s.mem s.memory_i _ name (hz _ (by omega)))
      (by simp only []; omega) hname hname
    simp only [decide_True] at hstr
    have hptr : s.memory + (s.memory_i : Int) + 24 = s.memory + ((s.memory_i + 24 : Nat) : Int) := by
      push_cast; omega
    rw [hptr]
    show (match State.strEq _ _ name with
      | .ok true => _
      | .ok false => _
      | .ub => _
      | .abort => _
      | .timeout => _) = _
    unfold entryMem at hstr
    rw [hstr]
    rfl
  · refine ⟨hb, hsz, ?_, ?_, ?_, ?_⟩
    · simp only []; omega
    · simp only []; omega
    · simp only [upd_same]
      exact hchain
    · intro i hi
      simp only [] at hi ⊢
      rw [entryMem_above _ _ _ _ _ (by omega)]
      exact hz i (by omega)

/-- A header written at offset `a` above a represented dictionary extends it. -/
theorem chain_build (m m2 : Nat → Nat) (base : Int) (a bound2 : Nat) (p : Int)
    (e : Entry) (L : List Entry) (hc : Chain m base a p L)
    (hoff : e.off = a) (hbody : e.body ≤ bound2)
    (hname : ∀ c ∈ e.name, c ≠ 0) (hlen : e.name.length < 4611686018427387904)
    (h1 : ∀ i, i < a → m2 i = m i) (h2 : rdCell m2 a = p) (hat : EntryAt m2 e) :
    Chain m2 base bound2 (base + a) (e :: L) := by
  have hin := entry_hdr_in e
  rw [chain_cons_iff]
  refine ⟨by rw [hoff], hbody, hname, hlen, hat, ?_⟩
  rw [hoff, h2]
  exact chain_frame m m2 base a bound2 p L hc h1 (by omega)

theorem hasFlag_cword (flags : Nat) (h : hasFlag flags FLAG_CWORD = false) :
    hasFlag (FLAG_CWORD + flags) FLAG_CWORD = true := by
  unfold hasFlag FLAG_CWORD at *
  simp only [beq_eq_false_iff_ne, ne_eq, beq_iff_eq] at *
  omega

theorem afterDefw_below (s : State) (name : List Nat) (fn : Int) (flags : Nat) (i : Nat)
    (h : i < s.memory_i) : (s.afterDefw name fn flags).mem i = s.mem i := by
  unfold State.afterDefw
  simp only []
  rw [wrCell_outside _ _ _ _ (by omega), wrCell_outside _ _ _ _ (by omega),
    entryMem_below _ _ _ _ _ h]

theorem cwordIdx_lt (i : Nat) (h : i < 4294967296) : cwordIdx i < 9223372036854775808 := by
  unfold cwordIdx; split <;> omega

theorem afterDefw_body (s : State) (name : List Nat) (fn : Int) (flags : Nat)
    (hidx : s.cwords.i < 4294967296) :
    rdCell (s.afterDefw name fn flags).mem
        (s.memory_i + (32 + align CELL (name.length + 1))) = cwordIdx s.cwords.i := by
  unfold State.afterDefw
  simp only []
  rw [rdCell_wrCell_same, wrap_wrap, wrap_nat _ (cwordIdx_lt _ hidx)]

theorem afterDefw_zero (s : State) (name : List Nat) (fn : Int) (flags : Nat)
    (hz : ∀ i, s.memory_i ≤ i → s.mem i = 0) :
    ∀ i, (s.afterDefw name fn flags).memory_i ≤ i → (s.afterDefw name fn flags).mem i = 0 := by
  have hge := align8_ge (name.length + 1)
  intro i hi
  have hi2 : s.memory_i + (32 + align CELL (name.length + 1)) + 8 ≤ i := hi
  unfold State.afterDefw
  simp only []
  rw [wrCell_outside _ _ _ _ (by omega), wrCell_outside _ _ _ _ (by omega),
    entryMem_above _ _ _ _ _ (by omega)]
  exact hz i (by omega)

theorem afterDefw_prev (s : State) (name : List Nat) (fn : Int) (flags : Nat)
    (hp : wrap (s.shared S_LATEST) = s.shared S_LATEST) :
    rdCell (s.afterDefw name fn flags).mem s.memory_i = s.shared S_LATEST := by
  unfold State.afterDefw
  simp only []
  rw [rdCell_wrCell_disj _ _ _ _ (by omega), rdCell_wrCell_disj _ _ _ _ (by omega),
    entryMem_prev, hp]

theorem afterDefw_entryAt (s : State) (name : List Nat) (fn : Int) (flags : Nat)
    (hlen : name.length < 4611686018427387904) (hfl : flags < 4294967296)
    (hz : s.mem (s.memory_i + 24 + name.length) = 0) :
    EntryAt (s.afterDefw name fn flags).mem
      { off := s.memory_i, name := name, flags := FLAG_CWORD + flags } := by
  have hge := align8_ge (name.length + 1)
  refine ⟨?_, ?_, ?_⟩
  · show toSize (rdCell (s.afterDefw name fn flags).mem (s.memory_i + 8)) = _
    unfold State.afterDefw
    simp only []
    rw [rdCell_wrCell_disj _ _ _ _ (by omega), rdCell_wrCell_same, wrap_wrap, toSize_wrap]
    have : ((FLAG_CWORD : Int) + (flags : Int)) = ((FLAG_CWORD + flags : Nat) : Int) := by
      push_cast; rfl
    rw [this, toSize_of_nat (by unfold FLAG_CWORD; omega)]
  · show rdCell (s.afterDefw name fn flags).mem (s.memory_i + 16) = _
    unfold State.afterDefw
    simp only []
    rw [rdCell_wrCell_disj _ _ _ _ (by omega), rdCell_wrCell_disj _ _ _ _ (by omega),
      entryMem_len, wrap_nat _ (by omega)]
  · show rdBytes (s.afterDefw name fn flags).mem (s.memory_i + 24) (name.length + 1) = name ++ [0]
    rw [← entryMem_name s.mem s.memory_i (s.shared S_LATEST) name hz]
    apply rdBytes_congr
    intro i h1 h2
    unfold State.afterDefw
    simp only []
    rw [wrCell_outside _ _ _ _ (by omega), wrCell_outside _ _ _ _ (by omega)]

/-- The arena `defw` leaves represents the dictionary with the new native entry in front. -/
theorem afterDefw_arena (s : State) (L : List Entry) (name : List Nat) (fn : Int)
    (flags : Nat) (h : Arena s L) (hname : ∀ c ∈ name, c ≠ 0) (hlen : name.length < 4611686018427387904)
    (hroom : s.memory_i + (32 + align CELL (name.length + 1)) + 8 ≤ s.memory_size)
    (hfl : flags < 4294967296) :
    Arena (s.afterDefw name fn flags)
        ({ off := s.memory_i, name := name, flags := FLAG_CWORD + flags } :: L) := by
  obtain ⟨hb, hsz, hle, hal, hch, hz⟩ := h
  have hmod := align8_mod (name.length + 1)
  have hr := chain_ptr_range _ _ _ _ _ hch hb
  have hp : wrap (s.shared S_LATEST) = s.shared S_LATEST := by
    apply wrap_of_range <;> omega
  have hbd : s.memory_i + SIZEOF_DICTENTRY + align CELL (name.length + 1) ≤
      s.memory_i + (32 + align CELL (name.length + 1)) + 8 := by
    unfold SIZEOF_DICTENTRY; omega
  have hal2 : (s.memory_i + (32 + align CELL (name.length + 1)) + 8) % 8 = 0 := by
    clear hp hr hbd hroom hsz
    omega
  have hge := align8_ge (name.length + 1)
  have hz2 : s.mem (s.memory_i + 24 + name.length) = 0 := hz _ (by clear hp hr hbd; omega)
  refine ⟨hb, hsz, hroom, hal2, ?_, afterDefw_zero s name fn flags hz⟩
  show Chain (s.afterDefw name fn flags).mem s.memory _ (upd s.shared S_LATEST _ S_LATEST) _
  rw [upd_same]
  exact chain_build s.mem _ s.memory s.memory_i _ (s.shared S_LATEST) _ L hch rfl hbd hname hlen
    (fun i hi => afterDefw_below s name fn flags i hi) (afterDefw_prev s name fn flags hp)
    (afterDefw_entryAt s name fn flags hlen hfl hz2)

theorem cwordIdx_lt2 (i : Nat) (h : i < 4294967296) : cwordIdx i < 18446744073709551616 := by
  unfold cwordIdx; split <;> omega

theorem defw_ok (s : State) (L : List Entry) (name : List Nat) (fn : Int)
    (flags : Nat) (h : Arena s L) (hname : ∀ c ∈ name, c ≠ 0) (hlen : name.length < 4611686018427387904)
    (hroom : s.memory_i + (32 + align CELL (name.length + 1)) + 8 ≤ s.memory_size)
    (hfl : flags < 4294967296) (hfc : hasFlag flags FLAG_CWORD = false)
    (hcap : s.cwords.i < s.cwords.size) (hidx : s.cwords.i < 4294967296) :
    s.defw name fn flags = .ok (E_OK, s.afterDefw name fn flags) := by
  have har := afterDefw_arena s L name fn flags h hname hlen hroom hfl
  have hbody := afterDefw_body s name fn flags hidx
  have hcr := (create_arena s L name h hname hlen (by omega)).1
  have hat := afterDefw_entryAt s name fn flags hlen hfl (h.2.2.2.2.2 _ (by
    have := align8_ge (name.length + 1); omega))
  obtain ⟨⟨fl, l1, l2⟩, l3⟩ := entry_loads (s.afterDefw name fn flags) _ hat
    (by show s.memory_i + SIZEOF_DICTENTRY + align CELL (name.length + 1) ≤ s.memory_size
        unfold SIZEOF_DICTENTRY; omega) hlen
  unfold State.defw
  rw [hcr, chkv_ok]
  have hge := align8_ge (name.length + 1)
  have hms : s.memory_size < 4611686018427387904 := by
    have := h.1; have := h.2.1; omega
  rw [store_at _ _ _ (s.memory_i + 8) (by simp only [OFF_FLAGS]; push_cast; omega)
    (by simp only []; omega)]
  simp only [stv, Stack.push]
  rw [if_neg (by omega), if_pos hcap]
  simp only [ne_eq, not_true_eq_false, if_false]
  rw [dict_put_ok _ _ (by simp only []; omega) (by simp only []; omega), chk_ok]
  have l3' : (s.afterDefw name fn flags).data (s.memory + (s.memory_i : Int)) =
      .ok (s.memory + ((s.memory_i + 32 + align CELL (name.length + 1) : Nat) : Int)) := l3
  have l1' : (s.afterDefw name fn flags).load (s.memory + (s.memory_i : Int) + OFF_FLAGS) =
      .ok fl := l1
  have l2' : toSize fl = FLAG_CWORD + flags := l2
  have l4 : (s.afterDefw name fn flags).load
      (s.memory + ((s.memory_i + 32 + align CELL (name.length + 1) : Nat) : Int)) =
      .ok (cwordIdx s.cwords.i : Int) := by
    refine (load_at (s.afterDefw name fn flags) _
      (s.memory_i + 32 + align CELL (name.length + 1)) rfl
      (by show _ ≤ s.memory_size; omega)).trans ?_
    rw [show s.memory_i + 32 + align CELL (name.length + 1)
      = s.memory_i + (32 + align CELL (name.length + 1)) by omega, hbody]
  change (ldv ((s.afterDefw name fn flags).data _) fun body =>
    ldv ((s.afterDefw name fn flags).load body) fun h =>
    ldv ((s.afterDefw name fn flags).load _) fun fl =>
      if toSize h = cwordIdx s.cwords.i ∧ hasFlag (toSize fl) FLAG_CWORD = true then
        Res.ok (E_OK, s.afterDefw name fn flags)
      else Res.abort) = _
  rw [l3']
  simp only [ldv]
  rw [l4]
  simp only []
  rw [l1']
  simp only []
  rw [l2', toSize_of_nat (cwordIdx_lt2 _ hidx), if_pos ⟨rfl, hasFlag_cword flags hfc⟩]

end ft

namespace ft

open Error Token

/-! ## The constructor yields a well-formed engine -/

theorem kept_refl (s : State) : Kept s s :=
  ⟨rfl, rfl, rfl, rfl, rfl, rfl, rfl, fun _ _ => rfl, rfl, rfl, rfl, rfl, rfl, rfl, rfl⟩

theorem kept_trans (a b c : State) (h1 : Kept a b) (h2 : Kept b c) : Kept a c := by
  obtain ⟨a1, a2, a3, a4, a5, a6, a7, a8, a9, a10, a11, a12, a13, a14, a15⟩ := h1
  obtain ⟨b1, b2, b3, b4, b5, b6, b7, b8, b9, b10, b11, b12, b13, b14, b15⟩ := h2
  exact ⟨b1.trans a1, b2.trans a2, b3.trans a3, b4.trans a4, b5.trans a5, b6.trans a6,
    b7.trans a7, fun k hk => (b8 k hk).trans (a8 k hk), b9.trans a9, b10.trans a10,
    b11.trans a11, b12.trans a12, b13.trans a13, b14.trans a14, b15.trans a15⟩

theorem kept_afterDefw (s : State) (name : List Nat) (fn : Int) (flags : Nat) :
    Kept s (s.afterDefw name fn flags) :=
  ⟨rfl, rfl, rfl, rfl, rfl, rfl, rfl, fun _ hk => upd_other _ _ _ _ hk, rfl, rfl, rfl, rfl,
    rfl, rfl, rfl⟩

theorem isPrim_frame (m m2 : Nat → Nat) (bound bound2 : Nat) (L : List Entry)
    (name : List Nat) (p : Prim) (flags : Nat) (h : IsPrim m bound L name p flags)
    (hm : ∀ i, i < bound → m2 i = m i) (hb : bound ≤ bound2) :
    IsPrim m2 bound2 L name p flags := by
  obtain ⟨e, h1, h2, h3, h4⟩ := h
  refine ⟨e, h1, h2, by omega, ?_⟩
  rw [← h4]
  apply rdCell_congr
  intro i hi1 hi2
  exact hm i (by omega)

/-- The `defw` calls of the constructor on a well-formed arena: all succeed, and every name
of the list is bound to its callback afterwards. -/
theorem defwAll_spec (rest : List (List Nat × Prim × Nat)) :
    ∀ (s : State) (L : List Entry) (k : Nat), Arena s L → s.cwords.i = k + 1 →
      k + 1 + rest.length ≤ s.cwords.size → s.cwords.size < 4294967296 →
      s.memory_i + need rest ≤ s.memory_size → okNames rest = true →
      tagsFrom k rest = true → (rest.map (fun b => b.1)).Nodup →
      ∃ s2 L2, L2 = layout rest s.memory_i L ∧
        defwAll rest s = .ok s2 ∧ Arena s2 L2 ∧ Kept s s2 ∧
        s2.cwords.i = k + 1 + rest.length ∧ s2.cwords.size = s.cwords.size ∧
        (∀ j, j < s.cwords.i → s2.cwords.data j = s.cwords.data j) ∧
        (∀ i, i < s.memory_i → s2.mem i = s.mem i) ∧
        s2.memory_i = s.memory_i + need rest ∧
        (∀ nm, nm ∉ rest.map (fun b => b.1) → findEntry nm L2 = findEntry nm L) ∧
        (∀ b ∈ rest, IsPrim s2.mem s2.memory_i L2 b.1 b.2.1 b.2.2 ∧
          b.2.1.fn.toNat < s2.cwords.i ∧ s2.cwords.data b.2.1.fn.toNat = b.2.1.fn) := by
  induction rest with
  | nil =>
    intro s L k ha hi _ _ _ _ _ _
    exact ⟨s, L, rfl, rfl, ha, kept_refl s, by simpa using hi, rfl, fun _ _ => rfl,
      fun _ _ => rfl, by simp [need], fun _ _ => rfl, by simp⟩
  | cons b rest ih =>
    obtain ⟨name, p, flags⟩ := b
    intro s L k ha hi hcap hsz hroom hok htag hnd
    simp only [okNames, List.all_cons, Bool.and_eq_true, List.all_eq_true, bne_iff_ne, ne_eq,
      decide_eq_true_eq, Bool.not_eq_true'] at hok
    obtain ⟨⟨⟨⟨hname, hlen⟩, hfl⟩, hfc⟩, hokr⟩ := hok
    simp only [tagsFrom, Bool.and_eq_true, decide_eq_true_eq] at htag
    obtain ⟨htg, htagr⟩ := htag
    simp only [List.map_cons, List.nodup_cons] at hnd
    obtain ⟨hnotin, hndr⟩ := hnd
    simp only [need] at hroom
    simp only [List.length_cons] at hcap
    have hge := align8_ge (name.length + 1)
    have hd := defw_ok s L name p.fn flags ha hname (by omega) (by omega) (by omega) hfc
      (by omega) (by omega)
    have har := afterDefw_arena s L name p.fn flags ha hname (by omega) (by omega) (by omega)
    have hbody := afterDefw_body s name p.fn flags (by omega)
    have hokr2 : okNames rest = true := by
      simp only [okNames, List.all_eq_true, Bool.and_eq_true, bne_iff_ne, ne_eq,
        decide_eq_true_eq, Bool.not_eq_true']
      exact hokr
    obtain ⟨s2, L2, r0, r1, r2, r3, r4, r5, r6, r7, r8, r9, r10⟩ :=
      ih (s.afterDefw name p.fn flags) _ (k + 1) har
        (by show s.cwords.i + 1 = k + 1 + 1; omega)
        (by show k + 1 + 1 + rest.length ≤ s.cwords.size; omega)
        (by show s.cwords.size < 4294967296; exact hsz)
        (by show s.memory_i + (32 + align CELL (name.length + 1)) + 8 + need rest
              ≤ s.memory_size
            omega)
        hokr2 htagr hndr
    refine ⟨s2, L2, r0, ?_, r2, kept_trans _ _ _ (kept_afterDefw s name p.fn flags) r3, ?_,
      r5, ?_, ?_, ?_, ?_, ?_⟩
    · show (match s.defw name p.fn flags with
        | .ok (_, s) => defwAll rest s
        | .ub => .ub
        | .abort => .abort
        | .timeout => .timeout) = _
      rw [hd]
      exact r1
    · rw [r4]; simp only [List.length_cons]; omega
    · intro j hj
      rw [r6 j (by show j < s.cwords.i + 1; omega)]
      show upd s.cwords.data s.cwords.i p.fn j = _
      exact upd_other _ _ _ _ (by omega)
    · intro i hi2
      rw [r7 i (by show i < s.memory_i + (32 + align CELL (name.length + 1)) + 8; omega)]
      exact afterDefw_below s name p.fn flags i hi2
    · rw [r8]
      show s.memory_i + (32 + align CELL (name.length + 1)) + 8 + need rest = _
      simp only [need]
      omega
    · intro nm hnm
      simp only [List.map_cons, List.mem_cons, not_or] at hnm
      rw [r9 nm hnm.2]
      exact findEntry_cons_ne _ _ _ (fun h => hnm.1 h.symm)
    · intro b hb
      rcases List.mem_cons.mp hb with rfl | hb
      · refine ⟨⟨⟨s.memory_i, name, FLAG_CWORD + flags⟩, ?_, rfl, ?_, ?_⟩, ?_, ?_⟩
        · rw [r9 name hnotin]
          exact findEntry_cons_eq _ _ _ rfl
        · rw [r8]
          show s.memory_i + SIZEOF_DICTENTRY + align CELL (name.length + 1) + 8 ≤
            s.memory_i + (32 + align CELL (name.length + 1)) + 8 + need rest
          unfold SIZEOF_DICTENTRY
          omega
        · have e1 : rdCell s2.mem (s.memory_i + (32 + align CELL (name.length + 1))) =
              rdCell (s.afterDefw name p.fn flags).mem
                (s.memory_i + (32 + align CELL (name.length + 1))) := by
            apply rdCell_congr
            intro i hi1 hi2
            exact r7 i (by show i < s.memory_i + (32 + align CELL (name.length + 1)) + 8
                           omega)
          show rdCell s2.mem (s.memory_i + SIZEOF_DICTENTRY + align CELL (name.length + 1)) = _
          rw [show s.memory_i + SIZEOF_DICTENTRY + align CELL (name.length + 1) =
            s.memory_i + (32 + align CELL (name.length + 1)) by unfold SIZEOF_DICTENTRY; omega,
            e1, hbody, hi]
          unfold Prim.handle cwordIdx
          simp only [htg]
          rw [if_neg (by omega)]
          push_cast
          omega
        · simp only [htg]
          rw [r4]
          simp
          omega
        · simp only [htg]
          rw [r6 _ (by show ((k + 1 : Nat) : Int).toNat < s.cwords.i + 1; simp; omega)]
          show upd s.cwords.data s.cwords.i p.fn _ = _
          rw [show ((k + 1 : Nat) : Int).toNat = s.cwords.i by simp; omega, upd_same]
          exact htg
      · exact r10 b hb

theorem need_builtins : need builtins = 984 := by decide!

theorem okNames_builtins : okNames builtins = true := by decide

theorem tagsFrom_builtins : tagsFrom 0 builtins = true := by decide

theorem nodup_builtins : (builtins.map (fun b => b.1)).Nodup := by decide

theorem prim_in_builtins (p : Prim) : ∃ name flags, (name, p, flags) ∈ builtins := by
  cases p
  · exact ⟨str "+", 0, by decide⟩
  · exact ⟨str "*", 0, by decide⟩
  · exact ⟨str "-", 0, by decide⟩
  · exact ⟨str ">", 0, by decide⟩
  · exact ⟨str ".", 0, by decide⟩
  · exact ⟨str ":", 0, by decide⟩
  · exact ⟨str ";", FLAG_IMMEDIATE + FLAG_COMPILE_ONLY, by decide⟩
  · exact ⟨str "immediate", 0, by decide⟩
  · exact ⟨str "compile-only", 0, by decide⟩
  · exact ⟨str ",", 0, by decide⟩
  · exact ⟨str "\x7b", FLAG_IMMEDIATE + FLAG_COMPILE_ONLY, by decide⟩
  · exact ⟨str "!", 0, by decide⟩
  · exact ⟨str "here", 0, by decide⟩
  · exact ⟨str "WORD", 0, by decide⟩
  · exact ⟨str "@", 0, by decide⟩
  · exact ⟨str "dup", 0, by decide⟩
  · exact ⟨str "drop", 0, by decide⟩
  · exact ⟨str "swap", 0, by decide⟩
  · exact ⟨str "'", 0, by decide⟩
  · exact ⟨str "decompile", 0, by decide⟩

theorem arena_seeded (cfg : StateConfig) (h : GoodCfg cfg) : Arena (State.seeded cfg) [] := by
  obtain ⟨h1, h2, h3, _⟩ := h
  refine ⟨h1, h2, Nat.zero_le _, rfl, ?_, fun _ _ => rfl⟩
  rw [chain_nil_iff]
  rfl

/-- The constructor on a good configuration returns a well-formed engine at top level with
an empty data stack, the cursor after the built-in words, and everything else zeroed. -/
theorem construct_spec (cfg : StateConfig) (h : GoodCfg cfg) :
    ∃ s, State.construct cfg = .ok s ∧ Top s builtinDict ∧ Kept (State.seeded cfg) s ∧
      s.memory_i = 984 ∧ s.cwords.size = cfg.cwords.size ∧ s.cwords.i = 21 := by
  have ha := arena_seeded cfg h
  obtain ⟨h1, h2, h3, h4, h5, h6⟩ := h
  obtain ⟨s2, L2, r0, r1, r2, r3, r4, r5, r6, r7, r8, r9, r10⟩ :=
    defwAll_spec builtins (State.seeded cfg) [] 0 ha
      (by show cfg.cwords.i + 1 = 0 + 1; omega)
      (by show 0 + 1 + builtins.length ≤ cfg.cwords.size
          rw [show builtins.length = 20 from rfl]; omega)
      (by show cfg.cwords.size < 4294967296; exact h6)
      (by rw [need_builtins]; show 0 + 984 ≤ cfg.memory_size; omega)
      okNames_builtins tagsFrom_builtins nodup_builtins
  have r0' : L2 = builtinDict := r0
  subst r0'
  refine ⟨s2, ?_, ⟨⟨r2, ⟨?_, ?_⟩, ?_⟩, ?_, ?_⟩, r3, ?_, r5, ?_⟩
  · unfold State.construct
    simp only [Stack.push]
    have e1 : ¬ ((State.zeroed cfg).cwords.i > (State.zeroed cfg).cwords.size) := by
      show ¬ (cfg.cwords.i > cfg.cwords.size); omega
    have e2 : (State.zeroed cfg).cwords.i < (State.zeroed cfg).cwords.size := by
      show cfg.cwords.i < cfg.cwords.size; omega
    rw [if_neg e1, if_pos e2]
    exact r1
  · rw [r6 0 (by show 0 < cfg.cwords.i + 1; omega)]
    show upd (fun _ => 0) cfg.cwords.i 0 0 = 0
    rw [h4, upd_same]
  · intro p
    obtain ⟨name, flags, hm⟩ := prim_in_builtins p
    obtain ⟨_, q2, q3⟩ := r10 _ hm
    have q2' : p.fn.toNat < s2.cwords.i := q2
    have q4 : p.fn.toNat < cfg.cwords.size := by
      rw [r4, show builtins.length = 20 from rfl] at q2'
      omega
    exact ⟨q2', by rw [r5]; exact q4, q3⟩
  · intro b hb
    exact (r10 b hb).1
  · rw [r3.2.2.2.2.2.2.2.1 S_COMPILING (by decide)]
    rfl
  · rw [r3.2.2.2.2.2.2.2.1 S_WORD_AVAILABLE (by decide)]
    rfl
  · rw [r8, need_builtins]
    rfl
  · rw [r4]
    rfl

theorem goodCfg_repl : GoodCfg replCfg := by
  unfold GoodCfg replCfg StaticStateConfig
  simp

theorem builtinDict_length : builtinDict.length = 20 := rfl

/-- The freshly constructed engine is well formed. -/
theorem fresh_spec (cfg : StateConfig) (h : GoodCfg cfg) :
    State.construct cfg = .ok (State.fresh cfg) ∧ Top (State.fresh cfg) builtinDict ∧
      Kept (State.seeded cfg) (State.fresh cfg) ∧ (State.fresh cfg).memory_i = 984 ∧
      (State.fresh cfg).cwords.size = cfg.cwords.size ∧ (State.fresh cfg).cwords.i = 21 := by
  obtain ⟨s, h1, h2⟩ := construct_spec cfg h
  have e : State.fresh cfg = s := by
    unfold State.fresh
    rw [h1]
  rw [e]
  exact ⟨h1, h2⟩

end ft

namespace ft

open Error Token

/-! ## Handles of native words -/

theorem tdiv2_nonneg (x : Int) (h : 0 ≤ x) : Int.tdiv x 2 = x / 2 :=
  Int.tdiv_eq_ediv h (by decide)

theorem tdiv2_neg (x : Int) (h : x < 0) : Int.tdiv x 2 = -((-x) / 2) := by
  have : x = -(-x) := by omega
  rw [this, Int.neg_tdiv, Int.tdiv_eq_ediv (by omega) (by decide)]
  simp

theorem tmod2 (x : Int) : Int.tmod x 2 = x - 2 * Int.tdiv x 2 := by
  have := Int.tmod_add_tdiv x 2
  omega

/-- What `cword_get` does with a handle `h` that is a cell, on a table whose occupancy is a
cell: even handles are refused; an odd handle other than -1 is resolved exactly when its
index `(h + 1) / 2` is below the occupancy, and then to the table entry at that index. -/
theorem cword_get_spec (s : State) (h : Int) (h1 : -9223372036854775808 ≤ h)
    (h2 : h < 9223372036854775808) (hi : s.cwords.i < 9223372036854775808)
    (hsz : s.cwords.i ≤ s.cwords.size) :
    (Int.tmod h 2 = 0 → s.cword_get h = .ok (E_INVALID_OPCODE, 0, s)) ∧
    (Int.tmod h 2 ≠ 0 → h ≠ -1 →
      (0 < Int.tdiv (h + 1) 2 ∧ Int.tdiv (h + 1) 2 < s.cwords.i →
        s.cword_get h = .ok (E_OK, s.cwords.data (Int.tdiv (h + 1) 2).toNat, s)) ∧
      (¬ (0 < Int.tdiv (h + 1) 2 ∧ Int.tdiv (h + 1) 2 < s.cwords.i) →
        s.cword_get h = .ok (E_OUT_OF_RANGE, 0, s))) := by
  constructor
  · intro he
    unfold State.cword_get
    rw [if_pos he]
  · intro ho hne
    unfold State.cword_get Stack.get
    rw [if_neg ho]
    rw [tmod2] at ho
    constructor
    · intro ⟨k1, k2⟩
      have e : toSize (Int.tdiv (h + 1) 2) = (Int.tdiv (h + 1) 2).toNat := by
        unfold toSize; omega
      rw [e, if_neg (by omega), if_pos (by omega)]
    · intro hn
      have e : toSize (Int.tdiv (h + 1) 2) ≥ s.cwords.i := by
        unfold toSize
        by_cases hs : 0 ≤ h
        · rw [tdiv2_nonneg _ (show 0 ≤ h + 1 by omega)] at hn ⊢
          rw [tdiv2_nonneg _ hs] at ho
          omega
        · have hs1 : h + 1 < 0 := by omega
          rw [tdiv2_neg _ hs1] at hn ⊢
          rw [tdiv2_neg _ (show h < 0 by omega)] at ho
          omega
      rw [if_pos e]

/-- C11. The handle -1 is odd and its index `(-1 + 1) / 2` is 0, which `Stack::get` accepts:
on the freshly constructed engine `cword_get(-1)` returns `E_OK` together with the null
sentinel of index 0, and calling that callback is undefined behaviour. -/
theorem cword_get_minus_one :
    valOf ((State.fresh replCfg).cword_get (-1)) = some (E_OK, 0) ∧
      isUb ((State.fresh replCfg).call 0 0) = true := by
  obtain ⟨_, ⟨⟨_, ⟨t0, tp⟩, _⟩, _⟩, _, _, q5, q6⟩ := fresh_spec replCfg goodCfg_repl
  constructor
  · unfold State.cword_get Stack.get
    rw [if_neg (by decide), show Int.tdiv (-1 + 1) 2 = 0 from by decide, toSize_zero,
      if_neg (by omega), if_pos (by rw [q5]; decide), t0]
    rfl
  · unfold State.call
    rw [show primOf 0 = none from by decide]
    rfl

/-! ## Registration of native words -/

theorem mem_flags_lt (flags : Nat) (h : flags ∈ [0, 2, 8, 10, 16, 18, 24, 26]) :
    flags < 32 ∧ hasFlag flags FLAG_CWORD = false := by
  simp only [List.mem_cons, List.mem_singleton, List.not_mem_nil, or_false] at h
  rcases h with rfl | rfl | rfl | rfl | rfl | rfl | rfl | rfl <;> exact ⟨by decide, by decide⟩

theorem cword_get_new (s : State) (name : List Nat) (fn : Int) (flags : Nat)
    (h1 : 1 ≤ s.cwords.i) (h2 : s.cwords.i < s.cwords.size) (h3 : s.cwords.i < 4294967296) :
    (s.afterDefw name fn flags).cword_get (cwordIdx s.cwords.i) =
      .ok (E_OK, fn, s.afterDefw name fn flags) := by
  have e0 : ((cwordIdx s.cwords.i : Nat) : Int) = 2 * (s.cwords.i : Int) - 1 := by
    unfold cwordIdx; rw [if_neg (by omega)]; omega
  have e1 : Int.tmod (cwordIdx s.cwords.i : Int) 2 ≠ 0 := by
    rw [e0]
    have := Int.tmod_add_tdiv (2 * (s.cwords.i : Int) - 1) 2
    have := Int.tmod_nonneg 2 (show (0 : Int) ≤ 2 * (s.cwords.i : Int) - 1 by omega)
    have := Int.tmod_lt_of_pos (2 * (s.cwords.i : Int) - 1) (show (0 : Int) < 2 by decide)
    omega
  have e2 : Int.tdiv ((cwordIdx s.cwords.i : Int) + 1) 2 = s.cwords.i := by
    rw [e0, show 2 * (s.cwords.i : Int) - 1 + 1 = 2 * (s.cwords.i : Int) by omega]
    exact Int.mul_tdiv_cancel_left _ (by decide)
  unfold State.cword_get Stack.get
  rw [if_neg e1, e2, toSize_of_nat (by omega)]
  have e3 : ¬ (s.cwords.i ≥ (s.afterDefw name fn flags).cwords.i) := by
    show ¬ (s.cwords.i ≥ s.cwords.i + 1); omega
  have e4 : s.cwords.i < (s.afterDefw name fn flags).cwords.size := h2
  rw [if_neg e3, if_pos e4]
  show Res.ok (E_OK, upd s.cwords.data s.cwords.i fn s.cwords.i, _) = _
  rw [upd_same]

/-- C12. `defw` registers a resolvable native word: on a well-formed arena (dictionary `L`
below the cursor, zero bytes above it) with the sentinel in the table, free table capacity
and arena room for the entry and its one-cell body, for every C string `name`, callback `fn`
and flags drawn from `IMMEDIATE`, `HIDDEN`, `COMPILE_ONLY`, `defw` returns `E_OK`; afterwards
`lookup(name)` is the new entry (created at the old cursor), its flags are `CWORD` plus the
given flags, its body is the last cell of the arena in use and holds an odd handle that
`cword_get` resolves to `fn`, and the table occupancy has grown by one. -/
theorem defw_registers (s : State) (L : List Entry) (name : List Nat) (fn : Int)
    (flags : Nat) (h : Arena s L) (hsent : 1 ≤ s.cwords.i)
    (hcap : s.cwords.i < s.cwords.size) (hsz : s.cwords.size < 4294967296)
    (hname : ∀ c ∈ name, c ≠ 0)
    (hroom : s.memory_i + (32 + align CELL (name.length + 1)) + 8 ≤ s.memory_size)
    (hflags : flags ∈ [0, 2, 8, 10, 16, 18, 24, 26]) :
    ∃ s2 hd, s.defw name fn flags = .ok (E_OK, s2) ∧
      (∀ fuel, L.length + 1 < fuel → s2.lookup fuel name = .ok (s.memory + s.memory_i)) ∧
      (∃ fl, s2.load (s.memory + s.memory_i + OFF_FLAGS) = .ok fl ∧
        toSize fl = FLAG_CWORD + flags) ∧
      s2.data (s.memory + s.memory_i) = .ok (s2.memory + ((s2.memory_i - 8 : Nat) : Int)) ∧
      s2.load (s2.memory + ((s2.memory_i - 8 : Nat) : Int)) = .ok hd ∧
      hd % 2 = 1 ∧ s2.cword_get hd = .ok (E_OK, fn, s2) ∧
      s2.cwords.i = s.cwords.i + 1 ∧
      Arena s2 ({ off := s.memory_i, name := name, flags := FLAG_CWORD + flags } :: L) := by
  obtain ⟨hf1, hf2⟩ := mem_flags_lt flags hflags
  have hge := align8_ge (name.length + 1)
  have hms : s.memory_size < 4611686018427387904 := by
    have := h.1; have := h.2.1; omega
  have hlen : name.length < 4611686018427387904 := by omega
  have hd := defw_ok s L name fn flags h hname hlen hroom (by omega) hf2 hcap (by omega)
  have har := afterDefw_arena s L name fn flags h hname hlen hroom (by omega)
  have hbody := afterDefw_body s name fn flags (show s.cwords.i < 4294967296 by omega)
  obtain ⟨c1, c2, _, _⟩ := chain_find _ _ _ _ _ name _ har.2.2.2.2.1
    (findEntry_cons_eq name ⟨s.memory_i, name, FLAG_CWORD + flags⟩ L rfl)
  obtain ⟨⟨fl, l1, l2⟩, l3⟩ := entry_loads (s.afterDefw name fn flags) _ c2
    (by show s.memory_i + SIZEOF_DICTENTRY + align CELL (name.length + 1) ≤ s.memory_size
        unfold SIZEOF_DICTENTRY; omega) hlen
  have hmi : (s.afterDefw name fn flags).memory_i - 8 =
      s.memory_i + (32 + align CELL (name.length + 1)) := by
    show s.memory_i + (32 + align CELL (name.length + 1)) + 8 - 8 = _
    omega
  refine ⟨s.afterDefw name fn flags, (cwordIdx s.cwords.i : Int), hd, ?_, ⟨fl, l1, l2⟩, ?_, ?_,
    ?_, cword_get_new s name fn flags hsent hcap (by omega), rfl, har⟩
  · intro fuel hfuel
    have := arena_lookup (s.afterDefw name fn flags) _ name fuel har hname
      (by simp only [List.length_cons]; omega)
    rw [this, findEntry_cons_eq name ⟨s.memory_i, name, FLAG_CWORD + flags⟩ L rfl]
    rfl
  · rw [hmi]
    refine l3.trans ?_
    show Res.ok (s.memory + ((s.memory_i + SIZEOF_DICTENTRY + align CELL (name.length + 1) : Nat)
      : Int)) = _
    unfold SIZEOF_DICTENTRY
    rw [show s.memory_i + 32 + align CELL (name.length + 1) =
      s.memory_i + (32 + align CELL (name.length + 1)) by omega]
    rfl
  · rw [hmi]
    refine (load_at (s.afterDefw name fn flags) _
      (s.memory_i + (32 + align CELL (name.length + 1))) rfl
      (by show _ ≤ s.memory_size; omega)).trans ?_
    rw [hbody]
  · unfold cwordIdx
    rw [if_neg (by omega)]
    omega

/-- C12, instance: the registration of `secret` with the flag `HIDDEN` on the zeroed engine
of `repl.cpp` that holds the table sentinel. -/
theorem defw_registers_witness :
    ∃ s2 hd, seedDemo.defw (str "secret") 99 FLAG_HIDDEN = .ok (E_OK, s2) ∧
      (∀ fuel, ([] : List Entry).length + 1 < fuel →
        s2.lookup fuel (str "secret") = .ok (seedDemo.memory + seedDemo.memory_i)) ∧
      (∃ fl, s2.load (seedDemo.memory + seedDemo.memory_i + OFF_FLAGS) = .ok fl ∧
        toSize fl = FLAG_CWORD + FLAG_HIDDEN) ∧
      s2.data (seedDemo.memory + seedDemo.memory_i) =
        .ok (s2.memory + ((s2.memory_i - 8 : Nat) : Int)) ∧
      s2.load (s2.memory + ((s2.memory_i - 8 : Nat) : Int)) = .ok hd ∧
      hd % 2 = 1 ∧ s2.cword_get hd = .ok (E_OK, 99, s2) ∧
      s2.cwords.i = seedDemo.cwords.i + 1 ∧
      Arena s2 ({ off := seedDemo.memory_i, name := str "secret",
                  flags := FLAG_CWORD + FLAG_HIDDEN } :: []) :=
  defw_registers seedDemo [] (str "secret") 99 FLAG_HIDDEN (arena_seeded replCfg goodCfg_repl)
    (by decide) (by decide) (by decide) (by decide) (by decide!) (by decide)

/-! ## `lookup` and the flag `HIDDEN` -/

theorem fresh_repl_fields :
    (State.fresh replCfg).memory = 4096 ∧ (State.fresh replCfg).memory_size = 1048576 ∧
      (State.fresh replCfg).memory_i = 984 ∧ (State.fresh replCfg).cwords.i = 21 ∧
      (State.fresh replCfg).cwords.size = 128 ∧ (State.fresh replCfg).si = 0 ∧
      (State.fresh replCfg).stack_size = 1024 := by
  obtain ⟨_, _, hk, q4, q5, q6⟩ := fresh_spec replCfg goodCfg_repl
  obtain ⟨_, k2, k3, k4, k5, _⟩ := hk
  exact ⟨k4, k5, q4, q6, q5, k3, k2⟩

/-- C13. `lookup` does not look at the flags: after the host registered the native word
`secret` with the flag `HIDDEN` on the engine of `repl.cpp`, `lookup("secret")` returns that
entry (the one at arena offset 984, not null), whose `HIDDEN` flag is set. -/
theorem lookup_finds_hidden :
    hiddenDemo.lookup 100 (str "secret") = .ok (hiddenDemo.memory + 984) ∧
      hiddenDemo.memory + 984 ≠ 0 ∧
      ∃ fl, hiddenDemo.load (hiddenDemo.memory + 984 + OFF_FLAGS) = .ok fl ∧
        hasFlag (toSize fl) FLAG_HIDDEN = true := by
  obtain ⟨_, ⟨⟨ha, _, _⟩, _, _⟩, _, _⟩ := fresh_spec replCfg goodCfg_repl
  obtain ⟨f1, f2, f3, f4, f5, _, _⟩ := fresh_repl_fields
  have hname : ∀ c ∈ str "secret", c ≠ 0 := by decide
  have hal : align CELL ((str "secret").length + 1) = 8 := by decide!
  have hd := defw_ok (State.fresh replCfg) builtinDict (str "secret") 99 FLAG_HIDDEN ha hname
    (by decide) (by rw [f3, f2, hal]; decide) (by decide) (by decide) (by rw [f4, f5]; decide)
    (by rw [f4]; decide)
  have har := afterDefw_arena (State.fresh replCfg) builtinDict (str "secret") 99 FLAG_HIDDEN ha
    hname (by decide) (by rw [f3, f2, hal]; decide) (by decide)
  have hdemo : hiddenDemo = (State.fresh replCfg).afterDefw (str "secret") 99 FLAG_HIDDEN := by
    unfold hiddenDemo
    rw [hd]
    rfl
  rw [hdemo]
  have hmem : ((State.fresh replCfg).afterDefw (str "secret") 99 FLAG_HIDDEN).memory = 4096 := f1
  obtain ⟨c1, c2, _, c4⟩ := chain_find _ _ _ _ _ (str "secret") _ har.2.2.2.2.1
    (findEntry_cons_eq (str "secret") ⟨(State.fresh replCfg).memory_i, str "secret",
      FLAG_CWORD + FLAG_HIDDEN⟩ builtinDict rfl)
  obtain ⟨⟨fl, l1, l2⟩, _⟩ := entry_loads
    ((State.fresh replCfg).afterDefw (str "secret") 99 FLAG_HIDDEN) _ c2
    (by show (State.fresh replCfg).memory_i + SIZEOF_DICTENTRY +
          align CELL ((str "secret").length + 1) ≤ (State.fresh replCfg).memory_size
        rw [f3, f2, hal]; decide) c4
  refine ⟨?_, by rw [hmem]; decide, fl, ?_, ?_⟩
  · rw [arena_lookup _ _ (str "secret") 100 har hname
      (by simp only [List.length_cons, builtinDict_length]; decide),
      findEntry_cons_eq (str "secret") ⟨(State.fresh replCfg).memory_i, str "secret",
        FLAG_CWORD + FLAG_HIDDEN⟩ builtinDict rfl]
    show Res.ok (_ + (((State.fresh replCfg).memory_i : Nat) : Int)) = _
    rw [f3]
    rfl
  · rw [← l1]
    show _ = State.load _ (_ + (((State.fresh replCfg).memory_i : Nat) : Int) + OFF_FLAGS)
    rw [f3]
    rfl
  · rw [l2]
    decide

/-! ## Numbers in compile mode on a full arena -/

/-- C20. A number token in compile mode on an arena without room for one more cell: both
`dict_put` calls fail, their error codes are dropped, and `exec` returns `E_OK`; the state
it leaves differs from the one before only in the input fields, so nothing was emitted. -/
theorem number_compile_full (n : Int) (s : State) (fuel : Nat)
    (hn1 : -9223372036854775808 ≤ n) (hn2 : n < 9223372036854775808)
    (hc : s.shared S_COMPILING ≠ 0) (hfull : s.memory_size < s.memory_i + 8)
    (hnw : s.memory_i + 8 < 18446744073709551616) (hf : 2 ≤ fuel) :
    s.exec fuel (decimal n) =
      .ok (E_OK, { s with input := decimal n, input_size := (decimal n).length,
                          input_i := (decimal n).length, token_number := n }) := by
  obtain ⟨f, rfl⟩ : ∃ f, fuel = f + 2 := ⟨fuel - 2, by omega⟩
  rw [exec_eq _ _ _ (decimal_nonzero n), tokLoop_decimal n _ hn1 hn2, chkv_ok]
  unfold State.interp
  simp only [reduceCtorEq, if_false, if_true, hc]
  rw [dict_put_fail _ _ (by simpa using hnw) (by simpa using hfull), ign_ok,
    dict_put_fail _ _ (by simpa using hnw) (by simpa using hfull), ign_ok, chk_ok]
  simp only [State.next_token]
  rw [remaining_end _ (by simp)]
  simp only [tokLoop, chkv_ok]
  unfold State.interp
  simp

/-- C20, instance: the number 5 in compile mode on the full arena of 984 bytes. -/
theorem number_compile_full_witness :
    fullDemo.exec 2 (decimal 5) =
      .ok (E_OK, { fullDemo with input := decimal 5, input_size := (decimal 5).length,
                                 input_i := (decimal 5).length, token_number := 5 }) :=
  number_compile_full 5 fullDemo 2 (by decide) (by decide) (by decide) (by decide) (by decide)
    (by decide)

end ft

namespace ft

open Error Token

/-! ## Word tokens and the scratch buffer -/

/-- C19. Word tokens and the scratch bound: when the unread input starts with a run `w` of
non-whitespace bytes that starts neither a number nor a comment and is ended by whitespace
or by the end of the input, `next_token` returns `TK_WORD` with the scratch buffer holding
the bytes of `w` and a NUL if `w` and the NUL fit the buffer, and it returns
`E_OUT_OF_SCRATCH` otherwise; in both cases no byte at or beyond the end of the buffer is
written. -/
theorem next_token_word (s : State) (w rest : List Nat) (hrem : s.remaining = w ++ rest)
    (hw : isWordRun w rest = true)
    (hr : rest = [] ∨ ∃ c r, rest = c :: r ∧ isspace c = true) :
    (w.length + 1 ≤ FT_SCRATCH_SIZE →
      ∃ s2, s.next_token = .ok (E_OK, TK_WORD, s2) ∧
        rdBytes s2.scratch 0 (w.length + 1) = w ++ [0] ∧ s2.scratch_i = w.length + 1 ∧
        ∀ i, w.length < i → s2.scratch i = s.scratch i) ∧
    (FT_SCRATCH_SIZE < w.length + 1 →
      ∃ tk s2, s.next_token = .ok (E_OUT_OF_SCRATCH, tk, s2) ∧
        ∀ i, FT_SCRATCH_SIZE ≤ i → s2.scratch i = s.scratch i) := by
  unfold FT_SCRATCH_SIZE
  constructor
  · intro hfit
    refine ⟨s.retok (s.input_i + w.length + (if rest = [] then 0 else 1)) s.token_number
      (wrBytes s.scratch 0 (w ++ [0])) (w.length + 1), ?_, ?_, rfl, ?_⟩
    · unfold State.next_token
      rw [hrem, tokLoop_run w rest s hw (by omega) hr]
    · have := rdBytes_wrBytes_same s.scratch 0 (w ++ [0])
      simpa using this
    · intro i hi
      exact wrBytes_outside _ _ _ _ (by simp; omega)
  · intro hlong
    obtain ⟨r1, r2⟩ := tokLoop_long w rest s hw (by omega) hr
    refine ⟨(tokLoop (w ++ rest) false s).2.1, (tokLoop (w ++ rest) false s).2.2, ?_, r2⟩
    unfold State.next_token
    rw [hrem, ← r1]

/-- C19, instance: the word `dup` at the start of the text `dup 1`. -/
theorem next_token_word_witness :
    (3 + 1 ≤ FT_SCRATCH_SIZE →
      ∃ s2, wordDemo.next_token = .ok (E_OK, TK_WORD, s2) ∧
        rdBytes s2.scratch 0 (3 + 1) = str "dup" ++ [0] ∧ s2.scratch_i = 3 + 1 ∧
        ∀ i, 3 < i → s2.scratch i = wordDemo.scratch i) ∧
    (FT_SCRATCH_SIZE < 3 + 1 →
      ∃ tk s2, wordDemo.next_token = .ok (E_OUT_OF_SCRATCH, tk, s2) ∧
        ∀ i, FT_SCRATCH_SIZE ≤ i → s2.scratch i = wordDemo.scratch i) :=
  next_token_word wordDemo (str "dup") (str " 1") (by decide) (by decide)
    (Or.inr ⟨32, str "1", by decide, by decide⟩)

/-! ## The cursor of the interpreter loop -/

theorem isNumTok_nonzero (t : List Nat) (h : isNumTok t = true) : ∀ c ∈ t, c ≠ 0 := by
  cases t with
  | nil => simp [isNumTok] at h
  | cons c ds =>
    simp only [isNumTok, Bool.or_eq_true, Bool.and_eq_true, beq_iff_eq, Bool.not_eq_true',
      List.all_eq_true] at h
    intro x hx
    rcases h with ⟨⟨hc, _⟩, hd⟩ | ⟨hc, hd⟩
    · rcases List.mem_cons.mp hx with rfl | hx
      · omega
      · have := (isdigit_iff x).mp (hd x hx); omega
    · rcases List.mem_cons.mp hx with rfl | hx
      · have := (isdigit_iff x).mp hc; omega
      · have := (isdigit_iff x).mp (hd x hx); omega

theorem isWordTok_nonzero (t : List Nat) (h : isWordTok t = true) :
    (∀ c ∈ t, c ≠ 0) ∧ t.length ≤ 511 ∧ t ≠ [] := by
  obtain ⟨_, h2, h3⟩ := isWordTok_run t [] h (Or.inl rfl)
  refine ⟨h2, h3, ?_⟩
  intro h0
  subst h0
  simp [isWordTok] at h

theorem isTok_nonzero (t : List Nat) (h : isTok t = true) : ∀ c ∈ t, c ≠ 0 := by
  unfold isTok at h
  rcases Bool.or_eq_true _ _ ▸ h with h | h
  · exact isNumTok_nonzero t h
  · exact (isWordTok_nonzero t h).1

theorem unwords_nonzero (ts : List (List Nat)) (h : ∀ t ∈ ts, isTok t = true) :
    ∀ c ∈ unwords ts, c ≠ 0 := by
  induction ts with
  | nil => intro c hc; simp [unwords] at hc
  | cons t ts ih =>
    intro c hc
    rw [unwords_cons] at hc
    rcases List.mem_append.mp hc with hc | hc
    · exact isTok_nonzero t (h t (List.mem_cons_self _ _)) c hc
    · by_cases hts : ts = []
      · simp [hts] at hc
      · simp only [hts, if_false, List.mem_cons] at hc
        rcases hc with rfl | hc
        · decide
        · exact ih (fun u hu => h u (List.mem_cons_of_mem _ hu)) c hc

/-- The token fetch of the interpreter loop on a text of valid tokens: the next token is
fetched, or the end of the text is reported; only the cursor, the token value and the
scratch buffer change. -/
theorem fetch (s : State) (ts : List (List Nat)) (hl : Lead s.remaining ts)
    (hv : ∀ t ∈ ts, isTok t = true) :
    ∃ tk i n sc k, s.next_token = .ok (E_OK, tk, s.retok i n sc k) ∧
      Cur (s.retok i n sc k) tk ts := by
  cases ts with
  | nil =>
    obtain ⟨i, hi⟩ := next_token_end s hl
    exact ⟨TK_END, i, _, _, _, hi, rfl⟩
  | cons t ts =>
    have ht := hv t (List.mem_cons_self _ _)
    obtain ⟨hn, hw⟩ := next_token_spec s t ts hl
    by_cases hnum : isNumTok t = true
    · obtain ⟨i, h1, h2⟩ := hn hnum
      refine ⟨TK_NUMBER, i, _, _, _, h1, h2, ?_⟩
      rw [if_pos hnum]
      exact ⟨rfl, rfl⟩
    · have hword : isWordTok t = true := by
        unfold isTok at ht
        rcases Bool.or_eq_true _ _ ▸ ht with h | h
        · exact absurd h hnum
        · exact h
      obtain ⟨hz, hlen, hne⟩ := isWordTok_nonzero t hword
      obtain ⟨i, h1, h2⟩ := hw hword
      refine ⟨TK_WORD, i, _, _, _, h1, h2, ?_⟩
      rw [if_neg hnum]
      refine ⟨rfl, ?_, ?_, ?_⟩
      · show cstrFrom (wrBytes s.scratch 0 (t ++ [0])) 0 FT_SCRATCH_SIZE = some t
        exact cstrFrom_wrBytes _ t 0 _ hz (by unfold FT_SCRATCH_SIZE; omega)
      · show wrBytes s.scratch 0 (t ++ [0]) 0 = _
        unfold wrBytes
        rw [if_pos (by simp)]
      · show wrBytes s.scratch 0 (t ++ [0]) 1 = _
        unfold wrBytes
        have : 0 < t.length := List.length_pos.mpr hne
        rw [if_pos (by simp; omega)]

theorem lead_start (s : State) (ts : List (List Nat)) :
    Lead (s.start (unwords ts)).remaining ts := by
  left
  exact remaining_start s (unwords ts)

/-- The start of `exec(text)` on a text of valid tokens: the first token is fetched and the
loop is entered. -/
theorem exec_fetch (s : State) (fuel : Nat) (ts : List (List Nat))
    (hv : ∀ t ∈ ts, isTok t = true) :
    ∃ tk i n sc k, s.exec fuel (unwords ts) =
        ((s.start (unwords ts)).retok i n sc k).interp fuel tk ∧
      Cur ((s.start (unwords ts)).retok i n sc k) tk ts := by
  obtain ⟨tk, i, n, sc, k, h1, h2⟩ := fetch (s.start (unwords ts)) ts (lead_start s ts) hv
  refine ⟨tk, i, n, sc, k, ?_, h2⟩
  rw [exec_eq _ _ _ (unwords_nonzero ts hv)]
  have : tokLoop (unwords ts) false (s.start (unwords ts)) =
      (E_OK, tk, (s.start (unwords ts)).retok i n sc k) := by
    have h3 := h1
    unfold State.next_token at h3
    have h4 : (s.start (unwords ts)).remaining = unwords ts := remaining_start s (unwords ts)
    rw [h4] at h3
    injection h3
  show chkv (.ok (tokLoop (unwords ts) false (s.start (unwords ts)))) _ = _
  rw [this, chkv_ok]

theorem sameEngine_refl (s : State) : SameEngine s s :=
  ⟨rfl, rfl, rfl, rfl, rfl, rfl, rfl, fun _ => rfl, rfl, rfl, rfl⟩

theorem sameEngine_input (s : State) (t : List Nat) (i : Nat) (n : Int) (sc : Nat → Nat)
    (k : Nat) : SameEngine s ((s.start t).retok i n sc k) :=
  ⟨rfl, rfl, rfl, rfl, rfl, rfl, rfl, fun _ => rfl, rfl, rfl, rfl⟩

theorem sameEngine_retok (s : State) (i : Nat) (n : Int) (sc : Nat → Nat)
    (k : Nat) : SameEngine s (s.retok i n sc k) :=
  ⟨rfl, rfl, rfl, rfl, rfl, rfl, rfl, fun _ => rfl, rfl, rfl, rfl⟩

theorem sameEngine_trans (a b c : State) (h1 : SameEngine a b) (h2 : SameEngine b c) :
    SameEngine a c := by
  obtain ⟨a1, a2, a3, a4, a5, a6, a7, a8, a9, a10, a11⟩ := h1
  obtain ⟨b1, b2, b3, b4, b5, b6, b7, b8, b9, b10, b11⟩ := h2
  exact ⟨b1.trans a1, b2.trans a2, b3.trans a3, b4.trans a4, b5.trans a5, b6.trans a6,
    b7.trans a7, fun k => (b8 k).trans (a8 k), b9.trans a9, b10.trans a10, b11.trans a11⟩

end ft

namespace ft

open Error Token

/-! ## Word tokens that may not be invoked -/

theorem interp_word (s : State) (fuel : Nat) :
    s.interp (fuel + 1) TK_WORD =
      chk (s.exec_word fuel) fun s => chkv s.next_token fun tk s => State.interp fuel s tk := by
  rw [State.interp]
  simp only [reduceCtorEq, if_false]

theorem interp_end (s : State) (fuel : Nat) :
    s.interp (fuel + 1) TK_END = .ok (E_OK, s) := by
  rw [State.interp]
  simp only [if_true]

theorem isWordTok_not_num (t : List Nat) (h : isWordTok t = true) : isNumTok t = false := by
  cases t with
  | nil => rfl
  | cons c w =>
    simp only [isWordTok, Bool.and_eq_true, Bool.not_eq_true', List.all_cons,
      decide_eq_true_eq, List.length_cons, bne_iff_ne, ne_eq, beq_eq_false_iff_ne,
      List.all_eq_true] at h
    obtain ⟨⟨⟨⟨h1, _⟩, h3⟩, _, _⟩, _⟩ := h
    simp only [isNumTok, h1, Bool.false_and, Bool.or_false, Bool.and_eq_false_imp,
      beq_iff_eq, Bool.not_eq_true', Bool.and_eq_true]
    intro ⟨hc, hne⟩
    subst hc
    cases w with
    | nil => simp at hne
    | cons d r =>
      simp only [beq_self_eq_true, Bool.true_and] at h3
      simp [h3]

theorem cur_word (s : State) (tk : Token) (w : List Nat) (ts : List (List Nat))
    (h : Cur s tk (w :: ts)) (hw : isWordTok w = true) :
    tk = TK_WORD ∧ s.scratchStr = some w ∧ Lead s.remaining ts ∧
      s.scratch 0 = (w ++ [0]).getD 0 0 ∧ s.scratch 1 = (w ++ [0]).getD 1 0 := by
  obtain ⟨h1, h2⟩ := h
  rw [if_neg (by rw [isWordTok_not_num w hw]; decide)] at h2
  exact ⟨h2.1, h2.2.1, h1, h2.2.2.1, h2.2.2.2⟩

theorem cur_num (s : State) (tk : Token) (t : List Nat) (ts : List (List Nat))
    (h : Cur s tk (t :: ts)) (hn : isNumTok t = true) :
    tk = TK_NUMBER ∧ s.token_number = numVal t ∧ Lead s.remaining ts := by
  obtain ⟨h1, h2⟩ := h
  rw [if_pos hn] at h2
  exact ⟨h2.1, h2.2, h1⟩

/-- The `TK_WORD` branch of the interpreter on a word the dictionary does not hold. -/
theorem exec_word_missing (s : State) (L : List Entry) (name : List Nat) (fuel : Nat)
    (h : Arena s L) (hs : s.scratchStr = some name) (hfind : findEntry name L = none)
    (hf : L.length < fuel) : s.exec_word fuel = .ok (E_WORD_NOT_FOUND, s) := by
  have hname : ∀ c ∈ name, c ≠ 0 := cstrFrom_nonzero _ _ _ _ hs
  have hlk := arena_lookup s L name fuel h hname hf
  unfold State.exec_word
  rw [hs]
  simp only [hlk, hfind, entryPtr, ldv, ne_eq, not_true_eq_false, if_false]

/-- The names of the built-in words are bound in the fresh engine. -/
theorem fresh_isPrim (cfg : StateConfig) (h : GoodCfg cfg) (b : List Nat × Prim × Nat)
    (hb : b ∈ builtins) :
    IsPrim (State.fresh cfg).mem (State.fresh cfg).memory_i builtinDict b.1 b.2.1 b.2.2 :=
  (fresh_spec cfg h).2.1.1.2.2 b hb

end ft

namespace ft

open Error Token

/-! ## Native words run by the interpreter, and the feed-me-a-word loop -/

/-- The `TK_WORD` branch of the interpreter on a name bound to a native word that the mode
lets run: the callback is called, then the feed-me-a-word loop. -/
theorem exec_word_cword (s : State) (L : List Entry) (name : List Nat) (p : Prim)
    (flags : Nat) (fuel : Nat) (he : Eng s L) (hs : s.scratchStr = some name)
    (hp : IsPrim s.mem s.memory_i L name p flags)
    (hmode : (s.shared S_COMPILING = 0 ∧
        hasFlag (FLAG_CWORD + flags) FLAG_COMPILE_ONLY = false) ∨
      (s.shared S_COMPILING ≠ 0 ∧ hasFlag (FLAG_CWORD + flags) FLAG_IMMEDIATE = true))
    (hcw : hasFlag (FLAG_CWORD + flags) FLAG_CWORD = true) (hf : L.length < fuel) :
    s.exec_word fuel =
      match p.run fuel s with
      | .ok (e, s1) => chk (s1.want fuel p.fn e) fun s => .ok (E_OK, s)
      | .ub => .ub
      | .abort => .abort
      | .timeout => .timeout := by
  obtain ⟨e, h1, h2, h3, h4⟩ := hp
  obtain ⟨ha, ht, _⟩ := he
  have hle : s.memory_i ≤ s.memory_size := ha.2.2.1
  rw [exec_word_found s L name e fuel ha hs h1 hf, h2]
  have c1 : ¬ (s.shared S_COMPILING = 0 ∧ hasFlag (FLAG_CWORD + flags) FLAG_COMPILE_ONLY = true) := by
    rcases hmode with ⟨_, m2⟩ | ⟨m1, _⟩
    · rw [m2]; simp
    · intro hx; exact m1 hx.1
  have c2 : ¬ (s.shared S_COMPILING ≠ 0 ∧ hasFlag (FLAG_CWORD + flags) FLAG_IMMEDIATE = false) := by
    rcases hmode with ⟨m1, _⟩ | ⟨_, m2⟩
    · intro hx; exact hx.1 m1
    · rw [m2]; simp
  rw [if_neg c1, if_neg c2, if_pos hcw,
    load_at s _ e.body rfl (by clear h4; omega), h4]
  simp only [ldv]
  rw [cword_get_handle s p ht, chkv_ok, call_fn]

theorem want_done (s : State) (fuel : Nat) (cw : Int) (e : Error) (h : e ≠ E_WANT_WORD) :
    State.want (fuel + 1) s cw e = .ok (e, s) := by
  rw [State.want, if_pos h]

theorem want_more (s : State) (fuel : Nat) (cw : Int) :
    State.want (fuel + 1) s cw E_WANT_WORD =
      chkv s.next_token fun tk2 s =>
        if tk2 ≠ TK_WORD then .ok (E_WANT_WORD, s)
        else
          match (s.setShared S_WORD_AVAILABLE 1).call fuel cw with
          | .ok (e, s) => State.want fuel s cw e
          | .ub => .ub
          | .abort => .abort
          | .timeout => .timeout := by
  rw [State.want, if_neg (by simp)]

theorem colon_wants (s : State) (fuel : Nat) (h : s.shared S_WORD_AVAILABLE = 0) :
    Prim.colon.run fuel s = .ok (E_WANT_WORD, s) := by
  show w_colon s = _
  unfold w_colon
  rw [if_pos h]

theorem tick_wants (s : State) (fuel : Nat) (h : s.shared S_WORD_AVAILABLE = 0) :
    Prim.tick.run fuel s = .ok (E_WANT_WORD, s) := by
  show w_tick fuel s = _
  unfold w_tick
  rw [if_pos h]

theorem lbrace_wants (s : State) (fuel : Nat) (h : s.shared S_WORD_AVAILABLE = 0) :
    Prim.lbrace.run fuel s = .ok (E_WANT_WORD, s) := by
  show w_lbrace fuel s = _
  unfold w_lbrace
  rw [if_pos h]

end ft

namespace ft

open Error Token

/-! ## Tick -/

theorem push_ub (s : State) (v : Int) (h : s.stack_size ≤ s.si) : s.push v = .ub := by
  unfold State.push
  rw [if_neg (by omega)]

theorem arena_setShared (s : State) (L : List Entry) (k : Nat) (v : Int) (h : Arena s L)
    (hk : k ≠ S_LATEST) : Arena (s.setShared k v) L := by
  obtain ⟨h1, h2, h3, h4, h5, h6⟩ := h
  refine ⟨h1, h2, h3, h4, ?_, h6⟩
  show Chain s.mem s.memory s.memory_i (upd s.shared k v S_LATEST) L
  rw [upd_other _ _ _ _ (Ne.symm hk)]
  exact h5

theorem eng_setShared (s : State) (L : List Entry) (k : Nat) (v : Int) (h : Eng s L)
    (hk : k ≠ S_LATEST) : Eng (s.setShared k v) L :=
  ⟨arena_setShared s L k v h.1 hk, h.2.1, h.2.2⟩

/-- The callback of `'` once a word is available: the word is looked up; a missing word and
a native word are refused, and otherwise the arena offset of the body is pushed. -/
theorem tick_run (t : State) (L : List Entry) (w : List Nat) (g : Nat) (ha : Arena t L)
    (hwa : t.shared S_WORD_AVAILABLE ≠ 0) (hs : t.scratchStr = some w)
    (hg : L.length < g) :
    Prim.tick.run g t =
      match findEntry w L with
      | none => .ok (E_WORD_NOT_FOUND, t.setShared S_WORD_AVAILABLE 0)
      | some e =>
        if hasFlag e.flags FLAG_CWORD then
          .ok (E_EXPECTED_FORTH_WORD, t.setShared S_WORD_AVAILABLE 0)
        else (t.setShared S_WORD_AVAILABLE 0).push e.body := by
  have ha2 := arena_setShared t L S_WORD_AVAILABLE 0 ha (by decide)
  have hname : ∀ c ∈ w, c ≠ 0 := cstrFrom_nonzero _ _ _ _ hs
  have hlk := arena_lookup _ L w g ha2 hname hg
  have hs2 : (t.setShared S_WORD_AVAILABLE 0).scratchStr = some w := hs
  show w_tick g t = _
  unfold w_tick
  rw [if_neg hwa]
  simp only [hs2, hlk, ldv]
  cases hfind : findEntry w L with
  | none => simp only [entryPtr, if_true]
  | some e =>
    obtain ⟨hb, hsz, hle, _, hch, _⟩ := ha2
    obtain ⟨c1, c2, _, c4⟩ := chain_find _ _ _ _ _ _ _ hch hfind
    have hms : (t.setShared S_WORD_AVAILABLE 0).memory_size < 4611686018427387904 := by
      omega
    obtain ⟨⟨fl, l1, l2⟩, l3⟩ := entry_loads (t.setShared S_WORD_AVAILABLE 0) e c2
      (by omega) c4
    have hne : (t.setShared S_WORD_AVAILABLE 0).memory + (e.off : Int) ≠ 0 := by omega
    simp only [entryPtr, hne, if_false, l1, l2, l3]
    split
    · rfl
    · have hr : (t.setShared S_WORD_AVAILABLE 0).real_to_raddr
          ((t.setShared S_WORD_AVAILABLE 0).memory + (e.body : Int)) = e.body := by
        unfold State.real_to_raddr
        rw [show (t.setShared S_WORD_AVAILABLE 0).memory + (e.body : Int) -
          (t.setShared S_WORD_AVAILABLE 0).memory = e.body by omega]
        exact wrap_nat _ (by omega)
      rw [hr]

theorem sameEngine_wa (s : State) (h : s.shared S_WORD_AVAILABLE = 0) :
    SameEngine s ((s.setShared S_WORD_AVAILABLE 1).setShared S_WORD_AVAILABLE 0) := by
  refine ⟨rfl, rfl, rfl, rfl, rfl, rfl, rfl, ?_, rfl, rfl, rfl⟩
  intro k
  show upd (upd s.shared S_WORD_AVAILABLE 1) S_WORD_AVAILABLE 0 k = s.shared k
  by_cases hk : k = S_WORD_AVAILABLE
  · subst hk; rw [upd_same, h]
  · rw [upd_other _ _ _ _ hk, upd_other _ _ _ _ hk]

/-- The loop iteration on `'` followed by a word token `w`, at top level: the result of the
`TK_WORD` branch. -/
theorem tick_word (s : State) (L : List Entry) (w : List Nat) (ts : List (List Nat))
    (fuel : Nat) (tk : Token) (ht : Top s L) (hcur : Cur s tk (str "'" :: w :: ts))
    (hw : isWordTok w = true) (hts : ∀ t ∈ ts, isTok t = true) (hf : L.length < fuel + 1) :
    ∃ s4, SameEngine s s4 ∧ Lead s4.remaining ts ∧ tk = TK_WORD ∧
      s.exec_word (fuel + 2) =
        match findEntry w L with
        | none => .ok (E_WORD_NOT_FOUND, s4)
        | some e =>
          if hasFlag e.flags FLAG_CWORD then .ok (E_EXPECTED_FORTH_WORD, s4)
          else chk (s4.push e.body) fun s => .ok (E_OK, s) := by
  obtain ⟨he, hc, hwa⟩ := ht
  obtain ⟨c1, c2, c3, _⟩ := cur_word _ _ _ _ hcur (by decide)
  have hv : ∀ t ∈ w :: ts, isTok t = true := by
    intro t ht
    rcases List.mem_cons.mp ht with rfl | ht
    · unfold isTok; rw [hw]; simp
    · exact hts t ht
  obtain ⟨tk2, i, n, sc, k, f1, f2⟩ := fetch s (w :: ts) c3 hv
  obtain ⟨d1, d2, d3, _⟩ := cur_word _ _ _ _ f2 hw
  subst d1
  have ha3 : Arena ((s.retok i n sc k).setShared S_WORD_AVAILABLE 1) L :=
    arena_setShared _ L _ _ he.1 (by decide)
  have hrun := tick_run ((s.retok i n sc k).setShared S_WORD_AVAILABLE 1) L w (fuel + 1) ha3
    (by show upd s.shared S_WORD_AVAILABLE 1 S_WORD_AVAILABLE ≠ 0; rw [upd_same]; decide)
    d2 hf
  refine ⟨((s.retok i n sc k).setShared S_WORD_AVAILABLE 1).setShared S_WORD_AVAILABLE 0,
    sameEngine_trans _ _ _ (sameEngine_retok s i n sc k) (sameEngine_wa _ hwa), d3, c1, ?_⟩
  rw [exec_word_cword s L (str "'") Prim.tick 0 (fuel + 2) he c2
    (he.2.2 (str "'", Prim.tick, 0) (by decide))
    (Or.inl ⟨hc, by decide⟩) (by decide) (by omega), tick_wants s _ hwa]
  simp only []
  rw [want_more, f1, chkv_ok, if_neg (by simp), call_fn, hrun]
  cases hfind : findEntry w L with
  | none =>
    simp only []
    rw [want_done _ _ _ _ (by decide), chk_err _ _ _ (by decide)]
  | some e =>
    simp only []
    by_cases hcw : hasFlag e.flags FLAG_CWORD = true
    · rw [if_pos hcw, if_pos hcw]
      simp only []
      rw [want_done _ _ _ _ (by decide), chk_err _ _ _ (by decide)]
    · rw [if_neg hcw, if_neg hcw]
      by_cases hsi : s.si < s.stack_size
      · rw [push_ok
          (((s.retok i n sc k).setShared S_WORD_AVAILABLE 1).setShared S_WORD_AVAILABLE 0) _ hsi]
        simp only []
        rw [want_done _ _ _ _ (by decide)]
      · rw [push_ub
          (((s.retok i n sc k).setShared S_WORD_AVAILABLE 1).setShared S_WORD_AVAILABLE 0) _
          (by show s.stack_size ≤ s.si; omega)]

/-- The text `' w ...` at top level: what `exec` returns. -/
theorem tick_exec (s : State) (L : List Entry) (w : List Nat) (ts : List (List Nat))
    (fuel : Nat) (ht : Top s L) (hw : isWordTok w = true) (hts : ∀ t ∈ ts, isTok t = true)
    (hf : L.length < fuel + 1) :
    (findEntry w L = none →
      ∃ s2, s.exec (fuel + 3) (unwords (str "'" :: w :: ts)) = .ok (E_WORD_NOT_FOUND, s2) ∧
        SameEngine s s2) ∧
    (∀ e, findEntry w L = some e → hasFlag e.flags FLAG_CWORD = true →
      ∃ s2, s.exec (fuel + 3) (unwords (str "'" :: w :: ts)) =
          .ok (E_EXPECTED_FORTH_WORD, s2) ∧ SameEngine s s2) ∧
    (∀ e, findEntry w L = some e → hasFlag e.flags FLAG_CWORD = false →
      s.si < s.stack_size → ts = [] →
      ∃ s2 s3, s.exec (fuel + 3) (unwords (str "'" :: w :: ts)) = .ok (E_OK, s3) ∧
        SameEngine s s2 ∧ SameEngine (s2.withView ⟨upd s.stack s.si e.body, s.si + 1,
          s.stack_size⟩) s3) := by
  have hv : ∀ t ∈ str "'" :: w :: ts, isTok t = true := by
    intro t ht
    rcases List.mem_cons.mp ht with rfl | ht
    · decide
    · rcases List.mem_cons.mp ht with rfl | ht
      · unfold isTok; rw [hw]; simp
      · exact hts t ht
  obtain ⟨tk, i, n, sc, k, h1, h2⟩ := exec_fetch s (fuel + 3) (str "'" :: w :: ts) hv
  have ht1 : Top ((s.start (unwords (str "'" :: w :: ts))).retok i n sc k) L := ht
  obtain ⟨s4, q1, q2, q3, q4⟩ := tick_word _ L w ts fuel tk ht1 h2 hw hts hf
  subst q3
  have hse : SameEngine s s4 := sameEngine_trans _ _ _ (sameEngine_input s _ i n sc k) q1
  rw [interp_word, q4] at h1
  refine ⟨?_, ?_, ?_⟩
  · intro hnone
    rw [hnone] at h1
    simp only [] at h1
    rw [chk_err _ _ _ (by decide)] at h1
    exact ⟨s4, h1, hse⟩
  · intro e hfind hcw
    rw [hfind] at h1
    simp only [] at h1
    rw [if_pos hcw, chk_err _ _ _ (by decide)] at h1
    exact ⟨s4, h1, hse⟩
  · intro e hfind hcw hsi hnil
    subst hnil
    rw [hfind] at h1
    simp only [] at h1
    have hsi4 : s4.si < s4.stack_size := by rw [hse.2.2.1, hse.2.1]; exact hsi
    rw [if_neg (by rw [hcw]; decide), push_ok s4 _ hsi4, chk_ok, chk_ok] at h1
    obtain ⟨j, hj⟩ := next_token_end
      ({ s4 with stack := upd s4.stack s4.si e.body, si := s4.si + 1 } : State) q2
    rw [hj, chkv_ok, interp_end] at h1
    refine ⟨s4, _, h1, hse, ?_⟩
    rw [← hse.1, ← hse.2.2.1]
    exact sameEngine_retok _ _ _ _ _

/-! ### Engines extended by a new entry -/

theorem eng_extend (s s2 : State) (L : List Entry) (e : Entry) (h : Eng s L)
    (ha : Arena s2 (e :: L)) (hcw : s2.cwords = s.cwords)
    (hmem : ∀ i, i < s.memory_i → s2.mem i = s.mem i) (hle : s.memory_i ≤ s2.memory_i)
    (hname : ∀ b ∈ builtins, ¬ e.name = b.1) : Eng s2 (e :: L) := by
  refine ⟨ha, by rw [hcw]; exact h.2.1, ?_⟩
  intro b hb
  obtain ⟨e1, q1, q2, q3, q4⟩ := isPrim_frame _ s2.mem _ s2.memory_i L _ _ _ (h.2.2 b hb) hmem hle
  exact ⟨e1, by rw [findEntry_cons_ne _ _ _ (hname b hb)]; exact q1, q2, q3, q4⟩

theorem eng_same (s s2 : State) (L : List Entry) (h : Eng s L)
    (ha : Arena s2 L) (hcw : s2.cwords = s.cwords)
    (hmem : ∀ i, i < s.memory_i → s2.mem i = s.mem i) (hle : s.memory_i ≤ s2.memory_i) :
    Eng s2 L := by
  refine ⟨ha, by rw [hcw]; exact h.2.1, ?_⟩
  intro b hb
  exact isPrim_frame _ s2.mem _ s2.memory_i L _ _ _ (h.2.2 b hb) hmem hle

/-- The engine after `create` of a name that is not a built-in one. -/
theorem top_create (s : State) (L : List Entry) (name : List Nat) (h : Top s L)
    (hname : ∀ c ∈ name, c ≠ 0)
    (hroom : s.memory_i + (32 + align CELL (name.length + 1)) ≤ s.memory_size)
    (hnb : ∀ b ∈ builtins, ¬ name = b.1) :
    s.create name = .ok (E_OK, s.memory + s.memory_i,
      { s with mem := entryMem s.mem s.memory_i (s.shared S_LATEST) name,
               memory_i := s.memory_i + (32 + align CELL (name.length + 1)),
               shared := upd s.shared S_LATEST (s.memory + s.memory_i) }) ∧
    Top { s with mem := entryMem s.mem s.memory_i (s.shared S_LATEST) name,
                 memory_i := s.memory_i + (32 + align CELL (name.length + 1)),
                 shared := upd s.shared S_LATEST (s.memory + s.memory_i) }
      ({ off := s.memory_i, name := name, flags := 0 } :: L) := by
  obtain ⟨he, hc, hwa⟩ := h
  have hge := align8_ge (name.length + 1)
  have hms : s.memory_size < 4611686018427387904 := by
    have := he.1.1; have := he.1.2.1; omega
  obtain ⟨c1, c2⟩ := create_arena s L name he.1 hname (by omega) hroom
  refine ⟨c1, eng_extend s _ L _ he c2 rfl (fun i hi => entryMem_below _ _ _ _ _ hi)
    (by show s.memory_i ≤ s.memory_i + _; omega) hnb, ?_, ?_⟩
  · show upd s.shared S_LATEST (s.memory + (s.memory_i : Int)) S_COMPILING = 0
    rw [upd_other _ _ _ _ (by decide)]; exact hc
  · show upd s.shared S_LATEST (s.memory + (s.memory_i : Int)) S_WORD_AVAILABLE = 0
    rw [upd_other _ _ _ _ (by decide)]; exact hwa

end ft

namespace ft

open Error Token

/-! ## Tick: the claims -/

theorem stackList_push (s s2 : State) (v : Int) (h1 : s2.stack = upd s.stack s.si v)
    (h2 : s2.si = s.si + 1) : s2.stackList = s.stackList ++ [v] := by
  unfold State.stackList
  rw [h1, h2]
  simp only [List.range_succ, List.map_append, List.map_cons, List.map_nil, upd_same]
  congr 1
  apply List.map_congr_left
  intro i hi
  have := List.mem_range.mp hi
  exact upd_other _ _ _ _ (by omega)

/-- The success case of `' w`: the arena offset of the body of `w` is pushed, and it is a
valid address then and after every `allot` that does not wrap. -/
theorem tick_ok (s : State) (L : List Entry) (w : List Nat) (e : Entry) (fuel : Nat)
    (ht : Top s L) (hw : isWordTok w = true) (hf : L.length < fuel + 1)
    (hfind : findEntry w L = some e) (hcw : hasFlag e.flags FLAG_CWORD = false)
    (hsi : s.si < s.stack_size) :
    ∃ s2, s.exec (fuel + 3) (unwords [str "'", w]) = .ok (E_OK, s2) ∧
      s2.stackList = s.stackList ++ [(e.body : Int)] ∧ s2.memory_i = s.memory_i ∧
      s2.mem = s.mem ∧ s2.memory_size = s.memory_size ∧ s2.raddr_valid e.body = E_OK ∧
      ∀ n, s2.memory_i + n < 18446744073709551616 →
        (s2.allot n).2.2.raddr_valid e.body = E_OK := by
  obtain ⟨s2, s3, h1, h2, h3⟩ :=
    (tick_exec s L w [] fuel ht hw (by simp) hf).2.2 e hfind hcw hsi rfl
  obtain ⟨hb, _⟩ := chain_find _ _ _ _ _ _ _ ht.1.1.2.2.2.2.1 hfind
  have hmi : s3.memory_i = s.memory_i := h3.2.2.2.2.2.1.trans h2.2.2.2.2.2.1
  have hv : ∀ t : State, s.memory_i ≤ t.memory_i → t.raddr_valid e.body = E_OK := by
    intro t ht
    unfold State.raddr_valid
    rw [if_neg (by omega)]
  refine ⟨s3, h1, stackList_push s s3 _ h3.1 h3.2.2.1, hmi, h3.2.2.2.2.1.trans h2.2.2.2.2.1,
    h3.2.2.2.2.2.2.1.trans h2.2.2.2.2.2.2.1, hv s3 (by omega), ?_⟩
  intro n hn
  apply hv
  unfold State.allot
  rw [Nat.mod_eq_of_lt hn]
  split
  · show s.memory_i ≤ s3.memory_i; omega
  · show s.memory_i ≤ s3.memory_i + n; omega

/-- C15. Tick, with the two provisos the code needs.  On a well-formed engine at top level
and for every word token `w`, `exec("' w")` returns `E_WORD_NOT_FOUND` if no entry bears the
name `w`, and `E_EXPECTED_FORTH_WORD` if the newest such entry is a native word; in both
cases nothing is pushed and the engine is unchanged.  Otherwise, if the data stack is not
full, it returns `E_OK` having pushed exactly one cell, the arena offset of the body of
`w`; the arena and `here` are unchanged, that offset satisfies `raddr_valid`, and it still
does after every `allot` whose `size_t` sum does not wrap. -/
theorem tick_spec (s : State) (L : List Entry) (w : List Nat) (fuel : Nat)
    (ht : Top s L) (hw : isWordTok w = true) (hf : L.length < fuel + 1) :
    (findEntry w L = none →
      ∃ s2, s.exec (fuel + 3) (unwords [str "'", w]) = .ok (E_WORD_NOT_FOUND, s2) ∧
        SameEngine s s2) ∧
    (∀ e, findEntry w L = some e → hasFlag e.flags FLAG_CWORD = true →
      ∃ s2, s.exec (fuel + 3) (unwords [str "'", w]) = .ok (E_EXPECTED_FORTH_WORD, s2) ∧
        SameEngine s s2) ∧
    (∀ e, findEntry w L = some e → hasFlag e.flags FLAG_CWORD = false →
      s.si < s.stack_size →
      ∃ s2, s.exec (fuel + 3) (unwords [str "'", w]) = .ok (E_OK, s2) ∧
        s2.stackList = s.stackList ++ [(e.body : Int)] ∧ s2.memory_i = s.memory_i ∧
        s2.mem = s.mem ∧ s2.memory_size = s.memory_size ∧ s2.raddr_valid e.body = E_OK ∧
        ∀ n, s2.memory_i + n < 18446744073709551616 →
          (s2.allot n).2.2.raddr_valid e.body = E_OK) :=
  ⟨(tick_exec s L w [] fuel ht hw (by simp) hf).1,
   (tick_exec s L w [] fuel ht hw (by simp) hf).2.1,
   fun e hfind hcw hsi => tick_ok s L w e fuel ht hw hf hfind hcw hsi⟩

/-- The engine `tickDemo`: the fresh engine of `repl.cpp` with the Forth word `foo` at arena
offset 984, whose body starts at offset 1024, the new value of `here`. -/
theorem tickDemo_spec :
    Top tickDemo ({ off := 984, name := str "foo", flags := 0 } :: builtinDict) ∧
      tickDemo.memory_i = 1024 ∧ tickDemo.memory_size = 1048576 ∧ tickDemo.si = 0 ∧
      tickDemo.stack_size = 1024 := by
  obtain ⟨_, ht, _⟩ := fresh_spec replCfg goodCfg_repl
  obtain ⟨f1, f2, f3, f4, f5, f6, f7⟩ := fresh_repl_fields
  have hal : align CELL ((str "foo").length + 1) = 8 := by decide!
  obtain ⟨c1, c2⟩ := top_create (State.fresh replCfg) builtinDict (str "foo") ht (by decide)
    (by rw [f3, f2, hal]; decide) (by decide)
  have hd : tickDemo = { State.fresh replCfg with
      mem := entryMem (State.fresh replCfg).mem (State.fresh replCfg).memory_i
        ((State.fresh replCfg).shared S_LATEST) (str "foo"),
      memory_i := (State.fresh replCfg).memory_i + (32 + align CELL ((str "foo").length + 1)),
      shared := upd (State.fresh replCfg).shared S_LATEST
        ((State.fresh replCfg).memory + (State.fresh replCfg).memory_i) } := by
    unfold tickDemo
    rw [c1]
  rw [hd]
  rw [f3] at c2
  refine ⟨by rw [f3]; exact c2, ?_, f2, f6, f7⟩
  show (State.fresh replCfg).memory_i + (32 + align CELL ((str "foo").length + 1)) = 1024
  rw [f3, hal]

/-- C15, instance: `' foo` on the engine `tickDemo` pushes 1024, the offset of the body of
`foo`. -/
theorem tick_spec_witness :
    ∃ s2, tickDemo.exec 103 (str "' foo") = .ok (E_OK, s2) ∧
      s2.stackList = tickDemo.stackList ++ [1024] ∧ s2.memory_i = tickDemo.memory_i ∧
      s2.mem = tickDemo.mem ∧ s2.memory_size = tickDemo.memory_size ∧
      s2.raddr_valid 1024 = E_OK ∧
      ∀ n, s2.memory_i + n < 18446744073709551616 →
        (s2.allot n).2.2.raddr_valid 1024 = E_OK := by
  obtain ⟨ht, _, _, h3, h4⟩ := tickDemo_spec
  have := (tick_spec tickDemo _ (str "foo") 100 ht (by decide) (by decide)).2.2
    ⟨984, str "foo", 0⟩ (findEntry_cons_eq (str "foo") ⟨984, str "foo", 0⟩ builtinDict rfl)
    (by decide) (by rw [h3, h4]; decide)
  have hb : ((⟨984, str "foo", 0⟩ : Entry).body : Int) = 1024 := by decide!
  rw [hb] at this
  exact this

/-- C15, the `allot` clause as stated fails: on the engine `tickDemo`, `' foo` pushes the
valid address 1024; the later request `allot(2^64 - 1024)` returns `E_OK` because the
`size_t` sum wraps to 0, and afterwards `raddr_valid(1024)` is `E_INVALID_ADDRESS`. -/
theorem tick_addr_stale_after_wrap :
    ∃ s2, tickDemo.exec 103 (str "' foo") = .ok (E_OK, s2) ∧ s2.stackList = [1024] ∧
      s2.raddr_valid 1024 = E_OK ∧ (s2.allot wrapReq).1 = E_OK ∧
      (s2.allot wrapReq).2.2.raddr_valid 1024 = E_INVALID_ADDRESS := by
  obtain ⟨ht, h1, h2, h3, h4⟩ := tickDemo_spec
  obtain ⟨s2, q1, q2, q3, _, q5, q6, _⟩ := tick_ok tickDemo _ (str "foo") ⟨984, str "foo", 0⟩
    100 ht (by decide) (by decide)
    (findEntry_cons_eq (str "foo") ⟨984, str "foo", 0⟩ builtinDict rfl) (by decide)
    (by rw [h3, h4]; decide)
  have hb : ((⟨984, str "foo", 0⟩ : Entry).body : Int) = 1024 := by decide!
  rw [hb] at q2 q6
  have hsl : tickDemo.stackList = [] := by
    unfold State.stackList; rw [h3]; rfl
  rw [hsl] at q2
  have hal : s2.allot wrapReq = (E_OK, s2.memory + s2.memory_i, { s2 with memory_i := 0 }) := by
    have e : (1024 + wrapReq) % 18446744073709551616 = 0 := by norm_num [wrapReq]
    unfold State.allot
    rw [q3, h1, q5, h2, e, if_neg (by omega)]
  refine ⟨s2, q1, q2, q6, by rw [hal], ?_⟩
  rw [hal]
  unfold State.raddr_valid
  rw [if_pos (Or.inr (by show (1024 : Int) > ((0 : Nat) : Int); decide))]

/-! ## Scenario 6: tick of a native word -/

/-- The text `' + ...` on the freshly constructed engine. -/
theorem tick_plus (cfg : StateConfig) (h : GoodCfg cfg) (ts : List (List Nat))
    (hts : ∀ t ∈ ts, isTok t = true) :
    ∃ s2, (State.fresh cfg).exec 103 (unwords (str "'" :: str "+" :: ts)) =
        .ok (E_EXPECTED_FORTH_WORD, s2) ∧ SameEngine (State.fresh cfg) s2 := by
  obtain ⟨_, ht, _⟩ := fresh_spec cfg h
  obtain ⟨e, hfind, hfl, _⟩ := fresh_isPrim cfg h (str "+", Prim.plus, 0) (by decide)
  exact (tick_exec (State.fresh cfg) builtinDict (str "+") ts 100 ht (by decide) hts
    (by decide)).2.1 e hfind (by rw [hfl]; decide)

/-- C16, as stated it fails: on the engine of `repl.cpp`, `exec("' +")` does not return
`E_OK`; it returns `E_EXPECTED_FORTH_WORD` and the data stack stays empty. -/
theorem tick_plus_refused :
    ∃ s2, (State.fresh replCfg).exec 103 (str "' +") = .ok (E_EXPECTED_FORTH_WORD, s2) ∧
      s2.si = 0 := by
  obtain ⟨s2, h1, h2⟩ := tick_plus replCfg goodCfg_repl [] (by simp)
  exact ⟨s2, h1, h2.2.2.1.trans fresh_repl_fields.2.2.2.2.2.1⟩

/-- C16. Scenario 6 as the code has it: on a freshly constructed engine `exec("' +")`
returns `E_EXPECTED_FORTH_WORD`, because `+` is a native word, and so do `exec("' + .")` and
`exec("' + @")`, before `.` or `@` run; nothing is pushed and the engine is unchanged. -/
theorem tick_plus_spec (cfg : StateConfig) (h : GoodCfg cfg) :
    (∃ s2, (State.fresh cfg).exec 103 (str "' +") = .ok (E_EXPECTED_FORTH_WORD, s2) ∧
      SameEngine (State.fresh cfg) s2) ∧
    (∃ s2, (State.fresh cfg).exec 103 (str "' + .") = .ok (E_EXPECTED_FORTH_WORD, s2) ∧
      SameEngine (State.fresh cfg) s2) ∧
    (∃ s2, (State.fresh cfg).exec 103 (str "' + @") = .ok (E_EXPECTED_FORTH_WORD, s2) ∧
      SameEngine (State.fresh cfg) s2) :=
  ⟨tick_plus cfg h [] (by simp), tick_plus cfg h [str "."] (by decide),
   tick_plus cfg h [str "@"] (by decide)⟩

/-- C16, instance: the engine of `repl.cpp`. -/
theorem tick_plus_spec_witness :
    (∃ s2, (State.fresh replCfg).exec 103 (str "' +") = .ok (E_EXPECTED_FORTH_WORD, s2) ∧
      SameEngine (State.fresh replCfg) s2) ∧
    (∃ s2, (State.fresh replCfg).exec 103 (str "' + .") = .ok (E_EXPECTED_FORTH_WORD, s2) ∧
      SameEngine (State.fresh replCfg) s2) ∧
    (∃ s2, (State.fresh replCfg).exec 103 (str "' + @") = .ok (E_EXPECTED_FORTH_WORD, s2) ∧
      SameEngine (State.fresh replCfg) s2) :=
  tick_plus_spec replCfg goodCfg_repl

end ft

namespace ft

open Error Token

/-! ## Cells emitted by the compiler -/

theorem tok_refl (s : State) : Tok s s := ⟨_, _, _, _, (retok_self s).symm⟩

theorem tok_retok (s : State) (i : Nat) (n : Int) (sc : Nat → Nat) (k : Nat) :
    Tok s (s.retok i n sc k) := ⟨i, n, sc, k, rfl⟩

theorem tok_trans (a b c : State) (h1 : Tok a b) (h2 : Tok b c) : Tok a c := by
  obtain ⟨i, n, sc, k, rfl⟩ := h1
  obtain ⟨i2, n2, sc2, k2, rfl⟩ := h2
  exact ⟨i2, n2, sc2, k2, rfl⟩

theorem tok_put (a b : State) (c : Int) (h : Tok a b) : Tok (a.put c) (b.put c) := by
  obtain ⟨i, n, sc, k, rfl⟩ := h
  exact ⟨i, n, sc, k, rfl⟩

theorem tok_puts (a b : State) (cs : List Int) (h : Tok a b) : Tok (a.puts cs) (b.puts cs) := by
  induction cs generalizing a b with
  | nil => exact h
  | cons c cs ih => exact ih _ _ (tok_put a b c h)

theorem tok_same (a b : State) (h : Tok a b) : SameEngine a b := by
  obtain ⟨i, n, sc, k, rfl⟩ := h
  exact sameEngine_retok a i n sc k

theorem tok_withView (a b : State) (v : View) (h : Tok a b) :
    Tok (a.withView v) (b.withView v) := by
  obtain ⟨i, n, sc, k, rfl⟩ := h
  exact ⟨i, n, sc, k, rfl⟩

theorem tok_arena (a b : State) (L : List Entry) (h : Tok a b) (ha : Arena a L) :
    Arena b L := by
  obtain ⟨i, n, sc, k, rfl⟩ := h
  exact ha

theorem tok_eng (a b : State) (L : List Entry) (h : Tok a b) (ha : Eng a L) : Eng b L := by
  obtain ⟨i, n, sc, k, rfl⟩ := h
  exact ha

theorem puts_append (s : State) (xs ys : List Int) :
    s.puts (xs ++ ys) = (s.puts xs).puts ys := by
  induction xs generalizing s with
  | nil => rfl
  | cons x xs ih => exact ih (s.put x)

theorem puts_memory_i (s : State) (cs : List Int) :
    (s.puts cs).memory_i = s.memory_i + 8 * cs.length := by
  induction cs generalizing s with
  | nil => rfl
  | cons c cs ih =>
    show ((s.put c).puts cs).memory_i = _
    rw [ih]
    show s.memory_i + 8 + 8 * cs.length = s.memory_i + 8 * (cs.length + 1)
    omega

theorem puts_below (s : State) (cs : List Int) (i : Nat) (h : i < s.memory_i) :
    (s.puts cs).mem i = s.mem i := by
  induction cs generalizing s with
  | nil => rfl
  | cons c cs ih =>
    show ((s.put c).puts cs).mem i = _
    rw [ih _ (by show i < s.memory_i + 8; omega)]
    exact wrCell_outside _ _ _ _ (by omega)

theorem puts_above (s : State) (cs : List Int) (i : Nat)
    (h : s.memory_i + 8 * cs.length ≤ i) : (s.puts cs).mem i = s.mem i := by
  induction cs generalizing s with
  | nil => rfl
  | cons c cs ih =>
    simp only [List.length_cons] at h
    show ((s.put c).puts cs).mem i = _
    rw [ih _ (by show s.memory_i + 8 + 8 * cs.length ≤ i; omega)]
    exact wrCell_outside _ _ _ _ (by omega)

theorem codeAt_frame (m m2 : Nat → Nat) (a : Nat) (cs : List Int) (h : CodeAt m a cs)
    (hm : ∀ i, a ≤ i → i < a + 8 * cs.length → m2 i = m i) : CodeAt m2 a cs := by
  induction cs generalizing a with
  | nil => trivial
  | cons c cs ih =>
    obtain ⟨h1, h2⟩ := h
    simp only [List.length_cons] at hm
    refine ⟨?_, ih _ h2 (fun i hi1 hi2 => hm i (by omega) (by omega))⟩
    rw [← h1]
    apply rdCell_congr
    intro i hi1 hi2
    exact hm i hi1 (by omega)

theorem codeAt_append (m : Nat → Nat) (a : Nat) (xs ys : List Int) :
    CodeAt m a (xs ++ ys) ↔ CodeAt m a xs ∧ CodeAt m (a + 8 * xs.length) ys := by
  induction xs generalizing a with
  | nil => simp [CodeAt]
  | cons x xs ih =>
    show (rdCell m a = x ∧ CodeAt m (a + 8) (xs ++ ys)) ↔
      (rdCell m a = x ∧ CodeAt m (a + 8) xs) ∧ CodeAt m (a + 8 * (xs.length + 1)) ys
    rw [ih (a + 8), show a + 8 + 8 * xs.length = a + 8 * (xs.length + 1) by omega]
    tauto

/-- The cells emitted are in the arena, provided they are cells. -/
theorem codeAt_puts (s : State) (cs : List Int) (hc : ∀ c ∈ cs, wrap c = c) :
    CodeAt (s.puts cs).mem s.memory_i cs := by
  induction cs generalizing s with
  | nil => trivial
  | cons c cs ih =>
    have h1 := ih (s.put c) (fun x hx => hc x (List.mem_cons_of_mem _ hx))
    refine ⟨?_, h1⟩
    show rdCell ((s.put c).puts cs).mem s.memory_i = c
    have e : rdCell ((s.put c).puts cs).mem s.memory_i = rdCell (s.put c).mem s.memory_i := by
      apply rdCell_congr
      intro i hi1 hi2
      exact puts_below (s.put c) cs i (by show i < s.memory_i + 8; omega)
    rw [e]
    show rdCell (wrCell s.mem s.memory_i c) s.memory_i = c
    rw [rdCell_wrCell_same, hc c (List.mem_cons_self _ _)]

theorem arena_put (s : State) (L : List Entry) (c : Int) (h : Arena s L)
    (hroom : s.memory_i + 8 ≤ s.memory_size) : Arena (s.put c) L := by
  obtain ⟨h1, h2, h3, h4, h5, h6⟩ := h
  refine ⟨h1, h2, hroom, ?_, ?_, ?_⟩
  · show (s.memory_i + 8) % 8 = 0
    omega
  · exact chain_frame s.mem _ s.memory s.memory_i _ _ L h5
      (fun i hi => wrCell_outside _ _ _ _ (by omega)) (by show s.memory_i ≤ s.memory_i + 8; omega)
  · intro i hi
    have hi2 : s.memory_i + 8 ≤ i := hi
    show wrCell s.mem s.memory_i c i = 0
    rw [wrCell_outside _ _ _ _ (by omega)]
    exact h6 i (by omega)

theorem eng_put (s : State) (L : List Entry) (c : Int) (h : Eng s L)
    (hroom : s.memory_i + 8 ≤ s.memory_size) : Eng (s.put c) L :=
  eng_same s (s.put c) L h (arena_put s L c h.1 hroom) rfl
    (fun i hi => wrCell_outside _ _ _ _ (by omega))
    (by show s.memory_i ≤ s.memory_i + 8; omega)

theorem eng_puts (s : State) (L : List Entry) (cs : List Int) (h : Eng s L)
    (hroom : s.memory_i + 8 * cs.length ≤ s.memory_size) : Eng (s.puts cs) L := by
  induction cs generalizing s with
  | nil => exact h
  | cons c cs ih =>
    simp only [List.length_cons] at hroom
    exact ih (s.put c) (eng_put s L c h (by omega))
      (by show s.memory_i + 8 + 8 * cs.length ≤ s.memory_size; omega)

theorem dict_put_put (s : State) (L : List Entry) (c : Int) (h : Arena s L)
    (hroom : s.memory_i + 8 ≤ s.memory_size) : s.dict_put c = .ok (E_OK, s.put c) := by
  have : s.memory_size < 4611686018427387904 := by
    have := h.1; have := h.2.1; omega
  exact dict_put_ok s c hroom (by omega)

end ft

namespace ft

open Error Token

/-! ## What the stack words do to the data stack -/

theorem pop_zero (s : State) (h : s.si = 0) : s.pop = .ok (E_STACK_UNDERFLOW, 0, s) := by
  unfold State.pop
  rw [if_pos h]

theorem pop_ub (s : State) (h1 : 1 ≤ s.si) (h2 : s.stack_size < s.si) : s.pop = .ub := by
  unfold State.pop
  rw [if_neg (by omega), if_neg (by omega)]

theorem binop_eval (g : Int → Int → Int) (s : State) :
    (chkv s.pop fun a s => chkv s.pop fun b s => s.push (g a b)) =
      if s.si = 0 then .ok (E_STACK_UNDERFLOW, s)
      else if s.stack_size < s.si then .ub
      else if s.si = 1 then .ok (E_STACK_UNDERFLOW, { s with si := 0 })
      else .ok (E_OK, { s with stack := upd s.stack (s.si - 2)
                                  (g (s.stack (s.si - 1)) (s.stack (s.si - 2))),
                               si := s.si - 1 }) := by
  by_cases h0 : s.si = 0
  · rw [if_pos h0, pop_zero s h0, chkv_err _ _ _ _ (by decide)]
  · rw [if_neg h0]
    by_cases h1 : s.stack_size < s.si
    · rw [if_pos h1, pop_ub s (by omega) h1]
      rfl
    · rw [if_neg h1, pop_ok s (by omega) (by omega), chkv_ok]
      by_cases h3 : s.si = 1
      · rw [if_pos h3, pop_zero _ (by simp only []; omega), chkv_err _ _ _ _ (by decide), h3]
      · rw [if_neg h3, pop_ok _ (by simp only []; omega) (by simp only []; omega), chkv_ok,
          push_ok _ _ (by simp only []; omega)]
        have h6 : s.si - 1 - 1 = s.si - 2 := by omega
        have h7 : s.si - 2 + 1 = s.si - 1 := by omega
        simp only [h6, h7]

theorem dup_eval (s : State) :
    w_dup s =
      if s.si = 0 then .ok (E_STACK_UNDERFLOW, s)
      else if s.stack_size < s.si then .ub
      else if s.si = s.stack_size then .ub
      else .ok (E_OK, { s with stack := upd s.stack s.si (s.stack (s.si - 1)),
                               si := s.si + 1 }) := by
  have e0 : toSize 0 = 0 := by decide!
  unfold w_dup State.pick
  rw [e0]
  by_cases h0 : s.si = 0
  · rw [if_pos h0, if_pos (by omega), chkv_err _ _ _ _ (by decide)]
  · rw [if_neg h0, if_neg (by omega)]
    by_cases h1 : s.stack_size < s.si
    · rw [if_pos h1, if_neg (by omega)]
      rfl
    · rw [if_neg h1, if_pos (by omega), chkv_ok]
      by_cases h3 : s.si = s.stack_size
      · rw [if_pos h3, push_ub _ _ (by omega)]
      · rw [if_neg h3, push_ok _ _ (by omega)]
        rfl

theorem drop_eval (s : State) :
    w_drop s =
      if s.si = 0 then .ok (E_STACK_UNDERFLOW, s)
      else .ok (E_OK, { s with si := s.si - 1 }) := by
  unfold w_drop State.drop
  by_cases h0 : s.si = 0
  · rw [if_pos h0, if_pos (by omega)]
  · rw [if_neg h0, if_neg (by omega)]

theorem swap_eval (s : State) :
    w_swap s =
      if s.si = 0 then .ok (E_STACK_UNDERFLOW, s)
      else if s.stack_size < s.si then .ub
      else if s.si = 1 then .ok (E_STACK_UNDERFLOW, { s with si := 0 })
      else .ok (E_OK, { s with stack := upd (upd s.stack (s.si - 2) (s.stack (s.si - 1)))
                                  (s.si - 1) (s.stack (s.si - 2)),
                               si := s.si }) := by
  unfold w_swap
  by_cases h0 : s.si = 0
  · rw [if_pos h0, pop_zero s h0, chkv_err _ _ _ _ (by decide)]
  · rw [if_neg h0]
    by_cases h1 : s.stack_size < s.si
    · rw [if_pos h1, pop_ub s (by omega) h1]
      rfl
    · rw [if_neg h1, pop_ok s (by omega) (by omega), chkv_ok]
      by_cases h3 : s.si = 1
      · rw [if_pos h3, pop_zero _ (by simp only []; omega), chkv_err _ _ _ _ (by decide), h3]
      · rw [if_neg h3, pop_ok _ (by simp only []; omega) (by simp only []; omega), chkv_ok,
          push_ok _ _ (by simp only []; omega), chk_ok, push_ok _ _ (by simp only []; omega)]
        have h6 : s.si - 1 - 1 = s.si - 2 := by omega
        have h7 : s.si - 2 + 1 = s.si - 1 := by omega
        have h8 : s.si - 1 + 1 = s.si := by omega
        simp only [h6, h7, h8]

theorem push_eval (s : State) (x : Int) :
    (ign (s.push x) fun s => .ok (E_OK, s)) =
      if s.si < s.stack_size then
        .ok (E_OK, { s with stack := upd s.stack s.si x, si := s.si + 1 })
      else .ub := by
  unfold State.push
  split_ifs <;> rfl

/-- What an item does to a state is what it does to the data stack; nothing else changes. -/
theorem item_run_view (it : Item) (s : State) (fuel : Nat) :
    it.run fuel s = s.lift (it.runV s.view) := by
  cases it with
  | num t =>
    simp only [Item.run, Item.runV, push_eval, View.state, State.view]
    split_ifs <;> rfl
  | op o =>
    cases o
    · show (chkv s.pop fun a s => chkv s.pop fun b s => s.push (wrap (b + a))) = _
      unfold Item.runV
      show _ = s.lift (obs (chkv (State.pop _) fun a s => chkv s.pop fun b s =>
        s.push (wrap (b + a))))
      rw [binop_eval (fun a b => wrap (b + a)), binop_eval (fun a b => wrap (b + a))]
      simp only [View.state, State.view]
      split_ifs <;> rfl
    · show (chkv s.pop fun a s => chkv s.pop fun b s => s.push (wrap (b - a))) = _
      unfold Item.runV
      show _ = s.lift (obs (chkv (State.pop _) fun a s => chkv s.pop fun b s =>
        s.push (wrap (b - a))))
      rw [binop_eval (fun a b => wrap (b - a)), binop_eval (fun a b => wrap (b - a))]
      simp only [View.state, State.view]
      split_ifs <;> rfl
    · show (chkv s.pop fun a s => chkv s.pop fun b s => s.push (wrap (a * b))) = _
      unfold Item.runV
      show _ = s.lift (obs (chkv (State.pop _) fun a s => chkv s.pop fun b s =>
        s.push (wrap (a * b))))
      rw [binop_eval (fun a b => wrap (a * b)), binop_eval (fun a b => wrap (a * b))]
      simp only [View.state, State.view]
      split_ifs <;> rfl
    · show (chkv s.pop fun a s => chkv s.pop fun b s => s.push (if b > a then -1 else 0)) = _
      unfold Item.runV
      show _ = s.lift (obs (chkv (State.pop _) fun a s => chkv s.pop fun b s =>
        s.push (if b > a then -1 else 0)))
      rw [binop_eval (fun a b => if b > a then -1 else 0),
        binop_eval (fun a b => if b > a then -1 else 0)]
      simp only [View.state, State.view]
      split_ifs <;> rfl
    · show w_dup s = _
      unfold Item.runV
      show _ = s.lift (obs (w_dup _))
      rw [dup_eval, dup_eval]
      simp only [View.state, State.view]
      split_ifs <;> rfl
    · show w_drop s = _
      unfold Item.runV
      show _ = s.lift (obs (w_drop _))
      rw [drop_eval, drop_eval]
      simp only [View.state, State.view]
      split_ifs <;> rfl
    · show w_swap s = _
      unfold Item.runV
      show _ = s.lift (obs (w_swap _))
      rw [swap_eval, swap_eval]
      simp only [View.state, State.view]
      split_ifs <;> rfl

/-- An item either overflows the data stack buffer, or returns with `E_OK` or
`E_STACK_UNDERFLOW`, having pushed at most one cell. -/
theorem itemV_cases (it : Item) (v : View) :
    (it.runV v = .ub ∧ v.size ≤ v.si) ∨
    ∃ e v2, it.runV v = .ok (e, v2) ∧ (e = E_OK ∨ e = E_STACK_UNDERFLOW) ∧
      v2.size = v.size ∧ v2.si ≤ v.si + 1 := by
  have hsi : v.state.si = v.si := rfl
  have hsz : v.state.stack_size = v.size := rfl
  cases it with
  | num t =>
    have e : (Item.num t).runV v = obs (ign (v.state.push (numVal t)) fun s => .ok (E_OK, s)) :=
      rfl
    rw [e, push_eval, hsi, hsz]
    by_cases h : v.si < v.size
    · rw [if_pos h]
      exact Or.inr ⟨_, _, rfl, Or.inl rfl, rfl, le_refl _⟩
    · rw [if_neg h]
      exact Or.inl ⟨rfl, by omega⟩
  | op o =>
    have hb : ∀ g : Int → Int → Int,
        (obs (chkv v.state.pop fun a s => chkv s.pop fun b s => s.push (g a b)) = .ub ∧
          v.size ≤ v.si) ∨
        ∃ e v2, obs (chkv v.state.pop fun a s => chkv s.pop fun b s => s.push (g a b)) =
          .ok (e, v2) ∧ (e = E_OK ∨ e = E_STACK_UNDERFLOW) ∧
          v2.size = v.size ∧ v2.si ≤ v.si + 1 := by
      intro g
      rw [binop_eval, hsi, hsz]
      by_cases h0 : v.si = 0
      · rw [if_pos h0]
        exact Or.inr ⟨_, _, rfl, Or.inr rfl, rfl, by show v.si ≤ v.si + 1; omega⟩
      · rw [if_neg h0]
        by_cases h1 : v.size < v.si
        · rw [if_pos h1]
          exact Or.inl ⟨rfl, by omega⟩
        · rw [if_neg h1]
          by_cases h2 : v.si = 1
          · rw [if_pos h2]
            exact Or.inr ⟨_, _, rfl, Or.inr rfl, rfl, by show 0 ≤ v.si + 1; omega⟩
          · rw [if_neg h2]
            exact Or.inr ⟨_, _, rfl, Or.inl rfl, rfl, by show v.si - 1 ≤ v.si + 1; omega⟩
    cases o
    · exact hb _
    · exact hb _
    · exact hb _
    · exact hb _
    · have e : (Item.op StackOp.dup).runV v = obs (w_dup v.state) := rfl
      rw [e, dup_eval, hsi, hsz]
      by_cases h0 : v.si = 0
      · rw [if_pos h0]
        exact Or.inr ⟨_, _, rfl, Or.inr rfl, rfl, by show v.si ≤ v.si + 1; omega⟩
      · rw [if_neg h0]
        by_cases h1 : v.size < v.si
        · rw [if_pos h1]
          exact Or.inl ⟨rfl, by omega⟩
        · rw [if_neg h1]
          by_cases h2 : v.si = v.size
          · rw [if_pos h2]
            exact Or.inl ⟨rfl, by omega⟩
          · rw [if_neg h2]
            exact Or.inr ⟨_, _, rfl, Or.inl rfl, rfl, le_refl _⟩
    · have e : (Item.op StackOp.drop).runV v = obs (w_drop v.state) := rfl
      rw [e, drop_eval, hsi]
      by_cases h0 : v.si = 0
      · rw [if_pos h0]
        exact Or.inr ⟨_, _, rfl, Or.inr rfl, rfl, by show v.si ≤ v.si + 1; omega⟩
      · rw [if_neg h0]
        exact Or.inr ⟨_, _, rfl, Or.inl rfl, rfl, by show v.si - 1 ≤ v.si + 1; omega⟩
    · have e : (Item.op StackOp.swap).runV v = obs (w_swap v.state) := rfl
      rw [e, swap_eval, hsi, hsz]
      by_cases h0 : v.si = 0
      · rw [if_pos h0]
        exact Or.inr ⟨_, _, rfl, Or.inr rfl, rfl, by show v.si ≤ v.si + 1; omega⟩
      · rw [if_neg h0]
        by_cases h1 : v.size < v.si
        · rw [if_pos h1]
          exact Or.inl ⟨rfl, by omega⟩
        · rw [if_neg h1]
          by_cases h2 : v.si = 1
          · rw [if_pos h2]
            exact Or.inr ⟨_, _, rfl, Or.inr rfl, rfl, by show 0 ≤ v.si + 1; omega⟩
          · rw [if_neg h2]
            exact Or.inr ⟨_, _, rfl, Or.inl rfl, rfl, by show v.si ≤ v.si + 1; omega⟩

/-- A stack program either overflows the data stack buffer or returns. -/
theorem runV_cases (B : List Item) (v : View) :
    runV B v = .ub ∨ ∃ e v2, runV B v = .ok (e, v2) := by
  induction B generalizing v with
  | nil => exact Or.inr ⟨_, _, rfl⟩
  | cons it rest ih =>
    unfold runV
    rcases itemV_cases it v with ⟨h, _⟩ | ⟨e, v2, h, he, _⟩
    · rw [h]; exact Or.inl rfl
    · rw [h]
      rcases he with rfl | rfl
      · rw [chk_ok]; exact ih v2
      · rw [chk_err _ _ _ (by decide)]; exact Or.inr ⟨_, _, rfl⟩

/-- A stack program returns when the data stack has room for one cell per item. -/
theorem runV_room (B : List Item) (v : View) (h : v.si + B.length ≤ v.size) :
    ∃ e v2, runV B v = .ok (e, v2) := by
  induction B generalizing v with
  | nil => exact ⟨_, _, rfl⟩
  | cons it rest ih =>
    simp only [List.length_cons] at h
    unfold runV
    rcases itemV_cases it v with ⟨_, h2⟩ | ⟨e, v2, h1, he, h3, h4⟩
    · omega
    · rw [h1]
      rcases he with rfl | rfl
      · rw [chk_ok]; exact ih v2 (by omega)
      · rw [chk_err _ _ _ (by decide)]; exact ⟨_, _, rfl⟩

end ft

namespace ft

open Error Token

/-! ## Iterations of the interpreter loop at top level -/

theorem interp_number (s : State) (fuel : Nat) :
    s.interp (fuel + 1) TK_NUMBER =
      chk (if s.shared S_COMPILING = 0 then ign (s.push s.token_number) fun s => .ok (E_OK, s)
           else ign (s.dict_put OP_PUSH_IMMEDIATE) fun s =>
             ign (s.dict_put s.token_number) fun s => .ok (E_OK, s)) fun s =>
        chkv s.next_token fun tk s => State.interp fuel s tk := by
  rw [State.interp]
  simp only [reduceCtorEq, if_false, if_true]

/-- The token fetch that ends a loop iteration. -/
theorem next_step (s1 : State) (ts : List (List Nat)) (f : Nat) (hl : Lead s1.remaining ts)
    (hv : ∀ t ∈ ts, isTok t = true) :
    ∃ s2 tk2, Tok s1 s2 ∧ Cur s2 tk2 ts ∧
      (chkv s1.next_token fun tk s => State.interp f s tk) = s2.interp f tk2 := by
  obtain ⟨tk, i, n, sc, k, h1, h2⟩ := fetch s1 ts hl hv
  exact ⟨_, tk, tok_retok s1 i n sc k, h2, by rw [h1, chkv_ok]⟩

theorem tok_top (a b : State) (L : List Entry) (h : Tok a b) (ha : Top a L) : Top b L := by
  obtain ⟨i, n, sc, k, rfl⟩ := h
  exact ha

theorem top_withView (s : State) (L : List Entry) (v : View) (h : Top s L) :
    Top (s.withView v) L := h

theorem tok_view (a b : State) (h : Tok a b) : b.view = a.view := by
  obtain ⟨i, n, sc, k, rfl⟩ := h
  rfl

theorem withView_view (s : State) (v : View) (h : v.size = s.stack_size) :
    (s.withView v).view = v := by
  cases v
  simp only at h
  subst h
  rfl

theorem withView_self (s : State) : s.withView s.view = s := rfl

theorem isTok_item (it : Item) (h : it.wf = true) : isTok it.tok = true := by
  cases it with
  | num t =>
    unfold isTok
    have : isNumTok t = true := h
    show (isNumTok t || isWordTok t) = true
    rw [this]; rfl
  | op o => cases o <;> decide

theorem isTok_items (B : List Item) (ts : List (List Nat)) (h : ∀ it ∈ B, it.wf = true)
    (hts : ∀ t ∈ ts, isTok t = true) : ∀ t ∈ B.map Item.tok ++ ts, isTok t = true := by
  intro t ht
  rcases List.mem_append.mp ht with ht | ht
  · obtain ⟨it, hit, rfl⟩ := List.mem_map.mp ht
    exact isTok_item it (h it hit)
  · exact hts t ht

/-- One iteration of the interpreter loop at top level on an item of a stack program: the
item acts on the data stack and, if it succeeds, the next token is fetched. -/
theorem top_item (s : State) (L : List Entry) (it : Item) (ts : List (List Nat))
    (tk : Token) (f : Nat) (ht : Top s L) (hcur : Cur s tk (it.tok :: ts))
    (hwf : it.wf = true) (hf : L.length < f) :
    Lead s.remaining ts ∧
    s.interp (f + 1) tk =
      chk (s.lift (it.runV s.view)) fun s => chkv s.next_token fun tk s =>
        State.interp f s tk := by
  obtain ⟨he, hc, hwa⟩ := ht
  cases it with
  | num t =>
    have hn : isNumTok t = true := hwf
    obtain ⟨c1, c2, c3⟩ := cur_num _ _ _ _ hcur hn
    subst c1
    refine ⟨c3, ?_⟩
    rw [interp_number, if_pos hc, c2, ← item_run_view (Item.num t) s f]
    rfl
  | op o =>
    have hw : isWordTok o.name = true := by cases o <;> decide
    have hb : (o.name, o.prim, 0) ∈ builtins := by cases o <;> decide
    obtain ⟨c1, c2, c3, _⟩ := cur_word _ _ _ _ hcur hw
    subst c1
    refine ⟨c3, ?_⟩
    obtain ⟨g, rfl⟩ : ∃ g, f = g + 1 := ⟨f - 1, by omega⟩
    rw [interp_word, exec_word_cword s L o.name o.prim 0 (g + 1) he c2 (he.2.2 _ hb)
      (Or.inl ⟨hc, by decide⟩) (by decide) hf]
    have hr : o.prim.run (g + 1) s = s.lift ((Item.op o).runV s.view) :=
      item_run_view (Item.op o) s (g + 1)
    rw [hr]
    rcases itemV_cases (Item.op o) s.view with ⟨h, _⟩ | ⟨e, v2, h, he2, _⟩
    · rw [h]; rfl
    · rw [h]
      simp only [State.lift]
      rcases he2 with rfl | rfl
      · rw [want_done _ _ _ _ (by decide), chk_ok]
      · rw [want_done _ _ _ _ (by decide), chk_err _ _ _ (by decide)]

/-- The interpreter loop at top level on a stack program: it does to the data stack what
the program does, and nothing else but moving the tokenizer. -/
theorem interp_items (L : List Entry) (ts : List (List Nat)) (f : Nat)
    (hts : ∀ t ∈ ts, isTok t = true) (hf : L.length < f) (B : List Item) :
    ∀ (s : State) (tk : Token), Top s L → Cur s tk (B.map Item.tok ++ ts) →
      (∀ it ∈ B, it.wf = true) →
      (runV B s.view = .ub → s.interp (f + B.length) tk = .ub) ∧
      (∀ e v, e ≠ E_OK → runV B s.view = .ok (e, v) →
        ∃ s2, Tok (s.withView v) s2 ∧ s.interp (f + B.length) tk = .ok (e, s2)) ∧
      (∀ v, runV B s.view = .ok (E_OK, v) →
        ∃ s2 tk2, Tok (s.withView v) s2 ∧ Cur s2 tk2 ts ∧
          s.interp (f + B.length) tk = s2.interp f tk2) := by
  induction B with
  | nil =>
    intro s tk _ hcur _
    refine ⟨?_, ?_, ?_⟩
    · intro h; cases h
    · intro e v he h
      cases h
      exact absurd rfl he
    · intro v h
      cases h
      exact ⟨s, tk, tok_refl s, hcur, rfl⟩
  | cons it rest ih =>
    intro s tk ht hcur hwf
    have hwf1 := hwf it (List.mem_cons_self _ _)
    have hwf2 : ∀ x ∈ rest, x.wf = true := fun x hx => hwf x (List.mem_cons_of_mem _ hx)
    obtain ⟨hl, hstep⟩ := top_item s L it (rest.map Item.tok ++ ts) tk (f + rest.length) ht
      hcur hwf1 (by omega)
    have hfuel : f + (it :: rest).length = f + rest.length + 1 := by
      simp only [List.length_cons]; omega
    rw [hfuel, hstep]
    have hrun : runV (it :: rest) s.view = chk (it.runV s.view) fun v => runV rest v := rfl
    rw [hrun]
    rcases itemV_cases it s.view with ⟨h, _⟩ | ⟨e, v1, h, he, hsz, _⟩
    · rw [h]
      refine ⟨fun _ => rfl, ?_, ?_⟩
      · intro e v _ hx; cases hx
      · intro v hx; cases hx
    · rw [h]
      rcases he with rfl | rfl
      · simp only [State.lift, chk_ok]
        obtain ⟨s1, tk1, t1, t2, t3⟩ := next_step (s.withView v1) (rest.map Item.tok ++ ts)
          (f + rest.length) hl (isTok_items rest ts hwf2 hts)
        rw [t3]
        have hv1 : s1.view = v1 := by
          rw [tok_view _ _ t1]
          exact withView_view s v1 hsz
        obtain ⟨i1, i2, i3⟩ := ih s1 tk1 (tok_top _ _ L t1 (top_withView s L v1 ht)) t2 hwf2
        rw [hv1] at i1 i2 i3
        refine ⟨i1, ?_, ?_⟩
        · intro e v he hx
          obtain ⟨s2, q1, q2⟩ := i2 e v he hx
          exact ⟨s2, tok_trans _ _ _ (tok_withView (s.withView v1) s1 v t1) q1, q2⟩
        · intro v hx
          obtain ⟨s2, tk2, q1, q2, q3⟩ := i3 v hx
          exact ⟨s2, tk2, tok_trans _ _ _ (tok_withView (s.withView v1) s1 v t1) q1, q2, q3⟩
      · simp only [State.lift]
        rw [chk_err _ _ _ (by decide), chk_err _ _ _ (by decide)]
        refine ⟨?_, ?_, ?_⟩
        · intro hx; cases hx
        · intro e v _ hx
          cases hx
          exact ⟨_, tok_refl _, rfl⟩
        · intro v hx; cases hx

end ft

namespace ft

open Error Token

/-! ## The virtual machine on the code of a stack program -/

theorem lift_withView (s : State) (v : View) (r : Res (Error × View)) :
    (s.withView v).lift r = s.lift r := by
  cases r with
  | ok p => rfl
  | ub => rfl
  | abort => rfl
  | timeout => rfl

theorem vm_push_imm (s : State) (code : Int) (ip g : Nat) (n : Int)
    (hop : s.load (code + 8 * (ip : Int)) = .ok OP_PUSH_IMMEDIATE)
    (harg : s.load (code + 8 * ((ip : Int) + 1)) = .ok n) :
    State.vm (g + 1) s code ip = ign (s.push n) fun s1 => State.vm g s1 code (ip + 2) := by
  rw [State.vm, hop]
  simp only [ldv]
  rw [if_pos trivial, harg]

theorem vm_call_c (s : State) (code : Int) (ip g : Nat) (h : Int)
    (hop : s.load (code + 8 * (ip : Int)) = .ok OP_CALL_C)
    (harg : s.load (code + 8 * ((ip : Int) + 1)) = .ok h) :
    State.vm (g + 1) s code ip =
      chkv (s.cword_get h) fun cw s1 =>
        chk (s1.call g cw) fun s2 => State.vm g s2 code (ip + 2) := by
  rw [State.vm, hop]
  simp only [ldv]
  rw [if_neg (by decide), if_neg (by decide), if_pos trivial, harg]

theorem vm_exit (s : State) (code : Int) (ip g : Nat)
    (hop : s.load (code + 8 * (ip : Int)) = .ok OP_EXIT) :
    State.vm (g + 1) s code ip = .ok (E_OK, s) := by
  rw [State.vm, hop]
  simp only [ldv]
  rw [if_neg (by decide), if_neg (by decide), if_neg (by decide), if_pos trivial]

theorem item_code_length (it : Item) : it.code.length = 2 := by
  cases it <;> rfl

/-- The two loads of an instruction with an operand. -/
theorem loads2 (s : State) (code : Int) (ip a : Nat) (c1 c2 : Int)
    (hpos : code + 8 * (ip : Int) = s.memory + (a : Int))
    (h1 : rdCell s.mem a = c1) (h2 : rdCell s.mem (a + 8) = c2)
    (hin : a + 16 ≤ s.memory_size) :
    s.load (code + 8 * (ip : Int)) = .ok c1 ∧
      s.load (code + 8 * ((ip : Int) + 1)) = .ok c2 ∧
      code + 8 * (((ip + 2 : Nat) : Int)) = s.memory + ((a + 16 : Nat) : Int) := by
  refine ⟨?_, ?_, ?_⟩
  · rw [load_at s _ a hpos (by omega), h1]
  · rw [load_at s _ (a + 8) (by push_cast; omega) (by omega), h2]
  · push_cast; omega

/-- One instruction of the code of a stack program. -/
theorem vm_item (s : State) (it : Item) (code : Int) (ip a g : Nat)
    (hpos : code + 8 * (ip : Int) = s.memory + (a : Int))
    (hcode : CodeAt s.mem a it.code) (hin : a + 16 ≤ s.memory_size)
    (htab : Table s.cwords) :
    State.vm (g + 1) s code ip = chk (it.run g s) fun s1 => State.vm g s1 code (ip + 2) := by
  cases it with
  | num t =>
    obtain ⟨c1, c2, _⟩ := hcode
    obtain ⟨l1, l2, _⟩ := loads2 s code ip a _ _ hpos c1 c2 hin
    rw [vm_push_imm s code ip g _ l1 l2]
    show _ = chk (ign (s.push (numVal t)) fun s => .ok (E_OK, s)) _
    unfold State.push
    split_ifs <;> rfl
  | op o =>
    obtain ⟨c1, c2, _⟩ := hcode
    obtain ⟨l1, l2, _⟩ := loads2 s code ip a _ _ hpos c1 c2 hin
    rw [vm_call_c s code ip g _ l1 l2, cword_get_handle s o.prim htab, chkv_ok, call_fn]
    rfl

/-- The virtual machine on the code of a stack program followed by `EXIT`: it does to the
data stack what the program does, and nothing else. -/
theorem vm_items (code : Int) (g : Nat) (B : List Item) :
    ∀ (s : State) (ip a : Nat), code + 8 * (ip : Int) = s.memory + (a : Int) →
      CodeAt s.mem a (emit B ++ [OP_EXIT]) → a + 16 * B.length + 8 ≤ s.memory_size →
      Table s.cwords →
      State.vm (g + B.length + 1) s code ip = s.lift (runV B s.view) := by
  induction B with
  | nil =>
    intro s ip a hpos hcode hin _
    obtain ⟨c1, _⟩ := hcode
    rw [vm_exit s code ip _ (by rw [load_at s _ a hpos (by omega), c1])]
    rfl
  | cons it rest ih =>
    intro s ip a hpos hcode hin htab
    simp only [List.length_cons] at hin
    have hsplit : emit (it :: rest) ++ [OP_EXIT] = it.code ++ (emit rest ++ [OP_EXIT]) := by
      show (it.code ++ emit rest) ++ [OP_EXIT] = _
      rw [List.append_assoc]
    rw [hsplit, codeAt_append, item_code_length] at hcode
    obtain ⟨hc1, hc2⟩ := hcode
    have hfuel : g + (it :: rest).length + 1 = (g + rest.length + 1) + 1 := by
      simp only [List.length_cons]; omega
    rw [hfuel, vm_item s it code ip a _ hpos hc1 (by omega) htab, item_run_view]
    have hrun : runV (it :: rest) s.view = chk (it.runV s.view) fun v => runV rest v := rfl
    rw [hrun]
    rcases itemV_cases it s.view with ⟨h, _⟩ | ⟨e, v1, h, he, hsz, _⟩
    · rw [h]; rfl
    · rw [h]
      rcases he with rfl | rfl
      · simp only [State.lift, chk_ok]
        rw [ih (s.withView v1) (ip + 2) (a + 16) (by
            show code + 8 * (((ip + 2 : Nat) : Int)) = s.memory + ((a + 16 : Nat) : Int)
            push_cast; omega) hc2 (by show a + 16 + 16 * rest.length + 8 ≤ s.memory_size; omega)
          htab, withView_view s v1 hsz]
        cases runV rest v1 <;> rfl
      · simp only [State.lift]
        rw [chk_err _ _ _ (by decide), chk_err _ _ _ (by decide)]

/-- The frame of `exec(ptrdiff_t*)` around a run that leaves the locals stack alone. -/
theorem enter_lift (s : State) (run : State → Int → Nat → Res (Error × State)) (a : Nat)
    (r : Res (Error × View)) (ha : a ≤ s.memory_i)
    (hrun : run s (s.memory + (a : Int)) 0 = s.lift r) :
    s.enter run a = s.lift r := by
  have hv : s.raddr_valid (a : Int) = E_OK := by
    unfold State.raddr_valid
    rw [if_neg (by omega)]
  unfold State.enter
  rw [hv]
  simp only [ne_eq, not_true_eq_false, if_false, State.raddr_to_real, hrun]
  cases r <;> rfl

/-- One iteration of the interpreter loop at top level on a user word whose body is the
code of a stack program: the program acts on the data stack. -/
theorem top_call (s : State) (L : List Entry) (w : List Nat) (e : Entry) (B : List Item)
    (ts : List (List Nat)) (tk : Token) (g : Nat) (ht : Top s L)
    (hcur : Cur s tk (w :: ts)) (hw : isWordTok w = true)
    (hfind : findEntry w L = some e) (hfl : e.flags = 0)
    (hcode : CodeAt s.mem e.body (emit B ++ [OP_EXIT]))
    (hin : e.body + 16 * B.length + 8 ≤ s.memory_i) (hL : L.length < g + B.length + 1) :
    Lead s.remaining ts ∧
    s.interp (g + B.length + 1 + 1) tk =
      chk (s.lift (runV B s.view)) fun s => chkv s.next_token fun tk s =>
        State.interp (g + B.length + 1) s tk := by
  obtain ⟨he, hc, hwa⟩ := ht
  obtain ⟨c1, c2, c3, _⟩ := cur_word _ _ _ _ hcur hw
  subst c1
  refine ⟨c3, ?_⟩
  have hle : s.memory_i ≤ s.memory_size := he.1.2.2.1
  have hms : s.memory + (s.memory_size : Int) < 4611686018427387904 := he.1.2.1
  have hb : 0 < s.memory := he.1.1
  rw [interp_word, exec_word_found s L w e _ he.1 c2 hfind hL, hfl]
  rw [if_neg (by rw [hc]; decide), if_neg (by rw [hc]; decide), if_neg (by decide)]
  have hr : s.real_to_raddr (s.memory + (e.body : Int)) = (e.body : Int) := by
    unfold State.real_to_raddr
    rw [show s.memory + (e.body : Int) - s.memory = e.body by omega]
    exact wrap_nat _ (by omega)
  rw [hr]
  unfold State.exec_vm
  rw [enter_lift s _ e.body (runV B s.view) (by omega)
    (vm_items _ g B s 0 e.body (by simp) hcode (by omega) he.2.1)]

theorem interp_last (s : State) (tk : Token) (f : Nat) (h : Cur s tk []) :
    s.interp (f + 1) tk = .ok (E_OK, s) := by
  have : tk = TK_END := h
  rw [this, interp_end]

end ft

namespace ft

open Error Token

/-! ## Colon definitions: the compiler -/

theorem shared_eta (s : State) (f : Nat → Int) (h : ∀ k, f k = s.shared k) :
    ({ s with shared := f } : State) = s := by
  have : f = s.shared := funext h
  rw [this]

theorem setShared_wa (s : State) (h : s.shared S_WORD_AVAILABLE = 0) :
    (s.setShared S_WORD_AVAILABLE 1).setShared S_WORD_AVAILABLE 0 = s := by
  apply shared_eta s
  intro k
  show upd (upd s.shared S_WORD_AVAILABLE 1) S_WORD_AVAILABLE 0 k = s.shared k
  by_cases hk : k = S_WORD_AVAILABLE
  · subst hk; rw [upd_same, h]
  · rw [upd_other _ _ _ _ hk, upd_other _ _ _ _ hk]

theorem tok_header (a b : State) (nm : List Nat) (h : Tok a b) :
    Tok (a.header nm) (b.header nm) := by
  obtain ⟨i, n, sc, k, rfl⟩ := h
  exact ⟨i, n, sc, k, rfl⟩

theorem tok_finish (a b : State) (h : Tok a b) : Tok a.finish b.finish := by
  obtain ⟨i, n, sc, k, rfl⟩ := h
  exact ⟨i, n, sc, k, rfl⟩

theorem tok_comp (a b : State) (L : List Entry) (h : Tok a b) (ha : Comp a L) : Comp b L := by
  obtain ⟨i, n, sc, k, rfl⟩ := h
  exact ha

/-- The callback of `:` once a word is available: compile mode is entered and the header of
the new entry is created. -/
theorem colon_run (t : State) (L : List Entry) (nm : List Nat) (g : Nat) (ha : Arena t L)
    (hwa : t.shared S_WORD_AVAILABLE ≠ 0) (hs : t.scratchStr = some nm)
    (hlen : nm.length < 4611686018427387904)
    (hroom : t.memory_i + (32 + align CELL (nm.length + 1)) ≤ t.memory_size) :
    Prim.colon.run g t = .ok (E_OK, (t.setShared S_WORD_AVAILABLE 0).header nm) := by
  have hname : ∀ c ∈ nm, c ≠ 0 := cstrFrom_nonzero _ _ _ _ hs
  have ha2 : Arena ((t.setShared S_WORD_AVAILABLE 0).setShared S_COMPILING 1) L :=
    arena_setShared _ L _ _ (arena_setShared t L _ _ ha (by decide)) (by decide)
  have hcr := (create_arena _ L nm ha2 hname hlen hroom).1
  have hs2 : ((t.setShared S_WORD_AVAILABLE 0).setShared S_COMPILING 1).scratchStr = some nm :=
    hs
  show w_colon t = _
  unfold w_colon
  rw [if_neg hwa]
  simp only [hs2, hcr, chkv_ok]
  rfl

/-- The engine in compile mode after `: name`. -/
theorem comp_header (s : State) (L : List Entry) (nm : List Nat) (ht : Top s L)
    (hname : ∀ c ∈ nm, c ≠ 0) (hlen : nm.length < 4611686018427387904)
    (hroom : s.memory_i + (32 + align CELL (nm.length + 1)) ≤ s.memory_size)
    (hnb : ∀ b ∈ builtins, ¬ nm = b.1) :
    Comp (s.header nm) (colonEntry s nm :: L) := by
  obtain ⟨he, hc, hwa⟩ := ht
  have ha2 : Arena (s.setShared S_COMPILING 1) L := arena_setShared s L _ _ he.1 (by decide)
  have ha3 := (create_arena _ L nm ha2 hname hlen hroom).2
  have ha4 : Arena (s.header nm) (colonEntry s nm :: L) :=
    arena_setShared _ _ S_DICT_ROOT (s.memory + s.memory_i) ha3 (by decide)
  refine ⟨eng_extend s (s.header nm) L (colonEntry s nm) he ha4 rfl
    (fun i hi => entryMem_below _ _ _ _ _ hi)
    (by show s.memory_i ≤ s.memory_i + _; omega) hnb, rfl, ?_⟩
  show upd (upd (upd s.shared S_COMPILING 1) S_LATEST (s.memory + (s.memory_i : Int)))
    S_DICT_ROOT (s.memory + (s.memory_i : Int)) S_WORD_AVAILABLE = 0
  rw [upd_other _ _ _ _ (by decide), upd_other _ _ _ _ (by decide),
    upd_other _ _ _ _ (by decide)]
  exact hwa

/-- The loop iteration on `:` followed by a word token: the header of the new entry is
created and the engine compiles. -/
theorem colon_step (s : State) (L : List Entry) (nm : List Nat) (ts : List (List Nat))
    (tk : Token) (f : Nat) (ht : Top s L) (hcur : Cur s tk (str ":" :: nm :: ts))
    (hw : isWordTok nm = true) (hts : ∀ t ∈ ts, isTok t = true)
    (hroom : s.memory_i + (32 + align CELL (nm.length + 1)) ≤ s.memory_size)
    (hf : L.length < f) :
    ∃ s2 tk2, Tok (s.header nm) s2 ∧ Cur s2 tk2 ts ∧
      s.interp (f + 2) tk = s2.interp (f + 1) tk2 := by
  obtain ⟨he, hc, hwa⟩ := ht
  obtain ⟨c1, c2, c3, _⟩ := cur_word _ _ _ _ hcur (by decide)
  subst c1
  have hv : ∀ t ∈ nm :: ts, isTok t = true := by
    intro t ht
    rcases List.mem_cons.mp ht with rfl | ht
    · unfold isTok; rw [hw]; simp
    · exact hts t ht
  obtain ⟨tk2, i, n, sc, k, f1, f2⟩ := fetch s (nm :: ts) c3 hv
  obtain ⟨d1, d2, d3, _⟩ := cur_word _ _ _ _ f2 hw
  subst d1
  obtain ⟨_, hlen, _⟩ := isWordTok_nonzero nm hw
  have ha3 : Arena ((s.retok i n sc k).setShared S_WORD_AVAILABLE 1) L :=
    arena_setShared _ L _ _ he.1 (by decide)
  have hrun := colon_run ((s.retok i n sc k).setShared S_WORD_AVAILABLE 1) L nm f ha3
    (by show upd s.shared S_WORD_AVAILABLE 1 S_WORD_AVAILABLE ≠ 0; rw [upd_same]; decide)
    d2 (by omega) hroom
  rw [setShared_wa (s.retok i n sc k) hwa] at hrun
  obtain ⟨g, rfl⟩ : ∃ g, f = g + 1 := ⟨f - 1, by omega⟩
  obtain ⟨s2, tk3, t1, t2, t3⟩ := next_step ((s.retok i n sc k).header nm) ts (g + 1 + 1) d3 hts
  refine ⟨s2, tk3, tok_trans _ _ _ (tok_header _ _ nm (tok_retok s i n sc k)) t1, t2, ?_⟩
  rw [interp_word, exec_word_cword s L (str ":") Prim.colon 0 (g + 1 + 1) he c2
    (he.2.2 (str ":", Prim.colon, 0) (by decide))
    (Or.inl ⟨hc, by decide⟩) (by decide) (by omega), colon_wants s _ hwa]
  simp only []
  rw [want_more, f1, chkv_ok, if_neg (by simp), call_fn, hrun]
  simp only []
  rw [want_done _ _ _ _ (by decide), chk_ok, chk_ok, t3]

/-- The loop iteration on a number token in compile mode: two cells are emitted. -/
theorem comp_number (s : State) (L : List Entry) (t : List Nat) (ts : List (List Nat))
    (tk : Token) (f : Nat) (hc : Comp s L) (hcur : Cur s tk (t :: ts))
    (hn : isNumTok t = true) (hts : ∀ t ∈ ts, isTok t = true)
    (hroom : s.memory_i + 16 ≤ s.memory_size) :
    ∃ s2 tk2, Tok ((s.put OP_PUSH_IMMEDIATE).put (numVal t)) s2 ∧ Cur s2 tk2 ts ∧
      s.interp (f + 1) tk = s2.interp f tk2 := by
  obtain ⟨he, hcm, hwa⟩ := hc
  obtain ⟨c1, c2, c3⟩ := cur_num _ _ _ _ hcur hn
  subst c1
  obtain ⟨s2, tk2, t1, t2, t3⟩ := next_step ((s.put OP_PUSH_IMMEDIATE).put (numVal t)) ts f
    c3 hts
  refine ⟨s2, tk2, t1, t2, ?_⟩
  rw [interp_number, if_neg (by rw [hcm]; decide), dict_put_put s L _ he.1 (by omega), ign_ok]
  have h2 : (s.put OP_PUSH_IMMEDIATE).dict_put (numVal t) = _ :=
    dict_put_put (s.put OP_PUSH_IMMEDIATE) L (numVal t) (arena_put s L _ he.1 (by omega))
      (by show s.memory_i + 8 + 8 ≤ s.memory_size; omega)
  have h3 : (s.put OP_PUSH_IMMEDIATE).token_number = s.token_number := rfl
  rw [show (s.put OP_PUSH_IMMEDIATE).dict_put (s.put OP_PUSH_IMMEDIATE).token_number =
    (s.put OP_PUSH_IMMEDIATE).dict_put (numVal t) by rw [h3, c2], h2, ign_ok, chk_ok, t3]

theorem comp_put (s : State) (L : List Entry) (c : Int) (h : Comp s L)
    (hroom : s.memory_i + 8 ≤ s.memory_size) : Comp (s.put c) L :=
  ⟨eng_put s L c h.1 hroom, h.2.1, h.2.2⟩

theorem comp_puts (s : State) (L : List Entry) (cs : List Int) (h : Comp s L)
    (hroom : s.memory_i + 8 * cs.length ≤ s.memory_size) : Comp (s.puts cs) L := by
  induction cs generalizing s with
  | nil => exact h
  | cons c cs ih =>
    simp only [List.length_cons] at hroom
    exact ih (s.put c) (comp_put s L c h (by omega))
      (by show s.memory_i + 8 + 8 * cs.length ≤ s.memory_size; omega)

theorem puts_remaining (s : State) (cs : List Int) : (s.puts cs).remaining = s.remaining := by
  induction cs generalizing s with
  | nil => rfl
  | cons c cs ih => exact ih (s.put c)

theorem entry_call_length (m : Nat → Nat) (e : Entry) : (e.call m).length = 2 := by
  unfold Entry.call
  split <;> rfl

/-- The loop iteration on a word token in compile mode, for a word bound to an entry
without the flag `IMMEDIATE`: a call is emitted. -/
theorem comp_word (s : State) (L : List Entry) (w : List Nat) (e : Entry)
    (ts : List (List Nat)) (tk : Token) (f : Nat) (hc : Comp s L)
    (hcur : Cur s tk (w :: ts)) (hw : isWordTok w = true)
    (hfind : findEntry w L = some e) (him : hasFlag e.flags FLAG_IMMEDIATE = false)
    (hts : ∀ t ∈ ts, isTok t = true) (hroom : s.memory_i + 16 ≤ s.memory_size)
    (hf : L.length < f) :
    ∃ s2 tk2, Tok (s.puts (e.call (s.put OP_CALL_C).mem)) s2 ∧ Cur s2 tk2 ts ∧
      s.interp (f + 1) tk = s2.interp f tk2 := by
  obtain ⟨he, hcm, hwa⟩ := hc
  obtain ⟨c1, c2, c3, _⟩ := cur_word _ _ _ _ hcur hw
  subst c1
  obtain ⟨s2, tk2, t1, t2, t3⟩ := next_step (s.puts (e.call (s.put OP_CALL_C).mem)) ts f
    (by rw [puts_remaining]; exact c3) hts
  refine ⟨s2, tk2, t1, t2, ?_⟩
  obtain ⟨hb, hsz, hle, _, hch, _⟩ := he.1
  obtain ⟨q1, q2, _, q4⟩ := chain_find _ _ _ _ _ _ _ hch hfind
  rw [interp_word, exec_word_found s L w e f he.1 c2 hfind hf,
    if_neg (by rw [hcm]; simp), if_pos ⟨by rw [hcm]; decide, him⟩]
  have hdata : ∀ c : Int, (s.put c).data (s.memory + (e.off : Int)) =
      .ok (s.memory + (e.body : Int)) := by
    intro c
    have hat : EntryAt (s.put c).mem e :=
      (entryAt_frame s.mem _ e q2 (fun i hi => wrCell_outside _ _ _ _ (by omega))).1
    exact (entry_loads (s.put c) e hat (by show e.body ≤ s.memory_size; omega) q4).2
  by_cases hcw : hasFlag e.flags FLAG_CWORD = true
  · rw [if_pos hcw, dict_put_put s L _ he.1 (by omega), chk_ok, hdata]
    simp only [ldv]
    have hl : (s.put OP_CALL_C).load (s.memory + (e.body : Int)) =
        .ok (rdCell (s.put OP_CALL_C).mem e.body) :=
      load_at (s.put OP_CALL_C) _ e.body rfl (by show e.body + 8 ≤ s.memory_size; omega)
    rw [hl]
    simp only []
    rw [dict_put_put (s.put OP_CALL_C) L _ (arena_put s L _ he.1 (by omega))
      (by show s.memory_i + 8 + 8 ≤ s.memory_size; omega), chk_ok]
    have hx : s.puts (e.call (s.put OP_CALL_C).mem) =
        (s.put OP_CALL_C).put (rdCell (s.put OP_CALL_C).mem e.body) := by
      unfold Entry.call
      rw [if_pos hcw]
      rfl
    rw [← hx, t3]
  · rw [if_neg hcw, dict_put_put s L _ he.1 (by omega), chk_ok, hdata]
    simp only [ldv]
    have hr : (s.put OP_CALL_FORTH).real_to_raddr (s.memory + (e.body : Int)) = (e.body : Int) := by
      unfold State.real_to_raddr
      rw [show s.memory + (e.body : Int) - (s.put OP_CALL_FORTH).memory = e.body by
        show s.memory + (e.body : Int) - s.memory = e.body
        omega]
      exact wrap_nat _ (by omega)
    rw [hr, dict_put_put (s.put OP_CALL_FORTH) L _ (arena_put s L _ he.1 (by omega))
      (by show s.memory_i + 8 + 8 ≤ s.memory_size; omega), chk_ok]
    have hx : s.puts (e.call (s.put OP_CALL_C).mem) =
        (s.put OP_CALL_FORTH).put (e.body : Int) := by
      unfold Entry.call
      rw [if_neg hcw]
      rfl
    rw [← hx, t3]

/-- The loop iteration on `;` in compile mode: `EXIT` is emitted, compile mode is left and
`LATEST` is restored from `DICT_ROOT`. -/
theorem semi_step (s : State) (L : List Entry) (ts : List (List Nat)) (tk : Token)
    (f : Nat) (hc : Comp s L) (hcur : Cur s tk (str ";" :: ts))
    (hts : ∀ t ∈ ts, isTok t = true) (hroom : s.memory_i + 8 ≤ s.memory_size)
    (hf : L.length < f) :
    ∃ s2 tk2, Tok s.finish s2 ∧ Cur s2 tk2 ts ∧ s.interp (f + 1) tk = s2.interp f tk2 := by
  obtain ⟨he, hcm, hwa⟩ := hc
  obtain ⟨c1, c2, c3, _⟩ := cur_word _ _ _ _ hcur (by decide)
  subst c1
  obtain ⟨s2, tk2, t1, t2, t3⟩ := next_step s.finish ts f c3 hts
  refine ⟨s2, tk2, t1, t2, ?_⟩
  obtain ⟨g, rfl⟩ : ∃ g, f = g + 1 := ⟨f - 1, by omega⟩
  have hrun : Prim.semi.run (g + 1) s = .ok (E_OK, s.finish) := by
    show w_semi s = _
    unfold w_semi
    rw [dict_put_put s L _ he.1 hroom, chk_ok]
    rfl
  rw [interp_word, exec_word_cword s L (str ";") Prim.semi (FLAG_IMMEDIATE + FLAG_COMPILE_ONLY)
    (g + 1) he c2 (he.2.2 (str ";", Prim.semi, FLAG_IMMEDIATE + FLAG_COMPILE_ONLY) (by decide))
    (Or.inr ⟨by rw [hcm]; decide, by decide⟩) (by decide) hf, hrun]
  simp only []
  rw [want_done _ _ _ _ (by decide), chk_ok, chk_ok, t3]

/-! ### The dictionary after a definition is complete -/

theorem chain_suffix (m : Nat → Nat) (base : Int) (bound : Nat) (A : List Entry) (e : Entry)
    (B : List Entry) :
    ∀ p, Chain m base bound p (A ++ e :: B) → Chain m base bound (base + e.off) (e :: B) := by
  induction A with
  | nil =>
    intro p h
    have h2 := h
    rw [List.nil_append, chain_cons_iff] at h2
    rw [← h2.1]
    exact h
  | cons a A ih =>
    intro p h
    rw [List.cons_append, chain_cons_iff] at h
    exact ih _ h.2.2.2.2.2

theorem findEntry_append (name : List Nat) (A B : List Entry)
    (h : ∀ l ∈ A, ¬ l.name = name) : findEntry name (A ++ B) = findEntry name B := by
  induction A with
  | nil => rfl
  | cons a A ih =>
    rw [List.cons_append, findEntry_cons_ne _ _ _ (h a (List.mem_cons_self _ _))]
    exact ih (fun l hl => h l (List.mem_cons_of_mem _ hl))

/-- The engine `;` leaves: at top level, with the entry of the definition the newest one;
the entries of the locals are no longer linked. -/
theorem top_finish (s : State) (A : List Entry) (e : Entry) (B : List Entry)
    (hc : Comp s (A ++ e :: B)) (hroot : s.shared S_DICT_ROOT = s.memory + (e.off : Int))
    (hloc : ∀ l ∈ A, ∀ b ∈ builtins, ¬ l.name = b.1)
    (hroom : s.memory_i + 8 ≤ s.memory_size) : Top s.finish (e :: B) := by
  obtain ⟨⟨⟨h1, h2, h3, h4, h5, h6⟩, htab, hbu⟩, _, hwa⟩ := hc
  have hm : ∀ i, i < s.memory_i → wrCell s.mem s.memory_i OP_EXIT i = s.mem i :=
    fun i hi => wrCell_outside _ _ _ _ (by omega)
  refine ⟨⟨⟨h1, h2, hroom, ?_, ?_, ?_⟩, htab, ?_⟩, ?_, ?_⟩
  · show (s.memory_i + 8) % 8 = 0
    omega
  · show Chain (wrCell s.mem s.memory_i OP_EXIT) s.memory (s.memory_i + 8)
      (upd (upd s.shared S_COMPILING 0) S_LATEST (s.shared S_DICT_ROOT) S_LATEST) (e :: B)
    rw [upd_same, hroot]
    exact chain_frame s.mem _ s.memory s.memory_i _ _ _ (chain_suffix _ _ _ A e B _ h5) hm
      (by omega)
  · intro i hi
    have hi2 : s.memory_i + 8 ≤ i := hi
    show wrCell s.mem s.memory_i OP_EXIT i = 0
    rw [wrCell_outside _ _ _ _ (by omega)]
    exact h6 i (by omega)
  · intro b hb
    obtain ⟨e1, q1, q2, q3, q4⟩ := isPrim_frame _ (wrCell s.mem s.memory_i OP_EXIT) _
      (s.memory_i + 8) _ _ _ _ (hbu b hb) hm (by omega)
    refine ⟨e1, ?_, q2, q3, q4⟩
    rw [← q1, findEntry_append b.1 A (e :: B) (fun l hl => hloc l hl b hb)]
  · show upd (upd s.shared S_COMPILING 0) S_LATEST (s.shared S_DICT_ROOT) S_COMPILING = 0
    rw [upd_other _ _ _ _ (by decide), upd_same]
  · show upd (upd s.shared S_COMPILING 0) S_LATEST (s.shared S_DICT_ROOT) S_WORD_AVAILABLE = 0
    rw [upd_other _ _ _ _ (by decide), upd_other _ _ _ _ (by decide)]
    exact hwa

end ft

namespace ft

open Error Token

/-! ## Compiling a stack program -/

theorem tok_memory_i (a b : State) (h : Tok a b) :
    b.memory_i = a.memory_i ∧ b.memory_size = a.memory_size ∧ b.mem = a.mem ∧
      b.memory = a.memory ∧ b.shared = a.shared ∧ b.locals = a.locals ∧
      b.cwords = a.cwords ∧ b.out = a.out := by
  obtain ⟨i, n, sc, k, rfl⟩ := h
  exact ⟨rfl, rfl, rfl, rfl, rfl, rfl, rfl, rfl⟩

theorem puts_keep (s : State) (cs : List Int) :
    (s.puts cs).memory_size = s.memory_size ∧ (s.puts cs).memory = s.memory ∧
      (s.puts cs).view = s.view ∧ (s.puts cs).shared = s.shared ∧
      (s.puts cs).locals = s.locals ∧ (s.puts cs).cwords = s.cwords ∧
      (s.puts cs).out = s.out := by
  induction cs generalizing s with
  | nil => exact ⟨rfl, rfl, rfl, rfl, rfl, rfl, rfl⟩
  | cons c cs ih => exact ih (s.put c)

theorem wrap_numVal (t : List Nat) (h : isNumTok t = true) : wrap (numVal t) = numVal t := by
  cases t with
  | nil => simp [isNumTok] at h
  | cons c rest =>
    simp only [numVal]
    by_cases hc : (c == 45) = true
    · rw [if_pos hc]
      exact wrap_wrap _
    · rw [if_neg hc]
      simp only [isNumTok, Bool.or_eq_true, Bool.and_eq_true, List.all_eq_true] at h
      rcases h with ⟨⟨h1, _⟩, _⟩ | ⟨h1, h2⟩
      · exact absurd h1 hc
      · have hr := (isdigit_iff c).mp h1
        have hw : wrap ((c : Int) - 48) = (c : Int) - 48 := by apply wrap_of_range <;> omega
        rw [numLoop_digits rest _ 0 h2 hw]
        exact wrap_wrap _

/-- The cells of an item are cells. -/
theorem item_code_wrap (it : Item) (h : it.wf = true) : ∀ c ∈ it.code, wrap c = c := by
  cases it with
  | num t =>
    intro c hc
    have hc2 : c = OP_PUSH_IMMEDIATE ∨ c = numVal t := by
      simpa [Item.code] using hc
    rcases hc2 with rfl | rfl
    · decide!
    · exact wrap_numVal t h
  | op o =>
    intro c hc
    have hc2 : c = OP_CALL_C ∨ c = o.prim.handle := by
      simpa [Item.code] using hc
    rcases hc2 with rfl | rfl
    · decide!
    · cases o <;> decide!

theorem emit_wrap (B : List Item) (h : ∀ it ∈ B, it.wf = true) : ∀ c ∈ emit B, wrap c = c := by
  induction B with
  | nil => intro c hc; simp [emit] at hc
  | cons it rest ih =>
    intro c hc
    rcases List.mem_append.mp hc with hc | hc
    · exact item_code_wrap it (h it (List.mem_cons_self _ _)) c hc
    · exact ih (fun x hx => h x (List.mem_cons_of_mem _ hx)) c hc

theorem emit_length (B : List Item) : (emit B).length = 2 * B.length := by
  induction B with
  | nil => rfl
  | cons it rest ih =>
    show (it.code ++ emit rest).length = _
    rw [List.length_append, item_code_length, ih, List.length_cons]
    omega

/-- The loop iteration on an item of a stack program in compile mode: the cells of the item
are emitted. -/
theorem comp_item (s : State) (L : List Entry) (it : Item) (ts : List (List Nat))
    (tk : Token) (f : Nat) (hc : Comp s L) (hcur : Cur s tk (it.tok :: ts))
    (hwf : it.wf = true) (hts : ∀ t ∈ ts, isTok t = true)
    (hroom : s.memory_i + 16 ≤ s.memory_size) (hf : L.length < f) :
    ∃ s2 tk2, Tok (s.puts it.code) s2 ∧ Cur s2 tk2 ts ∧
      s.interp (f + 1) tk = s2.interp f tk2 := by
  cases it with
  | num t => exact comp_number s L t ts tk f hc hcur hwf hts hroom
  | op o =>
    have hw : isWordTok o.name = true := by cases o <;> decide
    have hb : (o.name, o.prim, 0) ∈ builtins := by cases o <;> decide
    obtain ⟨e, q1, q2', q3, q4⟩ := hc.1.2.2 _ hb
    have q2 : e.flags = FLAG_CWORD + 0 := q2'
    obtain ⟨s2, tk2, t1, t2, t3⟩ := comp_word s L o.name e ts tk f hc hcur hw q1
      (by rw [q2]; decide) hts hroom hf
    refine ⟨s2, tk2, ?_, t2, t3⟩
    have hcall : e.call (s.put OP_CALL_C).mem = (Item.op o).code := by
      unfold Entry.call
      rw [if_pos (by rw [q2]; decide)]
      show [OP_CALL_C, rdCell (wrCell s.mem s.memory_i OP_CALL_C) e.body] =
        [OP_CALL_C, o.prim.handle]
      rw [← q4]
      congr 2
      apply rdCell_congr
      intro i hi1 hi2
      exact wrCell_outside _ _ _ _ (by omega)
    rw [← hcall]
    exact t1

/-- The interpreter loop in compile mode on a stack program: the code of the program is
emitted. -/
theorem comp_items (L : List Entry) (ts : List (List Nat)) (f : Nat)
    (hts : ∀ t ∈ ts, isTok t = true) (hf : L.length < f) (B : List Item) :
    ∀ (s : State) (tk : Token), Comp s L → Cur s tk (B.map Item.tok ++ ts) →
      (∀ it ∈ B, it.wf = true) → s.memory_i + 16 * B.length ≤ s.memory_size →
      ∃ s2 tk2, Tok (s.puts (emit B)) s2 ∧ Cur s2 tk2 ts ∧
        s.interp (f + B.length) tk = s2.interp f tk2 := by
  induction B with
  | nil =>
    intro s tk _ hcur _ _
    exact ⟨s, tk, tok_refl s, hcur, rfl⟩
  | cons it rest ih =>
    intro s tk hc hcur hwf hroom
    simp only [List.length_cons] at hroom
    have hwf1 := hwf it (List.mem_cons_self _ _)
    have hwf2 : ∀ x ∈ rest, x.wf = true := fun x hx => hwf x (List.mem_cons_of_mem _ hx)
    obtain ⟨s1, tk1, t1, t2, t3⟩ := comp_item s L it (rest.map Item.tok ++ ts) tk
      (f + rest.length) hc hcur hwf1 (isTok_items rest ts hwf2 hts) (by omega) (by omega)
    have hmi := puts_memory_i s it.code
    rw [item_code_length] at hmi
    obtain ⟨m1, m2, _⟩ := tok_memory_i _ _ t1
    have hc1 : Comp s1 L := tok_comp _ _ L t1
      (comp_puts s L it.code hc (by rw [item_code_length]; omega))
    obtain ⟨s2, tk2, u1, u2, u3⟩ := ih s1 tk1 hc1 t2 hwf2 (by
      rw [m1, m2, hmi, (puts_keep s it.code).1]
      show s.memory_i + 8 * 2 + 16 * rest.length ≤ s.memory_size
      omega)
    refine ⟨s2, tk2, ?_, u2, ?_⟩
    · have : s.puts (emit (it :: rest)) = (s.puts it.code).puts (emit rest) :=
        puts_append s it.code (emit rest)
      rw [this]
      exact tok_trans _ _ _ (tok_puts _ _ (emit rest) t1) u1
    · have hfuel : f + (it :: rest).length = f + rest.length + 1 := by
        simp only [List.length_cons]; omega
      rw [hfuel, t3, u3]

/-- The state a colon definition of a stack program leaves. -/
theorem define_items (s : State) (L : List Entry) (nm : List Nat) (B : List Item)
    (ts : List (List Nat)) (tk : Token) (f : Nat) (ht : Top s L)
    (hcur : Cur s tk (str ":" :: nm :: (B.map Item.tok ++ str ";" :: ts)))
    (hw : isWordTok nm = true) (hnb : ∀ b ∈ builtins, ¬ nm = b.1)
    (hB : ∀ it ∈ B, it.wf = true) (hts : ∀ t ∈ ts, isTok t = true)
    (hroom : s.memory_i + (32 + align CELL (nm.length + 1)) + 16 * B.length + 8 ≤
      s.memory_size)
    (hf : L.length + 1 < f) :
    ∃ s2 tk2, Tok ((s.header nm).puts (emit B)).finish s2 ∧ Cur s2 tk2 ts ∧
      s.interp (f + B.length + 2) tk = s2.interp f tk2 := by
  have hts2 : ∀ t ∈ str ";" :: ts, isTok t = true := by
    intro t ht
    rcases List.mem_cons.mp ht with rfl | ht
    · decide
    · exact hts t ht
  obtain ⟨hz, hlen, _⟩ := isWordTok_nonzero nm hw
  obtain ⟨s1, tk1, a1, a2, a3⟩ := colon_step s L nm (B.map Item.tok ++ str ";" :: ts) tk
    (f + B.length) ht hcur hw (isTok_items B _ hB hts2) (by omega) (by omega)
  have hch := comp_header s L nm ht hz (by omega) (by omega) hnb
  obtain ⟨m1, m2, _⟩ := tok_memory_i _ _ a1
  have hL : (colonEntry s nm :: L).length < f + 1 := by
    simp only [List.length_cons]; omega
  obtain ⟨s2, tk2, b1, b2, b3⟩ := comp_items (colonEntry s nm :: L) (str ";" :: ts) (f + 1)
    hts2 hL B s1 tk1 (tok_comp _ _ _ a1 hch) a2 hB (by
      rw [m1, m2]
      show s.memory_i + (32 + align CELL (nm.length + 1)) + 16 * B.length ≤ s.memory_size
      omega)
  have b1' : Tok ((s.header nm).puts (emit B)) s2 :=
    tok_trans _ _ _ (tok_puts _ _ (emit B) a1) b1
  have hc2 : Comp ((s.header nm).puts (emit B)) (colonEntry s nm :: L) :=
    comp_puts _ _ _ hch (by
      rw [emit_length]
      show s.memory_i + (32 + align CELL (nm.length + 1)) + 8 * (2 * B.length) ≤ s.memory_size
      omega)
  obtain ⟨n1, n2, _⟩ := tok_memory_i _ _ b1'
  have hmi := puts_memory_i (s.header nm) (emit B)
  rw [emit_length] at hmi
  obtain ⟨s3, tk3, c1, c2, c3⟩ := semi_step s2 (colonEntry s nm :: L) ts tk2 f
    (tok_comp _ _ _ b1' hc2) b2 hts (by
      rw [n1, n2, hmi, (puts_keep (s.header nm) (emit B)).1]
      show s.memory_i + (32 + align CELL (nm.length + 1)) + 8 * (2 * B.length) + 8 ≤
        s.memory_size
      omega) (by simp only [List.length_cons]; omega)
  refine ⟨s3, tk3, tok_trans _ _ _ (tok_finish _ _ b1') c1, c2, ?_⟩
  rw [show f + B.length + 2 = f + B.length + 2 from rfl, a3,
    show f + B.length + 1 = f + 1 + B.length by omega, b3, c3]

end ft

namespace ft

open Error Token

/-! ## Compile/interpret equivalence -/

theorem runV_size (B : List Item) (v : View) (e : Error) (v2 : View)
    (h : runV B v = .ok (e, v2)) : v2.size = v.size := by
  induction B generalizing v with
  | nil =>
    cases h
    rfl
  | cons it rest ih =>
    have hrun : runV (it :: rest) v = chk (it.runV v) fun v => runV rest v := rfl
    rw [hrun] at h
    rcases itemV_cases it v with ⟨h1, _⟩ | ⟨e1, v1, h1, he, hsz, _⟩
    · rw [h1] at h; cases h
    · rw [h1] at h
      rcases he with rfl | rfl
      · rw [chk_ok] at h
        rw [ih v1 h, hsz]
      · rw [chk_err _ _ _ (by decide)] at h
        cases h
        exact hsz

/-- The end of a text after a stack computation: what `exec` returns is the outcome of the
computation. -/
theorem obs_chk_end (s : State) (r : Res (Error × View)) (f : Nat)
    (hl : Lead s.remaining []) (hsz : ∀ e v, r = .ok (e, v) → v.size = s.stack_size) :
    obs (chk (s.lift r) fun s => chkv s.next_token fun tk s => State.interp (f + 1) s tk) =
      r := by
  cases r with
  | ok p =>
    obtain ⟨e, v⟩ := p
    have hv := withView_view s v (hsz e v rfl)
    by_cases he : e = E_OK
    · subst he
      simp only [State.lift, chk_ok]
      obtain ⟨s3, tk3, t1, t2, t3⟩ := next_step (s.withView v) [] (f + 1) hl (by simp)
      rw [t3, interp_last s3 tk3 f t2]
      show Res.ok (E_OK, s3.view) = _
      rw [tok_view _ _ t1, hv]
    · simp only [State.lift]
      rw [chk_err _ _ _ he]
      show Res.ok (e, (s.withView v).view) = _
      rw [hv]
  | ub => rfl
  | abort => rfl
  | timeout => rfl

/-- The engine a colon definition of a stack program leaves. -/
theorem defined_spec (s : State) (L : List Entry) (nm : List Nat) (B : List Item)
    (ht : Top s L) (hw : isWordTok nm = true) (hnb : ∀ b ∈ builtins, ¬ nm = b.1)
    (hB : ∀ it ∈ B, it.wf = true)
    (hroom : s.memory_i + (32 + align CELL (nm.length + 1)) + 16 * B.length + 8 ≤
      s.memory_size) :
    Top ((s.header nm).puts (emit B)).finish (colonEntry s nm :: L) ∧
      CodeAt ((s.header nm).puts (emit B)).finish.mem (colonEntry s nm).body
        (emit B ++ [OP_EXIT]) ∧
      ((s.header nm).puts (emit B)).finish.memory_i =
        (colonEntry s nm).body + 16 * B.length + 8 := by
  obtain ⟨hz, hlen, _⟩ := isWordTok_nonzero nm hw
  have hch := comp_header s L nm ht hz (by omega) (by omega) hnb
  have hc2 : Comp ((s.header nm).puts (emit B)) (colonEntry s nm :: L) :=
    comp_puts _ _ _ hch (by
      rw [emit_length]
      show s.memory_i + (32 + align CELL (nm.length + 1)) + 8 * (2 * B.length) ≤ s.memory_size
      omega)
  have hmi := puts_memory_i (s.header nm) (emit B)
  rw [emit_length] at hmi
  obtain ⟨k1, k2, _, k4, _⟩ := puts_keep (s.header nm) (emit B)
  have hbody : (colonEntry s nm).body = s.memory_i + (32 + align CELL (nm.length + 1)) := by
    show s.memory_i + 32 + align CELL (nm.length + 1) = _
    omega
  refine ⟨?_, ?_, ?_⟩
  · refine top_finish _ [] (colonEntry s nm) L hc2 ?_ (fun l hl => by simp at hl) ?_
    · rw [k4, k2]
      show upd (upd (upd s.shared S_COMPILING 1) S_LATEST (s.memory + (s.memory_i : Int)))
        S_DICT_ROOT (s.memory + (s.memory_i : Int)) S_DICT_ROOT = _
      rw [upd_same]
      rfl
    · rw [hmi, k1]
      show s.memory_i + (32 + align CELL (nm.length + 1)) + 8 * (2 * B.length) + 8 ≤
        s.memory_size
      omega
  · have hm : ((s.header nm).puts (emit B)).finish.mem =
        ((s.header nm).puts (emit B ++ [OP_EXIT])).mem := by
      rw [puts_append]
      rfl
    rw [hm, hbody]
    apply codeAt_puts
    intro c hc
    rcases List.mem_append.mp hc with hc | hc
    · exact emit_wrap B hB c hc
    · have : c = OP_EXIT := by simpa using hc
      rw [this]
      decide!
  · show ((s.header nm).puts (emit B)).memory_i + 8 = _
    rw [hmi, hbody]
    show s.memory_i + (32 + align CELL (nm.length + 1)) + 8 * (2 * B.length) + 8 = _
    omega

theorem header_view (s : State) (nm : List Nat) (cs : List Int) :
    ((s.header nm).puts cs).finish.view = s.view := by
  show ((s.header nm).puts cs).view = s.view
  rw [(puts_keep _ _).2.2.1]
  rfl

/-- C1. Compile/interpret equivalence.  Let `B` be a sequence of decimal numbers and of the
built-in words `+ - * > dup drop swap`, `s` a well-formed engine at top level (interpret
mode, the built-in names bound to their callbacks), `name` a word token that is not a
built-in name, with arena room for the definition.  Then `exec(": name B ; name")` and
`exec("B")` have the same outcome, the one `B` has as a computation on the data stack of
`s`: the same error code and the same data stack (or, both, a write past the data stack
buffer).  With stack room for one cell per token of `B`, both return. -/
theorem compile_interpret_equiv (s : State) (L : List Entry) (nm : List Nat)
    (B : List Item) (fuel : Nat) (ht : Top s L) (hw : isWordTok nm = true)
    (hnb : ∀ b ∈ builtins, ¬ nm = b.1) (hB : ∀ it ∈ B, it.wf = true)
    (hroom : s.memory_i + (32 + align CELL (nm.length + 1)) + 16 * B.length + 8 ≤
      s.memory_size)
    (hf : L.length + 2 * B.length + 5 ≤ fuel) :
    obs (s.exec fuel (unwords (str ":" :: nm :: (B.map Item.tok ++ [str ";", nm])))) =
        runV B s.view ∧
      obs (s.exec fuel (unwords (B.map Item.tok))) = runV B s.view ∧
      (s.si + B.length ≤ s.stack_size → ∃ e v, runV B s.view = .ok (e, v)) := by
  have hnmtok : isTok nm = true := by unfold isTok; rw [hw]; simp
  refine ⟨?_, ?_, fun h => runV_room B s.view h⟩
  · have hv : ∀ t ∈ str ":" :: nm :: (B.map Item.tok ++ [str ";", nm]), isTok t = true := by
      intro t ht
      rcases List.mem_cons.mp ht with rfl | ht
      · decide
      · rcases List.mem_cons.mp ht with rfl | ht
        · exact hnmtok
        · refine isTok_items B [str ";", nm] hB ?_ t ht
          intro u hu
          rcases List.mem_cons.mp hu with rfl | hu
          · decide
          · rcases List.mem_cons.mp hu with rfl | hu
            · exact hnmtok
            · simp at hu
    obtain ⟨g, rfl⟩ : ∃ g, fuel = g + B.length + 1 + 1 + B.length + 2 :=
      ⟨fuel - (2 * B.length + 4), by omega⟩
    obtain ⟨tk, i, n, sc, k, h1, h2⟩ := exec_fetch s _ _ hv
    rw [h1]
    have ht0 : Top ((s.start (unwords
        (str ":" :: nm :: (B.map Item.tok ++ [str ";", nm])))).retok i n sc k) L := ht
    obtain ⟨s2, tk2, a1, a2, a3⟩ := define_items _ L nm B [nm] tk (g + B.length + 1 + 1) ht0 h2
      hw hnb hB (by intro t ht; rcases List.mem_cons.mp ht with rfl | ht
                    · exact hnmtok
                    · simp at ht) hroom (by omega)
    rw [a3]
    obtain ⟨d1, d2, d3⟩ := defined_spec _ L nm B ht0 hw hnb hB hroom
    obtain ⟨m1, m2, m3, _⟩ := tok_memory_i _ _ a1
    have hview : s2.view = s.view := (tok_view _ _ a1).trans (header_view _ nm (emit B))
    obtain ⟨c1, c2⟩ := top_call s2 (colonEntry _ nm :: L) nm (colonEntry _ nm) B [] tk2 g
      (tok_top _ _ _ a1 d1) a2 hw (findEntry_cons_eq nm _ L rfl) rfl (by rw [m3]; exact d2)
      (by rw [m1, d3]) (by simp only [List.length_cons]; omega)
    rw [c2, hview]
    apply obs_chk_end s2 _ _ c1
    intro e v hr
    rw [runV_size B s.view e v hr]
    exact congrArg View.size hview.symm
  · obtain ⟨f, rfl⟩ : ∃ f, fuel = f + 1 + B.length := ⟨fuel - B.length - 1, by omega⟩
    have hv : ∀ t ∈ B.map Item.tok, isTok t = true := by
      have := isTok_items B [] hB (by simp)
      simpa using this
    obtain ⟨tk, i, n, sc, k, h1, h2⟩ := exec_fetch s (f + 1 + B.length) _ hv
    rw [h1]
    have ht0 : Top ((s.start (unwords (B.map Item.tok))).retok i n sc k) L := ht
    obtain ⟨i1, i2, i3⟩ := interp_items L [] (f + 1) (by simp) (by omega) B _ tk ht0
      (by simpa using h2) hB
    have hview : ((s.start (unwords (B.map Item.tok))).retok i n sc k).view = s.view := rfl
    rw [hview] at i1 i2 i3
    rcases runV_cases B s.view with hr | ⟨e, v, hr⟩
    · rw [i1 hr, hr]
      rfl
    · have hsz := runV_size B s.view e v hr
      by_cases he : e = E_OK
      · subst he
        obtain ⟨s2, tk2, q1, q2, q3⟩ := i3 v hr
        rw [q3, interp_last s2 tk2 f q2, hr]
        show Res.ok (E_OK, s2.view) = _
        rw [tok_view _ _ q1, withView_view ((s.start (unwords (B.map Item.tok))).retok i n sc k) v hsz]
      · obtain ⟨s2, q1, q2⟩ := i2 e v he hr
        rw [q2, hr]
        show Res.ok (e, s2.view) = _
        rw [tok_view _ _ q1, withView_view ((s.start (unwords (B.map Item.tok))).retok i n sc k) v hsz]

/-- C1, instance: on the engine of `repl.cpp`, `: foo 2 3 + ; foo` and `2 3 +` have the
outcome of the stack program `2 3 +`, and they return. -/
theorem compile_interpret_equiv_witness :
    obs ((State.fresh replCfg).exec 100 (str ": foo 2 3 + ; foo")) =
        runV [Item.num (str "2"), Item.num (str "3"), Item.op StackOp.plus]
          (State.fresh replCfg).view ∧
      obs ((State.fresh replCfg).exec 100 (str "2 3 +")) =
        runV [Item.num (str "2"), Item.num (str "3"), Item.op StackOp.plus]
          (State.fresh replCfg).view ∧
      ((State.fresh replCfg).si + 3 ≤ (State.fresh replCfg).stack_size →
        ∃ e v, runV [Item.num (str "2"), Item.num (str "3"), Item.op StackOp.plus]
          (State.fresh replCfg).view = .ok (e, v)) :=
  compile_interpret_equiv (State.fresh replCfg) builtinDict (str "foo")
    [Item.num (str "2"), Item.num (str "3"), Item.op StackOp.plus] 100
    (fresh_spec replCfg goodCfg_repl).2.1 (by decide) (by decide) (by decide)
    (by rw [fresh_repl_fields.2.2.1, fresh_repl_fields.2.1]; decide!)
    (by rw [builtinDict_length]; decide)

end ft

namespace ft

open Error Token

/-! ## Defining a word and calling it -/

/-- A colon definition of a stack program at top level: the engine is at top level again,
with the new entry in front of the dictionary and the code of the program in its body; the
data stack, the locals stack and the output are untouched. -/
theorem define_top (s : State) (L : List Entry) (nm : List Nat) (B : List Item)
    (ts : List (List Nat)) (tk : Token) (f : Nat) (ht : Top s L)
    (hcur : Cur s tk (str ":" :: nm :: (B.map Item.tok ++ str ";" :: ts)))
    (hw : isWordTok nm = true) (hnb : ∀ b ∈ builtins, ¬ nm = b.1)
    (hB : ∀ it ∈ B, it.wf = true) (hts : ∀ t ∈ ts, isTok t = true)
    (hroom : s.memory_i + (32 + align CELL (nm.length + 1)) + 16 * B.length + 8 ≤
      s.memory_size)
    (hf : L.length + 1 < f) :
    ∃ s2 tk2, Cur s2 tk2 ts ∧ s.interp (f + B.length + 2) tk = s2.interp f tk2 ∧
      Top s2 (colonEntry s nm :: L) ∧
      CodeAt s2.mem (colonEntry s nm).body (emit B ++ [OP_EXIT]) ∧
      s2.memory_i = (colonEntry s nm).body + 16 * B.length + 8 ∧ s2.view = s.view ∧
      s2.memory_size = s.memory_size ∧ s2.memory = s.memory ∧ s2.locals = s.locals ∧
      s2.out = s.out := by
  obtain ⟨s2, tk2, a1, a2, a3⟩ := define_items s L nm B ts tk f ht hcur hw hnb hB hts hroom hf
  obtain ⟨d1, d2, d3⟩ := defined_spec s L nm B ht hw hnb hB hroom
  obtain ⟨m1, m2, m3, m4, _, m6, _, m8⟩ := tok_memory_i _ _ a1
  obtain ⟨k1, k2, _, _, k5, _, k7⟩ := puts_keep (s.header nm) (emit B)
  refine ⟨s2, tk2, a2, a3, tok_top _ _ _ a1 d1, by rw [m3]; exact d2, by rw [m1, d3],
    (tok_view _ _ a1).trans (header_view s nm (emit B)), ?_, ?_, ?_, ?_⟩
  · rw [m2]; exact k1
  · rw [m4]; exact k2
  · rw [m6]; exact k5
  · rw [m8]; exact k7

/-- A stack program at top level that succeeds. -/
theorem items_top (s : State) (L : List Entry) (B : List Item) (ts : List (List Nat))
    (tk : Token) (f : Nat) (v : View) (ht : Top s L) (hcur : Cur s tk (B.map Item.tok ++ ts))
    (hB : ∀ it ∈ B, it.wf = true) (hts : ∀ t ∈ ts, isTok t = true) (hf : L.length < f)
    (hr : runV B s.view = .ok (E_OK, v)) :
    ∃ s2 tk2, Tok (s.withView v) s2 ∧ Cur s2 tk2 ts ∧
      s.interp (f + B.length) tk = s2.interp f tk2 :=
  (interp_items L ts f hts hf B s tk ht hcur hB).2.2 v hr

/-- A call, at top level, of a user word whose body is the code of a stack program that
succeeds. -/
theorem call_top (s : State) (L : List Entry) (w : List Nat) (e : Entry) (B : List Item)
    (ts : List (List Nat)) (tk : Token) (g : Nat) (v : View) (ht : Top s L)
    (hcur : Cur s tk (w :: ts)) (hw : isWordTok w = true)
    (hfind : findEntry w L = some e) (hfl : e.flags = 0)
    (hcode : CodeAt s.mem e.body (emit B ++ [OP_EXIT]))
    (hin : e.body + 16 * B.length + 8 ≤ s.memory_i) (hL : L.length < g + B.length + 1)
    (hts : ∀ t ∈ ts, isTok t = true) (hr : runV B s.view = .ok (E_OK, v)) :
    ∃ s2 tk2, Tok (s.withView v) s2 ∧ Cur s2 tk2 ts ∧
      s.interp (g + B.length + 1 + 1) tk = s2.interp (g + B.length + 1) tk2 := by
  obtain ⟨c1, c2⟩ := top_call s L w e B ts tk g ht hcur hw hfind hfl hcode hin hL
  obtain ⟨s2, tk2, t1, t2, t3⟩ := next_step (s.withView v) ts (g + B.length + 1) c1 hts
  refine ⟨s2, tk2, t1, t2, ?_⟩
  rw [c2, hr]
  simp only [State.lift, chk_ok]
  exact t3

/-! ### The stack words on a stack with enough cells -/

theorem runV_num (t : List Nat) (v : View) (h : v.si < v.size) :
    (Item.num t).runV v = .ok (E_OK, ⟨upd v.stack v.si (numVal t), v.si + 1, v.size⟩) := by
  have e : (Item.num t).runV v = obs (ign (v.state.push (numVal t)) fun s => .ok (E_OK, s)) :=
    rfl
  have hsi : v.state.si = v.si := rfl
  have hsz : v.state.stack_size = v.size := rfl
  rw [e, push_eval, hsi, hsz, if_pos h]
  rfl

theorem runV_binop (g : Int → Int → Int) (v : View) (h1 : 2 ≤ v.si) (h2 : v.si ≤ v.size) :
    obs (chkv v.state.pop fun a s => chkv s.pop fun b s => s.push (g a b)) =
      .ok (E_OK, ⟨upd v.stack (v.si - 2) (g (v.stack (v.si - 1)) (v.stack (v.si - 2))),
        v.si - 1, v.size⟩) := by
  have hsi : v.state.si = v.si := rfl
  have hsz : v.state.stack_size = v.size := rfl
  rw [binop_eval, hsi, hsz, if_neg (by omega), if_neg (by omega), if_neg (by omega)]
  rfl

theorem runV_star (v : View) (h1 : 2 ≤ v.si) (h2 : v.si ≤ v.size) :
    (Item.op StackOp.star).runV v =
      .ok (E_OK, ⟨upd v.stack (v.si - 2) (wrap (v.stack (v.si - 1) * v.stack (v.si - 2))),
        v.si - 1, v.size⟩) :=
  runV_binop (fun a b => wrap (a * b)) v h1 h2

theorem runV_minus (v : View) (h1 : 2 ≤ v.si) (h2 : v.si ≤ v.size) :
    (Item.op StackOp.minus).runV v =
      .ok (E_OK, ⟨upd v.stack (v.si - 2) (wrap (v.stack (v.si - 2) - v.stack (v.si - 1))),
        v.si - 1, v.size⟩) :=
  runV_binop (fun a b => wrap (b - a)) v h1 h2

theorem runV_dup (v : View) (h1 : 1 ≤ v.si) (h2 : v.si < v.size) :
    (Item.op StackOp.dup).runV v =
      .ok (E_OK, ⟨upd v.stack v.si (v.stack (v.si - 1)), v.si + 1, v.size⟩) := by
  have e : (Item.op StackOp.dup).runV v = obs (w_dup v.state) := rfl
  have hsi : v.state.si = v.si := rfl
  have hsz : v.state.stack_size = v.size := rfl
  rw [e, dup_eval, hsi, hsz, if_neg (by omega), if_neg (by omega), if_neg (by omega)]
  rfl

theorem runV_cons_ok (it : Item) (rest : List Item) (v v1 : View)
    (h : it.runV v = .ok (E_OK, v1)) : runV (it :: rest) v = runV rest v1 := by
  show chk (it.runV v) (fun v => runV rest v) = _
  rw [h, chk_ok]

/-! ### The word `.` -/

/-- The text `.` at top level on a stack with one cell: the cell is popped and printed. -/
theorem dot_exec (s : State) (L : List Entry) (fuel : Nat) (ht : Top s L)
    (hsi : s.si = 1) (hsz : 1 ≤ s.stack_size) (hf : L.length + 3 ≤ fuel) :
    ∃ s2, s.exec fuel (str ".") = .ok (E_OK, s2) ∧ s2.si = 0 ∧
      s2.out = s.out ++ [s.stack 0] ∧ s2.shared S_COMPILING = 0 := by
  obtain ⟨f, rfl⟩ : ∃ f, fuel = f + 1 + 1 + 1 := ⟨fuel - 3, by omega⟩
  obtain ⟨tk, i, n, sc, k, h1, h2⟩ := exec_fetch s (f + 1 + 1 + 1) [str "."] (by decide)
  have ht0 : Top ((s.start (unwords [str "."])).retok i n sc k) L := ht
  obtain ⟨he, hc, hwa⟩ := ht0
  obtain ⟨c1, c2, c3, _⟩ := cur_word _ _ _ _ h2 (by decide)
  subst c1
  have hrun : Prim.dot.run (f + 1 + 1) ((s.start (unwords [str "."])).retok i n sc k) =
      .ok (E_OK, { ((s.start (unwords [str "."])).retok i n sc k) with
        si := 0, out := s.out ++ [s.stack 0] }) := by
    show w_dot _ = _
    unfold w_dot
    rw [pop_ok _ (by show 1 ≤ s.si; omega) (by show s.si ≤ s.stack_size; omega), chkv_ok]
    show Res.ok (E_OK, _) = _
    have e1 : s.si - 1 = 0 := by omega
    simp only [State.start, State.retok, e1]
  have key : ∃ sd : State, Prim.dot.run (f + 1 + 1)
      ((s.start (unwords [str "."])).retok i n sc k) = .ok (E_OK, sd) ∧
      Lead sd.remaining [] ∧ sd.si = 0 ∧ sd.out = s.out ++ [s.stack 0] ∧
      sd.shared = s.shared := ⟨_, hrun, c3, rfl, rfl, rfl⟩
  obtain ⟨sd, k1, k2, k3, k4, k5⟩ := key
  obtain ⟨s3, tk3, t1, t2, t3⟩ := next_step sd [] (f + 1 + 1) k2 (by simp)
  have hx : s.exec (f + 1 + 1 + 1) (str ".") = s.exec (f + 1 + 1 + 1) (unwords [str "."]) := rfl
  obtain ⟨_, _, _, _, m5, _, _, m8⟩ := tok_memory_i _ _ t1
  refine ⟨s3, ?_, ?_, by rw [m8, k4], by rw [m5, k5]; exact hc⟩
  · rw [hx, h1, interp_word, exec_word_cword _ L (str ".") Prim.dot 0 (f + 1 + 1) he c2
      (he.2.2 (str ".", Prim.dot, 0) (by decide)) (Or.inl ⟨hc, by decide⟩) (by decide)
      (by omega), k1]
    simp only []
    rw [want_done _ _ _ _ (by decide), chk_ok, chk_ok, t3, interp_last s3 tk3 (f + 1) t2]
  · have := tok_view _ _ t1
    exact (congrArg View.si this).trans k3

end ft

namespace ft

open Error Token

/-! ## Scenario: `: sq dup * ; n sq` -/

/-- The fields of the freshly constructed engine that the host configuration fixes. -/
theorem fresh_fields (cfg : StateConfig) (h : GoodCfg cfg) :
    (State.fresh cfg).si = 0 ∧ (State.fresh cfg).stack_size = cfg.stack_size ∧
      (State.fresh cfg).memory_i = 984 ∧ (State.fresh cfg).memory_size = cfg.memory_size ∧
      (State.fresh cfg).locals.i = cfg.locals.i ∧
      (State.fresh cfg).locals.size = cfg.locals.size ∧ (State.fresh cfg).out = [] := by
  obtain ⟨_, _, hk, q4, _, _⟩ := fresh_spec cfg h
  obtain ⟨_, k2, k3, _, k5, _, _, _, _, k10, _, _, _, _, k15⟩ := hk
  exact ⟨k3, k2, q4, k5, by rw [k10]; rfl, by rw [k10]; rfl, k15⟩

theorem isNumTok_decimal (n : Int) : isNumTok (decimal n) = true := by
  unfold decimal
  by_cases hneg : n < 0
  · rw [if_pos hneg]
    obtain ⟨h1, h2, _⟩ := decNat_spec (-n).toNat
    obtain ⟨d, ds, hds⟩ := List.exists_cons_of_ne_nil h2
    rw [hds] at h1 ⊢
    have hall : (d :: ds).all isdigit = true := List.all_eq_true.mpr h1
    simp only [isNumTok, beq_self_eq_true, List.isEmpty_cons, Bool.not_false, Bool.and_self,
      Bool.true_and, hall, Bool.true_or]
  · rw [if_neg hneg]
    obtain ⟨h1, h2, _⟩ := decNat_spec n.toNat
    obtain ⟨d, ds, hds⟩ := List.exists_cons_of_ne_nil h2
    rw [hds] at h1 ⊢
    have hd : isdigit d = true := h1 d (List.mem_cons_self _ _)
    have hall : ds.all isdigit = true :=
      List.all_eq_true.mpr (fun x hx => h1 x (List.mem_cons_of_mem _ hx))
    simp only [isNumTok, hd, hall, Bool.and_self, Bool.or_true]

/-- The tokenizer reads the decimal rendering of a cell back as that cell. -/
theorem numVal_decimal (n : Int) (hn1 : -9223372036854775808 ≤ n)
    (hn2 : n < 9223372036854775808) : numVal (decimal n) = n := by
  have h1 := tokLoop_num (decimal n) [] (State.zeroed replCfg) (isNumTok_decimal n)
    (Or.inl rfl)
  rw [List.append_nil, tokLoop_decimal n _ hn1 hn2] at h1
  have h2 := congrArg (fun p => p.2.2.token_number) h1
  exact h2.symm

theorem list_snoc (v2 v : View) (x : Int) (h1 : v2.si = v.si + 1) (h2 : v2.stack v.si = x)
    (h3 : ∀ i, i < v.si → v2.stack i = v.stack i) : v2.list = v.list ++ [x] := by
  unfold View.list
  rw [h1]
  simp only [List.range_succ, List.map_append, List.map_cons, List.map_nil, h2]
  congr 1
  apply List.map_congr_left
  intro i hi
  exact h3 i (List.mem_range.mp hi)

theorem list_empty (v : View) (h : v.si = 0) : v.list = [] := by
  unfold View.list
  rw [h]
  rfl

/-- The stack program `n dup *`, split where the text `n sq` splits it. -/
theorem square_run (v : View) (t : List Nat) (h : v.si + 2 ≤ v.size) :
    ∃ v1 v2, runV [Item.num t] v = .ok (E_OK, v1) ∧
      runV [Item.op StackOp.dup, Item.op StackOp.star] v1 = .ok (E_OK, v2) ∧
      v2.list = v.list ++ [wrap (numVal t * numVal t)] ∧ v2.si = v.si + 1 := by
  have a1 := runV_num t v (by omega)
  have a2 := runV_dup ⟨upd v.stack v.si (numVal t), v.si + 1, v.size⟩
    (by show 1 ≤ v.si + 1; omega) (by show v.si + 1 < v.size; omega)
  have a3 := runV_star
    ⟨upd (upd v.stack v.si (numVal t)) (v.si + 1) (upd v.stack v.si (numVal t) (v.si + 1 - 1)),
      v.si + 1 + 1, v.size⟩
    (by show 2 ≤ v.si + 1 + 1; omega) (by show v.si + 1 + 1 ≤ v.size; omega)
  refine ⟨_, _, (runV_cons_ok _ [] _ _ a1).trans rfl,
    (runV_cons_ok _ [Item.op StackOp.star] _ _ a2).trans
      ((runV_cons_ok _ [] _ _ a3).trans rfl), ?_, ?_⟩
  · apply list_snoc
    · show v.si + 1 + 1 - 1 = v.si + 1
      omega
    · show upd _ (v.si + 1 + 1 - 2) _ v.si = _
      have e1 : v.si + 1 + 1 - 2 = v.si := by omega
      have e2 : v.si + 1 + 1 - 1 = v.si + 1 := by omega
      have e3 : v.si + 1 - 1 = v.si := by omega
      rw [e1, upd_same]
      simp only [e1, e2, e3, upd_same]
      rw [upd_other _ _ _ _ (by omega), upd_same]
    · intro i hi
      clear a1 a2 a3
      have e1 : v.si + 1 + 1 - 2 = v.si := by omega
      simp only [upd, e1]
      rw [if_neg (by omega), if_neg (by omega), if_neg (by omega)]
  · show v.si + 1 + 1 - 1 = v.si + 1
    omega

theorem square_text (n : Int) :
    str ": sq dup * ; " ++ decimal n ++ str " sq" =
      unwords (str ":" :: str "sq" ::
        ([Item.op StackOp.dup, Item.op StackOp.star].map Item.tok ++
          str ";" :: ([Item.num (decimal n)].map Item.tok ++ [str "sq"]))) := rfl

/-- C2. Scenario `: sq dup * ; n sq`.  For every cell `n`, on the engine the constructor
yields for a configuration with room for two data cells and for the definition,
`exec(": sq dup * ; n sq")`, `n` written in decimal, returns `E_OK` and leaves exactly one
value on the data stack, the machine-word product `n * n`, with `COMPILING = 0`; a
following `exec(".")` returns `E_OK`, prints that value and leaves the data stack empty. -/
theorem square_spec (cfg : StateConfig) (n : Int) (fuel : Nat) (hcfg : GoodCfg cfg)
    (hst : 2 ≤ cfg.stack_size) (hmem : 1064 ≤ cfg.memory_size)
    (hn1 : -9223372036854775808 ≤ n) (hn2 : n < 9223372036854775808) (hf : 32 ≤ fuel) :
    ∃ s1, (State.fresh cfg).exec fuel (str ": sq dup * ; " ++ decimal n ++ str " sq") =
        .ok (E_OK, s1) ∧
      s1.stackList = [wrap (n * n)] ∧ s1.shared S_COMPILING = 0 ∧
      ∃ s2, s1.exec fuel (str ".") = .ok (E_OK, s2) ∧ s2.stackList = [] ∧
        s2.out = s1.out ++ [wrap (n * n)] := by
  obtain ⟨f1, f2, f3, f4, _⟩ := fresh_fields cfg hcfg
  obtain ⟨_, ht, _⟩ := fresh_spec cfg hcfg
  have hal : align CELL ((str "sq").length + 1) = 8 := by decide!
  have hbl := builtinDict_length
  obtain ⟨g, rfl⟩ : ∃ g, fuel = g + 2 + 1 + 1 + 1 + 2 + 2 := ⟨fuel - 9, by omega⟩
  have hnum : isNumTok (decimal n) = true := isNumTok_decimal n
  have hwfn : ∀ it ∈ [Item.num (decimal n)], it.wf = true := by
    intro it hit
    have : it = Item.num (decimal n) := by simpa using hit
    rw [this]
    exact hnum
  have htail : ∀ t ∈ [Item.num (decimal n)].map Item.tok ++ [str "sq"], isTok t = true :=
    isTok_items _ _ hwfn (by decide)
  have hv : ∀ t ∈ str ":" :: str "sq" ::
      ([Item.op StackOp.dup, Item.op StackOp.star].map Item.tok ++
        str ";" :: ([Item.num (decimal n)].map Item.tok ++ [str "sq"])), isTok t = true := by
    intro t ht
    rcases List.mem_cons.mp ht with rfl | ht
    · decide
    · rcases List.mem_cons.mp ht with rfl | ht
      · decide
      · refine isTok_items _ _ (by decide) ?_ t ht
        intro u hu
        rcases List.mem_cons.mp hu with rfl | hu
        · decide
        · exact htail u hu
  rw [square_text]
  obtain ⟨tk, i, k0, sc, k, h1, h2⟩ := exec_fetch (State.fresh cfg) _ _ hv
  have ht0 : Top (((State.fresh cfg).start (unwords (str ":" :: str "sq" ::
      ([Item.op StackOp.dup, Item.op StackOp.star].map Item.tok ++
        str ";" :: ([Item.num (decimal n)].map Item.tok ++ [str "sq"]))))).retok i k0 sc k)
      builtinDict := ht
  obtain ⟨s1, tk1, a1, a2, a3, a4, a5, a6, a7, a8, _, a10⟩ := define_top _ builtinDict (str "sq")
    [Item.op StackOp.dup, Item.op StackOp.star] _ tk (g + 2 + 1 + 1 + 1) ht0 h2 (by decide)
    (by decide) (by decide) htail
    (by show (State.fresh cfg).memory_i + (32 + align CELL ((str "sq").length + 1)) + 16 * 2 + 8
          ≤ (State.fresh cfg).memory_size
        rw [f3, f4, hal]; omega)
    (by omega)
  have hview1 : s1.view = (State.fresh cfg).view := a6
  obtain ⟨v1, v2, r1, r2, r3, r4⟩ := square_run (State.fresh cfg).view (decimal n)
    (by show (State.fresh cfg).si + 2 ≤ (State.fresh cfg).stack_size; rw [f1, f2]; omega)
  obtain ⟨s2, tk2, b1, b2, b3⟩ := items_top s1 _ [Item.num (decimal n)] [str "sq"] tk1
    (g + 2 + 1 + 1) v1 a3 a1 hwfn (by decide) (by simp only [List.length_cons, List.length_nil]; omega)
    (by rw [hview1]; exact r1)
  obtain ⟨m1, m2, m3, _⟩ := tok_memory_i _ _ b1
  have hsz1 : v1.size = s1.stack_size := by
    rw [runV_size _ _ _ _ r1]
    exact (congrArg View.size hview1).symm
  have hview2 : s2.view = v1 := (tok_view _ _ b1).trans (withView_view s1 v1 hsz1)
  obtain ⟨s3, tk3, c1, c2, c3⟩ := call_top s2 _ (str "sq") _
    [Item.op StackOp.dup, Item.op StackOp.star] [] tk2 g v2
    (tok_top _ _ _ b1 (top_withView s1 _ v1 a3)) b2 (by decide)
    (findEntry_cons_eq (str "sq") _ builtinDict rfl) rfl (by rw [m3]; exact a4)
    (by rw [m1]; show _ ≤ s1.memory_i; rw [a5]) (by simp only [List.length_cons, List.length_nil]; omega)
    (by simp) (by rw [hview2]; exact r2)
  have hsz2 : v2.size = s2.stack_size := by
    rw [runV_size _ _ _ _ r2]
    exact (congrArg View.size hview2).symm
  have hview3 : s3.view = v2 := (tok_view _ _ c1).trans (withView_view s2 v2 hsz2)
  have ht3 : Top s3 _ := tok_top _ _ _ c1 (top_withView s2 _ v2
    (tok_top _ _ _ b1 (top_withView s1 _ v1 a3)))
  have hl3 : s3.stackList = [wrap (n * n)] := by
    show s3.view.list = _
    rw [hview3, r3, list_empty _ (show (State.fresh cfg).view.si = 0 from f1),
      numVal_decimal n hn1 hn2]
    rfl
  have hsi3 : s3.si = 1 := by
    have := congrArg View.si hview3
    rw [r4] at this
    show s3.view.si = 1
    rw [this]
    show (State.fresh cfg).si + 1 = 1
    rw [f1]
  have hst3 : s3.stack 0 = wrap (n * n) := by
    have : s3.stackList = [s3.stack 0] := by
      unfold State.stackList
      rw [hsi3]
      rfl
    rw [this] at hl3
    exact List.head_eq_of_cons_eq hl3
  refine ⟨s3, ?_, hl3, ht3.2.1, ?_⟩
  · exact h1.trans (a2.trans (b3.trans (c3.trans (interp_last s3 tk3 (g + 2) c2))))
  · have hsz3 : 1 ≤ s3.stack_size := by
      have e1 : s3.stack_size = (State.fresh cfg).stack_size := by
        have := congrArg View.size hview3
        have e2 : v2.size = (State.fresh cfg).stack_size :=
          (runV_size _ _ _ _ r2).trans (runV_size _ _ _ _ r1)
        exact this.trans e2
      rw [e1, f2]; omega
    obtain ⟨s4, d1, d2, d3, _⟩ := dot_exec s3 _ (g + 2 + 1 + 1 + 1 + 2 + 2) ht3 hsi3 hsz3
      (by simp only [List.length_cons, List.length_nil]; omega)
    refine ⟨s4, d1, ?_, by rw [d3, hst3]⟩
    unfold State.stackList
    rw [d2]
    rfl

/-- C2, instance: `n = 7` on the engine of `repl.cpp` gives 49. -/
theorem square_spec_witness :
    ∃ s1, (State.fresh replCfg).exec 40 (str ": sq dup * ; " ++ decimal 7 ++ str " sq") =
        .ok (E_OK, s1) ∧
      s1.stackList = [wrap (7 * 7)] ∧ s1.shared S_COMPILING = 0 ∧
      ∃ s2, s1.exec 40 (str ".") = .ok (E_OK, s2) ∧ s2.stackList = [] ∧
        s2.out = s1.out ++ [wrap (7 * 7)] :=
  square_spec replCfg 7 40 goodCfg_repl (by decide) (by decide) (by decide) (by decide)
    (by decide)

end ft

namespace ft

open Error Token

/-! ## Scenario: redefinition -/

theorem redef_text (a b : Int) :
    str ": foo " ++ decimal a ++ str " ; : foo " ++ decimal b ++ str " ; foo" =
      unwords (str ":" :: str "foo" :: ([Item.num (decimal a)].map Item.tok ++
        str ";" :: (str ":" :: str "foo" :: ([Item.num (decimal b)].map Item.tok ++
          str ";" :: [str "foo"])))) := by
  simp [unwords, str, Item.tok, List.append_assoc]

theorem wf_num (n : Int) : ∀ it ∈ [Item.num (decimal n)], it.wf = true := by
  intro it hit
  have : it = Item.num (decimal n) := by simpa using hit
  rw [this]
  exact isNumTok_decimal n

/-- C5. Redefinition shadows.  For every number `a` and every cell `b`, on the engine the constructor
yields for a configuration with room for one data cell and for the two definitions,
`exec(": foo a ; : foo b ; foo")` returns `E_OK` and leaves `b` on the data stack, which was
empty: `lookup("foo")` returns the later of the two entries, the one at arena offset 1048,
whose `previous` link is the earlier entry at offset 984. -/
theorem redefinition_shadows (cfg : StateConfig) (a b : Int) (fuel : Nat)
    (hcfg : GoodCfg cfg) (hst : 1 ≤ cfg.stack_size) (hmem : 1112 ≤ cfg.memory_size)
    (hb1 : -9223372036854775808 ≤ b) (hb2 : b < 9223372036854775808) (hf : 32 ≤ fuel) :
    ∃ s1, (State.fresh cfg).exec fuel
        (str ": foo " ++ decimal a ++ str " ; : foo " ++ decimal b ++ str " ; foo") =
        .ok (E_OK, s1) ∧
      s1.stackList = [b] ∧ s1.lookup fuel (str "foo") = .ok (s1.memory + 1048) ∧
      rdCell s1.mem 1048 = s1.memory + 984 := by
  obtain ⟨f1, f2, f3, f4, _⟩ := fresh_fields cfg hcfg
  obtain ⟨_, ht, _⟩ := fresh_spec cfg hcfg
  have hal : align CELL ((str "foo").length + 1) = 8 := by decide!
  have hbl := builtinDict_length
  obtain ⟨g, rfl⟩ : ∃ g, fuel = g + 1 + 1 + 1 + 1 + 2 + 1 + 2 := ⟨fuel - 9, by omega⟩
  have hv3 : ∀ t ∈ [str "foo"], isTok t = true := by decide
  have hv2 : ∀ t ∈ str ":" :: str "foo" :: ([Item.num (decimal b)].map Item.tok ++
      str ";" :: [str "foo"]), isTok t = true := by
    intro t ht
    rcases List.mem_cons.mp ht with rfl | ht
    · decide
    · rcases List.mem_cons.mp ht with rfl | ht
      · decide
      · exact isTok_items _ _ (wf_num b) (by decide) t ht
  have hv1 : ∀ t ∈ str ":" :: str "foo" :: ([Item.num (decimal a)].map Item.tok ++
      str ";" :: (str ":" :: str "foo" :: ([Item.num (decimal b)].map Item.tok ++
        str ";" :: [str "foo"]))), isTok t = true := by
    intro t ht
    rcases List.mem_cons.mp ht with rfl | ht
    · decide
    · rcases List.mem_cons.mp ht with rfl | ht
      · decide
      · refine isTok_items _ _ (wf_num a) ?_ t ht
        intro u hu
        rcases List.mem_cons.mp hu with rfl | hu
        · decide
        · exact hv2 u hu
  rw [redef_text]
  obtain ⟨tk, i, k0, sc, k, h1, h2⟩ := exec_fetch (State.fresh cfg)
    (g + 1 + 1 + 1 + 1 + 2 + 1 + 2) _ hv1
  obtain ⟨s0, hs0⟩ : ∃ s0, s0 = ((State.fresh cfg).start (unwords (str ":" :: str "foo" ::
      ([Item.num (decimal a)].map Item.tok ++
      str ";" :: (str ":" :: str "foo" :: ([Item.num (decimal b)].map Item.tok ++
        str ";" :: [str "foo"])))))).retok i k0 sc k := ⟨_, rfl⟩
  rw [← hs0] at h1 h2
  have ht0 : Top s0 builtinDict := by rw [hs0]; exact ht
  have g1 : s0.memory_i = 984 := by rw [hs0]; exact f3
  have g2 : s0.memory_size = cfg.memory_size := by rw [hs0]; exact f4
  have g3 : s0.view = (State.fresh cfg).view := by rw [hs0]; rfl
  have hbody1 : (colonEntry s0 (str "foo")).body = 1024 := by
    show s0.memory_i + 32 + align CELL ((str "foo").length + 1) = 1024
    rw [g1, hal]
  obtain ⟨s1, tk1, a1, a2, a3, a4, a5, a6, a7, a8, _⟩ := define_top s0 builtinDict (str "foo")
    [Item.num (decimal a)] _ tk (g + 1 + 1 + 1 + 1 + 2) ht0 h2 (by decide)
    (by decide) (wf_num a) hv2
    (by rw [g1, g2, hal]; simp only [List.length_cons, List.length_nil]; omega)
    (by omega)
  rw [hbody1] at a5
  have a5' : s1.memory_i = 1048 := a5
  have hbody2 : (colonEntry s1 (str "foo")).body = 1088 := by
    show s1.memory_i + 32 + align CELL ((str "foo").length + 1) = 1088
    rw [a5', hal]
  obtain ⟨s2, tk2, b1, b2, b3, b4, b5, b6, b7, b8, _⟩ := define_top s1 _ (str "foo")
    [Item.num (decimal b)] _ tk1 (g + 1 + 1 + 1) a3 a1 (by decide)
    (by decide) (wf_num b) hv3
    (by rw [a5', a7, g2, hal]; simp only [List.length_cons, List.length_nil]; omega)
    (by simp only [List.length_cons]; omega)
  rw [hbody2] at b5
  have b5' : s2.memory_i = 1112 := b5
  have hview2 : s2.view = (State.fresh cfg).view := b6.trans (a6.trans g3)
  have r1 := runV_num (decimal b) (State.fresh cfg).view
    (by show (State.fresh cfg).si < (State.fresh cfg).stack_size; rw [f1, f2]; omega)
  have r2 := (runV_cons_ok _ [] _ _ r1).trans rfl
  obtain ⟨s3, tk3, c1, c2, c3⟩ := call_top s2 _ (str "foo") _ [Item.num (decimal b)] [] tk2 g _
    b3 b1 (by decide) (findEntry_cons_eq (str "foo") _ _ rfl) rfl b4
    (by rw [hbody2, b5']; simp only [List.length_cons, List.length_nil]; omega)
    (by simp only [List.length_cons, List.length_nil]; omega) (by simp)
    (by rw [hview2]; exact r2)
  have hsz : (State.fresh cfg).stack_size = s2.stack_size :=
    (congrArg View.size hview2).symm
  have hview3 : s3.view = _ := (tok_view _ _ c1).trans (withView_view s2 _ hsz)
  have ht3 : Top s3 _ := tok_top _ _ _ c1 (top_withView s2 _ _ b3)
  obtain ⟨m1, m2, m3, m4, _⟩ := tok_memory_i _ _ c1
  refine ⟨s3, ?_, ?_, ?_, ?_⟩
  · exact h1.trans (a2.trans (b2.trans (c3.trans (interp_last s3 tk3 (g + 1) c2))))
  · show s3.view.list = _
    rw [hview3]
    have := list_snoc ⟨upd (State.fresh cfg).view.stack (State.fresh cfg).view.si
        (numVal (decimal b)), (State.fresh cfg).view.si + 1, (State.fresh cfg).view.size⟩
      (State.fresh cfg).view (numVal (decimal b)) rfl (upd_same _ _ _)
      (fun j hj => upd_other _ _ _ _ (by omega))
    rw [this, list_empty _ (show (State.fresh cfg).view.si = 0 from f1),
      numVal_decimal b hb1 hb2]
    rfl
  · rw [arena_lookup s3 _ (str "foo") _ ht3.1.1 (by decide)
      (by simp only [List.length_cons]; omega),
      findEntry_cons_eq (str "foo") _ _ rfl]
    show Res.ok (s3.memory + ((s1.memory_i : Nat) : Int)) = _
    rw [a5']
    rfl
  · have hch := ht3.1.1.2.2.2.2.1
    rw [chain_cons_iff] at hch
    obtain ⟨_, _, _, _, _, hch2⟩ := hch
    rw [chain_cons_iff] at hch2
    have e1 : (colonEntry s1 (str "foo")).off = 1048 := a5'
    have e2 : (colonEntry s0 (str "foo")).off = 984 := g1
    rw [e1] at hch2
    rw [hch2.1, e2]
    rfl

/-- C5, instance: `a = 1`, `b = 2` on the engine of `repl.cpp` leaves 2. -/
theorem redefinition_shadows_witness :
    ∃ s1, (State.fresh replCfg).exec 40
        (str ": foo " ++ decimal 1 ++ str " ; : foo " ++ decimal 2 ++ str " ; foo") =
        .ok (E_OK, s1) ∧
      s1.stackList = [2] ∧ s1.lookup 40 (str "foo") = .ok (s1.memory + 1048) ∧
      rdCell s1.mem 1048 = s1.memory + 984 :=
  redefinition_shadows replCfg 1 2 40 goodCfg_repl (by decide) (by decide) (by decide)
    (by decide) (by decide)

end ft

namespace ft

open Error Token

/-! ## The arena after a local was declared -/

theorem puts_mem (s : State) (cs : List Int) :
    (s.puts cs).mem = wrCells s.mem s.memory_i cs := by
  induction cs generalizing s with
  | nil => rfl
  | cons c cs ih => exact ih (s.put c)

theorem wrCells_below (m : Nat → Nat) (a : Nat) (cs : List Int) (i : Nat) (h : i < a) :
    wrCells m a cs i = m i := by
  induction cs generalizing m a with
  | nil => rfl
  | cons c cs ih =>
    show wrCells (wrCell m a c) (a + 8) cs i = m i
    rw [ih _ _ (by omega)]
    exact wrCell_outside _ _ _ _ (by omega)

theorem wrCells_above (m : Nat → Nat) (a : Nat) (cs : List Int) (i : Nat)
    (h : a + 8 * cs.length ≤ i) : wrCells m a cs i = m i := by
  induction cs generalizing m a with
  | nil => rfl
  | cons c cs ih =>
    simp only [List.length_cons] at h
    show wrCells (wrCell m a c) (a + 8) cs i = m i
    rw [ih _ _ (by omega)]
    exact wrCell_outside _ _ _ _ (by omega)

theorem rdCell_wrCells_disj (m : Nat → Nat) (a b : Nat) (cs : List Int)
    (h : b + 8 ≤ a ∨ a + 8 * cs.length ≤ b) : rdCell (wrCells m a cs) b = rdCell m b := by
  apply rdCell_congr
  intro i h1 h2
  rcases h with h | h
  · exact wrCells_below _ _ _ _ (by omega)
  · exact wrCells_above _ _ _ _ (by omega)

theorem codeAt_wrCells (m : Nat → Nat) (a : Nat) (cs : List Int) (hc : ∀ c ∈ cs, wrap c = c) :
    CodeAt (wrCells m a cs) a cs := by
  induction cs generalizing m a with
  | nil => trivial
  | cons c cs ih =>
    refine ⟨?_, ih (wrCell m a c) (a + 8) (fun x hx => hc x (List.mem_cons_of_mem _ hx))⟩
    show rdCell (wrCells (wrCell m a c) (a + 8) cs) a = c
    rw [rdCell_wrCells_disj _ _ _ _ (Or.inl (by omega)), rdCell_wrCell_same,
      hc c (List.mem_cons_self _ _)]

theorem rdCell_entryMem_below (m : Nat → Nat) (a b : Nat) (prev : Int) (name : List Nat)
    (h : b + 8 ≤ a) : rdCell (entryMem m a prev name) b = rdCell m b := by
  apply rdCell_congr
  intro i h1 h2
  exact entryMem_below _ _ _ _ _ (by omega)

theorem localCode_length (k : Int) : (localCode k).length = 9 := rfl

theorem local_below (m : Nat → Nat) (a : Nat) (prev : Int) (name : List Nat) (k : Int)
    (i : Nat) (h : i < a) : localMem m a prev name k i = m i := by
  unfold localMem
  rw [wrCell_outside _ _ _ _ (by omega), wrCells_below _ _ _ _ (by omega),
    wrCell_outside _ _ _ _ (by omega), entryMem_below _ _ _ _ _ (by omega),
    wrCells_below _ _ _ _ (by omega)]

theorem local_above (m : Nat → Nat) (a : Nat) (prev : Int) (name : List Nat) (k : Int)
    (i : Nat) (h : a + 16 + (32 + align CELL (name.length + 1)) + 72 ≤ i) :
    localMem m a prev name k i = m i := by
  have hge := align8_ge (name.length + 1)
  unfold localMem
  rw [wrCell_outside _ _ _ _ (by omega),
    wrCells_above _ _ _ _ (by rw [localCode_length]; omega),
    wrCell_outside _ _ _ _ (by omega), entryMem_above _ _ _ _ _ (by omega),
    wrCells_above _ _ _ _ (by simp only [List.length_cons, List.length_nil]; omega)]

theorem local_jump (m : Nat → Nat) (a : Nat) (prev : Int) (name : List Nat) (k : Int)
    (hsz : a + 16 + (32 + align CELL (name.length + 1)) + 72 < 9223372036854775808) :
    rdCell (localMem m a prev name k) a = OP_JUMP_IGNORED ∧
      rdCell (localMem m a prev name k) (a + 8) =
        ((a + 16 + (32 + align CELL (name.length + 1)) + 72 : Nat) : Int) := by
  constructor
  · unfold localMem
    rw [rdCell_wrCell_disj _ _ _ _ (by omega), rdCell_wrCells_disj _ _ _ _ (Or.inl (by omega)),
      rdCell_wrCell_disj _ _ _ _ (by omega), rdCell_entryMem_below _ _ _ _ _ (by omega)]
    show rdCell (wrCell (wrCell m a OP_JUMP_IGNORED) (a + 8) (-1)) a = _
    rw [rdCell_wrCell_disj _ _ _ _ (by omega), rdCell_wrCell_same]
    decide!
  · unfold localMem
    rw [rdCell_wrCell_same, wrap_nat _ hsz]

theorem local_prev (m : Nat → Nat) (a : Nat) (prev : Int) (name : List Nat) (k : Int) :
    rdCell (localMem m a prev name k) (a + 16) = wrap prev := by
  unfold localMem
  rw [rdCell_wrCell_disj _ _ _ _ (by omega), rdCell_wrCells_disj _ _ _ _ (Or.inl (by omega)),
    rdCell_wrCell_disj _ _ _ _ (by omega), entryMem_prev]

theorem local_entryAt (m : Nat → Nat) (a : Nat) (prev : Int) (name : List Nat) (k : Int)
    (hlen : name.length < 4611686018427387904) (hz : ∀ i, a ≤ i → m i = 0) :
    EntryAt (localMem m a prev name k)
      { off := a + 16, name := name, flags := FLAG_COMPILE_ONLY + FLAG_IMMEDIATE } := by
  have hge := align8_ge (name.length + 1)
  refine ⟨?_, ?_, ?_⟩
  · show toSize (rdCell (localMem m a prev name k) (a + 16 + 8)) =
      FLAG_COMPILE_ONLY + FLAG_IMMEDIATE
    unfold localMem
    rw [rdCell_wrCell_disj _ _ _ _ (by omega),
      rdCell_wrCells_disj _ _ _ _ (Or.inl (by omega)), rdCell_wrCell_same]
    decide!
  · show rdCell (localMem m a prev name k) (a + 16 + 16) = _
    unfold localMem
    rw [rdCell_wrCell_disj _ _ _ _ (by omega),
      rdCell_wrCells_disj _ _ _ _ (Or.inl (by omega)), rdCell_wrCell_disj _ _ _ _ (by omega),
      entryMem_len, wrap_nat _ (by omega)]
  · show rdBytes (localMem m a prev name k) (a + 16 + 24) (name.length + 1) = name ++ [0]
    rw [← entryMem_name (wrCells m a [OP_JUMP_IGNORED, -1]) (a + 16) prev name (by
      rw [wrCells_above _ _ _ _ (by simp only [List.length_cons, List.length_nil]; omega)]
      exact hz _ (by omega))]
    apply rdBytes_congr
    intro i h1 h2
    unfold localMem
    rw [wrCell_outside _ _ _ _ (by omega), wrCells_below _ _ _ _ (by omega),
      wrCell_outside _ _ _ _ (by omega)]

theorem localCode_wrap (k : Int) (hk : wrap k = k) : ∀ c ∈ localCode k, wrap c = c := by
  intro c hc
  simp only [localCode, List.mem_cons, List.mem_singleton, List.not_mem_nil, or_false] at hc
  rcases hc with rfl | rfl | rfl | rfl | rfl | rfl | rfl | rfl | rfl
  all_goals first | exact hk | decide!

theorem local_code (m : Nat → Nat) (a : Nat) (prev : Int) (name : List Nat) (k : Int)
    (hk : wrap k = k) :
    CodeAt (localMem m a prev name k) (a + 16 + (32 + align CELL (name.length + 1)))
      (localCode k) := by
  unfold localMem
  exact codeAt_frame _ _ _ _ (codeAt_wrCells _ _ _ (localCode_wrap k hk))
    (fun i h1 h2 => wrCell_outside _ _ _ _ (by omega))

/-- The arena after a local was declared represents the dictionary with the entry of the
local in front. -/
theorem arena_local (s : State) (L : List Entry) (nm : List Nat) (h : Arena s L)
    (hname : ∀ c ∈ nm, c ≠ 0) (hlen : nm.length < 4611686018427387904)
    (hroom : s.memory_i + 16 + (32 + align CELL (nm.length + 1)) + 72 ≤ s.memory_size) :
    Arena (s.local nm) (localEntry s nm :: L) := by
  obtain ⟨hb, hsz, hle, hal, hch, hz⟩ := h
  have hmod := align8_mod (nm.length + 1)
  have hr := chain_ptr_range _ _ _ _ _ hch hb
  have hp : wrap (s.shared S_LATEST) = s.shared S_LATEST := by
    apply wrap_of_range <;> omega
  have hal2 : (s.memory_i + 16 + (32 + align CELL (nm.length + 1)) + 72) % 8 = 0 := by
    clear hp hr hroom hsz hch hz
    omega
  refine ⟨hb, hsz, hroom, hal2, ?_, ?_⟩
  · show Chain (localMem s.mem s.memory_i (s.shared S_LATEST) nm (s.shared S_LOCAL_COUNT))
      s.memory (s.memory_i + 16 + (32 + align CELL (nm.length + 1)) + 72)
      (upd (upd s.shared S_LATEST (s.memory + ((s.memory_i + 16 : Nat) : Int)))
        S_LOCAL_COUNT (wrap (s.shared S_LOCAL_COUNT + 1)) S_LATEST) _
    rw [upd_other _ _ _ _ (by decide), upd_same]
    have hc2 : Chain (localMem s.mem s.memory_i (s.shared S_LATEST) nm
        (s.shared S_LOCAL_COUNT)) s.memory (s.memory_i + 16) (s.shared S_LATEST) L :=
      chain_frame s.mem _ s.memory s.memory_i _ _ L hch
        (fun i hi => local_below _ _ _ _ _ i hi) (by omega)
    exact chain_build _ _ s.memory (s.memory_i + 16) _ (s.shared S_LATEST) (localEntry s nm) L
      hc2 rfl (by
        show s.memory_i + 16 + SIZEOF_DICTENTRY + align CELL (nm.length + 1) ≤ _
        unfold SIZEOF_DICTENTRY
        clear hp hr hroom hsz hch hz hc2
        omega) hname hlen (fun _ _ => rfl)
      (by rw [local_prev, hp]) (local_entryAt _ _ _ _ _ hlen hz)
  · intro i hi
    have hi2 : s.memory_i + 16 + (32 + align CELL (nm.length + 1)) + 72 ≤ i := hi
    show localMem s.mem s.memory_i (s.shared S_LATEST) nm (s.shared S_LOCAL_COUNT) i = 0
    rw [local_above _ _ _ _ _ i hi2]
    exact hz i (by clear hp hr hroom hsz hch; omega)

theorem comp_local (s : State) (L : List Entry) (nm : List Nat) (h : Comp s L)
    (hname : ∀ c ∈ nm, c ≠ 0) (hlen : nm.length < 4611686018427387904)
    (hroom : s.memory_i + 16 + (32 + align CELL (nm.length + 1)) + 72 ≤ s.memory_size)
    (hnb : ∀ b ∈ builtins, ¬ nm = b.1) :
    Comp (s.local nm) (localEntry s nm :: L) := by
  obtain ⟨he, hc, hwa⟩ := h
  refine ⟨eng_extend s (s.local nm) L (localEntry s nm) he
    (arena_local s L nm he.1 hname hlen hroom) rfl
    (fun i hi => local_below _ _ _ _ _ i hi)
    (by show s.memory_i ≤ s.memory_i + 16 + _ + 72; omega) hnb, ?_, ?_⟩
  · show upd (upd s.shared S_LATEST (s.memory + ((s.memory_i + 16 : Nat) : Int)))
      S_LOCAL_COUNT (wrap (s.shared S_LOCAL_COUNT + 1)) S_COMPILING = 1
    rw [upd_other _ _ _ _ (by decide), upd_other _ _ _ _ (by decide)]
    exact hc
  · show upd (upd s.shared S_LATEST (s.memory + ((s.memory_i + 16 : Nat) : Int)))
      S_LOCAL_COUNT (wrap (s.shared S_LOCAL_COUNT + 1)) S_WORD_AVAILABLE = 0
    rw [upd_other _ _ _ _ (by decide), upd_other _ _ _ _ (by decide)]
    exact hwa

end ft

namespace ft

open Error Token

/-! ## The callback of `{` -/

/-- The arena after `create` and the store of the flags of the new entry. -/
theorem arena_entry_flags (s : State) (L : List Entry) (nm : List Nat) (fl : Nat)
    (h : Arena s L) (hname : ∀ c ∈ nm, c ≠ 0) (hlen : nm.length < 4611686018427387904)
    (hfl : fl < 4294967296)
    (hroom : s.memory_i + (32 + align CELL (nm.length + 1)) ≤ s.memory_size) :
    Arena { s with
        mem := wrCell (entryMem s.mem s.memory_i (s.shared S_LATEST) nm) (s.memory_i + 8)
          (wrap fl),
        memory_i := s.memory_i + (32 + align CELL (nm.length + 1)),
        shared := upd s.shared S_LATEST (s.memory + s.memory_i) }
      ({ off := s.memory_i, name := nm, flags := fl } :: L) := by
  obtain ⟨hb, hsz, hle, hal, hch, hz⟩ := h
  have hmod := align8_mod (nm.length + 1)
  have hge := align8_ge (nm.length + 1)
  have hr := chain_ptr_range _ _ _ _ _ hch hb
  have hp : wrap (s.shared S_LATEST) = s.shared S_LATEST := by
    apply wrap_of_range <;> omega
  have hal2 : (s.memory_i + (32 + align CELL (nm.length + 1))) % 8 = 0 := by
    clear hp hr hroom hsz hch hz
    omega
  have hat : EntryAt (wrCell (entryMem s.mem s.memory_i (s.shared S_LATEST) nm)
      (s.memory_i + 8) (wrap fl)) { off := s.memory_i, name := nm, flags := fl } := by
    refine ⟨?_, ?_, ?_⟩
    · show toSize (rdCell (wrCell _ (s.memory_i + 8) (wrap fl)) (s.memory_i + 8)) = fl
      rw [rdCell_wrCell_same, wrap_wrap, toSize_wrap, toSize_of_nat (by omega)]
    · show rdCell (wrCell _ (s.memory_i + 8) (wrap fl)) (s.memory_i + 16) = (nm.length : Int)
      rw [rdCell_wrCell_disj _ _ _ _ (by omega), entryMem_len, wrap_nat _ (by omega)]
    · show rdBytes (wrCell _ (s.memory_i + 8) (wrap fl)) (s.memory_i + 24) (nm.length + 1) =
        nm ++ [0]
      rw [← entryMem_name s.mem s.memory_i (s.shared S_LATEST) nm (hz _ (by omega))]
      apply rdBytes_congr
      intro i h1 h2
      exact wrCell_outside _ _ _ _ (by omega)
  refine ⟨hb, hsz, hroom, hal2, ?_, ?_⟩
  · show Chain _ s.memory _ (upd s.shared S_LATEST (s.memory + (s.memory_i : Int)) S_LATEST) _
    rw [upd_same]
    exact chain_build s.mem
      (wrCell (entryMem s.mem s.memory_i (s.shared S_LATEST) nm) (s.memory_i + 8) (wrap fl))
      s.memory s.memory_i (s.memory_i + (32 + align CELL (nm.length + 1)))
      (s.shared S_LATEST)
      { off := s.memory_i, name := nm, flags := fl } L hch rfl (by
        show s.memory_i + SIZEOF_DICTENTRY + align CELL (nm.length + 1) ≤
          s.memory_i + (32 + align CELL (nm.length + 1))
        unfold SIZEOF_DICTENTRY
        omega) hname hlen
      (fun i hi => by
        rw [wrCell_outside _ _ _ _ (by omega), entryMem_below _ _ _ _ _ hi])
      (by rw [rdCell_wrCell_disj _ _ _ _ (by omega), entryMem_prev, hp]) hat
  · intro i hi
    have hi2 : s.memory_i + (32 + align CELL (nm.length + 1)) ≤ i := hi
    show wrCell (entryMem s.mem s.memory_i (s.shared S_LATEST) nm) (s.memory_i + 8)
      (wrap fl) i = 0
    rw [wrCell_outside _ _ _ _ (by omega), entryMem_above _ _ _ _ _ (by omega)]
    exact hz i (by omega)

/-- Source `dict_put_cword(",")` on a well-formed engine: a native call of `,` is
emitted. -/
theorem dict_put_comma (s : State) (L : List Entry) (g : Nat) (he : Eng s L)
    (hroom : s.memory_i + 16 ≤ s.memory_size) (hL : L.length < g) :
    s.dict_put_cword g (str ",") = .ok (E_OK, (s.put OP_CALL_C).put Prim.comma.handle) := by
  obtain ⟨e, q1, q2', q3, q4⟩ := he.2.2 (str ",", Prim.comma, 0) (by decide)
  have q2 : e.flags = FLAG_CWORD + 0 := q2'
  obtain ⟨hb, hsz, hle, _, hch, _⟩ := he.1
  obtain ⟨c1, c2, _, c4⟩ := chain_find _ _ _ _ _ _ _ hch q1
  obtain ⟨⟨fl, l1, l2⟩, _⟩ := entry_loads s e c2 (by omega) c4
  have hne : s.memory + (e.off : Int) ≠ 0 := by omega
  have hat : EntryAt (s.put OP_CALL_C).mem e :=
    (entryAt_frame s.mem _ e c2 (fun i hi => wrCell_outside _ _ _ _ (by omega))).1
  have hdata := (entry_loads (s.put OP_CALL_C) e hat
    (by show e.body ≤ s.memory_size; omega) c4).2
  have hl : (s.put OP_CALL_C).load (s.memory + (e.body : Int)) =
      .ok (rdCell (s.put OP_CALL_C).mem e.body) :=
    load_at (s.put OP_CALL_C) _ e.body rfl (by show e.body + 8 ≤ s.memory_size; omega)
  have hrd : rdCell (s.put OP_CALL_C).mem e.body = Prim.comma.handle := by
    rw [← q4]
    apply rdCell_congr
    intro i h1 h2
    exact wrCell_outside _ _ _ _ (by omega)
  unfold State.dict_put_cword
  rw [arena_lookup s L (str ",") g he.1 (by decide) hL, q1]
  simp only [ldv, entryPtr, hne, if_false, l1, l2, q2]
  rw [if_neg (by decide), dict_put_put s L _ he.1 (by omega), chk_ok]
  have hdata' : (s.put OP_CALL_C).data (s.memory + (e.off : Int)) =
      .ok (s.memory + (e.body : Int)) := hdata
  rw [hdata']
  simp only []
  rw [hl]
  simp only []
  rw [hrd, dict_put_put (s.put OP_CALL_C) L _ (arena_put s L _ he.1 (by omega))
    (by show s.memory_i + 8 + 8 ≤ s.memory_size; omega)]

theorem puts_eq (s : State) (cs : List Int) :
    s.puts cs = { s with mem := wrCells s.mem s.memory_i cs,
                         memory_i := s.memory_i + 8 * cs.length } := by
  induction cs generalizing s with
  | nil => rfl
  | cons c cs ih =>
    show (s.put c).puts cs = _
    rw [ih]
    simp only [State.put, List.length_cons]
    congr 1
    omega

theorem state_eq3 (t : State) (m1 m2 : Nat → Nat) (i1 i2 : Nat) (sh1 sh2 : Nat → Int)
    (h1 : m1 = m2) (h2 : i1 = i2) (h3 : sh1 = sh2) :
    ({ t with mem := m1, memory_i := i1, shared := sh1 } : State) =
      { t with mem := m2, memory_i := i2, shared := sh2 } := by
  subst h1 h2 h3
  rfl

/-- Source `create` followed by the store of the flags of a local, on a well-formed
engine. -/
theorem create_flags (s : State) (L : List Entry) (nm : List Nat)
    (K : State → Res (Error × State)) (he : Eng s L)
    (hname : ∀ c ∈ nm, c ≠ 0) (hlen : nm.length < 4611686018427387904)
    (hnb : ∀ b ∈ builtins, ¬ nm = b.1)
    (hroom : s.memory_i + (32 + align CELL (nm.length + 1)) ≤ s.memory_size) :
    (chkv (s.create nm) fun d s1 =>
      stv (s1.store (d + OFF_FLAGS) (wrap (FLAG_COMPILE_ONLY + FLAG_IMMEDIATE))) fun s2 =>
        K s2) =
      K { s with
        mem := wrCell (entryMem s.mem s.memory_i (s.shared S_LATEST) nm) (s.memory_i + 8)
          (wrap (FLAG_COMPILE_ONLY + FLAG_IMMEDIATE)),
        memory_i := s.memory_i + (32 + align CELL (nm.length + 1)),
        shared := upd s.shared S_LATEST (s.memory + s.memory_i) } ∧
    Eng { s with
        mem := wrCell (entryMem s.mem s.memory_i (s.shared S_LATEST) nm) (s.memory_i + 8)
          (wrap (FLAG_COMPILE_ONLY + FLAG_IMMEDIATE)),
        memory_i := s.memory_i + (32 + align CELL (nm.length + 1)),
        shared := upd s.shared S_LATEST (s.memory + s.memory_i) }
      ({ off := s.memory_i, name := nm, flags := FLAG_COMPILE_ONLY + FLAG_IMMEDIATE } :: L) := by
  have hcr := (create_arena s L nm he.1 hname hlen hroom).1
  have har := arena_entry_flags s L nm (FLAG_COMPILE_ONLY + FLAG_IMMEDIATE) he.1 hname hlen
    (by decide) hroom
  have hge := align8_ge (nm.length + 1)
  constructor
  · rw [hcr, chkv_ok, store_at _ _ _ (s.memory_i + 8)
      (by simp only [OFF_FLAGS]; push_cast; omega) (by simp only []; omega), stv_ok]
  · refine eng_extend s _ L _ he har rfl ?_ ?_ hnb
    · intro i hi
      show wrCell (entryMem s.mem s.memory_i (s.shared S_LATEST) nm) (s.memory_i + 8) _ i = _
      rw [wrCell_outside _ _ _ _ (by omega), entryMem_below _ _ _ _ _ hi]
    · show s.memory_i ≤ s.memory_i + (32 + align CELL (nm.length + 1))
      omega

/-- The cells of the body of a local, as the callback of `{` emits them. -/
theorem local_body (tA : State) (L : List Entry) (g : Nat) (K : State → Res (Error × State))
    (he : Eng tA L) (hroom : tA.memory_i + 72 ≤ tA.memory_size) (hL : L.length < g) :
    (chk (tA.dict_put OP_PUSH_IMMEDIATE) fun s =>
      chk (s.dict_put OP_LOCAL_PUSH) fun s =>
      chk (s.dict_put_cword g (str ",")) fun s =>
      chk (s.dict_put OP_PUSH_IMMEDIATE) fun s =>
      chk (s.dict_put (s.shared S_LOCAL_COUNT)) fun s =>
      chk (s.dict_put_cword g (str ",")) fun s =>
      chk (s.dict_put OP_EXIT) fun s => K s) =
      K (tA.puts (localCode (tA.shared S_LOCAL_COUNT))) := by
  have hp : ∀ (k : Nat) (cs : List Int), cs.length = k → k < 9 →
      (tA.puts cs).memory_i + 8 * (9 - k) ≤ (tA.puts cs).memory_size ∧ Eng (tA.puts cs) L := by
    intro k cs hk hk9
    have h1 := puts_memory_i tA cs
    have h2 := (puts_keep tA cs).1
    exact ⟨by rw [h1, h2, hk]; omega, eng_puts tA _ cs he (by rw [hk]; omega)⟩
  have d1 := dict_put_put tA _ OP_PUSH_IMMEDIATE (hp 0 [] rfl (by omega)).2.1
    (by have := (hp 0 [] rfl (by omega)).1; omega)
  have d2 := dict_put_put (tA.puts [OP_PUSH_IMMEDIATE]) _ OP_LOCAL_PUSH
    (hp 1 [OP_PUSH_IMMEDIATE] rfl (by omega)).2.1
    (by have := (hp 1 [OP_PUSH_IMMEDIATE] rfl (by omega)).1; omega)
  have d3 := dict_put_comma (tA.puts [OP_PUSH_IMMEDIATE, OP_LOCAL_PUSH]) _ g
    (hp 2 [OP_PUSH_IMMEDIATE, OP_LOCAL_PUSH] rfl (by omega)).2
    (by have := (hp 2 [OP_PUSH_IMMEDIATE, OP_LOCAL_PUSH] rfl (by omega)).1; omega) hL
  have d5 := dict_put_put
    (tA.puts [OP_PUSH_IMMEDIATE, OP_LOCAL_PUSH, OP_CALL_C, Prim.comma.handle]) _
    OP_PUSH_IMMEDIATE (hp 4 [OP_PUSH_IMMEDIATE, OP_LOCAL_PUSH, OP_CALL_C, Prim.comma.handle]
      rfl (by omega)).2.1
    (by have := (hp 4 [OP_PUSH_IMMEDIATE, OP_LOCAL_PUSH, OP_CALL_C, Prim.comma.handle] rfl
          (by omega)).1; omega)
  have d6 := dict_put_put
    (tA.puts [OP_PUSH_IMMEDIATE, OP_LOCAL_PUSH, OP_CALL_C, Prim.comma.handle,
      OP_PUSH_IMMEDIATE]) _ (tA.shared S_LOCAL_COUNT)
    (hp 5 [OP_PUSH_IMMEDIATE, OP_LOCAL_PUSH, OP_CALL_C, Prim.comma.handle,
      OP_PUSH_IMMEDIATE] rfl (by omega)).2.1
    (by have := (hp 5 [OP_PUSH_IMMEDIATE, OP_LOCAL_PUSH, OP_CALL_C, Prim.comma.handle,
          OP_PUSH_IMMEDIATE] rfl (by omega)).1; omega)
  have d7 := dict_put_comma
    (tA.puts [OP_PUSH_IMMEDIATE, OP_LOCAL_PUSH, OP_CALL_C, Prim.comma.handle,
      OP_PUSH_IMMEDIATE, tA.shared S_LOCAL_COUNT]) _ g
    (hp 6 [OP_PUSH_IMMEDIATE, OP_LOCAL_PUSH, OP_CALL_C, Prim.comma.handle,
      OP_PUSH_IMMEDIATE, tA.shared S_LOCAL_COUNT] rfl (by omega)).2
    (by have := (hp 6 [OP_PUSH_IMMEDIATE, OP_LOCAL_PUSH, OP_CALL_C, Prim.comma.handle,
          OP_PUSH_IMMEDIATE, tA.shared S_LOCAL_COUNT] rfl (by omega)).1; omega) hL
  have d9 := dict_put_put
    (tA.puts [OP_PUSH_IMMEDIATE, OP_LOCAL_PUSH, OP_CALL_C, Prim.comma.handle,
      OP_PUSH_IMMEDIATE, tA.shared S_LOCAL_COUNT, OP_CALL_C, Prim.comma.handle]) _
    OP_EXIT (hp 8 [OP_PUSH_IMMEDIATE, OP_LOCAL_PUSH, OP_CALL_C, Prim.comma.handle,
      OP_PUSH_IMMEDIATE, tA.shared S_LOCAL_COUNT, OP_CALL_C, Prim.comma.handle] rfl
      (by omega)).2.1
    (by have := (hp 8 [OP_PUSH_IMMEDIATE, OP_LOCAL_PUSH, OP_CALL_C, Prim.comma.handle,
          OP_PUSH_IMMEDIATE, tA.shared S_LOCAL_COUNT, OP_CALL_C, Prim.comma.handle] rfl
          (by omega)).1; omega)
  rw [d1, chk_ok]
  change (chk ((tA.puts [OP_PUSH_IMMEDIATE]).dict_put OP_LOCAL_PUSH) _) = _
  rw [d2, chk_ok]
  change (chk ((tA.puts [OP_PUSH_IMMEDIATE, OP_LOCAL_PUSH]).dict_put_cword g (str ",")) _) = _
  rw [d3, chk_ok]
  change (chk ((tA.puts [OP_PUSH_IMMEDIATE, OP_LOCAL_PUSH, OP_CALL_C,
    Prim.comma.handle]).dict_put OP_PUSH_IMMEDIATE) _) = _
  rw [d5, chk_ok]
  change (chk ((tA.puts [OP_PUSH_IMMEDIATE, OP_LOCAL_PUSH, OP_CALL_C,
    Prim.comma.handle, OP_PUSH_IMMEDIATE]).dict_put (tA.shared S_LOCAL_COUNT)) _) = _
  rw [d6, chk_ok]
  change (chk ((tA.puts [OP_PUSH_IMMEDIATE, OP_LOCAL_PUSH, OP_CALL_C,
    Prim.comma.handle, OP_PUSH_IMMEDIATE, tA.shared S_LOCAL_COUNT]).dict_put_cword g
    (str ",")) _) = _
  rw [d7, chk_ok]
  change (chk ((tA.puts [OP_PUSH_IMMEDIATE, OP_LOCAL_PUSH, OP_CALL_C,
    Prim.comma.handle, OP_PUSH_IMMEDIATE, tA.shared S_LOCAL_COUNT, OP_CALL_C,
    Prim.comma.handle]).dict_put OP_EXIT) _) = _
  rw [d9, chk_ok]
  rfl

/-- The end of the callback of `{` for a name: `LOCAL_COUNT` grows and the jump over the
local is pointed behind it. -/
theorem local_patch (tB : State) (a : Nat) (base : Int) (hbase : tB.memory = base)
    (ha : a + 8 ≤ tB.memory_size) (hi : tB.memory_i < 9223372036854775808) :
    (stv ((tB.setShared S_LOCAL_COUNT (wrap (tB.shared S_LOCAL_COUNT + 1))).store
        (base + (a : Int))
        ((tB.setShared S_LOCAL_COUNT (wrap (tB.shared S_LOCAL_COUNT + 1))).real_to_raddr
          (tB.memory + tB.memory_i))) fun s =>
      (Res.ok (E_WANT_WORD, s.setShared S_WORD_AVAILABLE 0) : Res (Error × State))) =
    .ok (E_WANT_WORD, ({ tB with
        mem := wrCell tB.mem a (tB.memory_i : Int),
        shared := upd tB.shared S_LOCAL_COUNT (wrap (tB.shared S_LOCAL_COUNT + 1)) } :
          State).setShared S_WORD_AVAILABLE 0) := by
  subst hbase
  have hr : (tB.setShared S_LOCAL_COUNT (wrap (tB.shared S_LOCAL_COUNT + 1))).real_to_raddr
      (tB.memory + tB.memory_i) = (tB.memory_i : Int) := by
    unfold State.real_to_raddr
    rw [show tB.memory + (tB.memory_i : Int) -
      (tB.setShared S_LOCAL_COUNT (wrap (tB.shared S_LOCAL_COUNT + 1))).memory = tB.memory_i by
        show tB.memory + (tB.memory_i : Int) - tB.memory = tB.memory_i
        omega]
    exact wrap_nat _ hi
  have hst := store_at (tB.setShared S_LOCAL_COUNT (wrap (tB.shared S_LOCAL_COUNT + 1)))
    (tB.memory + (a : Int)) (tB.memory_i : Int) a rfl ha
  rw [hr, hst, stv_ok]
  rfl

/-- The state the callback of `{` builds for a name is the one `State.local` describes. -/
theorem local_eq (t : State) (nm : List Nat) (s2 tA tB : State)
    (h2 : s2 = (t.put OP_JUMP_IGNORED).put (-1))
    (hA : tA = { s2 with
        mem := wrCell (entryMem s2.mem s2.memory_i (s2.shared S_LATEST) nm) (s2.memory_i + 8)
          (wrap (FLAG_COMPILE_ONLY + FLAG_IMMEDIATE)),
        memory_i := s2.memory_i + (32 + align CELL (nm.length + 1)),
        shared := upd s2.shared S_LATEST (s2.memory + s2.memory_i) })
    (hB : tB = tA.puts (localCode (tA.shared S_LOCAL_COUNT))) :
    ({ tB with
        mem := wrCell tB.mem (t.memory_i + 8) (tB.memory_i : Int),
        shared := upd tB.shared S_LOCAL_COUNT (wrap (tB.shared S_LOCAL_COUNT + 1)) } :
          State) = t.local nm := by
  have e1 : t.memory_i + 8 + 8 = t.memory_i + 16 := by omega
  have e2 : t.memory_i + 16 + (32 + align CELL (nm.length + 1)) + 8 * 9 =
      t.memory_i + 16 + (32 + align CELL (nm.length + 1)) + 72 := by omega
  subst hB
  subst hA
  subst h2
  rw [puts_eq]
  unfold State.local localMem
  refine state_eq3 t _ _ _ _ _ _ ?_ ?_ ?_
  · simp only [State.put, localCode_length, e1, e2]
    rfl
  · simp only [State.put, localCode_length, e1, e2]
  · simp only [State.put, e1]
    rfl

/-- The callback of `{` when it is fed a name other than `}`: the local is declared and
another word is asked for. -/
theorem lbrace_name (t : State) (L : List Entry) (nm : List Nat) (g : Nat) (he : Eng t L)
    (hwa : t.shared S_WORD_AVAILABLE ≠ 0) (hs : t.scratchStr = some nm)
    (hnot : ¬ (t.scratch 0 = 125 ∧ t.scratch 1 = 0))
    (hlen : nm.length < 4611686018427387904) (hnb : ∀ b ∈ builtins, ¬ nm = b.1)
    (hroom : t.memory_i + 16 + (32 + align CELL (nm.length + 1)) + 72 ≤ t.memory_size)
    (hL : L.length + 1 < g) :
    Prim.lbrace.run g t = .ok (E_WANT_WORD, (t.local nm).setShared S_WORD_AVAILABLE 0) := by
  have hname : ∀ c ∈ nm, c ≠ 0 := cstrFrom_nonzero _ _ _ _ hs
  have hms : t.memory_size < 4611686018427387904 := by
    have := he.1.1; have := he.1.2.1; omega
  have hb : 0 < t.memory := he.1.1
  have he1 : Eng (t.put OP_JUMP_IGNORED) L := eng_put t L _ he (by omega)
  obtain ⟨s2, h2⟩ : ∃ s2 : State, s2 = (t.put OP_JUMP_IGNORED).put (-1) := ⟨_, rfl⟩
  have he2 : Eng s2 L := by
    rw [h2]
    exact eng_put _ L _ he1 (by show t.memory_i + 8 + 8 ≤ t.memory_size; omega)
  have hs2 : s2.scratchStr = some nm := by rw [h2]; exact hs
  have h2i : s2.memory_i = t.memory_i + 16 := by
    rw [h2]; show t.memory_i + 8 + 8 = _; omega
  have h2s : s2.memory_size = t.memory_size := by rw [h2]; rfl
  have h2m : s2.memory = t.memory := by rw [h2]; rfl
  obtain ⟨tA, hA⟩ : ∃ tA : State, tA = { s2 with
        mem := wrCell (entryMem s2.mem s2.memory_i (s2.shared S_LATEST) nm) (s2.memory_i + 8)
          (wrap (FLAG_COMPILE_ONLY + FLAG_IMMEDIATE)),
        memory_i := s2.memory_i + (32 + align CELL (nm.length + 1)),
        shared := upd s2.shared S_LATEST (s2.memory + s2.memory_i) } := ⟨_, rfl⟩
  have hAi : tA.memory_i = t.memory_i + 16 + (32 + align CELL (nm.length + 1)) := by
    rw [hA]; show s2.memory_i + _ = _; rw [h2i]
  have hAs : tA.memory_size = t.memory_size := by rw [hA]; exact h2s
  have hAm : tA.memory = t.memory := by rw [hA]; exact h2m
  have hcf : ∀ K : State → Res (Error × State),
      (chkv (s2.create nm) fun d s1 =>
        stv (s1.store (d + OFF_FLAGS) (wrap (FLAG_COMPILE_ONLY + FLAG_IMMEDIATE))) fun s2 =>
          K s2) = K tA := by
    intro K
    rw [hA]
    exact (create_flags s2 L nm K he2 hname hlen hnb (by rw [h2i, h2s]; omega)).1
  have heA : Eng tA ((⟨s2.memory_i, nm, FLAG_COMPILE_ONLY + FLAG_IMMEDIATE⟩ : Entry) :: L) := by
    rw [hA]
    exact (create_flags s2 L nm (fun s => .ok (E_OK, s)) he2 hname hlen hnb
      (by rw [h2i, h2s]; omega)).2
  obtain ⟨tB, hB⟩ : ∃ tB : State, tB = tA.puts (localCode (tA.shared S_LOCAL_COUNT)) :=
    ⟨_, rfl⟩
  have hBi : tB.memory_i = t.memory_i + 16 + (32 + align CELL (nm.length + 1)) + 72 := by
    rw [hB, puts_memory_i, localCode_length, hAi]
  have hBs : tB.memory_size = t.memory_size := by rw [hB, (puts_keep _ _).1]; exact hAs
  have hBm : tB.memory = t.memory := by rw [hB, (puts_keep _ _).2.1]; exact hAm
  show w_lbrace g t = _
  unfold w_lbrace
  rw [if_neg hwa, if_neg hnot, dict_put_put t L _ he.1 (by omega), chk_ok]
  simp only []
  rw [dict_put_put (t.put OP_JUMP_IGNORED) L _ he1.1
    (by show t.memory_i + 8 + 8 ≤ t.memory_size; omega), chk_ok, ← h2]
  simp only [hs2]
  refine (hcf _).trans ?_
  refine (local_body tA _ g _ heA (by rw [hAi, hAs]; omega)
    (by simp only [List.length_cons]; omega)).trans ?_
  rw [← hB]
  show (stv ((tB.setShared S_LOCAL_COUNT (wrap (tB.shared S_LOCAL_COUNT + 1))).store
        (t.memory + ((t.memory_i + 8 : Nat) : Int))
        ((tB.setShared S_LOCAL_COUNT (wrap (tB.shared S_LOCAL_COUNT + 1))).real_to_raddr
          (tB.memory + tB.memory_i))) fun s =>
      (Res.ok (E_WANT_WORD, s.setShared S_WORD_AVAILABLE 0) : Res (Error × State))) = _
  rw [local_patch tB (t.memory_i + 8) t.memory hBm (by rw [hBs]; omega) (by rw [hBi]; omega),
    local_eq t nm s2 tA tB h2 hA hB]

end ft

namespace ft

open Error Token

/-! ## Capacity of the stacks (C22) and the dispatch of the virtual machine (C24) -/

theorem stack_push_room (st : Stack) (w : Int) (h : st.i < st.size) :
    st.push w = .ok (E_OK, { st with data := upd st.data st.i w, i := st.i + 1 }) := by
  unfold Stack.push
  rw [if_neg (by omega), if_pos h]

theorem stack_push_edge (st : Stack) (w : Int) (h : st.i = st.size) : st.push w = .ub := by
  unfold Stack.push
  rw [if_neg (by omega), if_neg (by omega)]

theorem stack_push_over (st : Stack) (w : Int) (h : st.size < st.i) :
    st.push w = .ok (E_OUT_OF_MEMORY, st) := by
  unfold Stack.push
  rw [if_pos h]

theorem exec_decimal_full (n : Int) (s : State) (fuel : Nat)
    (hn1 : -9223372036854775808 ≤ n) (hn2 : n < 9223372036854775808)
    (hc : s.shared S_COMPILING = 0) (hs : s.stack_size ≤ s.si) (hf : 1 ≤ fuel) :
    s.exec fuel (decimal n) = .ub := by
  obtain ⟨f, rfl⟩ : ∃ f, fuel = f + 1 := ⟨fuel - 1, by omega⟩
  rw [exec_eq _ _ _ (decimal_nonzero n), tokLoop_decimal n _ hn1 hn2, chkv_ok]
  unfold State.interp
  have hs2 : ¬ s.si < s.stack_size := by omega
  simp only [reduceCtorEq, if_false, if_true, hc, State.push, hs2]
  rfl

/-- C22 (defect of the code). `State::push` makes no capacity check: on a data stack that is
full (`si >= stack_size`) the push does not return an error, its write `stack[si++] = v`
lands behind the buffer (undefined behaviour), and so does `exec` of any number typed at a
full stack.  `Stack::push` (locals stack, native-word table) guards with `i > size`, so at
`i = size` it writes behind its buffer as well; only from `i > size` on it returns
`E_OUT_OF_MEMORY` and leaves the stack as it was.  Below the capacity both pushes write at
the fill index and return `E_OK`. -/
theorem push_past_capacity (s : State) (v : Int) (st : Stack) (w : Int) (n : Int) (fuel : Nat)
    (hfull : s.stack_size ≤ s.si) (hst : st.i = st.size)
    (hn1 : -9223372036854775808 ≤ n) (hn2 : n < 9223372036854775808)
    (hc : s.shared S_COMPILING = 0) (hf : 1 ≤ fuel) :
    s.push v = .ub ∧ st.push w = .ub ∧ s.exec fuel (decimal n) = .ub ∧
      (∀ t : Stack, t.size < t.i → t.push w = .ok (E_OUT_OF_MEMORY, t)) ∧
      (∀ t : Stack, t.i < t.size →
        t.push w = .ok (E_OK, { t with data := upd t.data t.i w, i := t.i + 1 })) ∧
      (∀ t : State, t.si < t.stack_size →
        t.push v = .ok (E_OK, { t with stack := upd t.stack t.si v, si := t.si + 1 })) :=
  ⟨push_ub s v hfull, stack_push_edge st w hst, exec_decimal_full n s fuel hn1 hn2 hc hfull hf,
    fun t h => stack_push_over t w h, fun t h => stack_push_room t w h,
    fun t h => push_ok t v h⟩

theorem push_past_capacity_witness :
    fullStackDemo.push 5 = .ub ∧
      ({ data := fun _ => 0, i := 256, size := 256 } : Stack).push 5 = .ub ∧
      fullStackDemo.exec 2 (decimal 5) = .ub :=
  have h := push_past_capacity fullStackDemo 5 { data := fun _ => 0, i := 256, size := 256 } 5 5 2
    (by
      show (State.fresh replCfg).stack_size ≤ 1024
      rw [fresh_repl_fields.2.2.2.2.2.2])
    rfl (by decide) (by decide) (fresh_spec replCfg goodCfg_repl).2.1.2.1 (by decide)
  ⟨h.1, h.2.1, h.2.2.1⟩

theorem vm_opcode_zero (s : State) (code : Int) (ip : Nat) (fuel : Nat)
    (hl : s.load (code + 8 * ip) = .ok OP_UNKNOWN) :
    State.vm (fuel + 1) s code ip = .ok (E_INVALID_OPCODE, s) := by
  unfold State.vm
  rw [hl, ldv_ok]
  rw [if_neg (by decide), if_neg (by decide), if_neg (by decide), if_neg (by decide),
    if_neg (by decide), if_neg (by decide), if_neg (by decide), if_neg (by decide),
    if_pos rfl]

theorem vm_opcode_outside (s : State) (code : Int) (ip : Nat) (fuel : Nat) (op : Int)
    (hl : s.load (code + 8 * ip) = .ok op) (hop : op < 0 ∨ 9 < op) :
    State.vm (fuel + 1) s code ip = .ub := by
  unfold State.vm
  rw [hl, ldv_ok]
  have h1 : ¬ op = OP_PUSH_IMMEDIATE := by unfold OP_PUSH_IMMEDIATE; omega
  have h2 : ¬ op = OP_CALL_FORTH := by unfold OP_CALL_FORTH; omega
  have h3 : ¬ op = OP_CALL_C := by unfold OP_CALL_C; omega
  have h4 : ¬ op = OP_EXIT := by unfold OP_EXIT; omega
  have h5 : ¬ op = OP_JUMP_IF_ZERO := by unfold OP_JUMP_IF_ZERO; omega
  have h6 : ¬ (op = OP_JUMP_IGNORED ∨ op = OP_JUMP) := by
    unfold OP_JUMP_IGNORED OP_JUMP; omega
  have h7 : ¬ op = OP_LOCAL_PUSH := by unfold OP_LOCAL_PUSH; omega
  have h8 : ¬ op = OP_LOCAL_SET := by unfold OP_LOCAL_SET; omega
  have h9 : ¬ op = OP_UNKNOWN := by unfold OP_UNKNOWN; omega
  rw [if_neg h1, if_neg h2, if_neg h3, if_neg h4, if_neg h5, if_neg h6, if_neg h7, if_neg h8,
    if_neg h9]

theorem enter_valid (run : State → Int → Nat → Res (Error × State)) (s : State) (a : Int)
    (hv : s.raddr_valid a = E_OK) :
    s.enter run a =
      match run s (s.memory + a) 0 with
      | .ok (e, s2) => .ok (e, { s2 with locals := { s2.locals with i := s.locals.i } })
      | .ub => .ub
      | .abort => .abort
      | .timeout => .timeout := by
  unfold State.enter
  rw [hv, if_neg (by decide)]
  rfl

/-- C24 (defect of the code). The virtual machine dispatches through a table of ten labels
indexed by the Cell at the instruction pointer, without a range check.  Entered at a valid
address whose Cell is readable, `exec(raddr)` returns `E_INVALID_OPCODE`, with the engine as
it was, when the Cell is 0 (`OP_UNKNOWN`); when the Cell is negative or greater than 9 the
table is indexed outside its bounds and the jump is undefined behaviour: no error code is
returned. -/
theorem opcode_outside_table (s : State) (a : Int) (op : Int) (fuel : Nat)
    (hv : s.raddr_valid a = E_OK) (hl : s.load (s.memory + a) = .ok op) :
    (op = OP_UNKNOWN → s.exec_vm (fuel + 1) a = .ok (E_INVALID_OPCODE, s)) ∧
      (op < 0 ∨ 9 < op → s.exec_vm (fuel + 1) a = .ub) := by
  have hl2 : s.load (s.memory + a + 8 * (0 : Nat)) = .ok op := by
    rw [show s.memory + a + 8 * ((0 : Nat) : Int) = s.memory + a by omega]; exact hl
  constructor
  · intro h0
    subst h0
    unfold State.exec_vm
    rw [enter_valid _ _ _ hv, vm_opcode_zero s _ 0 fuel hl2]
  · intro hop
    unfold State.exec_vm
    rw [enter_valid _ _ _ hv, vm_opcode_outside s _ 0 fuel op hl2 hop]

theorem opcode_outside_table_witness :
    badOpDemo.raddr_valid 984 = E_OK ∧ badOpDemo.load (badOpDemo.memory + 984) = .ok 77 ∧
      badOpDemo.exec_vm 1 984 = .ub :=
  have hv : badOpDemo.raddr_valid 984 = E_OK :=
    raddr_valid_ok badOpDemo 984 (by decide) (by show (984 : Int) ≤ (992 : Nat); decide)
  have hl : badOpDemo.load (badOpDemo.memory + 984) = .ok 77 := by
    have h := load_at badOpDemo (badOpDemo.memory + 984) 984 rfl
      (by show 984 + 8 ≤ (State.fresh replCfg).memory_size
          rw [fresh_repl_fields.2.1]; decide)
    rw [h]
    show Res.ok (rdCell (wrCell (State.fresh replCfg).mem 984 77) 984) = _
    rw [rdCell_wrCell_same, wrap_of_range (by decide : (-9223372036854775808 : Int) ≤ 77) (by decide)]
  ⟨hv, hl, (opcode_outside_table badOpDemo 984 77 0 hv hl).2 (by decide)⟩

end ft

namespace ft

open Error Token

/-! ## Control transfers of the virtual machine (C23) -/

theorem enter_invalid (run : State → Int → Nat → Res (Error × State)) (s : State) (a : Int)
    (h : a < 0 ∨ a > s.memory_i) :
    s.enter run a =
      .ok (s.errorf E_INVALID_ADDRESS (str "exec got invalid address " ++ decimal a)) := by
  unfold State.enter
  rw [raddr_valid_bad s a h, if_pos (by decide)]

theorem vm_call_invalid (s : State) (code : Int) (ip : Nat) (fuel : Nat) (next : Int)
    (hop : s.load (code + 8 * ip) = .ok OP_CALL_FORTH)
    (hl : s.load (code + 8 * (ip + 1)) = .ok next) (h : next < 0 ∨ next > s.memory_i) :
    State.vm (fuel + 1) s code ip =
      .ok (s.errorf E_INVALID_ADDRESS (str "exec got invalid address " ++ decimal next)) := by
  unfold State.vm
  rw [hop, ldv_ok, if_neg (by decide), if_pos rfl, hl, ldv_ok, enter_invalid _ s next h]
  exact chk_err _ _ _ (by decide)

theorem vm_jump_invalid (s : State) (code : Int) (ip : Nat) (fuel : Nat) (op label : Int)
    (hop : s.load (code + 8 * ip) = .ok op) (hj : op = OP_JUMP ∨ op = OP_JUMP_IGNORED)
    (hl : s.load (code + 8 * (ip + 1)) = .ok label) (h : label < 0 ∨ label > s.memory_i) :
    State.vm (fuel + 1) s code ip = .ok (E_INVALID_ADDRESS, s) := by
  unfold State.vm
  rw [hop, ldv_ok]
  have h1 : ¬ op = OP_PUSH_IMMEDIATE := by rcases hj with r | r <;> rw [r] <;> decide
  have h2 : ¬ op = OP_CALL_FORTH := by rcases hj with r | r <;> rw [r] <;> decide
  have h3 : ¬ op = OP_CALL_C := by rcases hj with r | r <;> rw [r] <;> decide
  have h4 : ¬ op = OP_EXIT := by rcases hj with r | r <;> rw [r] <;> decide
  have h5 : ¬ op = OP_JUMP_IF_ZERO := by rcases hj with r | r <;> rw [r] <;> decide
  rw [if_neg h1, if_neg h2, if_neg h3, if_neg h4, if_neg h5, if_pos hj.symm, hl, ldv_ok,
    raddr_valid_bad s label h, if_pos (by decide)]

theorem vm_jz_empty (s : State) (code : Int) (ip : Nat) (fuel : Nat)
    (hop : s.load (code + 8 * ip) = .ok OP_JUMP_IF_ZERO) (h0 : s.si = 0) :
    State.vm (fuel + 1) s code ip = .ok (E_STACK_UNDERFLOW, s) := by
  unfold State.vm
  rw [hop, ldv_ok, if_neg (by decide), if_neg (by decide), if_neg (by decide),
    if_neg (by decide), if_pos rfl, if_pos h0]

theorem vm_jz_zero_invalid (s : State) (code : Int) (ip : Nat) (fuel : Nat) (label : Int)
    (hop : s.load (code + 8 * ip) = .ok OP_JUMP_IF_ZERO)
    (hl : s.load (code + 8 * (ip + 1)) = .ok label) (h : label < 0 ∨ label > s.memory_i)
    (h0 : 0 < s.si) (hsz : s.si ≤ s.stack_size) (hz : s.stack (s.si - 1) = 0) :
    State.vm (fuel + 1) s code ip = .ok (E_INVALID_ADDRESS, { s with si := s.si - 1 }) := by
  unfold State.vm
  rw [hop, ldv_ok, if_neg (by decide), if_neg (by decide), if_neg (by decide),
    if_neg (by decide), if_pos rfl, if_neg (by omega), hl, ldv_ok]
  show (if s.si - 1 < s.stack_size then
      (if s.stack (s.si - 1) = 0 then
        (if ({ s with si := s.si - 1 } : State).raddr_valid label ≠ E_OK then
          Res.ok (E_INVALID_ADDRESS, ({ s with si := s.si - 1 } : State))
        else _)
      else _)
    else _) = _
  have hv : ({ s with si := s.si - 1 } : State).raddr_valid label = E_INVALID_ADDRESS :=
    raddr_valid_bad _ label h
  rw [if_pos (by omega), if_pos hz, hv, if_pos (by decide)]

theorem vm_jz_nonzero (s : State) (code : Int) (ip : Nat) (fuel : Nat) (label : Int)
    (hop : s.load (code + 8 * ip) = .ok OP_JUMP_IF_ZERO)
    (hl : s.load (code + 8 * (ip + 1)) = .ok label)
    (h0 : 0 < s.si) (hsz : s.si ≤ s.stack_size) (hz : s.stack (s.si - 1) ≠ 0) :
    State.vm (fuel + 1) s code ip = State.vm fuel { s with si := s.si - 1 } code (ip + 2) := by
  conv => lhs; unfold State.vm
  rw [hop, ldv_ok, if_neg (by decide), if_neg (by decide), if_neg (by decide),
    if_neg (by decide), if_pos rfl, if_neg (by omega), hl, ldv_ok]
  show (if s.si - 1 < s.stack_size then
      (if s.stack (s.si - 1) = 0 then _
      else State.vm fuel { s with si := s.si - 1 } code (ip + 2))
    else _) = _
  rw [if_pos (by omega), if_neg hz]

theorem vm_call_error (s : State) (code : Int) (ip : Nat) (fuel : Nat) (next : Int)
    (e : Error) (s1 : State)
    (hop : s.load (code + 8 * ip) = .ok OP_CALL_FORTH)
    (hl : s.load (code + 8 * (ip + 1)) = .ok next)
    (hr : s.exec_vm fuel next = .ok (e, s1)) (he : e ≠ E_OK) :
    State.vm (fuel + 1) s code ip = .ok (e, s1) := by
  unfold State.vm
  unfold State.exec_vm at hr
  rw [hop, ldv_ok, if_neg (by decide), if_pos rfl, hl, ldv_ok, hr]
  exact chk_err _ _ _ he

theorem exec_vm_result (s : State) (a : Int) (fuel : Nat) (e : Error) (s1 : State)
    (hv : s.raddr_valid a = E_OK) (hr : State.vm fuel s (s.memory + a) 0 = .ok (e, s1)) :
    s.exec_vm fuel a = .ok (e, { s1 with locals := { s1.locals with i := s.locals.i } }) := by
  unfold State.exec_vm
  rw [enter_valid _ _ _ hv, hr]

/-- C23. The control transfers of the virtual machine are checked before they are taken.
`exec(raddr)` with `raddr` outside `[0, here]` returns `E_INVALID_ADDRESS` (the message is
left in the scratch buffer) whatever the fuel, zero included: no instruction is executed.
For an instruction whose operand Cell `label` is outside `[0, here]`, one step of the
machine returns `E_INVALID_ADDRESS` when the instruction is `CALL_FORTH`, `JUMP`,
`JUMP_IGNORED`, or `JUMP_IF_ZERO` with a popped value of 0: the target is never fetched (one
unit of fuel suffices).  `JUMP_IF_ZERO` on an empty data stack returns `E_STACK_UNDERFLOW`;
with a non-zero popped value it goes on at the next instruction with the value popped.  An
error code a callee returns to `CALL_FORTH` is what the calling frame returns, and what
`exec(raddr)` returns is the code its dispatch loop returned: so the code passes unchanged
through every enclosing frame. -/
theorem vm_transfers_checked (s : State) (code : Int) (ip : Nat) (label : Int) (fuel : Nat)
    (hl : s.load (code + 8 * (ip + 1)) = .ok label) (hbad : label < 0 ∨ label > s.memory_i) :
    (∀ (f : Nat) (a : Int), a < 0 ∨ a > s.memory_i →
        s.exec_vm f a =
            .ok (s.errorf E_INVALID_ADDRESS (str "exec got invalid address " ++ decimal a)) ∧
          errOf (s.exec_vm f a) = some E_INVALID_ADDRESS ∧
          SameEngine s (stateOf (s.exec_vm f a) s)) ∧
      (s.load (code + 8 * ip) = .ok OP_CALL_FORTH →
        errOf (State.vm (fuel + 1) s code ip) = some E_INVALID_ADDRESS) ∧
      (s.load (code + 8 * ip) = .ok OP_JUMP ∨ s.load (code + 8 * ip) = .ok OP_JUMP_IGNORED →
        State.vm (fuel + 1) s code ip = .ok (E_INVALID_ADDRESS, s)) ∧
      (s.load (code + 8 * ip) = .ok OP_JUMP_IF_ZERO → 0 < s.si → s.si ≤ s.stack_size →
        s.stack (s.si - 1) = 0 →
        State.vm (fuel + 1) s code ip = .ok (E_INVALID_ADDRESS, { s with si := s.si - 1 })) ∧
      (∀ (t : State) (c : Int) (i : Nat), t.load (c + 8 * i) = .ok OP_JUMP_IF_ZERO → t.si = 0 →
        State.vm (fuel + 1) t c i = .ok (E_STACK_UNDERFLOW, t)) ∧
      (∀ (t : State) (c : Int) (i : Nat) (l : Int), t.load (c + 8 * i) = .ok OP_JUMP_IF_ZERO →
        t.load (c + 8 * (i + 1)) = .ok l → 0 < t.si → t.si ≤ t.stack_size →
        t.stack (t.si - 1) ≠ 0 →
        State.vm (fuel + 1) t c i = State.vm fuel { t with si := t.si - 1 } c (i + 2)) ∧
      (∀ (t : State) (c : Int) (i : Nat) (next : Int) (e : Error) (t1 : State), t.load (c + 8 * i) = .ok OP_CALL_FORTH →
        t.load (c + 8 * (i + 1)) = .ok next → t.exec_vm fuel next = .ok (e, t1) → e ≠ E_OK →
        State.vm (fuel + 1) t c i = .ok (e, t1)) ∧
      (∀ (t : State) (a : Int) (e : Error) (t1 : State), t.raddr_valid a = E_OK →
        State.vm fuel t (t.memory + a) 0 = .ok (e, t1) →
        errOf (t.exec_vm fuel a) = some e) := by
  refine ⟨?_, ?_, ?_, ?_, ?_, ?_, ?_, ?_⟩
  · intro f a ha
    have e : s.exec_vm f a =
        .ok (s.errorf E_INVALID_ADDRESS (str "exec got invalid address " ++ decimal a)) := by
      unfold State.exec_vm
      rw [enter_invalid _ s a ha]
    rw [e]
    exact ⟨rfl, rfl, rfl, rfl, rfl, rfl, rfl, rfl, rfl, fun _ => rfl, rfl, rfl, rfl⟩
  · intro hop
    rw [vm_call_invalid s code ip fuel label hop hl hbad]
    rfl
  · intro hop
    rcases hop with hop | hop
    · exact vm_jump_invalid s code ip fuel _ label hop (Or.inl rfl) hl hbad
    · exact vm_jump_invalid s code ip fuel _ label hop (Or.inr rfl) hl hbad
  · intro hop h0 hsz hz
    exact vm_jz_zero_invalid s code ip fuel label hop hl hbad h0 hsz hz
  · intro t c i hop h0
    exact vm_jz_empty t c i fuel hop h0
  · intro t c i l hop hl2 h0 hsz hz
    exact vm_jz_nonzero t c i fuel l hop hl2 h0 hsz hz
  · intro t c i next e t1 hop hl2 hr he
    exact vm_call_error t c i fuel next e t1 hop hl2 hr he
  · intro t a e t1 hv hr
    rw [exec_vm_result t a fuel e t1 hv hr]
    rfl

theorem vm_transfers_checked_witness :
    jumpDemo.load (jumpDemo.memory + 984 + 8 * ((0 : Nat) + 1)) = .ok 5000 ∧
      State.vm 1 jumpDemo (jumpDemo.memory + 984) 0 = .ok (E_INVALID_ADDRESS, jumpDemo) ∧
      errOf (jumpDemo.exec_vm 0 5000) = some E_INVALID_ADDRESS :=
  have hsz : jumpDemo.memory_size = 1048576 := fresh_repl_fields.2.1
  have hl : jumpDemo.load (jumpDemo.memory + 984 + 8 * ((0 : Nat) + 1)) = .ok 5000 := by
    rw [load_at jumpDemo _ 992 (by omega) (by rw [hsz]; decide)]
    show Res.ok (rdCell (wrCell (wrCell (State.fresh replCfg).mem 984 OP_JUMP) 992 5000) 992) = _
    rw [rdCell_wrCell_same,
      wrap_of_range (by decide : (-9223372036854775808 : Int) ≤ 5000) (by decide)]
  have hop : jumpDemo.load (jumpDemo.memory + 984 + 8 * (0 : Nat)) = .ok OP_JUMP := by
    rw [load_at jumpDemo _ 984 (by omega) (by rw [hsz]; decide)]
    show Res.ok (rdCell (wrCell (wrCell (State.fresh replCfg).mem 984 OP_JUMP) 992 5000) 984) = _
    rw [rdCell_wrCell_disj _ _ _ _ (by omega), rdCell_wrCell_same,
      wrap_of_range (by decide : (-9223372036854775808 : Int) ≤ OP_JUMP) (by decide)]
  have h := vm_transfers_checked jumpDemo (jumpDemo.memory + 984) 0 5000 0 hl
    (Or.inr (by show ((1000 : Nat) : Int) < 5000; decide))
  ⟨hl, h.2.2.1 (Or.inl hop), (h.1 0 5000 (Or.inr (by show ((1000 : Nat) : Int) < 5000; decide))).2.1⟩

end ft

namespace ft

open Error Token

/-! ## An error inside a colon definition (C21) -/

/-- The text `: name u` with an undefined word `u`: the interpreter returns
`E_WORD_NOT_FOUND` in the state `: name` left, up to the tokenizer fields. -/
theorem colon_missing (s : State) (L : List Entry) (nm u : List Nat) (fuel : Nat)
    (ht : Top s L) (hw : isWordTok nm = true) (hu : isWordTok u = true)
    (hnb : ∀ b ∈ builtins, ¬ nm = b.1)
    (hne : ¬ nm = u) (hmiss : findEntry u L = none)
    (hroom : s.memory_i + (32 + align CELL (nm.length + 1)) ≤ s.memory_size)
    (hf : L.length + 4 ≤ fuel) :
    ∃ s1, s.exec fuel (unwords [str ":", nm, u]) = .ok (E_WORD_NOT_FOUND, s1) ∧
      Tok ((s.start (unwords [str ":", nm, u])).header nm) s1 ∧
      Comp s1 (colonEntry s nm :: L) := by
  obtain ⟨f, rfl⟩ : ∃ f, fuel = f + 2 := ⟨fuel - 2, by omega⟩
  have hv : ∀ t ∈ [str ":", nm, u], isTok t = true := by
    intro t ht
    simp only [List.mem_cons, List.mem_singleton, List.not_mem_nil, or_false] at ht
    rcases ht with rfl | rfl | rfl
    · decide
    · unfold isTok; rw [hw]; simp
    · unfold isTok; rw [hu]; simp
  obtain ⟨tk, i, n, sc, k, h1, h2⟩ := exec_fetch s (f + 2) [str ":", nm, u] hv
  obtain ⟨s0, hs0⟩ : ∃ s0 : State, s0 = (s.start (unwords [str ":", nm, u])).retok i n sc k :=
    ⟨_, rfl⟩
  rw [← hs0] at h1 h2
  have ht0 : Top s0 L := by rw [hs0]; exact ht
  have hi0 : s0.memory_i = s.memory_i := by rw [hs0]; rfl
  have hz0 : s0.memory_size = s.memory_size := by rw [hs0]; rfl
  have hce : colonEntry s0 nm = colonEntry s nm := by
    unfold colonEntry; rw [hi0]
  have htok0 : Tok ((s.start (unwords [str ":", nm, u])).header nm) (s0.header nm) := by
    rw [hs0]; exact tok_header _ _ nm ⟨i, n, sc, k, rfl⟩
  obtain ⟨s2, tk2, a1, a2, a3⟩ := colon_step s0 L nm [u] tk f ht0 h2 hw
    (by intro t ht; rw [List.mem_singleton.mp ht]; unfold isTok; rw [hu]; simp)
    (by rw [hi0, hz0]; exact hroom) (by omega)
  obtain ⟨hname, hlen, _⟩ := isWordTok_nonzero nm hw
  have hc0 : Comp (s0.header nm) (colonEntry s nm :: L) := by
    rw [← hce]
    exact comp_header s0 L nm ht0 hname (by omega) (by rw [hi0, hz0]; exact hroom) hnb
  have hc2 : Comp s2 (colonEntry s nm :: L) := tok_comp _ _ _ a1 hc0
  obtain ⟨c1, c2, _, _⟩ := cur_word _ _ _ _ a2 hu
  subst c1
  have hmiss2 : findEntry u (colonEntry s nm :: L) = none := by
    rw [findEntry_cons_ne u (colonEntry s nm) L hne]; exact hmiss
  refine ⟨s2, ?_, tok_trans _ _ _ htok0 a1, hc2⟩
  rw [h1, a3, interp_word,
    exec_word_missing s2 (colonEntry s nm :: L) u f hc2.1.1 c2 hmiss2
      (by simp only [List.length_cons]; omega)]
  exact chk_err _ _ _ (by decide)

/-- A number typed at an engine that is compiling: two cells are emitted, the data stack is
left alone. -/
theorem number_compiled (s : State) (L : List Entry) (n : Int) (fuel : Nat) (hc : Comp s L)
    (hn1 : -9223372036854775808 ≤ n) (hn2 : n < 9223372036854775808)
    (hroom : s.memory_i + 16 ≤ s.memory_size) (hf : 2 ≤ fuel) :
    ∃ s2, s.exec fuel (decimal n) = .ok (E_OK, s2) ∧ s2.view = s.view ∧
      s2.memory_i = s.memory_i + 16 ∧ CodeAt s2.mem s.memory_i [OP_PUSH_IMMEDIATE, n] ∧
      s2.shared = s.shared := by
  obtain ⟨f, rfl⟩ : ∃ f, fuel = f + 1 + 1 := ⟨fuel - 2, by omega⟩
  have hx : s.exec (f + 1 + 1) (decimal n) = s.exec (f + 1 + 1) (unwords [decimal n]) := rfl
  have hv : ∀ t ∈ [decimal n], isTok t = true := by
    intro t ht
    rw [List.mem_singleton.mp ht]
    unfold isTok; rw [isNumTok_decimal]; rfl
  obtain ⟨tk, i, m, sc, k, h1, h2⟩ := exec_fetch s (f + 1 + 1) [decimal n] hv
  obtain ⟨s0, hs0⟩ : ∃ s0 : State, s0 = (s.start (unwords [decimal n])).retok i m sc k :=
    ⟨_, rfl⟩
  rw [← hs0] at h1 h2
  have hc0 : Comp s0 L := by rw [hs0]; exact hc
  have hi0 : s0.memory_i = s.memory_i := by rw [hs0]; rfl
  have hz0 : s0.memory_size = s.memory_size := by rw [hs0]; rfl
  obtain ⟨s2, tk2, a1, a2, a3⟩ := comp_number s0 L (decimal n) [] tk (f + 1) hc0 h2
    (isNumTok_decimal n) (by simp) (by rw [hi0, hz0]; exact hroom)
  rw [numVal_decimal n hn1 hn2] at a1
  obtain ⟨m1, _, m3, _, m5, _, _, _⟩ := tok_memory_i _ _ a1
  have hcode : CodeAt (s0.puts [OP_PUSH_IMMEDIATE, n]).mem s0.memory_i [OP_PUSH_IMMEDIATE, n] :=
    codeAt_puts s0 _ (by
      intro c hc
      simp only [List.mem_cons, List.mem_singleton, List.not_mem_nil, or_false] at hc
      rcases hc with rfl | rfl
      · decide!
      · exact wrap_of_range hn1 hn2)
  refine ⟨s2, ?_, ?_, ?_, ?_, ?_⟩
  · rw [hx, h1, a3, interp_last s2 tk2 f a2]
  · rw [tok_view _ _ a1, hs0]; rfl
  · rw [m1, ← hi0]; rfl
  · rw [m3, ← hi0]; exact hcode
  · rw [m5, hs0]; rfl

/-- C21, a case against the sentence. On the engine of `repl.cpp`, `exec(": foo bar")` with
`bar` undefined returns `E_WORD_NOT_FOUND`; on return `COMPILING` is 1, not 0, and `LATEST`
is the partial entry of `foo` at arena offset 984 (host address 4096 + 984). -/
theorem partial_definition_survives :
    errOf ((State.fresh replCfg).exec 30 (str ": foo bar")) = some E_WORD_NOT_FOUND ∧
      (stateOf ((State.fresh replCfg).exec 30 (str ": foo bar"))
        (State.fresh replCfg)).shared S_COMPILING = 1 ∧
      (stateOf ((State.fresh replCfg).exec 30 (str ": foo bar"))
        (State.fresh replCfg)).shared S_LATEST = 5080 := by
  set_option maxRecDepth 100000 in decide!

/-- C21, amended. An error inside a colon definition does not end the definition: the code
has no unwinding, and `DICT_ROOT` is read by `;` only.  On a well-formed engine at top
level, `exec(": name u")` with a fresh name and an undefined word `u` returns
`E_WORD_NOT_FOUND`, and on return `COMPILING` is still 1, `LATEST` is the partial entry of
`name`, which `lookup(name)` returns; the next `exec` of a number does not push it but
compiles it into that entry (two cells at `here`, data stack unchanged, `COMPILING` still
1).  Nothing in `exec` resets `COMPILING` or `LATEST` on an error return. -/
theorem abort_keeps_definition (s : State) (L : List Entry) (nm u : List Nat) (n : Int)
    (fuel : Nat) (ht : Top s L) (hw : isWordTok nm = true) (hu : isWordTok u = true)
    (hnb : ∀ b ∈ builtins, ¬ nm = b.1)
    (hne : ¬ nm = u) (hmiss : findEntry u L = none)
    (hroom : s.memory_i + (32 + align CELL (nm.length + 1)) + 16 ≤ s.memory_size)
    (hn1 : -9223372036854775808 ≤ n) (hn2 : n < 9223372036854775808)
    (hf : L.length + 4 ≤ fuel) :
    ∃ s1 s2, s.exec fuel (unwords [str ":", nm, u]) = .ok (E_WORD_NOT_FOUND, s1) ∧
      s1.shared S_COMPILING = 1 ∧ s1.shared S_LATEST = s.memory + s.memory_i ∧
      s1.lookup fuel nm = .ok (s.memory + s.memory_i) ∧ s.memory + s.memory_i ≠ 0 ∧
      s1.exec fuel (decimal n) = .ok (E_OK, s2) ∧ s2.stackList = s.stackList ∧
      s2.shared S_COMPILING = 1 ∧ s2.memory_i = s1.memory_i + 16 ∧
      CodeAt s2.mem s1.memory_i [OP_PUSH_IMMEDIATE, n] := by
  obtain ⟨s1, h1, h2, h3⟩ := colon_missing s L nm u fuel ht hw hu hnb hne hmiss (by omega) hf
  obtain ⟨m1, m2, _, m4, m5, _, _, _⟩ := tok_memory_i _ _ h2
  have hv1 : s1.view = s.view := by rw [tok_view _ _ h2]; rfl
  obtain ⟨hname, _, _⟩ := isWordTok_nonzero nm hw
  obtain ⟨s2, k1, k2, k3, k4, k5⟩ := number_compiled s1 _ n fuel h3 hn1 hn2
    (by
      rw [m1, m2]
      show s.memory_i + (32 + align CELL (nm.length + 1)) + 16 ≤ s.memory_size
      exact hroom)
    (by omega)
  have hlk := arena_lookup s1 _ nm fuel h3.1.1 hname (by simp only [List.length_cons]; omega)
  rw [findEntry_cons_eq nm (colonEntry s nm) L rfl] at hlk
  have hb : 0 < s.memory := ht.1.1.1
  refine ⟨s1, s2, h1, h3.2.1, ?_, ?_, by omega, k1, ?_, by rw [k5]; exact h3.2.1, k3, k4⟩
  · rw [m5]
    show upd (upd (upd s.shared S_COMPILING 1) S_LATEST (s.memory + (s.memory_i : Int)))
      S_DICT_ROOT (s.memory + (s.memory_i : Int)) S_LATEST = _
    rw [upd_other _ _ _ _ (by decide), upd_same]
  · rw [hlk, m4]
    rfl
  · have e : s2.view = s.view := k2.trans hv1
    show (List.range s2.si).map s2.stack = (List.range s.si).map s.stack
    have e1 : s2.si = s.si := congrArg View.si e
    have e2 : s2.stack = s.stack := congrArg View.stack e
    rw [e1, e2]

theorem abort_keeps_definition_witness :
    ∃ s1 s2, (State.fresh replCfg).exec 30 (unwords [str ":", str "foo", str "bar"]) =
        .ok (E_WORD_NOT_FOUND, s1) ∧
      s1.shared S_COMPILING = 1 ∧
      s1.shared S_LATEST = (State.fresh replCfg).memory + (State.fresh replCfg).memory_i ∧
      s1.lookup 30 (str "foo") =
        .ok ((State.fresh replCfg).memory + (State.fresh replCfg).memory_i) ∧
      (State.fresh replCfg).memory + (State.fresh replCfg).memory_i ≠ 0 ∧
      s1.exec 30 (decimal 5) = .ok (E_OK, s2) ∧
      s2.stackList = (State.fresh replCfg).stackList ∧
      s2.shared S_COMPILING = 1 ∧ s2.memory_i = s1.memory_i + 16 ∧
      CodeAt s2.mem s1.memory_i [OP_PUSH_IMMEDIATE, 5] :=
  abort_keeps_definition (State.fresh replCfg) builtinDict (str "foo") (str "bar") 5 30
    (fresh_spec replCfg goodCfg_repl).2.1 (by decide) (by decide) (by decide) (by decide) rfl
    (by
      rw [fresh_repl_fields.2.2.1, fresh_repl_fields.2.1]
      decide!)
    (by decide) (by decide) (by decide)

end ft

namespace ft

open Error Token

/-! ## The flag `WORD_AVAILABLE` (C25) -/

/-- A word token other than `}` in the scratch buffer is not taken for `}` by the callback
of `{`. -/
theorem not_rbrace (s : State) (tk : Token) (a : List Nat) (ts : List (List Nat))
    (hcur : Cur s tk (a :: ts)) (hw : isWordTok a = true) (hne : ¬ a = str "\x7d") :
    ¬ (s.scratch 0 = 125 ∧ s.scratch 1 = 0) := by
  obtain ⟨_, _, _, c4, c5⟩ := cur_word _ _ _ _ hcur hw
  obtain ⟨hname, _, _⟩ := isWordTok_nonzero a hw
  intro h
  cases a with
  | nil => simp [isWordTok] at hw
  | cons c rest =>
    cases rest with
    | nil =>
      have e : s.scratch 0 = c := c4
      rw [h.1] at e
      apply hne
      rw [← e]
      rfl
    | cons d r =>
      have e : s.scratch 1 = d := c5
      rw [h.2] at e
      exact hname d (by simp) e.symm

/-- The callback of `{`, fed a name when the arena has no room for one more cell: it
returns `E_OUT_OF_MEMORY` from its first `dict_put`, before it has cleared
`WORD_AVAILABLE`. -/
theorem lbrace_full (t : State) (g : Nat) (hwa : t.shared S_WORD_AVAILABLE ≠ 0)
    (hnot : ¬ (t.scratch 0 = 125 ∧ t.scratch 1 = 0))
    (hn : t.memory_i + 8 < 18446744073709551616) (hfull : t.memory_size < t.memory_i + 8) :
    Prim.lbrace.run g t = .ok (E_OUT_OF_MEMORY, t) := by
  show w_lbrace g t = _
  unfold w_lbrace
  rw [if_neg hwa, if_neg hnot, dict_put_fail t _ hn (by omega)]
  exact chk_err _ _ _ (by decide)

/-- C25 (defect of the code). `WORD_AVAILABLE` can stay set when `exec` returns.  On a
well-formed engine at top level (`WORD_AVAILABLE = 0`) whose arena has room for the header
of `name` but not for one more cell, `exec(": name { a")` returns `E_OUT_OF_MEMORY` with
`WORD_AVAILABLE = 1`: the interpreter sets the flag before it re-invokes the callback of
`{`, and the callback returns the error of its first `dict_put` before the assignment that
clears the flag. -/
theorem word_available_stays_set (s : State) (L : List Entry) (nm a : List Nat) (fuel : Nat)
    (ht : Top s L) (hw : isWordTok nm = true) (ha : isWordTok a = true)
    (hne : ¬ a = str "\x7d") (hnb : ∀ b ∈ builtins, ¬ nm = b.1)
    (hroom : s.memory_i + (32 + align CELL (nm.length + 1)) ≤ s.memory_size)
    (hfull : s.memory_size < s.memory_i + (32 + align CELL (nm.length + 1)) + 8)
    (hf : L.length + 5 ≤ fuel) :
    s.shared S_WORD_AVAILABLE = 0 ∧
      ∃ s1, s.exec fuel (unwords [str ":", nm, str "\x7b", a]) = .ok (E_OUT_OF_MEMORY, s1) ∧
        s1.shared S_WORD_AVAILABLE = 1 := by
  refine ⟨ht.2.2, ?_⟩
  obtain ⟨f, rfl⟩ : ∃ f, fuel = f + 1 + 1 + 2 := ⟨fuel - 4, by omega⟩
  have hta : isTok a = true := by unfold isTok; rw [ha]; simp
  have hv : ∀ t ∈ [str ":", nm, str "\x7b", a], isTok t = true := by
    intro t ht
    simp only [List.mem_cons, List.mem_singleton, List.not_mem_nil, or_false] at ht
    rcases ht with rfl | rfl | rfl | rfl
    · decide
    · unfold isTok; rw [hw]; simp
    · decide
    · exact hta
  obtain ⟨tk, i, n, sc, k, h1, h2⟩ := exec_fetch s (f + 1 + 1 + 2) [str ":", nm, str "\x7b", a] hv
  obtain ⟨s0, hs0⟩ : ∃ s0 : State,
      s0 = (s.start (unwords [str ":", nm, str "\x7b", a])).retok i n sc k := ⟨_, rfl⟩
  rw [← hs0] at h1 h2
  have ht0 : Top s0 L := by rw [hs0]; exact ht
  have hi0 : s0.memory_i = s.memory_i := by rw [hs0]; rfl
  have hz0 : s0.memory_size = s.memory_size := by rw [hs0]; rfl
  obtain ⟨s2, tk2, a1, a2, a3⟩ := colon_step s0 L nm [str "\x7b", a] tk (f + 1 + 1) ht0 h2 hw
    (by
      intro t ht
      simp only [List.mem_cons, List.mem_singleton, List.not_mem_nil, or_false] at ht
      rcases ht with rfl | rfl
      · decide
      · exact hta)
    (by rw [hi0, hz0]; exact hroom) (by omega)
  obtain ⟨hname, hlen, _⟩ := isWordTok_nonzero nm hw
  have hc2 : Comp s2 (colonEntry s0 nm :: L) := tok_comp _ _ _ a1
    (comp_header s0 L nm ht0 hname (by omega) (by rw [hi0, hz0]; exact hroom) hnb)
  obtain ⟨m1, m2, _, _, _, _, _, _⟩ := tok_memory_i _ _ a1
  have hi2 : s2.memory_i = s.memory_i + (32 + align CELL (nm.length + 1)) := by
    rw [m1, ← hi0]; rfl
  have hz2 : s2.memory_size = s.memory_size := by rw [m2, ← hz0]; rfl
  have hms : s.memory_size < 4611686018427387904 := by
    have := ht.1.1.1; have := ht.1.1.2.1; omega
  obtain ⟨c1, c2, c3, _⟩ := cur_word _ _ _ _ a2 (by decide)
  subst c1
  obtain ⟨tk3, i3, n3, sc3, k3, f1, f2⟩ := fetch s2 [a] c3
    (by intro t ht; rw [List.mem_singleton.mp ht]; exact hta)
  obtain ⟨d1, _, _, _⟩ := cur_word _ _ _ _ f2 ha
  subst d1
  have hnot := not_rbrace _ _ a [] f2 ha hne
  have hrun := lbrace_full ((s2.retok i3 n3 sc3 k3).setShared S_WORD_AVAILABLE 1) (f + 1)
    (by show upd s2.shared S_WORD_AVAILABLE 1 S_WORD_AVAILABLE ≠ 0; rw [upd_same]; decide)
    hnot (by show s2.memory_i + 8 < _; omega) (by show s2.memory_size < s2.memory_i + 8; omega)
  refine ⟨(s2.retok i3 n3 sc3 k3).setShared S_WORD_AVAILABLE 1, ?_, ?_⟩
  swap
  · show upd s2.shared S_WORD_AVAILABLE 1 S_WORD_AVAILABLE = 1
    exact upd_same _ _ _
  rw [h1, a3, interp_word,
    exec_word_cword s2 _ (str "\x7b") Prim.lbrace (FLAG_IMMEDIATE + FLAG_COMPILE_ONLY) (f + 1 + 1)
      hc2.1 c2
      (hc2.1.2.2 (str "\x7b", Prim.lbrace, FLAG_IMMEDIATE + FLAG_COMPILE_ONLY) (by decide))
      (Or.inr ⟨by rw [hc2.2.1]; decide, by decide⟩) (by decide)
      (by simp only [List.length_cons]; omega),
    lbrace_wants s2 _ hc2.2.2]
  simp only []
  rw [want_more, f1, chkv_ok, if_neg (by simp), call_fn, hrun]
  simp only []
  rw [want_done _ _ _ _ (by decide)]
  rfl

theorem goodCfg_small : GoodCfg smallCfg := by
  unfold GoodCfg smallCfg StaticStateConfig
  simp

theorem word_available_stays_set_witness :
    (State.fresh smallCfg).shared S_WORD_AVAILABLE = 0 ∧
      ∃ s1, (State.fresh smallCfg).exec 30 (unwords [str ":", str "foo", str "\x7b", str "a"]) =
          .ok (E_OUT_OF_MEMORY, s1) ∧
        s1.shared S_WORD_AVAILABLE = 1 :=
  word_available_stays_set (State.fresh smallCfg) builtinDict (str "foo") (str "a") 30
    (fresh_spec smallCfg goodCfg_small).2.1 (by decide) (by decide) (by decide) (by decide)
    (by
      rw [(fresh_fields smallCfg goodCfg_small).2.2.1,
        (fresh_fields smallCfg goodCfg_small).2.2.2.1]
      decide!)
    (by
      rw [(fresh_fields smallCfg goodCfg_small).2.2.1,
        (fresh_fields smallCfg goodCfg_small).2.2.2.1]
      decide!)
    (by decide)

end ft

namespace ft

open Error Token

/-! ## The dictionary chain (C26) -/

theorem ordered_of_bool (L : List Entry) (h : orderedB L = true) : Ordered L := by
  induction L with
  | nil => trivial
  | cons e es ih =>
    simp only [orderedB, Bool.and_eq_true, List.all_eq_true, decide_eq_true_eq] at h
    exact ⟨h.1, ih h.2⟩

theorem ordered_builtinDict : Ordered builtinDict := ordered_of_bool _ (by decide!)

/-- On an ordered chain the links descend. -/
theorem chain_descends (m : Nat → Nat) (base : Int) (bound : Nat) (p : Int) (L : List Entry)
    (h : Chain m base bound p L) (ho : Ordered L) : Descends m base p := by
  induction L generalizing p with
  | nil =>
    rw [chain_nil_iff] at h
    rw [h]
    exact Descends.null
  | cons e es ih =>
    rw [chain_cons_iff] at h
    obtain ⟨h1, _, _, _, _, h6⟩ := h
    rw [h1]
    refine Descends.link e.off ?_ (ih _ h6 ho.2)
    cases es with
    | nil =>
      rw [chain_nil_iff] at h6
      exact Or.inl h6
    | cons e2 r =>
      rw [chain_cons_iff] at h6
      have hlt : e2.body ≤ e.off := ho.1 e2 (List.mem_cons_self _ _)
      have := entry_hdr_in e2
      right
      rw [h6.1]
      omega

theorem chain_body_le (m : Nat → Nat) (base : Int) (bound : Nat) (p : Int) (L : List Entry)
    (h : Chain m base bound p L) : ∀ x ∈ L, x.body ≤ bound := by
  induction L generalizing p with
  | nil => intro x hx; simp at hx
  | cons a as ih =>
    rw [chain_cons_iff] at h
    intro x hx
    rcases List.mem_cons.mp hx with rfl | hx
    · exact h.2.1
    · exact ih _ h.2.2.2.2.2 x hx

/-- A new entry at the cursor lies above every entry of the arena. -/
theorem ordered_cons (s : State) (L : List Entry) (e : Entry) (h : Arena s L)
    (ho : Ordered L) (he : e.off = s.memory_i) : Ordered (e :: L) := by
  refine ⟨?_, ho⟩
  intro x hx
  rw [he]
  exact chain_body_le _ _ _ _ _ h.2.2.2.2.1 x hx

/-- A chain whose first link points back to its own entry is walked for ever. -/
theorem lookup_cycle (s : State) (p : Int) (name : List Nat) (hp : p ≠ 0)
    (hl : s.load (p + OFF_PREVIOUS) = .ok p) (hs : s.strEq (p + OFF_NAME) name = .ok false) :
    ∀ fuel, s.lookupFrom name fuel p = .timeout := by
  intro fuel
  induction fuel with
  | zero => rfl
  | succ f ih =>
    unfold State.lookupFrom
    rw [if_neg hp, hs]
    simp only []
    rw [hl, ldv_ok]
    exact ih

theorem not_descends_self (m : Nat → Nat) (base : Int) (off : Nat) (hne : base + off ≠ 0)
    (h : rdCell m off = base + off) : ¬ Descends m base (base + off) := by
  intro hd
  generalize hq : base + (off : Int) = q at hd
  cases hd with
  | null => exact hne hq
  | link off2 hc _ =>
    have e : off2 = off := by omega
    subst e
    rw [h] at hc
    omega

/-- The text `x a !` at top level: the cell at arena offset `a` is overwritten with `x`;
the data stack is as before. -/
theorem store_exec (s : State) (L : List Entry) (x : Int) (a : Nat) (fuel : Nat)
    (ht : Top s L) (hx1 : -9223372036854775808 ≤ x) (hx2 : x < 9223372036854775808)
    (ha1 : a ≤ s.memory_i) (ha2 : a + 8 ≤ s.memory_size) (hroom : s.si + 2 ≤ s.stack_size)
    (hf : L.length + 5 ≤ fuel) :
    ∃ s1, s.exec fuel (unwords [decimal x, decimal a, str "!"]) = .ok (E_OK, s1) ∧
      s1.mem = wrCell s.mem a x ∧ s1.shared = s.shared ∧ s1.memory = s.memory ∧
      s1.memory_i = s.memory_i ∧ s1.memory_size = s.memory_size ∧ s1.si = s.si ∧
      s1.cwords = s.cwords := by
  obtain ⟨f, rfl⟩ : ∃ f, fuel = f + 1 + 1 + 1 + 2 := ⟨fuel - 5, by omega⟩
  have hms : s.memory_size < 4611686018427387904 := by
    have := ht.1.1.1; have := ht.1.1.2.1; omega
  have hv : ∀ t ∈ [decimal x, decimal a, str "!"], isTok t = true := by
    intro t ht
    simp only [List.mem_cons, List.mem_singleton, List.not_mem_nil, or_false] at ht
    rcases ht with rfl | rfl | rfl
    · unfold isTok; rw [isNumTok_decimal]; rfl
    · unfold isTok; rw [isNumTok_decimal]; rfl
    · decide
  obtain ⟨tk, i, n, sc, k, h1, h2⟩ := exec_fetch s (f + 1 + 1 + 1 + 2)
    [decimal x, decimal a, str "!"] hv
  obtain ⟨s0, hs0⟩ : ∃ s0 : State,
      s0 = (s.start (unwords [decimal x, decimal a, str "!"])).retok i n sc k := ⟨_, rfl⟩
  rw [← hs0] at h1 h2
  have ht0 : Top s0 L := by rw [hs0]; exact ht
  have hv0 : s0.view = s.view := by rw [hs0]; rfl
  obtain ⟨v, hv⟩ : ∃ v : View,
      v = ⟨upd (upd s.stack s.si x) (s.si + 1) (a : Int), s.si + 1 + 1, s.stack_size⟩ :=
    ⟨_, rfl⟩
  have hr : runV [Item.num (decimal x), Item.num (decimal a)] s0.view = .ok (E_OK, v) := by
    rw [hv0, runV_cons_ok _ _ _ _ (runV_num (decimal x) s.view (by show s.si < s.stack_size; omega)),
      runV_cons_ok _ _ _ _ (runV_num (decimal a) _ (by show s.si + 1 < s.stack_size; omega)),
      numVal_decimal x hx1 hx2, numVal_decimal a (by omega) (by omega), hv]
    rfl
  obtain ⟨s2, tk2, a1, a2, a3⟩ := items_top s0 L [Item.num (decimal x), Item.num (decimal a)]
    [str "!"] tk (f + 1 + 1 + 1) v ht0 h2
    (by
      intro it hit
      simp only [List.mem_cons, List.mem_singleton, List.not_mem_nil, or_false] at hit
      rcases hit with rfl | rfl <;> exact isNumTok_decimal _)
    (by intro t ht; rw [List.mem_singleton.mp ht]; decide) (by omega) hr
  have ht2 : Top s2 L := tok_top _ _ _ a1 (top_withView s0 L v ht0)
  obtain ⟨m1, m2, m3, m4, m5, _, m7, _⟩ := tok_memory_i _ _ a1
  have hview : s2.view = v := by
    rw [tok_view _ _ a1]
    exact withView_view s0 v (by rw [hv, hs0]; rfl)
  have hsi : s2.si = s.si + 1 + 1 := by
    have := congrArg View.si hview; rw [hv] at this; exact this
  have hst : s2.stack = upd (upd s.stack s.si x) (s.si + 1) (a : Int) := by
    have := congrArg View.stack hview; rw [hv] at this; exact this
  have hsz : s2.stack_size = s.stack_size := by
    have := congrArg View.size hview; rw [hv] at this; exact this
  obtain ⟨c1, c2, c3, _⟩ := cur_word _ _ _ _ a2 (by decide)
  subst c1
  have htop : s2.stack (s2.si - 1) = (a : Int) := by
    rw [hst, hsi, show s.si + 1 + 1 - 1 = s.si + 1 by omega, upd_same]
  have hsnd : s2.stack (s2.si - 2) = x := by
    rw [hst, hsi, show s.si + 1 + 1 - 2 = s.si by omega, upd_other _ _ _ _ (by omega), upd_same]
  have hi2 : s2.memory_i = s.memory_i := by rw [m1, hs0]; rfl
  have hz2 : s2.memory_size = s.memory_size := by rw [m2, hs0]; rfl
  have key : ∃ sd : State, Prim.store.run (f + 1 + 1) s2 = .ok (E_OK, sd) ∧
      Lead sd.remaining [] ∧ sd.mem = wrCell s.mem a x ∧ sd.shared = s.shared ∧
      sd.memory = s.memory ∧ sd.memory_i = s.memory_i ∧ sd.memory_size = s.memory_size ∧
      sd.si = s.si ∧ sd.cwords = s.cwords := by
    refine ⟨{ s2 with si := s2.si - 2, mem := wrCell s2.mem a x }, ?_, c3, ?_, ?_, ?_, ?_, ?_,
      ?_, ?_⟩
    · show w_store s2 = _
      rw [w_store_eq s2 (by omega) (by omega), htop, hsnd,
        if_neg (by rw [hi2]; omega), if_pos (by rw [hz2]; omega)]
      rfl
    · show wrCell s2.mem a x = _
      rw [m3, hs0]; rfl
    · show s2.shared = _
      rw [m5, hs0]; rfl
    · show s2.memory = _
      rw [m4, hs0]; rfl
    · exact hi2
    · exact hz2
    · show s2.si - 2 = s.si
      omega
    · show s2.cwords = _
      rw [m7, hs0]; rfl
  obtain ⟨sd, k1, k2, k3, k4, k5, k6, k7, k8, k9⟩ := key
  obtain ⟨s3, tk3, t1, t2, t3⟩ := next_step sd [] (f + 2) k2 (by simp)
  obtain ⟨n1, n2, n3, n4, n5, _, n7, _⟩ := tok_memory_i _ _ t1
  refine ⟨s3, ?_, by rw [n3, k3], by rw [n5, k4], by rw [n4, k5], by rw [n1, k6],
    by rw [n2, k7], ?_, by rw [n7, k9]⟩
  · rw [h1]
    refine a3.trans ?_
    rw [interp_word,
      exec_word_cword s2 L (str "!") Prim.store 0 (f + 1 + 1) ht2.1 c2
        (ht2.1.2.2 (str "!", Prim.store, 0) (by decide)) (Or.inl ⟨ht2.2.1, by decide⟩)
        (by decide) (by omega), k1]
    simp only []
    rw [want_done _ _ _ _ (by decide), chk_ok, chk_ok, t3, interp_last s3 tk3 (f + 1) t2]
  · have := tok_view _ _ t1
    exact (congrArg View.si this).trans k8

/-- A store into the `previous` field of the newest entry that makes it point to the entry
itself: the chain no longer descends and `lookup` of any other name does not terminate. -/
theorem store_breaks_chain (s : State) (e : Entry) (es : List Entry) (name : List Nat)
    (fuel : Nat) (ht : Top s (e :: es)) (hroom : s.si + 2 ≤ s.stack_size)
    (hname : ∀ c ∈ name, c ≠ 0) (hne : ¬ e.name = name) (hf : es.length + 6 ≤ fuel) :
    ∃ s1, s.exec fuel (unwords [decimal (s.memory + e.off), decimal e.off, str "!"]) =
        .ok (E_OK, s1) ∧
      s1.shared S_LATEST = s.memory + e.off ∧ s1.memory = s.memory ∧
      s1.load (s1.shared S_LATEST + OFF_PREVIOUS) = .ok (s1.shared S_LATEST) ∧
      ¬ Descends s1.mem s1.memory (s1.shared S_LATEST) ∧
      ∀ g, s1.lookup g name = .timeout := by
  obtain ⟨hb, hsz, hle, _, hch, _⟩ := ht.1.1
  rw [chain_cons_iff] at hch
  obtain ⟨c1, c2, c3, c4, c5, _⟩ := hch
  have hhd := entry_hdr_in e
  have hnm := entry_name_in e
  obtain ⟨s1, k1, k2, k3, k4, k5, k6, _, _⟩ := store_exec s (e :: es) (s.memory + e.off) e.off
    fuel ht (by omega) (by omega) (by omega) (by omega) hroom
    (by simp only [List.length_cons]; omega)
  have hlat : s1.shared S_LATEST = s.memory + e.off := by rw [k3]; exact c1
  have hp0 : s.memory + (e.off : Int) + OFF_PREVIOUS = s1.memory + (e.off : Int) := by
    rw [k4]; unfold OFF_PREVIOUS; omega
  have hp24 : s.memory + (e.off : Int) + OFF_NAME = s1.memory + ((e.off + 24 : Nat) : Int) := by
    rw [k4]; unfold OFF_NAME; push_cast; omega
  have hin8 : e.off + 8 ≤ s1.memory_size := by rw [k6]; omega
  have hinn : e.off + 24 + e.name.length + 1 ≤ s1.memory_size := by rw [k6]; omega
  have hw : wrap (s.memory + e.off) = s.memory + e.off := wrap_of_range (by omega) (by omega)
  have hnz : s.memory + (e.off : Int) ≠ 0 := by omega
  have hrd : rdCell s1.mem e.off = s.memory + e.off := by
    rw [k2, rdCell_wrCell_same]
    exact hw
  have hload : s1.load (s1.shared S_LATEST + OFF_PREVIOUS) = .ok (s1.shared S_LATEST) := by
    rw [hlat, load_at s1 _ e.off hp0 hin8, hrd]
  have hbytes : rdBytes s1.mem (e.off + 24) (e.name.length + 1) = e.name ++ [0] := by
    rw [← c5.2.2, k2]
    apply rdBytes_congr
    intro i h1 h2
    clear hrd hload
    exact wrCell_outside _ _ _ _ (by omega)
  have hstr : s1.strEq (s1.shared S_LATEST + OFF_NAME) name = .ok false := by
    have h := strEq_spec s1 (e.off + 24) e.name name hbytes hinn c3 hname
    rw [hlat, hp24, h]
    simp [hne]
  refine ⟨s1, k1, hlat, k4, hload, ?_, ?_⟩
  · rw [hlat, k4]
    exact not_descends_self _ _ _ hnz hrd
  · intro g
    exact lookup_cycle s1 _ name (by rw [hlat]; exact hnz) hload hstr g

theorem builtinDict_head :
    ∃ e es, builtinDict = e :: es ∧ e.off = 928 ∧ e.name = str "decompile" ∧
      es.length = 19 := by
  have hh : builtinDict.head?.map (fun e => (e.off, e.name)) = some (928, str "decompile") := by
    decide!
  have hl := builtinDict_length
  cases hL : builtinDict with
  | nil => rw [hL] at hh; simp at hh
  | cons e es =>
    rw [hL] at hh hl
    simp only [List.head?_cons, Option.map_some', Option.some.injEq, Prod.mk.injEq] at hh
    simp only [List.length_cons] at hl
    exact ⟨e, es, rfl, hh.1, hh.2, by omega⟩

/-- C26, counterexample. A state reachable from the constructor by one `exec`: on the engine
of `repl.cpp` (arena at host address 4096) the text `5024 928 !` returns `E_OK`; it stores the
address of the newest entry (`decompile`, at arena offset 928) into that entry's own
`previous` field.  Afterwards `previous` of the entry `LATEST` points to is that entry: the
links do not descend, and `lookup` of a name other than `decompile` does not terminate
(whatever the fuel). -/
theorem chain_broken_by_store :
    ∃ s1, Reachable replCfg s1 ∧
      (State.fresh replCfg).exec 30 (str "5024 928 !") = .ok (E_OK, s1) ∧
      s1.shared S_LATEST = 5024 ∧ s1.load (5024 + OFF_PREVIOUS) = .ok 5024 ∧
      ¬ Descends s1.mem s1.memory (s1.shared S_LATEST) ∧
      ∀ g, s1.lookup g (str "nosuch") = .timeout := by
  obtain ⟨hc, ht, _⟩ := fresh_spec replCfg goodCfg_repl
  obtain ⟨e, es, hL, h1, h2, h3⟩ := builtinDict_head
  rw [hL] at ht
  obtain ⟨s1, k1, k2, k3, k4, k5, k6⟩ := store_breaks_chain (State.fresh replCfg) e es
    (str "nosuch") 30 ht
    (by rw [fresh_repl_fields.2.2.2.2.2.1, fresh_repl_fields.2.2.2.2.2.2]; decide)
    (by decide) (by rw [h2]; decide) (by omega)
  rw [h1, fresh_repl_fields.1] at k1 k2
  have k2b : s1.shared S_LATEST = 5024 := k2
  rw [k2b] at k4
  exact ⟨s1, Reachable.exec _ 30 _ E_OK s1 (Reachable.init _ hc) k1, k1, k2b, k4, k5, k6⟩

/-- C26. The dictionary chain of a well-formed arena whose entries are ordered (older
entries wholly below newer ones), as the constructor leaves it: every entry reachable from
`LATEST` has a `previous` that is null or points strictly below the entry, `lookup`
terminates for every name within one step per entry, and `create` (with room in the arena)
allocates the new entry at the old `here`, links it to the old `LATEST`, makes it `LATEST`
and leaves an arena of the same kind. -/
theorem chain_invariant (s : State) (L : List Entry) (name : List Nat) (ha : Arena s L)
    (ho : Ordered L) (hname : ∀ c ∈ name, c ≠ 0) (hlen : name.length < 4611686018427387904)
    (hroom : s.memory_i + (32 + align CELL (name.length + 1)) ≤ s.memory_size) :
    Descends s.mem s.memory (s.shared S_LATEST) ∧
      (∀ nm : List Nat, (∀ c ∈ nm, c ≠ 0) →
        s.lookup (L.length + 1) nm = .ok (entryPtr s.memory (findEntry nm L))) ∧
      ∃ s2, s.create name = .ok (E_OK, s.memory + s.memory_i, s2) ∧
        s2.shared S_LATEST = s.memory + s.memory_i ∧
        s2.load (s.memory + s.memory_i + OFF_PREVIOUS) = .ok (s.shared S_LATEST) ∧
        Arena s2 (⟨s.memory_i, name, 0⟩ :: L) ∧ Ordered (⟨s.memory_i, name, 0⟩ :: L) ∧
        Descends s2.mem s2.memory (s2.shared S_LATEST) := by
  obtain ⟨h1, h2⟩ := create_arena s L name ha hname hlen hroom
  have ho2 : Ordered (⟨s.memory_i, name, 0⟩ :: L) := ordered_cons s L _ ha ho rfl
  obtain ⟨hb, hsz, hle, _, hch, _⟩ := ha
  have hr := chain_ptr_range _ _ _ _ _ hch hb
  refine ⟨chain_descends _ _ _ _ _ hch ho,
    fun nm hnm => lookupFrom_spec s nm L _ _ hch hb hle hnm (by omega), _, h1,
    (upd_same s.shared S_LATEST (s.memory + (s.memory_i : Int)) : _),
    ?_, h2, ho2, chain_descends _ _ _ _ _ h2.2.2.2.2.1 ho2⟩
  rw [load_at _ _ s.memory_i
    (by show s.memory + (s.memory_i : Int) + OFF_PREVIOUS = s.memory + (s.memory_i : Int)
        unfold OFF_PREVIOUS; omega)
    (by show s.memory_i + 8 ≤ s.memory_size; omega)]
  show Res.ok (rdCell (entryMem s.mem s.memory_i (s.shared S_LATEST) name) s.memory_i) = _
  rw [entryMem_prev, wrap_of_range (by omega) (by omega)]

theorem chain_invariant_witness :
    Descends (State.fresh replCfg).mem (State.fresh replCfg).memory
        ((State.fresh replCfg).shared S_LATEST) ∧
      (∀ nm : List Nat, (∀ c ∈ nm, c ≠ 0) →
        (State.fresh replCfg).lookup (builtinDict.length + 1) nm =
          .ok (entryPtr (State.fresh replCfg).memory (findEntry nm builtinDict))) ∧
      ∃ s2, (State.fresh replCfg).create (str "foo") =
          .ok (E_OK, (State.fresh replCfg).memory + (State.fresh replCfg).memory_i, s2) ∧
        s2.shared S_LATEST = (State.fresh replCfg).memory + (State.fresh replCfg).memory_i ∧
        s2.load ((State.fresh replCfg).memory + (State.fresh replCfg).memory_i + OFF_PREVIOUS) =
          .ok ((State.fresh replCfg).shared S_LATEST) ∧
        Arena s2 (⟨(State.fresh replCfg).memory_i, str "foo", 0⟩ :: builtinDict) ∧
        Ordered (⟨(State.fresh replCfg).memory_i, str "foo", 0⟩ :: builtinDict) ∧
        Descends s2.mem s2.memory (s2.shared S_LATEST) :=
  chain_invariant (State.fresh replCfg) builtinDict (str "foo")
    (fresh_spec replCfg goodCfg_repl).2.1.1.1 ordered_builtinDict (by decide) (by decide)
    (by rw [fresh_repl_fields.2.2.1, fresh_repl_fields.2.1]; decide!)

end ft

namespace ft

open Error Token

/-! ## Handles and call targets (C27) -/

end ft

namespace ft

open Error Token

/-! ## Blocks of locals: `{ names }` -/

theorem putLocalSets_puts (n : Nat) (s : State) (L : List Entry) (ha : Arena s L)
    (hroom : s.memory_i + 8 * n ≤ s.memory_size) :
    putLocalSets n s = .ok (E_OK, s.puts (List.replicate n OP_LOCAL_SET)) := by
  induction n generalizing s with
  | zero => rfl
  | succ n ih =>
    rw [putLocalSets, dict_put_put s L _ ha (by omega), chk_ok]
    exact ih (s.put OP_LOCAL_SET) (arena_put s L _ ha (by omega))
      (by show s.memory_i + 8 + 8 * n ≤ s.memory_size; omega)

/-- The callback of `{` when it is fed `}`: the `LOCAL_SET` cells are emitted and the
counter is reset. -/
theorem lbrace_close (t : State) (L : List Entry) (g : Nat) (ha : Arena t L)
    (hwa : t.shared S_WORD_AVAILABLE ≠ 0) (hr : t.scratch 0 = 125 ∧ t.scratch 1 = 0)
    (hroom : t.memory_i + 8 * toSize (t.shared S_LOCAL_COUNT) ≤ t.memory_size) :
    Prim.lbrace.run g t = .ok (E_OK, t.closeBlock.setShared S_WORD_AVAILABLE 0) := by
  show w_lbrace g t = _
  unfold w_lbrace
  rw [if_neg hwa, if_pos hr, putLocalSets_puts _ t L ha hroom, chk_ok]
  rfl

theorem upd_wa (f : Nat → Int) (k : Nat) (hk : k ≠ S_WORD_AVAILABLE) :
    upd f S_WORD_AVAILABLE 1 k = f k := upd_other _ _ _ _ hk

theorem local_wa (s : State) (nm : List Nat) (h : s.shared S_WORD_AVAILABLE = 0) :
    ((s.setShared S_WORD_AVAILABLE 1).local nm).setShared S_WORD_AVAILABLE 0 = s.local nm := by
  unfold State.local State.setShared
  refine state_eq3 s _ _ _ _ _ _ ?_ rfl ?_
  · show localMem s.mem s.memory_i (upd s.shared S_WORD_AVAILABLE 1 S_LATEST) nm
      (upd s.shared S_WORD_AVAILABLE 1 S_LOCAL_COUNT) = _
    rw [upd_wa _ _ (by decide), upd_wa _ _ (by decide)]
  · funext k
    show upd (upd (upd (upd s.shared S_WORD_AVAILABLE 1) S_LATEST _) S_LOCAL_COUNT
      (wrap (upd s.shared S_WORD_AVAILABLE 1 S_LOCAL_COUNT + 1))) S_WORD_AVAILABLE 0 k =
      upd (upd s.shared S_LATEST _) S_LOCAL_COUNT (wrap (s.shared S_LOCAL_COUNT + 1)) k
    rw [upd_wa _ _ (by decide)]
    by_cases h1 : k = S_WORD_AVAILABLE
    · subst h1
      rw [upd_same, upd_other _ _ _ _ (by decide), upd_other _ _ _ _ (by decide), h]
    · rw [upd_other _ _ _ _ h1]
      by_cases h2 : k = S_LOCAL_COUNT
      · subst h2
        rw [upd_same, upd_same]
      · rw [upd_other _ _ _ _ h2, upd_other _ _ _ _ h2]
        by_cases h3 : k = S_LATEST
        · subst h3
          rw [upd_same, upd_same]
        · rw [upd_other _ _ _ _ h3, upd_other _ _ _ _ h3, upd_other _ _ _ _ h1]

theorem closeBlock_eq (s : State) :
    s.closeBlock = { s with
      mem := wrCells s.mem s.memory_i
        (List.replicate (toSize (s.shared S_LOCAL_COUNT)) OP_LOCAL_SET),
      memory_i := s.memory_i +
        8 * (List.replicate (toSize (s.shared S_LOCAL_COUNT)) OP_LOCAL_SET).length,
      shared := upd s.shared S_LOCAL_COUNT 0 } := by
  unfold State.closeBlock
  rw [puts_eq]
  rfl

theorem closeBlock_wa (s : State) (h : s.shared S_WORD_AVAILABLE = 0) :
    ((s.setShared S_WORD_AVAILABLE 1).closeBlock).setShared S_WORD_AVAILABLE 0 =
      s.closeBlock := by
  rw [closeBlock_eq, closeBlock_eq]
  unfold State.setShared
  refine state_eq3 s _ _ _ _ _ _ ?_ ?_ ?_
  · show wrCells s.mem s.memory_i
      (List.replicate (toSize (upd s.shared S_WORD_AVAILABLE 1 S_LOCAL_COUNT)) OP_LOCAL_SET) = _
    rw [upd_wa _ _ (by decide)]
  · show s.memory_i + 8 * (List.replicate
      (toSize (upd s.shared S_WORD_AVAILABLE 1 S_LOCAL_COUNT)) OP_LOCAL_SET).length = _
    rw [upd_wa _ _ (by decide)]
  · funext k
    show upd (upd (upd s.shared S_WORD_AVAILABLE 1) S_LOCAL_COUNT 0) S_WORD_AVAILABLE 0 k =
      upd s.shared S_LOCAL_COUNT 0 k
    by_cases h1 : k = S_WORD_AVAILABLE
    · subst h1
      rw [upd_same, upd_other _ _ _ _ (by decide), h]
    · rw [upd_other _ _ _ _ h1]
      by_cases h2 : k = S_LOCAL_COUNT
      · subst h2
        rw [upd_same, upd_same]
      · rw [upd_other _ _ _ _ h2, upd_other _ _ _ _ h2, upd_other _ _ _ _ h1]

theorem tok_local (a b : State) (nm : List Nat) (h : Tok a b) :
    Tok (a.local nm) (b.local nm) := by
  obtain ⟨i, n, sc, k, rfl⟩ := h
  exact ⟨i, n, sc, k, rfl⟩

theorem tok_declare (names : List (List Nat)) :
    ∀ a b : State, Tok a b → Tok (a.declare names) (b.declare names) := by
  induction names with
  | nil => intro a b h; exact h
  | cons n ns ih => intro a b h; exact ih _ _ (tok_local a b n h)

theorem tok_closeBlock (a b : State) (h : Tok a b) : Tok a.closeBlock b.closeBlock := by
  rw [closeBlock_eq, closeBlock_eq]
  obtain ⟨i, n, sc, k, rfl⟩ := h
  exact ⟨i, n, sc, k, rfl⟩

theorem local_remaining (s : State) (nm : List Nat) : (s.local nm).remaining = s.remaining :=
  rfl

theorem closeBlock_remaining (s : State) : s.closeBlock.remaining = s.remaining := by
  rw [closeBlock_eq]
  rfl

theorem names_tok (names : List (List Nat)) (ts : List (List Nat))
    (hn : ∀ n ∈ names, isWordTok n = true) (hts : ∀ t ∈ ts, isTok t = true) :
    ∀ t ∈ names ++ str "\x7d" :: ts, isTok t = true := by
  intro t ht
  rcases List.mem_append.mp ht with h | h
  · unfold isTok; rw [hn t h]; simp
  · rcases List.mem_cons.mp h with rfl | h
    · decide
    · exact hts t h

/-- The feed-me-a-word loop of `{`: each name declares a local, `}` closes the block. -/
theorem block_names (ts : List (List Nat)) (hts : ∀ t ∈ ts, isTok t = true) :
    ∀ (names : List (List Nat)) (s : State) (L : List Entry) (c : Nat) (f : Nat),
      Comp s L → s.shared S_LOCAL_COUNT = (c : Int) →
      c + names.length < 4611686018427387904 →
      Lead s.remaining (names ++ str "\x7d" :: ts) →
      (∀ n ∈ names, isWordTok n = true ∧ ¬ n = str "\x7d" ∧ ∀ b ∈ builtins, ¬ n = b.1) →
      s.memory_i + localsSize names + 8 * (c + names.length) ≤ s.memory_size →
      L.length + names.length + 1 < f →
      ∃ s2, Tok ((s.declare names).closeBlock) s2 ∧ Lead s2.remaining ts ∧
        State.want (f + names.length + 1) s Prim.lbrace.fn E_WANT_WORD = .ok (E_OK, s2) := by
  intro names
  induction names with
  | nil =>
    intro s L c f hc hlc hcn hl _ hroom hf
    obtain ⟨g, rfl⟩ : ∃ g, f = g + 1 := ⟨f - 1, by omega⟩
    obtain ⟨tk, i, n, sc, k, f1, f2⟩ := fetch s (str "\x7d" :: ts) hl
      (names_tok [] ts (by intro n hn; simp at hn) hts)
    obtain ⟨d1, _, d3, d4, d5⟩ := cur_word _ _ _ _ f2 (by decide)
    subst d1
    have hc1 : Comp (s.retok i n sc k) L := hc
    have hwa1 : (s.retok i n sc k).shared S_WORD_AVAILABLE = 0 := hc.2.2
    have hrun := lbrace_close ((s.retok i n sc k).setShared S_WORD_AVAILABLE 1) L (g + 1)
      (arena_setShared _ L _ _ hc1.1.1 (by decide))
      (by show upd s.shared S_WORD_AVAILABLE 1 S_WORD_AVAILABLE ≠ 0; rw [upd_same]; decide)
      ⟨d4, d5⟩
      (by
        show s.memory_i + 8 * toSize (upd s.shared S_WORD_AVAILABLE 1 S_LOCAL_COUNT) ≤
          s.memory_size
        rw [upd_wa _ _ (by decide), hlc, toSize_of_nat (by omega)]
        simp only [localsSize, List.length_nil] at hroom
        omega)
    rw [closeBlock_wa _ hwa1] at hrun
    refine ⟨(s.retok i n sc k).closeBlock, tok_closeBlock _ _ (tok_retok s i n sc k), ?_, ?_⟩
    · rw [closeBlock_remaining]; exact d3
    · show State.want (g + 1 + 0 + 1) s Prim.lbrace.fn E_WANT_WORD = _
      rw [want_more, f1, chkv_ok, if_neg (by simp), call_fn, hrun]
      simp only []
      exact want_done _ _ _ _ (by decide)
  | cons nm ns ih =>
    intro s L c f hc hlc hcn hl hnames hroom hf
    simp only [List.length_cons] at hcn hroom hf
    have hnm := hnames nm (List.mem_cons_self _ _)
    obtain ⟨tk, i, n, sc, k, f1, f2⟩ := fetch s (nm :: (ns ++ str "\x7d" :: ts)) hl
      (names_tok (nm :: ns) ts (fun n hn => (hnames n hn).1) hts)
    obtain ⟨d1, d2, d3, _, _⟩ := cur_word _ _ _ _ f2 hnm.1
    subst d1
    have hc1 : Comp (s.retok i n sc k) L := hc
    have hwa1 : (s.retok i n sc k).shared S_WORD_AVAILABLE = 0 := hc.2.2
    obtain ⟨_, hlen, _⟩ := isWordTok_nonzero nm hnm.1
    have hname : ∀ c ∈ nm, c ≠ 0 := (isWordTok_nonzero nm hnm.1).1
    have hsz : localsSize (nm :: ns) =
        16 + (32 + align CELL (nm.length + 1)) + 72 + localsSize ns := rfl
    have hroom1 : s.memory_i + 16 + (32 + align CELL (nm.length + 1)) + 72 ≤ s.memory_size := by
      rw [hsz] at hroom; omega
    have hrun := lbrace_name ((s.retok i n sc k).setShared S_WORD_AVAILABLE 1) L nm
      (f + ns.length + 1)
      (eng_setShared _ L _ _ hc1.1 (by decide))
      (by show upd s.shared S_WORD_AVAILABLE 1 S_WORD_AVAILABLE ≠ 0; rw [upd_same]; decide)
      d2 (not_rbrace _ _ nm _ f2 hnm.1 hnm.2.1) (by omega) hnm.2.2 hroom1 (by omega)
    rw [local_wa _ nm hwa1] at hrun
    have hc2 : Comp ((s.retok i n sc k).local nm) (localEntry (s.retok i n sc k) nm :: L) :=
      comp_local _ L nm hc1 hname (by omega) hroom1 hnm.2.2
    have hlc2 : ((s.retok i n sc k).local nm).shared S_LOCAL_COUNT = ((c + 1 : Nat) : Int) := by
      show upd (upd s.shared S_LATEST (s.memory + ((s.memory_i + 16 : Nat) : Int)))
        S_LOCAL_COUNT (wrap (s.shared S_LOCAL_COUNT + 1)) S_LOCAL_COUNT = _
      rw [upd_same, hlc]
      push_cast
      exact wrap_of_range (by omega) (by omega)
    obtain ⟨s2, t1, t2, t3⟩ := ih ((s.retok i n sc k).local nm)
      (localEntry (s.retok i n sc k) nm :: L) (c + 1) f hc2 hlc2 (by omega)
      (by rw [local_remaining]; exact d3)
      (fun n hn => hnames n (List.mem_cons_of_mem _ hn))
      (by
        show s.memory_i + 16 + (32 + align CELL (nm.length + 1)) + 72 + localsSize ns +
          8 * (c + 1 + ns.length) ≤ s.memory_size
        rw [hsz] at hroom; omega)
      (by simp only [List.length_cons]; omega)
    refine ⟨s2, ?_, t2, ?_⟩
    · exact tok_trans _ _ _
        (tok_closeBlock _ _ (tok_declare ns _ _ (tok_local _ _ nm (tok_retok s i n sc k)))) t1
    · show State.want (f + (ns.length + 1) + 1) s Prim.lbrace.fn E_WANT_WORD = _
      rw [show f + (ns.length + 1) + 1 = (f + ns.length + 1) + 1 by omega, want_more, f1,
        chkv_ok, if_neg (by simp), call_fn, hrun]
      simp only []
      exact t3

/-- The loop iteration on `{` in compile mode, followed by the names and `}`. -/
theorem block_step (s : State) (L : List Entry) (names : List (List Nat))
    (ts : List (List Nat)) (tk : Token) (c : Nat) (f : Nat) (hc : Comp s L)
    (hcur : Cur s tk (str "\x7b" :: (names ++ str "\x7d" :: ts)))
    (hlc : s.shared S_LOCAL_COUNT = (c : Int)) (hcn : c + names.length < 4611686018427387904)
    (hnames : ∀ n ∈ names, isWordTok n = true ∧ ¬ n = str "\x7d" ∧ ∀ b ∈ builtins, ¬ n = b.1)
    (hts : ∀ t ∈ ts, isTok t = true)
    (hroom : s.memory_i + localsSize names + 8 * (c + names.length) ≤ s.memory_size)
    (hf : L.length + names.length + 1 < f) :
    ∃ s2 tk2, Tok ((s.declare names).closeBlock) s2 ∧ Cur s2 tk2 ts ∧
      s.interp (f + names.length + 1 + 1) tk = s2.interp (f + names.length + 1) tk2 := by
  obtain ⟨c1, c2, c3, _⟩ := cur_word _ _ _ _ hcur (by decide)
  subst c1
  obtain ⟨s1, t1, t2, t3⟩ := block_names ts hts names s L c f hc hlc hcn c3 hnames hroom hf
  obtain ⟨s2, tk2, u1, u2, u3⟩ := next_step s1 ts (f + names.length + 1) t2 hts
  refine ⟨s2, tk2, tok_trans _ _ _ t1 u1, u2, ?_⟩
  rw [interp_word,
    exec_word_cword s L (str "\x7b") Prim.lbrace (FLAG_IMMEDIATE + FLAG_COMPILE_ONLY)
      (f + names.length + 1) hc.1 c2
      (hc.1.2.2 (str "\x7b", Prim.lbrace, FLAG_IMMEDIATE + FLAG_COMPILE_ONLY) (by decide))
      (Or.inr ⟨by rw [hc.2.1]; decide, by decide⟩) (by decide) (by omega),
    lbrace_wants s _ hc.2.2]
  simp only []
  rw [t3, chk_ok, chk_ok, u3]

/-- The entries of the locals of a block lie in front of the dictionary and bear the names
of the block. -/
theorem localEntries_split (names : List (List Nat)) :
    ∀ (s : State) (L : List Entry), ∃ A, localEntries s names L = A ++ L ∧
      (∀ l ∈ A, l.name ∈ names) ∧ A.length = names.length := by
  induction names with
  | nil => intro s L; exact ⟨[], rfl, by intro l hl; simp at hl, rfl⟩
  | cons n ns ih =>
    intro s L
    obtain ⟨A, h1, h2, h3⟩ := ih (s.local n) (localEntry s n :: L)
    refine ⟨A ++ [localEntry s n], ?_, ?_, ?_⟩
    · show localEntries (s.local n) ns (localEntry s n :: L) = _
      rw [h1, List.append_assoc]
      rfl
    · intro l hl
      rcases List.mem_append.mp hl with h | h
      · exact List.mem_cons_of_mem _ (h2 l h)
      · rw [List.mem_singleton.mp h]
        exact List.mem_cons_self _ _
    · simp only [List.length_append, List.length_cons, List.length_nil, h3]

/-- The fields a declaration of locals leaves alone. -/
theorem local_keep (s : State) (nm : List Nat) :
    (s.local nm).memory = s.memory ∧ (s.local nm).memory_size = s.memory_size ∧
      (s.local nm).view = s.view ∧ (s.local nm).locals = s.locals ∧
      (s.local nm).cwords = s.cwords ∧ (s.local nm).out = s.out ∧
      (s.local nm).shared S_DICT_ROOT = s.shared S_DICT_ROOT ∧
      (s.local nm).shared S_COMPILING = s.shared S_COMPILING ∧
      (s.local nm).memory_i = s.memory_i + (16 + (32 + align CELL (nm.length + 1)) + 72) :=
  ⟨rfl, rfl, rfl, rfl, rfl, rfl, rfl, rfl, by show _ + 16 + _ + 72 = _; omega⟩

/-- The engine after the names of a block were declared. -/
theorem comp_declare (names : List (List Nat)) :
    ∀ (s : State) (L : List Entry) (c : Nat), Comp s L → s.shared S_LOCAL_COUNT = (c : Int) →
      c + names.length < 4611686018427387904 →
      (∀ n ∈ names, isWordTok n = true ∧ ∀ b ∈ builtins, ¬ n = b.1) →
      s.memory_i + localsSize names ≤ s.memory_size →
      Comp (s.declare names) (localEntries s names L) ∧
        (s.declare names).shared S_LOCAL_COUNT = ((c + names.length : Nat) : Int) ∧
        (s.declare names).memory_i = s.memory_i + localsSize names ∧
        (s.declare names).memory = s.memory ∧
        (s.declare names).memory_size = s.memory_size ∧
        (s.declare names).view = s.view ∧ (s.declare names).locals = s.locals ∧
        (s.declare names).out = s.out ∧
        (s.declare names).shared S_DICT_ROOT = s.shared S_DICT_ROOT := by
  induction names with
  | nil =>
    intro s L c hc hlc _ _ _
    exact ⟨hc, hlc, rfl, rfl, rfl, rfl, rfl, rfl, rfl⟩
  | cons nm ns ih =>
    intro s L c hc hlc hcn hnames hroom
    simp only [List.length_cons] at hcn
    have hsz : localsSize (nm :: ns) =
        16 + (32 + align CELL (nm.length + 1)) + 72 + localsSize ns := rfl
    rw [hsz] at hroom
    have hnm := hnames nm (List.mem_cons_self _ _)
    obtain ⟨hname, hlen, _⟩ := isWordTok_nonzero nm hnm.1
    obtain ⟨k1, k2, k3, k4, _, k6, k7, _, k9⟩ := local_keep s nm
    have hc2 : Comp (s.local nm) (localEntry s nm :: L) :=
      comp_local s L nm hc hname (by omega) (by omega) hnm.2
    have hlc2 : (s.local nm).shared S_LOCAL_COUNT = ((c + 1 : Nat) : Int) := by
      show upd (upd s.shared S_LATEST (s.memory + ((s.memory_i + 16 : Nat) : Int)))
        S_LOCAL_COUNT (wrap (s.shared S_LOCAL_COUNT + 1)) S_LOCAL_COUNT = _
      rw [upd_same, hlc]
      push_cast
      exact wrap_of_range (by omega) (by omega)
    obtain ⟨i1, i2, i3, i4, i5, i6, i7, i8, i9⟩ := ih (s.local nm) (localEntry s nm :: L)
      (c + 1) hc2 hlc2 (by omega) (fun n hn => hnames n (List.mem_cons_of_mem _ hn))
      (by rw [k9, k2]; omega)
    refine ⟨i1, ?_, ?_, i4.trans k1, i5.trans k2, i6.trans k3, i7.trans k4, i8.trans k6,
      i9.trans k7⟩
    · show ((s.local nm).declare ns).shared S_LOCAL_COUNT = _
      rw [i2]
      simp only [List.length_cons]
      congr 1
      omega
    · show ((s.local nm).declare ns).memory_i = _
      rw [i3, k9, hsz]
      omega

/-- The engine after `}`. -/
theorem comp_closeBlock (s : State) (L : List Entry) (c : Nat) (hc : Comp s L)
    (hlc : s.shared S_LOCAL_COUNT = (c : Int)) (hcn : c < 4611686018427387904)
    (hroom : s.memory_i + 8 * c ≤ s.memory_size) :
    Comp s.closeBlock L ∧ s.closeBlock.shared S_LOCAL_COUNT = 0 ∧
      s.closeBlock.memory_i = s.memory_i + 8 * c ∧ s.closeBlock.memory = s.memory ∧
      s.closeBlock.memory_size = s.memory_size ∧ s.closeBlock.view = s.view ∧
      s.closeBlock.locals = s.locals ∧ s.closeBlock.out = s.out ∧
      s.closeBlock.shared S_DICT_ROOT = s.shared S_DICT_ROOT := by
  have hn : toSize (s.shared S_LOCAL_COUNT) = c := by rw [hlc, toSize_of_nat (by omega)]
  obtain ⟨cs, hcs⟩ : ∃ cs : List Int,
      cs = List.replicate (toSize (s.shared S_LOCAL_COUNT)) OP_LOCAL_SET := ⟨_, rfl⟩
  have hlen : cs.length = c := by rw [hcs, List.length_replicate, hn]
  have hp := comp_puts s L cs hc (by rw [hlen]; exact hroom)
  obtain ⟨p1, p2, p3, p4, p5, _, p7⟩ := puts_keep s cs
  have hi := puts_memory_i s cs
  unfold State.closeBlock
  rw [← hcs]
  refine ⟨⟨eng_setShared _ L _ _ hp.1 (by decide), ?_, ?_⟩, ?_, ?_, p2, p1, p3, p5, p7, ?_⟩
  · show upd (s.puts cs).shared S_LOCAL_COUNT 0 S_COMPILING = 1
    rw [upd_other _ _ _ _ (by decide)]
    exact hp.2.1
  · show upd (s.puts cs).shared S_LOCAL_COUNT 0 S_WORD_AVAILABLE = 0
    rw [upd_other _ _ _ _ (by decide)]
    exact hp.2.2
  · show upd (s.puts cs).shared S_LOCAL_COUNT 0 S_LOCAL_COUNT = 0
    exact upd_same _ _ _
  · show (s.puts cs).memory_i = _
    rw [hi, hlen]
  · show upd (s.puts cs).shared S_LOCAL_COUNT 0 S_DICT_ROOT = _
    rw [upd_other _ _ _ _ (by decide), p4]

end ft

namespace ft

open Error Token

/-! ## Colon definitions with a block of locals (C17) -/

/-- The body of a definition made of numbers and of words bound to entries without the flag
`IMMEDIATE`: two cells are emitted per token; nothing else changes. -/
theorem comp_body (L : List Entry) (ts : List (List Nat)) (hts : ∀ t ∈ ts, isTok t = true) :
    ∀ (body : List (List Nat)) (s : State) (tk : Token) (f : Nat), Comp s L →
      Cur s tk (body ++ ts) →
      (∀ w ∈ body, isNumTok w = true ∨ (isWordTok w = true ∧
        ∃ e, findEntry w L = some e ∧ hasFlag e.flags FLAG_IMMEDIATE = false)) →
      s.memory_i + 16 * body.length ≤ s.memory_size → L.length < f →
      ∃ s2 tk2, Comp s2 L ∧ Cur s2 tk2 ts ∧ s.interp (f + body.length) tk = s2.interp f tk2 ∧
        s2.memory_i = s.memory_i + 16 * body.length ∧ s2.memory = s.memory ∧
        s2.memory_size = s.memory_size ∧ s2.view = s.view ∧ s2.shared = s.shared ∧
        s2.locals = s.locals ∧ s2.out = s.out ∧ (∀ i, i < s.memory_i → s2.mem i = s.mem i) := by
  intro body
  induction body with
  | nil =>
    intro s tk f hc hcur _ _ _
    exact ⟨s, tk, hc, hcur, rfl, rfl, rfl, rfl, rfl, rfl, rfl, rfl, fun _ _ => rfl⟩
  | cons w ws ih =>
    intro s tk f hc hcur hbody hroom hf
    simp only [List.length_cons] at hroom
    have hrest : ∀ t ∈ ws ++ ts, isTok t = true := by
      intro t ht
      rcases List.mem_append.mp ht with h | h
      · rcases hbody t (List.mem_cons_of_mem _ h) with h1 | h1
        · unfold isTok; rw [h1]; rfl
        · unfold isTok; rw [h1.1]; simp
      · exact hts t h
    have key : ∃ (cs : List Int) (s1 : State) (tk1 : Token), cs.length = 2 ∧
        Tok (s.puts cs) s1 ∧ Cur s1 tk1 (ws ++ ts) ∧
        s.interp (f + ws.length + 1) tk = s1.interp (f + ws.length) tk1 := by
      rcases hbody w (List.mem_cons_self _ _) with hn | ⟨hw, e, he, him⟩
      · obtain ⟨s1, tk1, a1, a2, a3⟩ := comp_number s L w (ws ++ ts) tk (f + ws.length) hc hcur
          hn hrest (by omega)
        exact ⟨[OP_PUSH_IMMEDIATE, numVal w], s1, tk1, rfl, a1, a2, a3⟩
      · obtain ⟨s1, tk1, a1, a2, a3⟩ := comp_word s L w e (ws ++ ts) tk (f + ws.length) hc hcur
          hw he him hrest (by omega) (by omega)
        exact ⟨_, s1, tk1, entry_call_length _ e, a1, a2, a3⟩
    obtain ⟨cs, s1, tk1, hlen, a1, a2, a3⟩ := key
    have hc1 : Comp s1 L := tok_comp _ _ _ a1 (comp_puts s L cs hc (by rw [hlen]; omega))
    obtain ⟨m1, m2, m3, m4, m5, m6, _, m8⟩ := tok_memory_i _ _ a1
    obtain ⟨p1, p2, p3, p4, p5, _, p7⟩ := puts_keep s cs
    have hi1 : s1.memory_i = s.memory_i + 16 := by rw [m1, puts_memory_i, hlen]
    obtain ⟨s2, tk2, b1, b2, b3, b4, b5, b6, b7, b8, b9, b10, b11⟩ := ih s1 tk1 f hc1 a2
      (fun t ht => hbody t (List.mem_cons_of_mem _ ht))
      (by rw [hi1, m2, p1]; omega) hf
    refine ⟨s2, tk2, b1, b2, ?_, ?_, ?_, ?_, ?_, ?_, ?_, ?_, ?_⟩
    · show s.interp (f + (ws.length + 1)) tk = _
      rw [show f + (ws.length + 1) = f + ws.length + 1 by omega, a3, b3]
    · rw [b4, hi1]; simp only [List.length_cons]; omega
    · rw [b5, m4, p2]
    · rw [b6, m2, p1]
    · rw [b7, tok_view _ _ a1, p3]
    · rw [b8, m5, p4]
    · rw [b9, m6, p5]
    · rw [b10, m8, p7]
    · intro i hi
      rw [b11 i (by omega), m3, puts_below s cs i hi]

/-- The end of a colon definition: the body, then `;` and the end of the text. -/
theorem define_tail (s : State) (A : List Entry) (e : Entry) (L : List Entry)
    (body : List (List Nat)) (tk : Token) (g : Nat) (hc : Comp s (A ++ e :: L))
    (hroot : s.shared S_DICT_ROOT = s.memory + (e.off : Int))
    (hloc : ∀ l ∈ A, ∀ b ∈ builtins, ¬ l.name = b.1)
    (hcur : Cur s tk (body ++ [str ";"]))
    (hbody : ∀ w ∈ body, isNumTok w = true ∨ (isWordTok w = true ∧
      ∃ x, findEntry w (A ++ e :: L) = some x ∧ hasFlag x.flags FLAG_IMMEDIATE = false))
    (hroom : s.memory_i + 16 * body.length + 8 ≤ s.memory_size)
    (hg : (A ++ e :: L).length < g) :
    ∃ s2, s.interp (g + 1 + 1 + body.length) tk = .ok (E_OK, s2) ∧ Top s2 (e :: L) ∧
      s2.memory_i = s.memory_i + 16 * body.length + 8 ∧
      rdCell s2.mem (s.memory_i + 16 * body.length) = OP_EXIT ∧
      s2.shared S_LATEST = s.memory + (e.off : Int) ∧ s2.memory = s.memory ∧
      s2.memory_size = s.memory_size ∧ s2.view = s.view ∧ s2.locals = s.locals ∧
      s2.out = s.out ∧ (∀ i, i < s.memory_i → s2.mem i = s.mem i) := by
  obtain ⟨s1, tk1, a1, a2, a3, a4, a5, a6, a7, a8, a9, a10, a11⟩ :=
    comp_body (A ++ e :: L) [str ";"] (by intro t ht; rw [List.mem_singleton.mp ht]; decide)
      body s tk (g + 1 + 1) hc hcur hbody (by omega) (by omega)
  obtain ⟨s2, tk2, b1, b2, b3⟩ := semi_step s1 (A ++ e :: L) [] tk1 (g + 1) a1 a2 (by simp)
    (by rw [a4, a6]; omega) (by omega)
  have ht1 : Top s1.finish (e :: L) := top_finish s1 A e L a1 (by rw [a8, a5]; exact hroot) hloc
    (by rw [a4, a6]; omega)
  obtain ⟨m1, m2, m3, m4, m5, m6, _, m8⟩ := tok_memory_i _ _ b1
  refine ⟨s2, ?_, tok_top _ _ _ b1 ht1, ?_, ?_, ?_, ?_, ?_, ?_, ?_, ?_, ?_⟩
  · rw [a3, b3, interp_last s2 tk2 g b2]
  · rw [m1]
    show s1.memory_i + 8 = _
    rw [a4]
  · rw [m3]
    show rdCell (wrCell s1.mem s1.memory_i OP_EXIT) _ = _
    rw [← a4, rdCell_wrCell_same]
    exact wrap_of_range (by decide) (by decide)
  · rw [m5]
    show upd (upd s1.shared S_COMPILING 0) S_LATEST (s1.shared S_DICT_ROOT) S_LATEST = _
    rw [upd_same, a8, hroot]
  · rw [m4]; exact a5
  · rw [m2]; exact a6
  · rw [tok_view _ _ b1]; exact a7
  · rw [m6]; exact a9
  · rw [m8]; exact a10
  · intro i hi
    rw [m3]
    show wrCell s1.mem s1.memory_i OP_EXIT i = _
    rw [wrCell_outside _ _ _ _ (by rw [a4]; omega), a11 i hi]

/-- The pointer a chain starts from is determined by the entries. -/
theorem chain_ptr_eq (m m2 : Nat → Nat) (base : Int) (b b2 : Nat) (p p2 : Int)
    (L : List Entry) (h : Chain m base b p L) (h2 : Chain m2 base b2 p2 L) : p = p2 := by
  cases L with
  | nil =>
    rw [chain_nil_iff] at h h2
    rw [h, h2]
  | cons e es =>
    rw [chain_cons_iff] at h h2
    rw [h.1, h2.1]

/-- The state right after `: name`, up to the tokenizer fields. -/
theorem header_fields (s s1 : State) (nm : List Nat) (h : Tok (s.header nm) s1) :
    s1.memory_i = s.memory_i + (32 + align CELL (nm.length + 1)) ∧
      s1.memory_size = s.memory_size ∧ s1.memory = s.memory ∧ s1.view = s.view ∧
      s1.locals = s.locals ∧ s1.out = s.out ∧
      s1.shared S_LOCAL_COUNT = s.shared S_LOCAL_COUNT ∧
      s1.shared S_DICT_ROOT = s.memory + (s.memory_i : Int) := by
  obtain ⟨m1, m2, _, m4, m5, m6, _, m8⟩ := tok_memory_i _ _ h
  refine ⟨m1, m2, m4, (tok_view _ _ h).trans rfl, m6, m8, ?_, ?_⟩
  · rw [m5]
    show upd (upd (upd s.shared S_COMPILING 1) S_LATEST (s.memory + (s.memory_i : Int)))
      S_DICT_ROOT (s.memory + (s.memory_i : Int)) S_LOCAL_COUNT = _
    rw [upd_other _ _ _ _ (by decide), upd_other _ _ _ _ (by decide),
      upd_other _ _ _ _ (by decide)]
  · rw [m5]
    show upd (upd (upd s.shared S_COMPILING 1) S_LATEST (s.memory + (s.memory_i : Int)))
      S_DICT_ROOT (s.memory + (s.memory_i : Int)) S_DICT_ROOT = _
    exact upd_same _ _ _

/-- What holds of an engine at top level whose newest entry is the one of a definition just
completed, in terms of the engine before the definition. -/
theorem completed_spec (s s1 : State) (L : List Entry) (nm : List Nat) (fuel : Nat)
    (ht : Top s L) (ht1 : Top s1 (colonEntry s nm :: L)) (hm : s1.memory = s.memory)
    (hname : ∀ c ∈ nm, c ≠ 0) (hf : L.length + 1 < fuel) :
    s1.shared S_COMPILING = 0 ∧ s1.shared S_LATEST = s.memory + (s.memory_i : Int) ∧
      s1.load (s1.shared S_LATEST + OFF_PREVIOUS) = .ok (s.shared S_LATEST) ∧
      s1.lookup fuel nm = .ok (s.memory + (s.memory_i : Int)) ∧
      (∀ w : List Nat, (∀ c ∈ w, c ≠ 0) → ¬ w = nm → s1.lookup fuel w = s.lookup fuel w) := by
  obtain ⟨hb, hsz, hle, _, hch, _⟩ := ht1.1.1
  have hch0 := ht.1.1.2.2.2.2.1
  rw [chain_cons_iff] at hch
  obtain ⟨c1, c2, _, _, _, c6⟩ := hch
  have hprev : rdCell s1.mem s.memory_i = s.shared S_LATEST :=
    chain_ptr_eq _ _ _ _ _ _ _ L (by rw [hm] at c6; exact c6) hch0
  have hlat : s1.shared S_LATEST = s.memory + (s.memory_i : Int) := by rw [c1, hm]; rfl
  have hhd := entry_hdr_in (colonEntry s nm)
  have hoff : (colonEntry s nm).off = s.memory_i := rfl
  have hin : s.memory_i + 8 ≤ s1.memory_size := by omega
  refine ⟨ht1.2.1, hlat, ?_, ?_, ?_⟩
  · rw [hlat, load_at s1 _ s.memory_i (by rw [hm]; unfold OFF_PREVIOUS; omega) hin, hprev]
  · rw [arena_lookup s1 _ nm fuel ht1.1.1 hname (by simp only [List.length_cons]; omega),
      findEntry_cons_eq nm (colonEntry s nm) L rfl, hm]
    rfl
  · intro w hw hne
    rw [arena_lookup s1 _ w fuel ht1.1.1 hw (by simp only [List.length_cons]; omega),
      findEntry_cons_ne w (colonEntry s nm) L (fun h => hne h.symm),
      arena_lookup s L w fuel ht.1.1 hw (by omega), hm]

theorem blockToks_tok (blk : Option (List (List Nat)))
    (h : ∀ n ∈ blockNames blk, isWordTok n = true) : ∀ t ∈ blockToks blk, isTok t = true := by
  cases blk with
  | none => intro t ht; simp [blockToks] at ht
  | some ns =>
    intro t ht
    simp only [blockToks, List.mem_cons, List.mem_append, List.mem_singleton,
      List.not_mem_nil, or_false] at ht
    rcases ht with rfl | ht | rfl
    · decide
    · unfold isTok; rw [h t ht]; simp
    · decide

/-- A colon definition whose body is an optional block of locals followed by numbers and
words bound to entries without the flag `IMMEDIATE`, run by the interpreter loop. -/
theorem define_block (s : State) (L : List Entry) (nm : List Nat)
    (blk : Option (List (List Nat))) (body : List (List Nat)) (tk : Token) (fuel : Nat)
    (ht : Top s L) (hlc : s.shared S_LOCAL_COUNT = 0)
    (hcur : Cur s tk (str ":" :: nm :: (blockToks blk ++ body ++ [str ";"])))
    (hw : isWordTok nm = true) (hnb : ∀ b ∈ builtins, ¬ nm = b.1)
    (hnames : ∀ n ∈ blockNames blk,
      isWordTok n = true ∧ ¬ n = str "\x7d" ∧ ∀ b ∈ builtins, ¬ n = b.1)
    (hbody : ∀ w ∈ body, isNumTok w = true ∨ (isWordTok w = true ∧ w ∉ blockNames blk ∧
      ∃ x, findEntry w (colonEntry s nm :: L) = some x ∧
        hasFlag x.flags FLAG_IMMEDIATE = false))
    (hroom : s.memory_i + (32 + align CELL (nm.length + 1)) + localsSize (blockNames blk) +
      8 * (blockNames blk).length + 16 * body.length + 8 ≤ s.memory_size)
    (hf : L.length + 2 * (blockNames blk).length + body.length + 8 ≤ fuel) :
    ∃ s2, s.interp fuel tk = .ok (E_OK, s2) ∧ Top s2 (colonEntry s nm :: L) ∧
      s2.memory_i = s.memory_i + (32 + align CELL (nm.length + 1)) +
        localsSize (blockNames blk) + 8 * (blockNames blk).length + 16 * body.length + 8 ∧
      rdCell s2.mem (s2.memory_i - 8) = OP_EXIT ∧ s2.memory = s.memory ∧
      s2.memory_size = s.memory_size ∧ s2.view = s.view ∧ s2.locals = s.locals ∧
      s2.out = s.out := by
  obtain ⟨hname, hlen, _⟩ := isWordTok_nonzero nm hw
  have hsemi : ∀ t ∈ [str ";"], isTok t = true := by
    intro t ht; rw [List.mem_singleton.mp ht]; decide
  have hbt : ∀ t ∈ body, isTok t = true := by
    intro t ht
    rcases hbody t ht with h | h
    · unfold isTok; rw [h]; rfl
    · unfold isTok; rw [h.1]; simp
  have hall : ∀ t ∈ blockToks blk ++ body ++ [str ";"], isTok t = true := by
    intro t ht
    rcases List.mem_append.mp ht with h | h
    · rcases List.mem_append.mp h with h | h
      · exact blockToks_tok blk (fun n hn => (hnames n hn).1) t h
      · exact hbt t h
    · exact hsemi t h
  have hroom0 : s.memory_i + (32 + align CELL (nm.length + 1)) ≤ s.memory_size := by omega
  have hc0 : Comp (s.header nm) (colonEntry s nm :: L) :=
    comp_header s L nm ht hname (by omega) hroom0 hnb
  cases blk with
  | none =>
    have hn0 : (blockNames (none : Option (List (List Nat)))).length = 0 := rfl
    have hz0 : localsSize (blockNames (none : Option (List (List Nat)))) = 0 := rfl
    rw [hn0] at hf
    rw [hn0, hz0] at hroom ⊢
    obtain ⟨g, rfl⟩ : ∃ g, fuel = g + 1 + body.length + 2 := ⟨fuel - body.length - 3, by omega⟩
    obtain ⟨s1, tk1, a1, a2, a3⟩ := colon_step s L nm _ tk (g + 1 + body.length) ht hcur hw hall
      hroom0 (by omega)
    obtain ⟨h1, h2, h3, h4, h5, h6, _, h8⟩ := header_fields s s1 nm a1
    have hc1 : Comp s1 ([] ++ colonEntry s nm :: L) := tok_comp _ _ _ a1 hc0
    obtain ⟨s2, b1, b2, b3, b4, _, b6, b7, b8, b9, b10, _⟩ := define_tail s1 []
      (colonEntry s nm) L body tk1 g hc1 (by rw [h8, h3]; rfl)
      (by intro l hl; simp at hl) a2
      (fun w hw => by
        rcases hbody w hw with h | h
        · exact Or.inl h
        · exact Or.inr ⟨h.1, h.2.2⟩)
      (by rw [h1, h2]; omega) (by simp only [List.nil_append, List.length_cons]; omega)
    refine ⟨s2, ?_, b2, by rw [b3, h1]; omega, ?_, b6.trans h3, b7.trans h2, b8.trans h4,
      b9.trans h5, b10.trans h6⟩
    · rw [a3, show g + 1 + body.length + 1 = g + 1 + 1 + body.length by omega]
      exact b1
    · rw [b3, show s1.memory_i + 16 * body.length + 8 - 8 = s1.memory_i + 16 * body.length by
        omega]
      exact b4
  | some names =>
    have hn0 : blockNames (some names) = names := rfl
    rw [hn0] at hf hroom hnames ⊢
    obtain ⟨G, rfl⟩ : ∃ G, fuel = G + 1 + body.length + names.length + 1 + 2 :=
      ⟨fuel - body.length - names.length - 4, by omega⟩
    have hcur0 : Cur s tk (str ":" :: nm ::
        (str "\x7b" :: (names ++ str "\x7d" :: (body ++ [str ";"])))) := by
      have e : blockToks (some names) ++ body ++ [str ";"] =
          str "\x7b" :: (names ++ str "\x7d" :: (body ++ [str ";"])) := by
        simp [blockToks, List.append_assoc]
      rw [← e]; exact hcur
    have hrest : ∀ t ∈ body ++ [str ";"], isTok t = true := by
      intro t ht
      rcases List.mem_append.mp ht with h | h
      · exact hbt t h
      · exact hsemi t h
    obtain ⟨s1, tk1, a1, a2, a3⟩ := colon_step s L nm _ tk
      (G + 1 + body.length + names.length + 1) ht hcur0 hw
      (by
        intro t ht
        rcases List.mem_cons.mp ht with rfl | ht
        · decide
        · exact names_tok names _ (fun n hn => (hnames n hn).1) hrest t ht)
      hroom0 (by omega)
    obtain ⟨h1, h2, h3, h4, h5, h6, h7, h8⟩ := header_fields s s1 nm a1
    have hc1 : Comp s1 (colonEntry s nm :: L) := tok_comp _ _ _ a1 hc0
    have hlc1 : s1.shared S_LOCAL_COUNT = ((0 : Nat) : Int) := by rw [h7, hlc]; rfl
    have hms : s.memory_size < 4611686018427387904 := by
      have := ht.1.1.1; have := ht.1.1.2.1; omega
    have hnl : names.length < 4611686018427387904 := by omega
    obtain ⟨s2, tk2, c1, c2, c3⟩ := block_step s1 (colonEntry s nm :: L) names
      (body ++ [str ";"]) tk1 0 (G + 1 + body.length) hc1 a2 hlc1 (by omega) hnames hrest
      (by rw [h1, h2]; omega) (by simp only [List.length_cons]; omega)
    obtain ⟨d1, d2, d3, d4, d5, d6, d7, d8, d9⟩ := comp_declare names s1 (colonEntry s nm :: L) 0
      hc1 hlc1 (by omega) (fun n hn => ⟨(hnames n hn).1, (hnames n hn).2.2⟩)
      (by rw [h1, h2]; omega)
    obtain ⟨e1, _, e3, e4, e5, e6, e7, e8, e9⟩ := comp_closeBlock (s1.declare names) _
      (0 + names.length) d1 d2 (by omega) (by rw [d3, d5, h1, h2]; omega)
    obtain ⟨A, hA1, hA2, hA3⟩ := localEntries_split names s1 (colonEntry s nm :: L)
    rw [hA1] at e1
    have hc2 : Comp s2 (A ++ colonEntry s nm :: L) := tok_comp _ _ _ c1 e1
    obtain ⟨m1, m2, _, m4, m5, m6, _, m8⟩ := tok_memory_i _ _ c1
    have hi2 : s2.memory_i = s.memory_i + (32 + align CELL (nm.length + 1)) +
        localsSize names + 8 * names.length := by
      rw [m1, e3, d3, h1]; omega
    have hz2 : s2.memory_size = s.memory_size := by rw [m2, e5, d5, h2]
    have hm2 : s2.memory = s.memory := by rw [m4, e4, d4, h3]
    obtain ⟨s3, b1, b2, b3, b4, _, b6, b7, b8, b9, b10, _⟩ := define_tail s2 A
      (colonEntry s nm) L body tk2 (G + names.length) hc2
      (by rw [m5, e9, d9, h8, hm2]; rfl)
      (fun l hl => (hnames l.name (hA2 l hl)).2.2) c2
      (fun w hw => by
        rcases hbody w hw with h | h
        · exact Or.inl h
        · refine Or.inr ⟨h.1, ?_⟩
          rw [findEntry_append w A _ (fun l hl hl2 => h.2.1 (hl2 ▸ hA2 l hl))]
          exact h.2.2)
      (by rw [hi2, hz2]; omega)
      (by simp only [List.length_append, List.length_cons, hA3]; omega)
    refine ⟨s3, ?_, b2, by rw [b3, hi2], ?_, b6.trans hm2, b7.trans hz2, ?_, ?_, ?_⟩
    · rw [a3, c3, show G + 1 + body.length + names.length + 1 =
        G + names.length + 1 + 1 + body.length by omega]
      exact b1
    · rw [b3, show s2.memory_i + 16 * body.length + 8 - 8 = s2.memory_i + 16 * body.length by
        omega]
      exact b4
    · rw [b8, tok_view _ _ c1, e6, d6, h4]
    · rw [b9, m6, e7, d7, h5]
    · rw [b10, m8, e8, d8, h6]

/-- Claim C17, a case the sentence does not cover: a local may be named `;`.  On the
engine of the REPL the text `: foo \x7b ; \x7d ;` returns `OK`, yet the final `;` was bound
to the local (whose compile-time code emits `LOCAL_PUSH 0`), so the definition is still open:
`COMPILING` is 1. -/
theorem local_shadows_semicolon :
    errOf ((State.fresh replCfg).exec 100 (str ": foo \x7b ; \x7d ;")) = some E_OK ∧
      (stateOf ((State.fresh replCfg).exec 100 (str ": foo \x7b ; \x7d ;"))
        (State.fresh replCfg)).shared S_COMPILING = 1 := by
  set_option maxRecDepth 100000 in decide!

/-- Claim C17 (definition completion).  In interpret mode with no locals block open, let
`nm` be a word that is not the name of a built-in, let the optional block `\x7b names \x7d`
declare words that are not names of built-ins either (so none is `;` or `\x7d`), and let
the body be numbers and words other than the declared names that are bound, in the
dictionary extended by `nm`, to entries without the flag `IMMEDIATE`.  With room in the
arena and enough fuel, `exec` of `: nm \x7b names \x7d body ;` returns `OK`; afterwards
`COMPILING` is 0, the last cell emitted is `EXIT`, `LATEST` is the entry of `nm` (created at
the old `here`), its field `previous` holds the old `LATEST`, `lookup nm` finds that entry
and the lookup of every other string gives what it gave before the definition, so the
locals are no longer visible. -/
theorem definition_completes (s : State) (L : List Entry) (nm : List Nat)
    (blk : Option (List (List Nat))) (body : List (List Nat)) (fuel : Nat)
    (ht : Top s L) (hlc : s.shared S_LOCAL_COUNT = 0)
    (hw : isWordTok nm = true) (hnb : ∀ b ∈ builtins, ¬ nm = b.1)
    (hnames : ∀ n ∈ blockNames blk,
      isWordTok n = true ∧ ¬ n = str "\x7d" ∧ ∀ b ∈ builtins, ¬ n = b.1)
    (hbody : ∀ w ∈ body, isNumTok w = true ∨ (isWordTok w = true ∧ w ∉ blockNames blk ∧
      ∃ x, findEntry w (colonEntry s nm :: L) = some x ∧
        hasFlag x.flags FLAG_IMMEDIATE = false))
    (hroom : s.memory_i + (32 + align CELL (nm.length + 1)) + localsSize (blockNames blk) +
      8 * (blockNames blk).length + 16 * body.length + 8 ≤ s.memory_size)
    (hf : L.length + 2 * (blockNames blk).length + body.length + 8 ≤ fuel) :
    ∃ s1, s.exec fuel (unwords (str ":" :: nm :: (blockToks blk ++ body ++ [str ";"]))) =
        .ok (E_OK, s1) ∧
      s1.shared S_COMPILING = 0 ∧ rdCell s1.mem (s1.memory_i - 8) = OP_EXIT ∧
      s1.shared S_LATEST = s.memory + (s.memory_i : Int) ∧
      s1.load (s1.shared S_LATEST + OFF_PREVIOUS) = .ok (s.shared S_LATEST) ∧
      s1.lookup fuel nm = .ok (s.memory + (s.memory_i : Int)) ∧
      (∀ w : List Nat, (∀ c ∈ w, c ≠ 0) → ¬ w = nm → s1.lookup fuel w = s.lookup fuel w) := by
  obtain ⟨hname, _, _⟩ := isWordTok_nonzero nm hw
  have hv : ∀ t ∈ str ":" :: nm :: (blockToks blk ++ body ++ [str ";"]), isTok t = true := by
    intro t ht
    rcases List.mem_cons.mp ht with rfl | ht
    · decide
    rcases List.mem_cons.mp ht with rfl | ht
    · unfold isTok; rw [hw]; simp
    rcases List.mem_append.mp ht with h | h
    · rcases List.mem_append.mp h with h | h
      · exact blockToks_tok blk (fun n hn => (hnames n hn).1) t h
      · rcases hbody t h with h | h
        · unfold isTok; rw [h]; rfl
        · unfold isTok; rw [h.1]; simp
    · rw [List.mem_singleton.mp h]; decide
  obtain ⟨tk, i, n, sc, k, h1, h2⟩ := exec_fetch s fuel _ hv
  obtain ⟨s0, hs0⟩ : ∃ s0 : State, s0 = (s.start (unwords (str ":" :: nm ::
      (blockToks blk ++ body ++ [str ";"])))).retok i n sc k := ⟨_, rfl⟩
  rw [← hs0] at h1 h2
  have ht0 : Top s0 L := by rw [hs0]; exact ht
  have hi0 : s0.memory_i = s.memory_i := by rw [hs0]; rfl
  have hz0 : s0.memory_size = s.memory_size := by rw [hs0]; rfl
  have hm0 : s0.memory = s.memory := by rw [hs0]; rfl
  have hsh0 : s0.shared = s.shared := by rw [hs0]; rfl
  have hce : colonEntry s0 nm = colonEntry s nm := by
    unfold colonEntry; rw [hi0]
  obtain ⟨s2, a1, a2, _, a4, a5, _⟩ := define_block s0 L nm blk body tk fuel ht0
    (by rw [hsh0]; exact hlc) h2 hw hnb hnames (by rw [hce]; exact hbody)
    (by rw [hi0, hz0]; exact hroom) hf
  rw [hce] at a2
  obtain ⟨c1, c2, c3, c4, c5⟩ := completed_spec s s2 L nm fuel ht a2 (a5.trans hm0) hname
    (by omega)
  exact ⟨s2, h1.trans a1, c1, a4, c2, c3, c4, c5⟩

theorem definition_completes_witness :
    ∃ s1, (State.fresh replCfg).exec 40 (unwords (str ":" :: str "foo" ::
        (blockToks (some [str "a"]) ++ [decimal 5, str "dup"] ++ [str ";"]))) =
        .ok (E_OK, s1) ∧
      s1.shared S_COMPILING = 0 ∧ rdCell s1.mem (s1.memory_i - 8) = OP_EXIT ∧
      s1.shared S_LATEST =
        (State.fresh replCfg).memory + ((State.fresh replCfg).memory_i : Int) ∧
      s1.load (s1.shared S_LATEST + OFF_PREVIOUS) =
        .ok ((State.fresh replCfg).shared S_LATEST) ∧
      s1.lookup 40 (str "foo") =
        .ok ((State.fresh replCfg).memory + ((State.fresh replCfg).memory_i : Int)) ∧
      (∀ w : List Nat, (∀ c ∈ w, c ≠ 0) → ¬ w = str "foo" →
        s1.lookup 40 w = (State.fresh replCfg).lookup 40 w) :=
  definition_completes (State.fresh replCfg) builtinDict (str "foo") (some [str "a"])
    [decimal 5, str "dup"] 40 (fresh_spec replCfg goodCfg_repl).2.1 (by decide!)
    (by decide) (by decide) (by decide)
    (by
      intro w hw
      simp only [List.mem_cons, List.mem_singleton, List.not_mem_nil, or_false] at hw
      rcases hw with rfl | rfl
      · exact Or.inl (by decide)
      · exact Or.inr ⟨by decide, by decide, _, rfl, rfl⟩)
    (by
      rw [fresh_repl_fields.2.2.1, fresh_repl_fields.2.1]
      decide!)
    (by decide)

end ft

namespace ft

open Error Token

/-! ## The virtual machine on the instructions of locals -/

theorem vm_jump (s : State) (code : Int) (ip g : Nat) (label : Int)
    (hop : s.load (code + 8 * (ip : Int)) = .ok OP_JUMP_IGNORED)
    (harg : s.load (code + 8 * ((ip : Int) + 1)) = .ok label)
    (h1 : 0 ≤ label) (h2 : label ≤ s.memory_i) :
    State.vm (g + 1) s code ip = State.vm g s (s.memory + label) 0 := by
  have hv : s.raddr_valid label = E_OK := by
    unfold State.raddr_valid
    rw [if_neg (by omega)]
  rw [State.vm, hop]
  simp only [ldv]
  rw [if_neg (by decide), if_neg (by decide), if_neg (by decide), if_neg (by decide),
    if_neg (by decide), if_pos (Or.inl trivial), harg]
  simp only [hv, ne_eq, not_true_eq_false, if_false]
  rfl

theorem vm_local_set (s : State) (code : Int) (ip g : Nat)
    (hop : s.load (code + 8 * (ip : Int)) = .ok OP_LOCAL_SET)
    (hsi : 0 < s.si) (hsz : s.si ≤ s.stack_size) (hl : s.locals.i < s.locals.size) :
    State.vm (g + 1) s code ip =
      State.vm g { s with
        si := s.si - 1,
        locals := { s.locals with
          data := upd s.locals.data s.locals.i (s.stack (s.si - 1)),
          i := s.locals.i + 1 } } code (ip + 1) := by
  have hpop : s.pop = .ok (E_OK, s.stack (s.si - 1), { s with si := s.si - 1 }) := by
    unfold State.pop
    rw [if_neg (by omega), if_pos (by omega)]
  have hpush : s.locals.push (s.stack (s.si - 1)) = .ok (E_OK, { s.locals with
      data := upd s.locals.data s.locals.i (s.stack (s.si - 1)), i := s.locals.i + 1 }) := by
    unfold Stack.push
    rw [if_neg (by omega), if_pos hl]
  rw [State.vm, hop]
  simp only [ldv]
  rw [if_neg (by decide), if_neg (by decide), if_neg (by decide), if_neg (by decide),
    if_neg (by decide), if_neg (by decide), if_neg (by decide), if_pos trivial, hpop, chkv_ok]
  simp only []
  rw [hpush]
  simp only [ne_eq, not_true_eq_false, if_false]

theorem vm_local_push (s : State) (code : Int) (ip g : Nat) (k : Int) (j : Nat)
    (hop : s.load (code + 8 * (ip : Int)) = .ok OP_LOCAL_PUSH)
    (harg : s.load (code + 8 * ((ip : Int) + 1)) = .ok k)
    (hj : wrap (s.locals.i - k - 1) = (j : Int)) (hjs : j < s.locals.size)
    (hsi : s.si < s.stack_size) :
    State.vm (g + 1) s code ip =
      State.vm g { s with stack := upd s.stack s.si (s.locals.data j), si := s.si + 1 }
        code (ip + 2) := by
  rw [State.vm, hop]
  simp only [ldv]
  rw [if_neg (by decide), if_neg (by decide), if_neg (by decide), if_neg (by decide),
    if_neg (by decide), if_neg (by decide), if_pos trivial, harg]
  simp only [hj]
  rw [if_pos ⟨by omega, by omega⟩]
  unfold State.push
  rw [if_pos hsi, chk_ok]
  rfl

/-- The callback of `,` on a well-formed engine whose data stack is not empty. -/
theorem comma_run (t : State) (L : List Entry) (g n : Nat) (c : Int) (ha : Arena t L)
    (hsi : t.si = n + 1) (hsz : n < t.stack_size) (hc : t.stack n = c)
    (hroom : t.memory_i + 8 ≤ t.memory_size) :
    Prim.comma.run g t = .ok (E_OK, ({ t with si := n } : State).put c) := by
  have hpop : t.pop = .ok (E_OK, c, { t with si := n }) := by
    unfold State.pop
    rw [if_neg (by omega), if_pos (by omega), show t.si - 1 = n by omega, hc]
  show w_comma t = _
  unfold w_comma
  rw [hpop, chkv_ok, dict_put_put ({ t with si := n } : State) L c ha hroom, chk_ok]

/-- The compile-time code of the `k`-th local, run by the virtual machine: `LOCAL_PUSH k`
is emitted at the cursor. -/
theorem vm_local_code (s : State) (L : List Entry) (k : Int) (a g : Nat) (he : Eng s L)
    (hcode : CodeAt s.mem a (localCode k)) (ha : a + 72 ≤ s.memory_i)
    (hsi : s.si < s.stack_size) (hroom : s.memory_i + 16 ≤ s.memory_size) :
    State.vm (g + 5) s (s.memory + (a : Int)) 0 = .ok (E_OK, s.useLocal k) := by
  obtain ⟨c0, c1, c2, c3, c4, c5, c6, c7, c8, _⟩ := hcode
  have hle : s.memory_i ≤ s.memory_size := he.1.2.2.1
  have f1 : ∀ b, b + 8 ≤ s.memory_i →
      rdCell (wrCell s.mem s.memory_i OP_LOCAL_PUSH) b = rdCell s.mem b :=
    fun b hb => rdCell_wrCell_disj _ _ _ _ (Or.inl hb)
  have f2 : ∀ b, b + 8 ≤ s.memory_i →
      rdCell (wrCell (wrCell s.mem s.memory_i OP_LOCAL_PUSH) (s.memory_i + 8) k) b =
        rdCell s.mem b :=
    fun b hb => (rdCell_wrCell_disj _ _ _ _ (Or.inl (by omega))).trans (f1 b hb)
  have hcg : ∀ t : State, t.cwords = s.cwords →
      t.cword_get Prim.comma.handle = .ok (E_OK, Prim.comma.fn, t) :=
    fun t ht => cword_get_handle t Prim.comma (ht ▸ he.2.1)
  -- PUSH_IMMEDIATE LOCAL_PUSH
  obtain ⟨l1, l2, _⟩ := loads2 s (s.memory + (a : Int)) 0 a _ _ (by simp) c0 c1 (by omega)
  have e1 : s.push OP_LOCAL_PUSH = .ok (E_OK,
      { s with stack := upd s.stack s.si OP_LOCAL_PUSH, si := s.si + 1 }) := by
    unfold State.push
    rw [if_pos hsi]
  show State.vm (g + 4 + 1) s (s.memory + (a : Int)) 0 = _
  rw [vm_push_imm s _ 0 (g + 4) _ l1 l2, e1, ign_ok]
  -- CALL_C ,
  obtain ⟨l3, l4, _⟩ := loads2
    ({ s with stack := upd s.stack s.si OP_LOCAL_PUSH, si := s.si + 1 } : State)
    (s.memory + (a : Int)) (0 + 2) (a + 8 + 8) _ _
    (by show s.memory + (a : Int) + 8 * ((0 + 2 : Nat) : Int) = s.memory + ((a + 8 + 8 : Nat) : Int)
        push_cast; omega)
    c2 c3 (by show a + 8 + 8 + 16 ≤ s.memory_size; omega)
  have e2 := comma_run
    ({ s with stack := upd s.stack s.si OP_LOCAL_PUSH, si := s.si + 1 } : State) L (g + 3)
    s.si OP_LOCAL_PUSH he.1 rfl hsi (upd_same _ _ _) (by show s.memory_i + 8 ≤ s.memory_size; omega)
  show State.vm (g + 3 + 1) _ _ _ = _
  rw [vm_call_c _ _ (0 + 2) (g + 3) _ l3 l4,
    hcg _ (by rfl), chkv_ok, call_fn, e2, chk_ok]
  -- PUSH_IMMEDIATE k
  have ha2 : Arena (({ s with stack := upd s.stack s.si OP_LOCAL_PUSH, si := s.si } : State).put
      OP_LOCAL_PUSH) L := arena_put s L _ he.1 (by omega)
  obtain ⟨l5, l6, _⟩ := loads2
    (({ s with stack := upd s.stack s.si OP_LOCAL_PUSH, si := s.si } : State).put OP_LOCAL_PUSH)
    (s.memory + (a : Int)) (0 + 2 + 2) (a + 8 + 8 + 8 + 8) OP_PUSH_IMMEDIATE k
    (by show s.memory + (a : Int) + 8 * ((0 + 2 + 2 : Nat) : Int) =
          s.memory + ((a + 8 + 8 + 8 + 8 : Nat) : Int)
        push_cast; omega)
    ((f1 _ (by omega)).trans c4) ((f1 _ (by omega)).trans c5)
    (by show a + 8 + 8 + 8 + 8 + 16 ≤ s.memory_size; omega)
  have e3 : (({ s with stack := upd s.stack s.si OP_LOCAL_PUSH, si := s.si } : State).put
      OP_LOCAL_PUSH).push k = .ok (E_OK,
      { s with stack := upd (upd s.stack s.si OP_LOCAL_PUSH) s.si k, si := s.si + 1,
               mem := wrCell s.mem s.memory_i OP_LOCAL_PUSH, memory_i := s.memory_i + 8 }) := by
    unfold State.push
    rw [if_pos (by exact hsi)]
    rfl
  show State.vm (g + 2 + 1) _ _ _ = _
  rw [vm_push_imm _ _ (0 + 2 + 2) (g + 2) _ l5 l6, e3, ign_ok]
  -- CALL_C ,
  obtain ⟨l7, l8, _⟩ := loads2
    ({ s with stack := upd (upd s.stack s.si OP_LOCAL_PUSH) s.si k, si := s.si + 1,
              mem := wrCell s.mem s.memory_i OP_LOCAL_PUSH, memory_i := s.memory_i + 8 } : State)
    (s.memory + (a : Int)) (0 + 2 + 2 + 2) (a + 8 + 8 + 8 + 8 + 8 + 8) OP_CALL_C
    Prim.comma.handle
    (by show s.memory + (a : Int) + 8 * ((0 + 2 + 2 + 2 : Nat) : Int) =
          s.memory + ((a + 8 + 8 + 8 + 8 + 8 + 8 : Nat) : Int)
        push_cast; omega)
    ((f1 _ (by omega)).trans c6) ((f1 _ (by omega)).trans c7)
    (by show a + 8 + 8 + 8 + 8 + 8 + 8 + 16 ≤ s.memory_size; omega)
  have e4 := comma_run
    ({ s with stack := upd (upd s.stack s.si OP_LOCAL_PUSH) s.si k, si := s.si + 1,
              mem := wrCell s.mem s.memory_i OP_LOCAL_PUSH, memory_i := s.memory_i + 8 } : State)
    L (g + 1) s.si k ha2 rfl hsi (upd_same _ _ _)
    (by show s.memory_i + 8 + 8 ≤ s.memory_size; omega)
  show State.vm (g + 1 + 1) _ _ _ = _
  rw [vm_call_c _ _ (0 + 2 + 2 + 2) (g + 1) _ l7 l8,
    hcg _ (by rfl), chkv_ok, call_fn, e4, chk_ok]
  -- EXIT
  have l9 : (s.useLocal k).load (s.memory + (a : Int) + 8 * ((0 + 2 + 2 + 2 + 2 : Nat) : Int)) =
      .ok OP_EXIT := by
    rw [load_at (s.useLocal k) _ (a + 8 + 8 + 8 + 8 + 8 + 8 + 8 + 8)
      (by show _ = s.memory + ((a + 8 + 8 + 8 + 8 + 8 + 8 + 8 + 8 : Nat) : Int)
          push_cast; omega)
      (by show a + 8 + 8 + 8 + 8 + 8 + 8 + 8 + 8 + 8 ≤ s.memory_size; omega)]
    exact congrArg Res.ok ((f2 _ (by omega)).trans c8)
  exact vm_exit (s.useLocal k) _ (0 + 2 + 2 + 2 + 2) g l9

/-- Entry and exit of `exec(ptrdiff_t*)` around a run that returns. -/
theorem enter_run (s : State) (run : State → Int → Nat → Res (Error × State)) (a : Nat)
    (e : Error) (s1 : State) (ha : a ≤ s.memory_i)
    (hrun : run s (s.memory + (a : Int)) 0 = .ok (e, s1)) :
    s.enter run a = .ok (e, { s1 with locals := { s1.locals with i := s.locals.i } }) := by
  have hv : s.raddr_valid (a : Int) = E_OK := by
    unfold State.raddr_valid
    rw [if_neg (by omega)]
  unfold State.enter
  rw [hv]
  simp only [ne_eq, not_true_eq_false, if_false, State.raddr_to_real, hrun]

/-- One iteration of the interpreter loop, in compile mode, on the name of a local: its
compile-time code runs and emits `LOCAL_PUSH k`. -/
theorem use_local_step (s : State) (L : List Entry) (w : List Nat) (e : Entry) (k : Int)
    (ts : List (List Nat)) (tk : Token) (f : Nat) (hc : Comp s L)
    (hcur : Cur s tk (w :: ts)) (hw : isWordTok w = true)
    (hfind : findEntry w L = some e) (hfl : e.flags = FLAG_COMPILE_ONLY + FLAG_IMMEDIATE)
    (hcode : CodeAt s.mem e.body (localCode k)) (hin : e.body + 72 ≤ s.memory_i)
    (hsi : s.si < s.stack_size) (hts : ∀ t ∈ ts, isTok t = true)
    (hroom : s.memory_i + 16 ≤ s.memory_size) (hf : L.length < f + 5) :
    ∃ s2 tk2, Tok (s.useLocal k) s2 ∧ Cur s2 tk2 ts ∧
      s.interp (f + 5 + 1) tk = s2.interp (f + 5) tk2 := by
  obtain ⟨he, hcm, hwa⟩ := hc
  obtain ⟨c1, c2, c3, _⟩ := cur_word _ _ _ _ hcur hw
  subst c1
  obtain ⟨s2, tk2, t1, t2, t3⟩ := next_step (s.useLocal k) ts (f + 5) c3 hts
  refine ⟨s2, tk2, t1, t2, ?_⟩
  have hms : s.memory + (s.memory_size : Int) < 4611686018427387904 := he.1.2.1
  have hle : s.memory_i ≤ s.memory_size := he.1.2.2.1
  have hb : 0 < s.memory := he.1.1
  rw [interp_word, exec_word_found s L w e _ he.1 c2 hfind hf, hfl]
  rw [if_neg (by rw [hcm]; decide), if_neg (by rw [hcm]; decide), if_neg (by decide)]
  have hr : s.real_to_raddr (s.memory + (e.body : Int)) = (e.body : Int) := by
    unfold State.real_to_raddr
    rw [show s.memory + (e.body : Int) - s.memory = e.body by omega]
    exact wrap_nat _ (by omega)
  rw [hr]
  unfold State.exec_vm
  rw [enter_run s _ e.body E_OK (s.useLocal k) (by omega)
    (vm_local_code s L k e.body f he hcode hin hsi hroom), chk_ok]
  exact t3

theorem comp_useLocal (s : State) (L : List Entry) (k : Int) (h : Comp s L)
    (hroom : s.memory_i + 16 ≤ s.memory_size) : Comp (s.useLocal k) L :=
  comp_puts s L [OP_LOCAL_PUSH, k] h (by simp only [List.length_cons, List.length_nil]; omega)

theorem vm_local_set_at (s : State) (code : Int) (ip g n li : Nat) (v : Int)
    (hop : s.load (code + 8 * (ip : Int)) = .ok OP_LOCAL_SET)
    (hsi : s.si = n + 1) (hsz : n < s.stack_size) (hv : s.stack n = v)
    (hli : s.locals.i = li) (hl : li < s.locals.size) :
    State.vm (g + 1) s code ip =
      State.vm g { s with
        si := n,
        locals := { s.locals with data := upd s.locals.data li v, i := li + 1 } }
        code (ip + 1) := by
  rw [vm_local_set s code ip g hop (by omega) (by omega) (by omega),
    show s.si - 1 = n by omega, hv, hli]

theorem vm_local_push_at (s : State) (code : Int) (ip g n : Nat) (k : Int) (j : Nat) (v : Int)
    (hop : s.load (code + 8 * (ip : Int)) = .ok OP_LOCAL_PUSH)
    (harg : s.load (code + 8 * ((ip : Int) + 1)) = .ok k)
    (hj : wrap (s.locals.i - k - 1) = (j : Int)) (hjs : j < s.locals.size)
    (hv : s.locals.data j = v) (hsi : s.si = n) (hsz : n < s.stack_size) :
    State.vm (g + 1) s code ip =
      State.vm g { s with stack := upd s.stack n v, si := n + 1 } code (ip + 2) := by
  rw [vm_local_push s code ip g k j hop harg hj hjs (by omega), hv, hsi]

/-- The callback of `-` on a data stack that holds two values. -/
theorem minus_run (t : State) (g n : Nat) (x y : Int) (hsi : t.si = n + 2)
    (hsz : n + 2 ≤ t.stack_size) (hx : t.stack n = x) (hy : t.stack (n + 1) = y) :
    Prim.minus.run g t =
      .ok (E_OK, { t with stack := upd t.stack n (wrap (x - y)), si := n + 1 }) := by
  have hpop1 : t.pop = .ok (E_OK, y, { t with si := n + 1 }) := by
    unfold State.pop
    rw [if_neg (by omega), if_pos (by omega), show t.si - 1 = n + 1 by omega, hy]
  have hpop2 : ({ t with si := n + 1 } : State).pop = .ok (E_OK, x, { t with si := n }) := by
    unfold State.pop
    rw [if_neg (by show ¬ n + 1 = 0; omega), if_pos (by show n + 1 - 1 < t.stack_size; omega)]
    show Res.ok (E_OK, t.stack (n + 1 - 1), ({ t with si := n + 1 - 1 } : State)) = _
    rw [show n + 1 - 1 = n by omega, hx]
  show w_minus t = _
  unfold w_minus
  rw [hpop1, chkv_ok, hpop2, chkv_ok]
  unfold State.push
  rw [if_pos (by show n < t.stack_size; omega)]

end ft

namespace ft

open Error Token

/-! ## A word that takes two arguments into locals and subtracts -/

/-- The virtual machine on the body of `\x7b a b \x7d a b -`: the two jumps over the entries
of the locals, the two `LOCAL_SET`, the two `LOCAL_PUSH`, the call of `-` and `EXIT`.  The
deeper argument `x` is bound to the first local, the top one `y` to the second, and `x - y`
replaces them on the data stack. -/
theorem vm_sub_locals (s : State) (b t1 t2 n g : Nat) (x y : Int) (htab : Table s.cwords)
    (hj1 : CodeAt s.mem b [OP_JUMP_IGNORED, (t1 : Int)])
    (hj2 : CodeAt s.mem t1 [OP_JUMP_IGNORED, (t2 : Int)])
    (hcode : CodeAt s.mem t2 subLocalsCode)
    (hb : b + 16 ≤ s.memory_i) (ht1 : t1 + 16 ≤ s.memory_i) (ht2 : t2 + 72 ≤ s.memory_i)
    (hle : s.memory_i ≤ s.memory_size)
    (hsi : s.si = n + 2) (hsz : n + 2 ≤ s.stack_size) (hx : s.stack n = x)
    (hy : s.stack (n + 1) = y) (hli : s.locals.i = 0) (hls : 2 ≤ s.locals.size) :
    State.vm (g + 8) s (s.memory + (b : Int)) 0 =
      .ok (E_OK, { s with
        stack := upd (upd (upd s.stack n x) (n + 1) y) n (wrap (x - y)),
        si := n + 1,
        locals := { s.locals with data := upd (upd s.locals.data 0 y) 1 x, i := 2 } }) := by
  have hld : ∀ (t : State) (p : Int) (off : Nat) (c : Int), t.memory = s.memory →
      t.mem = s.mem → t.memory_size = s.memory_size → p = s.memory + (off : Int) →
      rdCell s.mem off = c → off + 8 ≤ s.memory_size → t.load p = .ok c := by
    intro t p off c h1 h2 h3 hp hc hoff
    rw [load_at t p off (by rw [h1]; exact hp) (by rw [h3]; exact hoff), h2, hc]
  have hcg : ∀ t : State, t.cwords = s.cwords →
      t.cword_get Prim.minus.handle = .ok (E_OK, Prim.minus.fn, t) :=
    fun t ht => cword_get_handle t Prim.minus (ht ▸ htab)
  -- the two jumps
  refine (vm_jump s _ 0 (g + 7) t1
    (hld s _ b _ (by rfl) (by rfl) (by rfl) (by push_cast; omega) hj1.1 (by omega))
    (hld s _ (b + 8) _ (by rfl) (by rfl) (by rfl) (by push_cast; omega) hj1.2.1 (by omega))
    (by omega) (by omega)).trans ?_
  refine (vm_jump s _ 0 (g + 6) t2
    (hld s _ t1 _ (by rfl) (by rfl) (by rfl) (by push_cast; omega) hj2.1 (by omega))
    (hld s _ (t1 + 8) _ (by rfl) (by rfl) (by rfl) (by push_cast; omega) hj2.2.1 (by omega))
    (by omega) (by omega)).trans ?_
  -- LOCAL_SET, twice
  refine (vm_local_set_at s _ 0 (g + 5) (n + 1) 0 y
    (hld s _ t2 _ (by rfl) (by rfl) (by rfl) (by push_cast; omega) hcode.1 (by omega))
    hsi (by omega) hy hli (by omega)).trans ?_
  refine (vm_local_set_at _ _ (0 + 1) (g + 4) n (0 + 1) x
    (hld _ _ (t2 + 8) _ (by rfl) (by rfl) (by rfl) (by push_cast; omega) hcode.2.1 (by omega))
    (by rfl) (by show n < s.stack_size; omega) (by exact hx) (by rfl)
    (by show 0 + 1 < s.locals.size; omega)).trans ?_
  -- LOCAL_PUSH 0, LOCAL_PUSH 1
  refine (vm_local_push_at _ _ (0 + 1 + 1) (g + 3) n 0 1 x
    (hld _ _ (t2 + 8 + 8) _ (by rfl) (by rfl) (by rfl) (by push_cast; omega) hcode.2.2.1 (by omega))
    (hld _ _ (t2 + 8 + 8 + 8) _ (by rfl) (by rfl) (by rfl) (by push_cast; omega) hcode.2.2.2.1 (by omega))
    (by show wrap (((0 + 1 + 1 : Nat) : Int) - 0 - 1) = ((1 : Nat) : Int); decide!)
    (by show 1 < s.locals.size; omega)
    (by show upd (upd s.locals.data 0 y) (0 + 1) x 1 = x; exact upd_same _ _ _) (by rfl)
    (by show n < s.stack_size; omega)).trans ?_
  refine (vm_local_push_at _ _ (0 + 1 + 1 + 2) (g + 2) (n + 1) 1 0 y
    (hld _ _ (t2 + 8 + 8 + 8 + 8) _ (by rfl) (by rfl) (by rfl) (by push_cast; omega) hcode.2.2.2.2.1 (by omega))
    (hld _ _ (t2 + 8 + 8 + 8 + 8 + 8) _ (by rfl) (by rfl) (by rfl) (by push_cast; omega) hcode.2.2.2.2.2.1 (by omega))
    (by show wrap (((0 + 1 + 1 : Nat) : Int) - 1 - 1) = ((0 : Nat) : Int); decide!)
    (by show 0 < s.locals.size; omega)
    (by show upd (upd s.locals.data 0 y) (0 + 1) x 0 = y
        rw [upd_other _ _ _ _ (by decide), upd_same]) (by rfl)
    (by show n + 1 < s.stack_size; omega)).trans ?_
  -- CALL_C -
  refine (vm_call_c _ _ (0 + 1 + 1 + 2 + 2) (g + 1) _
    (hld _ _ (t2 + 8 + 8 + 8 + 8 + 8 + 8) _ (by rfl) (by rfl) (by rfl) (by push_cast; omega) hcode.2.2.2.2.2.2.1 (by omega))
    (hld _ _ (t2 + 8 + 8 + 8 + 8 + 8 + 8 + 8) _ (by rfl) (by rfl) (by rfl) (by push_cast; omega) hcode.2.2.2.2.2.2.2.1
      (by omega))).trans ?_
  rw [hcg _ (by rfl), chkv_ok, call_fn,
    minus_run _ (g + 1) n x y (by rfl) (by show n + 2 ≤ s.stack_size; omega)
      (by show upd (upd s.stack n x) (n + 1) y n = x
          rw [upd_other _ _ _ _ (by omega), upd_same])
      (by show upd (upd s.stack n x) (n + 1) y (n + 1) = y; exact upd_same _ _ _), chk_ok]
  -- EXIT
  exact vm_exit _ _ (0 + 1 + 1 + 2 + 2 + 2) g
    (hld _ _ (t2 + 8 + 8 + 8 + 8 + 8 + 8 + 8 + 8) _ (by rfl) (by rfl) (by rfl) (by push_cast; omega) hcode.2.2.2.2.2.2.2.2.1
      (by omega))

end ft

namespace ft

open Error Token

/-! ## The code of a block of two locals -/

/-- The arena after `\x7b a b \x7d` when no local was counted before: per local a jump over
its entry and the compile-time code of the local, then two `LOCAL_SET`. -/
theorem block2_code (s : State) (a b : List Nat) (hlc : s.shared S_LOCAL_COUNT = 0)
    (hsz : s.memory_i + 16 + (32 + align CELL (a.length + 1)) + 72 + 16 +
      (32 + align CELL (b.length + 1)) + 72 < 9223372036854775808) :
    CodeAt ((s.declare [a, b]).closeBlock).mem s.memory_i
        [OP_JUMP_IGNORED,
          ((s.memory_i + 16 + (32 + align CELL (a.length + 1)) + 72 : Nat) : Int)] ∧
      CodeAt ((s.declare [a, b]).closeBlock).mem
        (s.memory_i + 16 + (32 + align CELL (a.length + 1)) + 72)
        [OP_JUMP_IGNORED,
          ((s.memory_i + 16 + (32 + align CELL (a.length + 1)) + 72 + 16 +
            (32 + align CELL (b.length + 1)) + 72 : Nat) : Int)] ∧
      CodeAt ((s.declare [a, b]).closeBlock).mem
        (s.memory_i + 16 + (32 + align CELL (a.length + 1))) (localCode 0) ∧
      CodeAt ((s.declare [a, b]).closeBlock).mem
        (s.memory_i + 16 + (32 + align CELL (a.length + 1)) + 72 + 16 +
          (32 + align CELL (b.length + 1))) (localCode 1) ∧
      CodeAt ((s.declare [a, b]).closeBlock).mem
        (s.memory_i + 16 + (32 + align CELL (a.length + 1)) + 72 + 16 +
          (32 + align CELL (b.length + 1)) + 72) [OP_LOCAL_SET, OP_LOCAL_SET] := by
  have hk1 : (s.local a).shared S_LOCAL_COUNT = 1 := by
    show upd (upd s.shared S_LATEST (s.memory + ((s.memory_i + 16 : Nat) : Int)))
      S_LOCAL_COUNT (wrap (s.shared S_LOCAL_COUNT + 1)) S_LOCAL_COUNT = 1
    rw [upd_same, hlc]
    decide!
  have hk2 : ((s.local a).local b).shared S_LOCAL_COUNT = 2 := by
    show upd (upd (s.local a).shared S_LATEST
        ((s.local a).memory + (((s.local a).memory_i + 16 : Nat) : Int)))
      S_LOCAL_COUNT (wrap ((s.local a).shared S_LOCAL_COUNT + 1)) S_LOCAL_COUNT = 2
    rw [upd_same, hk1]
    decide!
  obtain ⟨m1, hm1⟩ : ∃ m1, m1 = localMem s.mem s.memory_i (s.shared S_LATEST) a 0 := ⟨_, rfl⟩
  obtain ⟨m2, hm2⟩ : ∃ m2, m2 = localMem m1
      (s.memory_i + 16 + (32 + align CELL (a.length + 1)) + 72)
      ((s.local a).shared S_LATEST) b 1 := ⟨_, rfl⟩
  have hmem : ((s.declare [a, b]).closeBlock).mem = wrCells m2
      (s.memory_i + 16 + (32 + align CELL (a.length + 1)) + 72 + 16 +
        (32 + align CELL (b.length + 1)) + 72) [OP_LOCAL_SET, OP_LOCAL_SET] := by
    show ((((s.local a).local b).puts (List.replicate
      (toSize (((s.local a).local b).shared S_LOCAL_COUNT)) OP_LOCAL_SET)).setShared
        S_LOCAL_COUNT 0).mem = _
    rw [hk2, show toSize 2 = 2 by decide!]
    show (((s.local a).local b).puts [OP_LOCAL_SET, OP_LOCAL_SET]).mem = _
    rw [puts_mem]
    show wrCells (localMem (localMem s.mem s.memory_i (s.shared S_LATEST) a
        (s.shared S_LOCAL_COUNT))
      (s.memory_i + 16 + (32 + align CELL (a.length + 1)) + 72)
      ((s.local a).shared S_LATEST) b ((s.local a).shared S_LOCAL_COUNT))
      (s.memory_i + 16 + (32 + align CELL (a.length + 1)) + 72 + 16 +
        (32 + align CELL (b.length + 1)) + 72) [OP_LOCAL_SET, OP_LOCAL_SET] = _
    rw [hlc, hk1, ← hm1, ← hm2]
  clear hk1 hk2
  have hga := align8_ge (a.length + 1)
  have hgb := align8_ge (b.length + 1)
  have J1 : CodeAt m1 s.memory_i [OP_JUMP_IGNORED,
      ((s.memory_i + 16 + (32 + align CELL (a.length + 1)) + 72 : Nat) : Int)] := by
    have j := local_jump s.mem s.memory_i (s.shared S_LATEST) a 0 (by omega)
    rw [← hm1] at j
    exact ⟨j.1, j.2, trivial⟩
  have J2 : CodeAt m2 (s.memory_i + 16 + (32 + align CELL (a.length + 1)) + 72)
      [OP_JUMP_IGNORED, ((s.memory_i + 16 + (32 + align CELL (a.length + 1)) + 72 + 16 +
        (32 + align CELL (b.length + 1)) + 72 : Nat) : Int)] := by
    have j := local_jump m1 (s.memory_i + 16 + (32 + align CELL (a.length + 1)) + 72)
      ((s.local a).shared S_LATEST) b 1 (by omega)
    rw [← hm2] at j
    exact ⟨j.1, j.2, trivial⟩
  have ca := local_code s.mem s.memory_i (s.shared S_LATEST) a 0 (by decide!)
  have cb := local_code m1 (s.memory_i + 16 + (32 + align CELL (a.length + 1)) + 72)
    ((s.local a).shared S_LATEST) b 1 (by decide!)
  rw [← hm1] at ca
  rw [← hm2] at cb
  have f12 : ∀ i, i < s.memory_i + 16 + (32 + align CELL (a.length + 1)) + 72 →
      m2 i = m1 i := by
    intro i hi
    rw [hm2]
    exact local_below _ _ _ _ _ i hi
  have f23 : ∀ i, i < s.memory_i + 16 + (32 + align CELL (a.length + 1)) + 72 + 16 +
      (32 + align CELL (b.length + 1)) + 72 →
      wrCells m2 (s.memory_i + 16 + (32 + align CELL (a.length + 1)) + 72 + 16 +
        (32 + align CELL (b.length + 1)) + 72) [OP_LOCAL_SET, OP_LOCAL_SET] i = m2 i :=
    fun i hi => wrCells_below _ _ _ i hi
  rw [hmem]
  refine ⟨?_, ?_, ?_, ?_, ?_⟩
  · refine codeAt_frame m1 _ _ _ J1 ?_
    intro i h1 h2
    simp only [List.length_cons, List.length_nil] at h2
    rw [f23 i (by omega), f12 i (by omega)]
  · refine codeAt_frame m2 _ _ _ J2 ?_
    intro i h1 h2
    simp only [List.length_cons, List.length_nil] at h2
    rw [f23 i (by omega)]
  · refine codeAt_frame m1 _ _ _ ca ?_
    intro i h1 h2
    rw [localCode_length] at h2
    rw [f23 i (by omega), f12 i (by omega)]
  · refine codeAt_frame m2 _ _ _ cb ?_
    intro i h1 h2
    rw [localCode_length] at h2
    rw [f23 i (by omega)]
  · exact codeAt_wrCells _ _ _ (by
      intro c hc
      simp only [List.mem_cons, List.mem_singleton, List.not_mem_nil, or_false] at hc
      rcases hc with rfl | rfl <;> decide!)

theorem codeAt_mono (m m2 : Nat → Nat) (a : Nat) (cs : List Int) (bound : Nat)
    (h : CodeAt m a cs) (hb : a + 8 * cs.length ≤ bound) (hf : ∀ i, i < bound → m2 i = m i) :
    CodeAt m2 a cs :=
  codeAt_frame m m2 a cs h (fun i _ h2 => hf i (by omega))

theorem useLocal_below (s : State) (k : Int) (i : Nat) (h : i < s.memory_i) :
    (s.useLocal k).mem i = s.mem i := by
  show wrCell (wrCell s.mem s.memory_i OP_LOCAL_PUSH) (s.memory_i + 8) k i = s.mem i
  rw [wrCell_outside _ _ _ _ (by omega), wrCell_outside _ _ _ _ (by omega)]

theorem codeAt_useLocal (s : State) (k : Int) (hk : wrap k = k) :
    CodeAt (s.useLocal k).mem s.memory_i [OP_LOCAL_PUSH, k] :=
  codeAt_puts s [OP_LOCAL_PUSH, k] (by
    intro c hc
    simp only [List.mem_cons, List.mem_singleton, List.not_mem_nil, or_false] at hc
    rcases hc with rfl | rfl
    · decide!
    · exact hk)

theorem finish_below (s : State) (i : Nat) (h : i < s.memory_i) : s.finish.mem i = s.mem i :=
  wrCell_outside _ _ _ _ (Or.inl h)

theorem codeAt_finish (s : State) : CodeAt s.finish.mem s.memory_i [OP_EXIT] := by
  refine ⟨?_, trivial⟩
  show rdCell (wrCell s.mem s.memory_i OP_EXIT) s.memory_i = OP_EXIT
  rw [rdCell_wrCell_same]
  decide!

/-- One iteration of the interpreter loop at top level on a word whose body is the code of
`\x7b a b \x7d a b -`, with two values on the data stack and an empty locals stack. -/
theorem call_sub_locals (s : State) (L : List Entry) (w : List Nat) (e : Entry)
    (t1 t2 n : Nat) (x y : Int) (ts : List (List Nat)) (tk : Token) (f : Nat)
    (ht : Top s L) (hcur : Cur s tk (w :: ts)) (hw : isWordTok w = true)
    (hfind : findEntry w L = some e) (hfl : e.flags = 0)
    (hj1 : CodeAt s.mem e.body [OP_JUMP_IGNORED, (t1 : Int)])
    (hj2 : CodeAt s.mem t1 [OP_JUMP_IGNORED, (t2 : Int)])
    (hcode : CodeAt s.mem t2 subLocalsCode)
    (hb : e.body + 16 ≤ s.memory_i) (ht1 : t1 + 16 ≤ s.memory_i) (ht2 : t2 + 72 ≤ s.memory_i)
    (hsi : s.si = n + 2) (hsz : n + 2 ≤ s.stack_size) (hx : s.stack n = x)
    (hy : s.stack (n + 1) = y) (hli : s.locals.i = 0) (hls : 2 ≤ s.locals.size)
    (hts : ∀ t ∈ ts, isTok t = true) (hf : L.length + 8 ≤ f) :
    ∃ s2 tk2, Tok (s.subLocals n x y) s2 ∧ Cur s2 tk2 ts ∧
      s.interp (f + 1) tk = s2.interp f tk2 := by
  obtain ⟨he, hc, hwa⟩ := ht
  obtain ⟨c1, c2, c3, _⟩ := cur_word _ _ _ _ hcur hw
  subst c1
  obtain ⟨s2, tk2, u1, u2, u3⟩ := next_step (s.subLocals n x y) ts f c3 hts
  refine ⟨s2, tk2, u1, u2, ?_⟩
  have hle : s.memory_i ≤ s.memory_size := he.1.2.2.1
  have hms : s.memory + (s.memory_size : Int) < 4611686018427387904 := he.1.2.1
  have hb0 : 0 < s.memory := he.1.1
  obtain ⟨g, rfl⟩ : ∃ g, f = g + 8 := ⟨f - 8, by omega⟩
  rw [interp_word, exec_word_found s L w e _ he.1 c2 hfind (by omega), hfl]
  rw [if_neg (by rw [hc]; decide), if_neg (by rw [hc]; decide), if_neg (by decide)]
  have hr : s.real_to_raddr (s.memory + (e.body : Int)) = (e.body : Int) := by
    unfold State.real_to_raddr
    rw [show s.memory + (e.body : Int) - s.memory = e.body by omega]
    exact wrap_nat _ (by omega)
  rw [hr]
  unfold State.exec_vm
  rw [enter_run s _ e.body E_OK _ (by omega)
    (vm_sub_locals s e.body t1 t2 n g x y he.2.1 hj1 hj2 hcode hb ht1 ht2 hle hsi hsz hx hy
      hli hls), chk_ok]
  exact u3

end ft

namespace ft

open Error Token

/-! ## Scenario: `: f { a b } a b - ; x y f` -/

theorem sub_text (x y : Int) :
    str ": f \x7b a b \x7d a b - ; " ++ (decimal x ++ (str " " ++ (decimal y ++ str " f"))) =
      unwords [str ":", str "f", str "\x7b", str "a", str "b", str "\x7d", str "a", str "b",
        str "-", str ";", decimal x, decimal y, str "f"] := rfl

theorem fresh_local_count (cfg : StateConfig) (h : GoodCfg cfg) :
    (State.fresh cfg).shared S_LOCAL_COUNT = 0 := by
  obtain ⟨_, _, hk, _⟩ := fresh_spec cfg h
  exact hk.2.2.2.2.2.2.2.1 S_LOCAL_COUNT (by decide)

/-- The definition `: f \x7b a b \x7d a b - ;` typed at top level into an arena whose cursor
is at 984: the engine is at top level again, the entry of `f` is the newest one, and its body
holds the jumps over the entries of the locals and the code of the subtraction. -/
theorem define_sub (s : State) (L : List Entry) (ts : List (List Nat)) (tk : Token) (f : Nat)
    (ht : Top s L) (hlc : s.shared S_LOCAL_COUNT = 0) (hi : s.memory_i = 984)
    (hmem : 1352 ≤ s.memory_size) (hsi : s.si < s.stack_size)
    (hcur : Cur s tk (str ":" :: str "f" :: str "\x7b" :: str "a" :: str "b" :: str "\x7d" ::
      str "a" :: str "b" :: str "-" :: str ";" :: ts))
    (hts : ∀ t ∈ ts, isTok t = true) (hf : L.length + 8 ≤ f) :
    ∃ s2 tk2, Top s2 (colonEntry s (str "f") :: L) ∧ Cur s2 tk2 ts ∧
      s.interp (f + 6) tk = s2.interp f tk2 ∧
      CodeAt s2.mem 1024 [OP_JUMP_IGNORED, ((1152 : Nat) : Int)] ∧
      CodeAt s2.mem 1152 [OP_JUMP_IGNORED, ((1280 : Nat) : Int)] ∧
      CodeAt s2.mem 1280 subLocalsCode ∧
      s2.memory_i = 1352 ∧ s2.memory_size = s.memory_size ∧ s2.memory = s.memory ∧
      s2.si = s.si ∧ s2.stack_size = s.stack_size ∧
      (∀ j, j < s.si → s2.stack j = s.stack j) ∧ s2.locals = s.locals := by
  have halF : align CELL ((str "f").length + 1) = 8 := by decide!
  have hala : align CELL ((str "a").length + 1) = 8 := by decide!
  have halb : align CELL ((str "b").length + 1) = 8 := by decide!
  have hls : localsSize [str "a", str "b"] = 256 := by decide!
  obtain ⟨g, rfl⟩ : ∃ g, f = g + 8 := ⟨f - 8, by omega⟩
  have hT : ∀ pre : List (List Nat), (∀ t ∈ pre, isTok t = true) →
      ∀ t ∈ pre ++ ts, isTok t = true := by
    intro pre hpre t ht
    rcases List.mem_append.mp ht with h | h
    · exact hpre t h
    · exact hts t h
  -- `: f`
  obtain ⟨s1, tk1, a1, a2, a3⟩ := colon_step s L (str "f") _ tk (g + 8 + 4) ht hcur (by decide)
    (hT [str "\x7b", str "a", str "b", str "\x7d", str "a", str "b", str "-", str ";"]
      (by decide))
    (by rw [hi, halF]; omega) (by omega)
  obtain ⟨h1, h2, h3, h4, h5, _, h7, h8⟩ := header_fields s s1 (str "f") a1
  have hc1 : Comp s1 (colonEntry s (str "f") :: L) := tok_comp _ _ _ a1
    (comp_header s L (str "f") ht (by decide) (by decide) (by rw [hi, halF]; omega) (by decide))
  have hi1 : s1.memory_i = 1024 := by rw [h1, hi, halF]
  have hlc1 : s1.shared S_LOCAL_COUNT = ((0 : Nat) : Int) := by rw [h7, hlc]; rfl
  -- the block
  obtain ⟨s2, tk2, b1, b2, b3⟩ := block_step s1 _ [str "a", str "b"]
    (str "a" :: str "b" :: str "-" :: str ";" :: ts) tk1 0 (g + 8 + 1) hc1 a2 hlc1 (by decide)
    (by decide) (hT [str "a", str "b", str "-", str ";"] (by decide))
    (by rw [hi1, hls, h2]; simp only [List.length_cons, List.length_nil]; omega)
    (by simp only [List.length_cons, List.length_nil]; omega)
  obtain ⟨d1, d2, d3, d4, d5, d6, d7, _, d9⟩ := comp_declare [str "a", str "b"] s1 _ 0 hc1 hlc1
    (by decide) (by decide) (by rw [hi1, hls, h2]; omega)
  obtain ⟨e1, _, e3, e4, e5, e6, e7, _, e9⟩ := comp_closeBlock (s1.declare [str "a", str "b"]) _
    (0 + 2) d1 d2 (by decide) (by rw [d3, d5, hi1, hls, h2]; omega)
  obtain ⟨m1, m2, m3, m4, m5, m6, _, _⟩ := tok_memory_i _ _ b1
  have hc2 : Comp s2 (localEntry (s1.local (str "a")) (str "b") :: localEntry s1 (str "a") ::
      colonEntry s (str "f") :: L) := tok_comp _ _ _ b1 e1
  have hi2 : s2.memory_i = 1296 := by rw [m1, e3, d3, hi1, hls]
  have hz2 : s2.memory_size = s.memory_size := by rw [m2, e5, d5, h2]
  have hm2 : s2.memory = s.memory := by rw [m4, e4, d4, h3]
  have hv2 : s2.view = s.view := (tok_view _ _ b1).trans (e6.trans (d6.trans h4))
  have hl2 : s2.locals = s.locals := by rw [m6, e7, d7, h5]
  have hr2 : s2.shared S_DICT_ROOT = s.memory + (s.memory_i : Int) := by rw [m5, e9, d9, h8]
  obtain ⟨k1, k2, k3, k4, k5⟩ := block2_code s1 (str "a") (str "b") (by rw [h7, hlc])
    (by rw [hi1, hala, halb]; decide)
  simp only [hi1, hala, halb] at k1 k2 k3 k4 k5
  rw [← m3] at k1 k2 k3 k4 k5
  have K1 : CodeAt s2.mem 1024 [OP_JUMP_IGNORED, ((1152 : Nat) : Int)] := k1
  have K2 : CodeAt s2.mem 1152 [OP_JUMP_IGNORED, ((1280 : Nat) : Int)] := k2
  have K3 : CodeAt s2.mem 1080 (localCode 0) := k3
  have K4 : CodeAt s2.mem 1208 (localCode 1) := k4
  have K5 : CodeAt s2.mem 1280 [OP_LOCAL_SET, OP_LOCAL_SET] := k5
  clear k1 k2 k3 k4 k5
  have hsi2 : s2.si = s.si := congrArg View.si hv2
  have hss2 : s2.stack_size = s.stack_size := congrArg View.size hv2
  have hst2 : s2.stack = s.stack := congrArg View.stack hv2
  -- the local `a`
  have hba : (localEntry s1 (str "a")).body = 1080 := by
    show s1.memory_i + 16 + SIZEOF_DICTENTRY + align CELL ((str "a").length + 1) = 1080
    rw [hi1, hala]
    rfl
  obtain ⟨s3, tk3, c1, c2, c3⟩ := use_local_step s2 _ (str "a") (localEntry s1 (str "a")) 0
    (str "b" :: str "-" :: str ";" :: ts) tk2 (g + 6) hc2 b2 (by decide)
    ((findEntry_cons_ne _ _ _
      (fun h => absurd (h : str "b" = str "a") (by decide))).trans
      (findEntry_cons_eq _ _ _ rfl)) rfl
    (by rw [hba]; exact K3) (by rw [hba, hi2]; decide) (by rw [hsi2, hss2]; exact hsi)
    (hT [str "b", str "-", str ";"] (by decide)) (by rw [hi2, hz2]; omega)
    (by simp only [List.length_cons]; omega)
  have hc3 : Comp s3 _ := tok_comp _ _ _ c1 (comp_useLocal s2 _ 0 hc2 (by rw [hi2, hz2]; omega))
  obtain ⟨n1, n2, n3, n4, n5, n6, _, _⟩ := tok_memory_i _ _ c1
  have hsh3 : s3.shared = s2.shared := n5
  have hm3 : s3.memory = s2.memory := n4
  have hl3 : s3.locals = s2.locals := n6
  have hi3 : s3.memory_i = 1312 := by
    rw [n1]
    show s2.memory_i + 8 + 8 = 1312
    rw [hi2]
  have hz3 : s3.memory_size = s.memory_size := n2.trans hz2
  have F3 : ∀ i, i < 1296 → s3.mem i = s2.mem i := by
    intro i hi
    rw [n3]
    exact useLocal_below s2 0 i (by rw [hi2]; exact hi)
  have P3 : CodeAt s3.mem 1296 [OP_LOCAL_PUSH, 0] := by
    have h := codeAt_useLocal s2 0 (by decide!)
    rw [hi2, ← n3] at h
    exact h
  have hv3 : s3.si = s.si ∧ s3.stack_size = s.stack_size ∧
      ∀ j, j < s.si → s3.stack j = s.stack j := by
    have e := tok_view _ _ c1
    refine ⟨(congrArg View.si e).trans hsi2, (congrArg View.size e).trans hss2, ?_⟩
    intro j hj
    have e2 : s3.stack = (s2.useLocal 0).stack := congrArg View.stack e
    rw [e2]
    show upd (upd s2.stack s2.si OP_LOCAL_PUSH) s2.si 0 j = s.stack j
    rw [upd_other _ _ _ _ (by omega), upd_other _ _ _ _ (by omega), hst2]
  -- the local `b`
  have hbb : (localEntry (s1.local (str "a")) (str "b")).body = 1208 := by
    show s1.memory_i + 16 + (32 + align CELL ((str "a").length + 1)) + 72 + 16 +
      SIZEOF_DICTENTRY + align CELL ((str "b").length + 1) = 1208
    rw [hi1, hala, halb]
    rfl
  obtain ⟨s4, tk4, p1, p2, p3⟩ := use_local_step s3 _ (str "b")
    (localEntry (s1.local (str "a")) (str "b")) 1 (str "-" :: str ";" :: ts) tk3 (g + 5) hc3 c2
    (by decide) (findEntry_cons_eq _ _ _ rfl) rfl
    (by rw [hbb]; exact codeAt_mono _ _ _ _ 1296 K4 (by rw [localCode_length]; decide) F3)
    (by rw [hbb, hi3]; decide) (by rw [hv3.1, hv3.2.1]; exact hsi)
    (hT [str "-", str ";"] (by decide)) (by rw [hi3, hz3]; omega)
    (by simp only [List.length_cons]; omega)
  have hc4 : Comp s4 _ := tok_comp _ _ _ p1 (comp_useLocal s3 _ 1 hc3 (by rw [hi3, hz3]; omega))
  obtain ⟨q1, q2, q3, q4, q5, q6, _, _⟩ := tok_memory_i _ _ p1
  have hsh4 : s4.shared = s3.shared := q5
  have hm4 : s4.memory = s3.memory := q4
  have hl4 : s4.locals = s3.locals := q6
  have hi4 : s4.memory_i = 1328 := by
    rw [q1]
    show s3.memory_i + 8 + 8 = 1328
    rw [hi3]
  have hz4 : s4.memory_size = s.memory_size := q2.trans hz3
  have F4 : ∀ i, i < 1312 → s4.mem i = s3.mem i := by
    intro i hi
    rw [q3]
    exact useLocal_below s3 1 i (by rw [hi3]; exact hi)
  have P4 : CodeAt s4.mem 1312 [OP_LOCAL_PUSH, 1] := by
    have h := codeAt_useLocal s3 1 (by decide!)
    rw [hi3, ← q3] at h
    exact h
  have hv4 : s4.si = s.si ∧ s4.stack_size = s.stack_size ∧
      ∀ j, j < s.si → s4.stack j = s.stack j := by
    have e := tok_view _ _ p1
    refine ⟨(congrArg View.si e).trans hv3.1, (congrArg View.size e).trans hv3.2.1, ?_⟩
    intro j hj
    have e2 : s4.stack = (s3.useLocal 1).stack := congrArg View.stack e
    rw [e2]
    show upd (upd s3.stack s3.si OP_LOCAL_PUSH) s3.si 1 j = s.stack j
    rw [upd_other _ _ _ _ (by rw [hv3.1]; omega), upd_other _ _ _ _ (by rw [hv3.1]; omega)]
    exact hv3.2.2 j hj
  -- `-`
  obtain ⟨s5, tk5, r1, r2, r3⟩ := comp_item s4 _ (Item.op StackOp.minus) (str ";" :: ts) tk4
    (g + 8 + 1) hc4 p2 rfl (hT [str ";"] (by decide)) (by rw [hi4, hz4]; omega)
    (by simp only [List.length_cons]; omega)
  have hc5 : Comp s5 _ := tok_comp _ _ _ r1
    (comp_puts s4 _ _ hc4 (by
      show s4.memory_i + 8 * 2 ≤ s4.memory_size
      rw [hi4, hz4]; omega))
  obtain ⟨u1, u2, u3, u4, u5, u6, _, _⟩ := tok_memory_i _ _ r1
  obtain ⟨w1, w2, w3, w4, w5, _, _⟩ := puts_keep s4 (Item.op StackOp.minus).code
  have hi5 : s5.memory_i = 1344 := by
    rw [u1, puts_memory_i, hi4]
    rfl
  have hz5 : s5.memory_size = s.memory_size := by rw [u2, w1, hz4]
  have F5 : ∀ i, i < 1328 → s5.mem i = s4.mem i := by
    intro i hi
    rw [u3]
    exact puts_below s4 _ i (by rw [hi4]; exact hi)
  have P5 : CodeAt s5.mem 1328 [OP_CALL_C, Prim.minus.handle] := by
    have h := codeAt_puts s4 (Item.op StackOp.minus).code (by decide!)
    rw [hi4, ← u3] at h
    exact h
  have hv5 : s5.view = s4.view := (tok_view _ _ r1).trans w3
  have hr5 : s5.shared S_DICT_ROOT = s5.memory + ((colonEntry s (str "f")).off : Int) := by
    rw [u5, w4, hsh4, hsh3, u4, w2, hm4, hm3, hm2]
    exact hr2
  -- `;`
  obtain ⟨s6, tk6, v1, v2, v3⟩ := semi_step s5 _ ts tk5 (g + 8) hc5 r2 hts
    (by rw [hi5, hz5]; omega) (by simp only [List.length_cons]; omega)
  have ht6 : Top s6 (colonEntry s (str "f") :: L) := tok_top _ _ _ v1
    (top_finish s5 [localEntry (s1.local (str "a")) (str "b"), localEntry s1 (str "a")]
      (colonEntry s (str "f")) L hc5 hr5
      (by
        intro l hl
        simp only [List.mem_cons, List.mem_singleton, List.not_mem_nil, or_false] at hl
        rcases hl with rfl | rfl
        · show ∀ b ∈ builtins, ¬ str "b" = b.1
          decide
        · show ∀ b ∈ builtins, ¬ str "a" = b.1
          decide)
      (by rw [hi5, hz5]; omega))
  obtain ⟨x1, x2, x3, x4, x5, x6, _, _⟩ := tok_memory_i _ _ v1
  have F6 : ∀ i, i < 1344 → s6.mem i = s5.mem i := by
    intro i hi
    rw [x3]
    exact finish_below s5 i (by rw [hi5]; exact hi)
  have P6 : CodeAt s6.mem 1344 [OP_EXIT] := by
    have h := codeAt_finish s5
    rw [hi5, ← x3] at h
    exact h
  have G2 : ∀ i, i < 1296 → s6.mem i = s2.mem i := by
    intro i hi
    rw [F6 i (by omega), F5 i (by omega), F4 i (by omega), F3 i hi]
  have G3 : ∀ i, i < 1312 → s6.mem i = s3.mem i := by
    intro i hi
    rw [F6 i (by omega), F5 i (by omega), F4 i hi]
  have G4 : ∀ i, i < 1328 → s6.mem i = s4.mem i := by
    intro i hi
    rw [F6 i (by omega), F5 i hi]
  have Q1 := codeAt_mono _ s6.mem _ _ 1296 K1 (by decide) G2
  have Q2 := codeAt_mono _ s6.mem _ _ 1296 K2 (by decide) G2
  have Q5 := codeAt_mono _ s6.mem _ _ 1296 K5 (by decide) G2
  have Q6 := codeAt_mono _ s6.mem _ _ 1312 P3 (by decide) G3
  have Q7 := codeAt_mono _ s6.mem _ _ 1328 P4 (by decide) G4
  have Q8 := codeAt_mono _ s6.mem _ _ 1344 P5 (by decide) F6
  have hview6 : s6.view = s5.view := (tok_view _ _ v1).trans rfl
  refine ⟨s6, tk6, ht6, v2, ?_, Q1, Q2, ?_, ?_, ?_, ?_, ?_, ?_, ?_, ?_⟩
  · exact a3.trans (b3.trans (c3.trans (p3.trans (r3.trans v3))))
  · exact ⟨Q5.1, Q5.2.1, Q6.1, Q6.2.1, Q7.1, Q7.2.1, Q8.1, Q8.2.1, P6.1, trivial⟩
  · rw [x1]
    show s5.memory_i + 8 = 1352
    rw [hi5]
  · rw [x2]
    exact hz5
  · rw [x4]
    show s5.memory = s.memory
    rw [u4, w2, hm4, hm3, hm2]
  · exact (congrArg View.si (hview6.trans hv5)).trans hv4.1
  · exact (congrArg View.size (hview6.trans hv5)).trans hv4.2.1
  · intro j hj
    have e : s6.stack = s4.stack := congrArg View.stack (hview6.trans hv5)
    rw [e]
    exact hv4.2.2 j hj
  · rw [x6]
    show s5.locals = s.locals
    rw [u6, w5, hl4, hl3]
    exact hl2

/-- Claim C3 (locals bind in declaration order).  For all cells `x` and `y`, on the engine
the constructor yields for a configuration with an empty locals stack of at least two cells,
a data stack of at least two cells and an arena of at least 1352 bytes,
`exec(": f \x7b a b \x7d a b - ; x y f")`, `x` and `y` written in decimal, returns `OK`,
leaves exactly the machine-word difference `x - y` on the data stack (`a` is bound to the
deeper value `x`, `b` to the top value `y`) and leaves the locals stack empty. -/
theorem locals_bind_in_order (cfg : StateConfig) (x y : Int) (fuel : Nat) (hcfg : GoodCfg cfg)
    (hst : 2 ≤ cfg.stack_size) (hmem : 1352 ≤ cfg.memory_size)
    (hli : cfg.locals.i = 0) (hls : 2 ≤ cfg.locals.size)
    (hx1 : -9223372036854775808 ≤ x) (hx2 : x < 9223372036854775808)
    (hy1 : -9223372036854775808 ≤ y) (hy2 : y < 9223372036854775808) (hf : 40 ≤ fuel) :
    ∃ s1, (State.fresh cfg).exec fuel (str ": f \x7b a b \x7d a b - ; " ++
        (decimal x ++ (str " " ++ (decimal y ++ str " f")))) = .ok (E_OK, s1) ∧
      s1.stackList = [wrap (x - y)] ∧ s1.locals.i = 0 := by
  obtain ⟨f1, f2, f3, f4, f5, f6, _⟩ := fresh_fields cfg hcfg
  obtain ⟨_, ht, _⟩ := fresh_spec cfg hcfg
  have hlc := fresh_local_count cfg hcfg
  obtain ⟨g, rfl⟩ : ∃ g, fuel = g + 29 + 1 + 2 + 6 := ⟨fuel - 38, by omega⟩
  have hnx : isTok (decimal x) = true := by unfold isTok; rw [isNumTok_decimal]; rfl
  have hny : isTok (decimal y) = true := by unfold isTok; rw [isNumTok_decimal]; rfl
  have htail : ∀ t ∈ [decimal x, decimal y, str "f"], isTok t = true := by
    intro t ht
    simp only [List.mem_cons, List.mem_singleton, List.not_mem_nil, or_false] at ht
    rcases ht with rfl | rfl | rfl
    · exact hnx
    · exact hny
    · decide
  have hv : ∀ t ∈ [str ":", str "f", str "\x7b", str "a", str "b", str "\x7d", str "a",
      str "b", str "-", str ";", decimal x, decimal y, str "f"], isTok t = true := by
    have h0 : ∀ t ∈ [str ":", str "f", str "\x7b", str "a", str "b", str "\x7d", str "a",
        str "b", str "-", str ";"], isTok t = true := by decide
    intro t ht
    rcases List.mem_append.mp (show t ∈ [str ":", str "f", str "\x7b", str "a", str "b",
        str "\x7d", str "a", str "b", str "-", str ";"] ++
        [decimal x, decimal y, str "f"] from ht) with h | h
    · exact h0 t h
    · exact htail t h
  rw [sub_text]
  obtain ⟨tk, i, k0, sc, k, h1, h2⟩ := exec_fetch (State.fresh cfg) _ _ hv
  obtain ⟨s0, hs0⟩ : ∃ s0 : State, s0 = ((State.fresh cfg).start (unwords [str ":", str "f",
      str "\x7b", str "a", str "b", str "\x7d", str "a", str "b", str "-", str ";", decimal x,
      decimal y, str "f"])).retok i k0 sc k := ⟨_, rfl⟩
  rw [← hs0] at h1 h2
  have ht0 : Top s0 builtinDict := by rw [hs0]; exact ht
  have g1 : s0.si = 0 := by rw [hs0]; exact f1
  have g2 : s0.stack_size = cfg.stack_size := by rw [hs0]; exact f2
  have g3 : s0.memory_i = 984 := by rw [hs0]; exact f3
  have g4 : s0.memory_size = cfg.memory_size := by rw [hs0]; exact f4
  have g5 : s0.locals.i = 0 := by rw [hs0]; exact f5.trans hli
  have g6 : s0.locals.size = cfg.locals.size := by rw [hs0]; exact f6
  have g7 : s0.shared S_LOCAL_COUNT = 0 := by rw [hs0]; exact hlc
  have hbl := builtinDict_length
  -- the definition
  obtain ⟨sA, tkA, htA, curA, a3, J1, J2, J3, iA, zA, mA, siA, ssA, _, lA⟩ :=
    define_sub s0 builtinDict [decimal x, decimal y, str "f"] tk (g + 29 + 1 + 2) ht0 g7 g3
      (by rw [g4]; exact hmem) (by rw [g1, g2]; omega) h2 htail (by rw [hbl]; omega)
  -- the two numbers
  have r1 := runV_num (decimal x) sA.view (by
    show sA.si < sA.stack_size
    rw [siA, ssA, g1, g2]; omega)
  have r2 := runV_num (decimal y)
    ⟨upd sA.view.stack sA.view.si (numVal (decimal x)), sA.view.si + 1, sA.view.size⟩ (by
    show sA.si + 1 < sA.stack_size
    rw [siA, ssA, g1, g2]; omega)
  have hr : runV [Item.num (decimal x), Item.num (decimal y)] sA.view = .ok (E_OK,
      ⟨upd (upd sA.stack sA.si (numVal (decimal x))) (sA.si + 1) (numVal (decimal y)),
        sA.si + 1 + 1, sA.stack_size⟩) := by
    rw [runV_cons_ok _ _ _ _ r1, runV_cons_ok _ _ _ _ r2]
    rfl
  obtain ⟨sB, tkB, b1, b2, b3⟩ := items_top sA _ [Item.num (decimal x), Item.num (decimal y)]
    [str "f"] tkA (g + 29 + 1) _ htA curA
    (by
      intro it hit
      simp only [List.mem_cons, List.mem_singleton, List.not_mem_nil, or_false] at hit
      rcases hit with rfl | rfl
      · exact isNumTok_decimal x
      · exact isNumTok_decimal y)
    (by decide) (by simp only [List.length_cons]; omega) hr
  obtain ⟨m1, m2, m3, m4, _, m6, _, _⟩ := tok_memory_i _ _ b1
  have hviewB : sB.view = ⟨upd (upd sA.stack sA.si (numVal (decimal x))) (sA.si + 1)
      (numVal (decimal y)), sA.si + 1 + 1, sA.stack_size⟩ :=
    (tok_view _ _ b1).trans (withView_view sA _ rfl)
  have htB : Top sB (colonEntry s0 (str "f") :: builtinDict) :=
    tok_top _ _ _ b1 (top_withView sA _ _ htA)
  have hsiA : sA.si = 0 := siA.trans g1
  have hsiB : sB.si = 0 + 2 := by
    have e : sB.si = sA.si + 1 + 1 := congrArg View.si hviewB
    rw [e, hsiA]
  have hssB : sB.stack_size = cfg.stack_size := by
    have e : sB.stack_size = sA.stack_size := congrArg View.size hviewB
    rw [e, ssA, g2]
  have hstB : sB.stack = upd (upd sA.stack 0 (numVal (decimal x))) (0 + 1)
      (numVal (decimal y)) := by
    have e : sB.stack = _ := congrArg View.stack hviewB
    rw [e, hsiA]
  have hxB : sB.stack 0 = x := by
    rw [hstB, upd_other _ _ _ _ (by decide), upd_same, numVal_decimal x hx1 hx2]
  have hyB : sB.stack (0 + 1) = y := by
    rw [hstB, upd_same, numVal_decimal y hy1 hy2]
  have hmemB : sB.mem = sA.mem := m3
  have hiB : sB.memory_i = 1352 := m1.trans iA
  have hlB : sB.locals = s0.locals := m6.trans lA
  have hbf : (colonEntry s0 (str "f")).body = 1024 := by
    show s0.memory_i + SIZEOF_DICTENTRY + align CELL ((str "f").length + 1) = 1024
    rw [g3]
    decide!
  -- the call
  obtain ⟨sC, tkC, c1, c2, c3⟩ := call_sub_locals sB _ (str "f") (colonEntry s0 (str "f"))
    1152 1280 0 x y [] tkB (g + 29) htB b2 (by decide) (findEntry_cons_eq _ _ _ rfl) rfl
    (by rw [hbf, hmemB]; exact J1) (by rw [hmemB]; exact J2) (by rw [hmemB]; exact J3)
    (by rw [hbf, hiB]; decide) (by rw [hiB]; decide) (by rw [hiB])
    hsiB (by rw [hssB]; omega) hxB hyB (by rw [hlB]; exact g5)
    (by rw [hlB, g6]; exact hls) (by decide)
    (by simp only [List.length_cons]; omega)
  have hviewC : sC.view = (sB.subLocals 0 x y).view := tok_view _ _ c1
  obtain ⟨_, _, _, _, _, n6, _, _⟩ := tok_memory_i _ _ c1
  refine ⟨sC, ?_, ?_, ?_⟩
  · exact h1.trans (a3.trans (b3.trans (c3.trans (interp_last sC tkC (g + 28) c2))))
  · have e1 : sC.si = 1 := congrArg View.si hviewC
    have e2 : sC.stack = (sB.subLocals 0 x y).stack := congrArg View.stack hviewC
    unfold State.stackList
    rw [e1, e2]
    show [upd (upd (upd sB.stack 0 x) (0 + 1) y) 0 (wrap (x - y)) 0] = _
    rw [upd_same]
  · rw [n6]
    show sB.locals.i = 0
    rw [hlB]
    exact g5

theorem locals_bind_in_order_witness :
    ∃ s1, (State.fresh replCfg).exec 40 (str ": f \x7b a b \x7d a b - ; " ++
        (decimal 10 ++ (str " " ++ (decimal 3 ++ str " f")))) = .ok (E_OK, s1) ∧
      s1.stackList = [wrap (10 - 3)] ∧ s1.locals.i = 0 :=
  locals_bind_in_order replCfg 10 3 40 goodCfg_repl (by decide) (by decide) (by decide)
    (by decide) (by decide) (by decide) (by decide) (by decide) (by decide)

end ft
